import Mathlib

/-! keyvadb: a shallow embedding of the key-value store and its flush engine.

The definitions follow the C++ sources function by function:

* `db/key.h`      : `KeyUtil`, `KeyValue`
* `db/encoding.h` : `string_replace`, `string_read`
* `db/node.h`     : `Node`
* `db/env.h`      : `RandomAccessFile` (a byte sequence plus a schedule of I/O faults)
* `db/store.h`    : `ValueStore`, `KeyStore`
* `db/cache.h`    : `NodeCache`
* `db/buffer.h`   : `Buffer`
* `db/delta.h`    : `Delta`
* `db/tree.h`     : `Tree`
* `db/journal.h`  : `Journal`
* `db/db.h`       : `DB`

Conventions.

* A key (`boost::multiprecision` checked unsigned integer of `BITS` bits) is a `Nat`;
  the checked operations throw exactly where the library throws.
* A `std::string` or `std::vector<std::uint8_t>` is a `List Nat` of bytes.
* `std::error_condition` is `Option db_error` (`none` is success).
* A C++ exception, a failed `assert` (when asserts are compiled in) and undefined
  behaviour are values of `Thrown`; every function that can raise one returns
  `Except Thrown _`.
* State is passed explicitly; the mutexes and the background thread are not modelled,
  a flush is the explicit operation `DB.flush`.
* Recursion over the tree (`Tree.get`, `Journal.process`, `Tree.walk`) takes a fuel
  argument; running out of fuel is the distinguished value `Thrown.fuel`.
-/

set_option autoImplicit false

namespace keyvadb

/-! ## Errors and exceptions -/

/-- Modelled from the spec: `db/error.h` is not among the sources. The enumerators are the
names of the error taxonomy of section 6; `os` carries the errno of an operating-system
error. -/
inductive db_error where
  | key_wrong_length
  | zero_length_value
  | value_too_long
  | key_not_found
  | value_not_found
  | short_read
  | short_write
  | os (errno : Nat)
  deriving DecidableEq, Repr

/-- The type `std::error_condition`: `none` converts to `false` (no error). -/
abbrev error_condition := Option db_error

/-- Everything that leaves a function other than by returning. -/
inductive Thrown where
  /-- The `std::runtime_error("Bad Get")` of `DB::Get`. -/
  | bad_get
  /-- The `std::runtime_error("Bad length for: ...")` of `DB::Get`. -/
  | bad_length
  /-- The `std::runtime_error("no root!")` of `Tree::Get`. -/
  | no_root
  /-- The `std::runtime_error("Bad SetOffset")` of `Buffer::SetOffset`. -/
  | bad_set_offset
  /-- The `std::runtime_error("Bad Buffer Write")` of `Buffer::Write`. -/
  | bad_buffer_write
  /-- The `std::runtime_error("Bad Buffer Purge")` of `Buffer::Purge`. -/
  | bad_buffer_purge
  /-- The `std::runtime_error("zero length read")` of `ValueStore::Get`. -/
  | zero_length_read
  /-- The `std::domain_error` of the `Node` constructor. -/
  | domain_error
  /-- The `std::out_of_range` of `std::vector::at` and of `bimap::at`. -/
  | out_of_range
  /-- The `std::overflow_error` of checked key arithmetic (overflow, division by zero). -/
  | overflow_error
  /-- The `std::range_error` of checked key subtraction below zero. -/
  | range_error
  /-- The `std::length_error` of a `resize` beyond `max_size`. -/
  | length_error
  /-- A failed `assert`, when asserts are compiled in. -/
  | assertion
  /-- Undefined behaviour (out-of-bounds `memcpy`, inverted iterator range). -/
  | undefined
  /-- The model ran out of fuel. -/
  | fuel
  deriving DecidableEq, Repr

/-- Compile-time parameters: the template argument `BITS` and whether `NDEBUG` is defined
(which removes every `assert`). -/
structure Build where
  BITS : Nat
  NDEBUG : Bool
  deriving DecidableEq, Repr

/-- The statement `assert(c)`. -/
def cassert (b : Build) (c : Bool) : Except Thrown Unit :=
  if b.NDEBUG || c then .ok () else .error .assertion

/-! ## db/encoding.h and byte helpers -/

/-- Little-endian bytes of `v`, `n` of them (the object representation of an unsigned
integer of `n` bytes on the little-endian target). -/
def leBytes : Nat → Nat → List Nat
  | 0, _ => []
  | n + 1, v => (v % 256) :: leBytes n (v / 256)

/-- The unsigned integer whose little-endian object representation is `bs`. -/
def leValue : List Nat → Nat
  | [] => 0
  | b :: bs => b + 256 * leValue bs

/-- The call `std::memcpy(&dst[pos], src, src.size())`: undefined when it leaves `dst`. -/
def memcpy (dst : List Nat) (pos : Nat) (src : List Nat) : Except Thrown (List Nat) :=
  if pos + src.length ≤ dst.length then
    .ok (dst.take pos ++ src ++ dst.drop (pos + src.length))
  else .error .undefined

/-- The function `string_replace<T>` with `sizeof(T) = size`: returns the string and `size`. -/
def string_replace (size : Nat) (t : Nat) (pos : Nat) (s : List Nat) :
    Except Thrown (List Nat × Nat) := do
  let s ← memcpy s pos (leBytes size t)
  pure (s, size)

/-- The function `string_read<T>` with `sizeof(T) = size`: returns the value read and `size`. -/
def string_read (size : Nat) (s : List Nat) (pos : Nat) : Except Thrown (Nat × Nat) :=
  if pos + size ≤ s.length then .ok (leValue ((s.drop pos).take size), size)
  else .error .undefined

/-- The call `resize(n)` on a byte vector: truncates, or pads with zero bytes. -/
def resize (s : List Nat) (n : Nat) : List Nat :=
  s.take n ++ List.replicate (n - s.length) 0

/-- The call `dst.assign(str, pos, n)`: the substring of at most `n` bytes from `pos` on;
it throws `std::out_of_range` when `pos` lies behind the end of `str`. -/
def assignFrom (str : List Nat) (pos n : Nat) : Except Thrown (List Nat) :=
  if pos > str.length then .error .out_of_range else .ok ((str.drop pos).take n)

/-! ## db/key.h -/

def EmptyKey : Nat := 0

def SyntheticValue : Nat := 2 ^ 64 - 1

def EmptyValue : Nat := 0

namespace KeyUtil

/-- The enumerator `Bytes = BITS / 8`. -/
def Bytes (b : Build) : Nat := b.BITS / 8

/-- The size in bytes of one limb of the key type: keys of at most 64 bits live in one
machine word of the least sufficient width, wider keys in 64-bit limbs. -/
def limbSize (b : Build) : Nat :=
  if b.BITS ≤ 8 then 1 else if b.BITS ≤ 16 then 2 else if b.BITS ≤ 32 then 4 else 8

/-- The number of limbs a key needs: at least one, no leading zero limb. -/
def limbsNeeded (limb : Nat) : Nat → Nat → Nat
  | 0, _ => 1
  | fuel + 1, key => if key < 256 ^ limb then 1 else 1 + limbsNeeded limb fuel (key / 256 ^ limb)

/-- The value `key.backend().size()`: the number of limbs in use (the representation is
normalised, it never keeps a leading zero limb). -/
def size (b : Build) (key : Nat) : Nat :=
  if b.BITS ≤ 64 then 1 else limbsNeeded (limbSize b) (b.BITS / 64) key

def Max (b : Build) : Nat := 2 ^ b.BITS - 1

def Min : Nat := 0

/-- Checked addition of keys. -/
def add (b : Build) (x y : Nat) : Except Thrown Nat :=
  if x + y ≤ Max b then .ok (x + y) else .error .overflow_error

/-- Checked subtraction of keys. -/
def sub (x y : Nat) : Except Thrown Nat :=
  if y ≤ x then .ok (x - y) else .error .range_error

/-- Checked division of keys. -/
def div (x y : Nat) : Except Thrown Nat :=
  if y = 0 then .error .overflow_error else .ok (x / y)

def MakeKey (num : Nat) : Nat := num

/-- The function `MaxSize`: the bytes of the limbs of `Max()`. -/
def MaxSize (b : Build) : Nat := size b (Max b) * limbSize b

/-- The function `ToBytes`: the limbs in use, most significant byte first. -/
def ToBytes (b : Build) (key : Nat) : List Nat :=
  (leBytes (size b key * limbSize b) key).reverse

/-- The function `FromBytes`. The string is copied back to front over the limbs; a string
that is no whole number of limbs, or longer than the key, leaves the limb storage. -/
def FromBytes (b : Build) (str : List Nat) : Except Thrown Nat :=
  if str.length % limbSize b = 0 ∧ str.length ≤ MaxSize b then .ok (leValue str.reverse)
  else .error .undefined

/-- The function `WriteBytes`: copies the limbs in use to `str[pos..]`, returns the string
and `MaxSize()`. -/
def WriteBytes (b : Build) (key : Nat) (pos : Nat) (str : List Nat) :
    Except Thrown (List Nat × Nat) := do
  let str ← memcpy str pos (leBytes (size b key * limbSize b) key)
  pure (str, MaxSize b)

/-- The function `ReadBytes`: returns the key read and `MaxSize()`. -/
def ReadBytes (b : Build) (str : List Nat) (pos : Nat) : Except Thrown (Nat × Nat) :=
  if pos + MaxSize b ≤ str.length then .ok (leValue ((str.drop pos).take (MaxSize b)), MaxSize b)
  else .error .undefined

def Distance (a c : Nat) : Except Thrown Nat :=
  if a > c then sub a c else sub c a

/-- The function `Stride`: `(end - start) / n`. -/
def Stride (start stop n : Nat) : Except Thrown Nat := do
  let d ← sub stop start
  div d n

/-- The function `NearestStride`: returns `(distance, nearest)`. The conversion of the
quotient to `std::uint32_t` throws when it does not fit. -/
def NearestStride (start stride value : Nat) : Except Thrown (Nat × Nat) := do
  let d ← sub value start
  if stride = 0 then throw .overflow_error
  let index := d / stride
  let distance := d % stride
  if index ≥ 2 ^ 32 then throw .overflow_error
  let nearest := index
  if nearest = 0 then
    pure (stride - distance, 0)
  else
    pure (distance, nearest - 1)

end KeyUtil

/-- The struct `KeyValue`. -/
structure KeyValue where
  key : Nat
  offset : Nat
  length : Nat
  deriving DecidableEq, Repr

namespace KeyValue

def IsZero (kv : KeyValue) : Bool := kv.key == 0

def IsSynthetic (kv : KeyValue) : Bool := kv.offset == SyntheticValue

/-- The operator `<` of `KeyValue`: by key only. -/
def lt (a c : KeyValue) : Bool := decide (a.key < c.key)

/-- The operator `==` of `KeyValue`: by key only. -/
def eq (a c : KeyValue) : Bool := a.key == c.key

/-- A value-initialised `KeyValue`. -/
def zero : KeyValue := ⟨0, EmptyValue, 0⟩

end KeyValue

/-! ## db/node.h -/

def EmptyChild : Nat := 0

/-- The class `Node`. The field `degree` is `degree_`; `Degree()` is `children.length` and
`MaxKeys()` is `keys.length`. -/
structure Node where
  id : Nat
  level : Nat
  degree : Nat
  first : Nat
  last : Nat
  children : List Nat
  keys : List KeyValue
  deriving DecidableEq, Repr

namespace Node

/-- The constructor: `children_(degree)`, `keys(degree - 1)` in 32-bit unsigned arithmetic,
then the check of the bounds. -/
def new (id level degree first last : Nat) : Except Thrown Node :=
  if first ≥ last then .error .domain_error
  else .ok
    { id := id, level := level, degree := degree, first := first, last := last,
      children := List.replicate degree EmptyChild,
      keys := List.replicate ((degree + (2 ^ 32 - 1)) % 2 ^ 32) KeyValue.zero }

/-- The function `CalculateDegree`, in 32-bit unsigned arithmetic. -/
def CalculateDegree (b : Build) (blockSize : Nat) : Nat :=
  ((blockSize + 2 * 2 ^ 32 - (2 * (b.BITS / 8) + 12) % 2 ^ 32) % 2 ^ 32) / (b.BITS / 8 + 20)

def MaxKeys (n : Node) : Nat := n.keys.length

def Degree (n : Node) : Nat := n.children.length

/-- The position of `NonZeroBegin()`: the length of the leading run of zero slots. -/
def NonZeroBegin (n : Node) : Nat := (n.keys.takeWhile KeyValue.IsZero).length

def EmptyKeyCount (n : Node) : Nat := n.NonZeroBegin

def NonEmptyKeyCount (n : Node) : Nat := n.keys.length - n.NonZeroBegin

def EmptyChildCount (n : Node) : Nat := n.children.count EmptyChild

def Empty (n : Node) : Bool := n.EmptyKeyCount == n.MaxKeys

def NonSyntheticKeyCount (n : Node) : Nat :=
  n.keys.countP (fun kv => !kv.IsZero && !kv.IsSynthetic)

def Distance (n : Node) : Except Thrown Nat := KeyUtil.Distance n.first n.last

/-- The function `Stride`: the degree is passed as a `std::uint32_t`. -/
def Stride (n : Node) : Except Thrown Nat := KeyUtil.Stride n.first n.last (n.Degree % 2 ^ 32)

/-- The call `keys.at(i)`. -/
def keysAt (n : Node) (i : Nat) : Except Thrown KeyValue :=
  match n.keys.get? i with
  | some kv => .ok kv
  | none => .error .out_of_range

/-- The call `children_.at(i)`. -/
def childrenAt (n : Node) (i : Nat) : Except Thrown Nat :=
  match n.children.get? i with
  | some c => .ok c
  | none => .error .out_of_range

def GetChild (n : Node) (i : Nat) : Except Thrown Nat := n.childrenAt i

def SetChild (n : Node) (i : Nat) (cid : Nat) : Except Thrown Node :=
  if i < n.children.length then .ok { n with children := n.children.set i cid }
  else .error .out_of_range

def GetKeyValue (n : Node) (i : Nat) : Except Thrown KeyValue := n.keysAt i

def SetKeyValue (n : Node) (i : Nat) (kv : KeyValue) : Except Thrown Node :=
  if i < n.keys.length then .ok { n with keys := n.keys.set i kv }
  else .error .out_of_range

/-- The function `Clear`. -/
def Clear (n : Node) : Node :=
  { n with keys := List.replicate n.keys.length ⟨0, EmptyValue, 0⟩ }

/-- The loop of `AddSyntheticKeyValues` over the slots: the slots from here on, the cursor
and the count; returns the new slots and the count. -/
def addSyntheticLoop (b : Build) (stride : Nat) :
    List KeyValue → Nat → Nat → Except Thrown (List KeyValue × Nat)
  | [], _, count => .ok ([], count)
  | kv :: rest, cursor, count => do
    let kv1 : KeyValue := if kv.IsZero then ⟨cursor, SyntheticValue, 0⟩ else kv
    let count1 := if kv.IsZero then count + 1 else count
    let cursor1 ← KeyUtil.add b cursor stride
    let (rest1, c) ← addSyntheticLoop b stride rest cursor1 count1
    pure (kv1 :: rest1, c)

/-- The function `AddSyntheticKeyValues`: returns the node and the count. -/
def AddSyntheticKeyValues (b : Build) (n : Node) : Except Thrown (Node × Nat) := do
  let stride ← n.Stride
  let cursor ← KeyUtil.add b n.first stride
  let (ks, count) ← addSyntheticLoop b stride n.keys cursor 0
  pure ({ n with keys := ks }, count)

/-- One round of the loop of `EachChild`, for child index `i`, on state `s`. The callback
gets the index, the bounds and the child id. -/
def eachChildStep {σ : Type} (n : Node)
    (f : Nat → Nat → Nat → Nat → σ → Except Thrown (σ × error_condition))
    (i : Nat) (s : σ) : Except Thrown (σ × error_condition) := do
  let length := n.Degree
  if i = 0 then
    let k ← n.keysAt i
    if !k.IsZero then
      let c ← n.childrenAt i
      f i n.first k.key c s
    else pure (s, none)
  else if i = length - 1 then
    let k ← n.keysAt (i - 1)
    if !k.IsZero then
      let c ← n.childrenAt i
      f i k.key n.last c s
    else pure (s, none)
  else
    let k0 ← n.keysAt (i - 1)
    if !k0.IsZero then
      let k1 ← n.keysAt i
      if !k1.IsZero then
        let c ← n.childrenAt i
        f i k0.key k1.key c s
      else pure (s, none)
    else pure (s, none)

/-- The loop of `EachChild` over the remaining child indices; it stops at the first error
the callback returns. -/
def eachChildLoop {σ : Type} (n : Node)
    (f : Nat → Nat → Nat → Nat → σ → Except Thrown (σ × error_condition)) :
    List Nat → σ → Except Thrown (σ × error_condition)
  | [], s => .ok (s, none)
  | i :: rest, s => do
    let (s1, err) ← eachChildStep n f i s
    if err.isSome then pure (s1, err)
    else eachChildLoop n f rest s1

/-- The function `EachChild`, with the state the callback captures by reference passed
explicitly. -/
def EachChild {σ : Type} (n : Node)
    (f : Nat → Nat → Nat → Nat → σ → Except Thrown (σ × error_condition))
    (s : σ) : Except Thrown (σ × error_condition) :=
  eachChildLoop n f (List.range n.Degree) s

/-- The function `Find`: the first slot holding `key`, if any. -/
def Find (n : Node) (key : Nat) : Option KeyValue :=
  n.keys.find? (fun kv => kv.key == key)

/-- The algorithm `std::is_sorted` on slots: no slot is less than its predecessor. -/
def isSorted : List KeyValue → Bool
  | [] => true
  | [_] => true
  | a :: c :: rest => !(KeyValue.lt c a) && isSorted (c :: rest)

/-- The loop of `IsSane` over the slot indices `i`. -/
def isSaneLoop (n : Node) : List Nat → Except Thrown Bool
  | [] => .ok true
  | i :: rest => do
    let ki ← n.keysAt i
    let dup ← (if !ki.IsZero then do
        let kp ← n.keysAt (i - 1)
        pure (KeyValue.eq ki kp)
      else pure false)
    if dup then pure false
    else
      let ki2 ← n.keysAt i
      if !ki2.IsZero && (decide (ki2.key ≤ n.first) || decide (ki2.key ≥ n.last)) then pure false
      else isSaneLoop n rest

/-- The function `IsSane`. The loop runs over `1 ≤ i < Degree() - 1`, the bound taken in
`std::size_t` arithmetic. -/
def IsSane (n : Node) : Except Thrown Bool := do
  if n.first ≥ n.last then pure false
  else if !isSorted n.keys then pure false
  else
    let bound := (n.Degree + (2 ^ 64 - 1)) % 2 ^ 64
    let ok ← isSaneLoop n ((List.range bound).drop 1)
    if !ok then pure false
    else if n.EmptyKeyCount > 0 && n.EmptyChildCount != n.Degree then pure false
    else pure true

/-- The loop of `Write` over the slots. -/
def writeKeys (b : Build) : List KeyValue → Nat → List Nat → Except Thrown (List Nat × Nat)
  | [], pos, str => .ok (str, pos)
  | kv :: rest, pos, str => do
    let (str, w) ← KeyUtil.WriteBytes b kv.key pos str
    let pos := pos + w
    let (str, w) ← string_replace 8 kv.offset pos str
    let pos := pos + w
    let (str, w) ← string_replace 4 kv.length pos str
    let pos := pos + w
    writeKeys b rest pos str

/-- The loop of `Write` over the child ids. -/
def writeChildren : List Nat → Nat → List Nat → Except Thrown (List Nat × Nat)
  | [], pos, str => .ok (str, pos)
  | cid :: rest, pos, str => do
    let (str, w) ← string_replace 8 cid pos str
    writeChildren rest (pos + w) str

/-- The function `Write`: returns the string and the number of bytes written. -/
def Write (b : Build) (n : Node) (str : List Nat) : Except Thrown (List Nat × Nat) := do
  let pos := 0
  let (str, w) ← string_replace 4 n.level pos str
  let pos := pos + w
  let (str, w) ← KeyUtil.WriteBytes b n.first pos str
  let pos := pos + w
  let (str, w) ← KeyUtil.WriteBytes b n.last pos str
  let pos := pos + w
  let (str, pos) ← writeKeys b n.keys pos str
  writeChildren n.children pos str

/-- The loop of `Read` over the slots: one slot read per slot of the node. -/
def readKeys (b : Build) (str : List Nat) : List KeyValue → Nat → Except Thrown (List KeyValue × Nat)
  | [], pos => .ok ([], pos)
  | _ :: rest, pos => do
    let (key, w) ← KeyUtil.ReadBytes b str pos
    let pos := pos + w
    let (offset, w) ← string_read 8 str pos
    let pos := pos + w
    let (length, w) ← string_read 4 str pos
    let pos := pos + w
    let (ks, pos) ← readKeys b str rest pos
    pure (⟨key, offset, length⟩ :: ks, pos)

/-- The loop of `Read` over the child ids. -/
def readChildren (str : List Nat) : List Nat → Nat → Except Thrown (List Nat × Nat)
  | [], pos => .ok ([], pos)
  | _ :: rest, pos => do
    let (cid, w) ← string_read 8 str pos
    let (cs, pos) ← readChildren str rest (pos + w)
    pure (cid :: cs, pos)

/-- The function `Read`: returns the node read and the number of bytes consumed. -/
def Read (b : Build) (n : Node) (str : List Nat) : Except Thrown (Node × Nat) := do
  let pos := 0
  let (level, w) ← string_read 4 str pos
  let pos := pos + w
  let (first, w) ← KeyUtil.ReadBytes b str pos
  let pos := pos + w
  let (last, w) ← KeyUtil.ReadBytes b str pos
  let pos := pos + w
  let (ks, pos) ← readKeys b str n.keys pos
  let (cs, pos) ← readChildren str n.children pos
  pure ({ n with level := level, first := first, last := last, keys := ks, children := cs }, pos)

end Node

/-! ## db/env.h -/

/-- The class `PosixRandomAccessFile`: the bytes of the file and the outcomes of the system
calls still to come, in order (`some errno` is a failing call; once the schedule is used up
every call succeeds). -/
structure RandomAccessFile where
  data : List Nat
  faults : List (Option Nat)
  deriving DecidableEq, Repr

namespace RandomAccessFile

/-- The outcome of the next system call (`check_error`), and the file after it. -/
def syscall (f : RandomAccessFile) : RandomAccessFile × error_condition :=
  match f.faults with
  | [] => (f, none)
  | none :: rest => ({ f with faults := rest }, none)
  | some e :: rest => ({ f with faults := rest }, some (.os e))

def Open (f : RandomAccessFile) : RandomAccessFile × error_condition := f.syscall

def OpenAppend (f : RandomAccessFile) : RandomAccessFile × error_condition := f.syscall

def OpenSync (f : RandomAccessFile) : RandomAccessFile × error_condition := f.syscall

def Truncate (f : RandomAccessFile) : RandomAccessFile × error_condition :=
  match f.syscall with
  | (f1, none) => ({ f1 with data := [] }, none)
  | (f1, some e) => (f1, some e)

/-- The function `ReadAt`: returns the bytes read count, the error, and the string read
into (`pread` fills a leading part of `str`). -/
def ReadAt (f : RandomAccessFile) (pos : Nat) (str : List Nat) :
    RandomAccessFile × (Nat × error_condition) × List Nat :=
  match f.syscall with
  | (f1, none) =>
    let got := (f1.data.drop pos).take str.length
    (f1, (got.length, none), got ++ str.drop got.length)
  | (f1, some e) => (f1, (0, some e), str)

/-- The function `Write` on a file opened with `O_APPEND`. -/
def Write (f : RandomAccessFile) (buf : List Nat) : RandomAccessFile × (Nat × error_condition) :=
  match f.syscall with
  | (f1, none) => ({ f1 with data := f1.data ++ buf }, (buf.length, none))
  | (f1, some e) => (f1, (0, some e))

/-- The function `WriteAt`: `pwrite` at `pos`, a hole before `pos` reads as zero bytes. -/
def WriteAt (f : RandomAccessFile) (str : List Nat) (pos : Nat) :
    RandomAccessFile × (Nat × error_condition) :=
  match f.syscall with
  | (f1, none) =>
    ({ f1 with data := (resize f1.data pos).take pos ++ str ++ f1.data.drop (pos + str.length) },
      (str.length, none))
  | (f1, some e) => (f1, (0, some e))

/-- The function `Size`: returns the error and the size stored through the reference. -/
def Size (f : RandomAccessFile) (size : Nat) : RandomAccessFile × error_condition × Nat :=
  match f.syscall with
  | (f1, none) => (f1, none, f1.data.length)
  | (f1, some e) => (f1, some e, size)

def Sync (f : RandomAccessFile) : RandomAccessFile × error_condition := f.syscall

def Close (f : RandomAccessFile) : RandomAccessFile × error_condition :=
  match f.Sync with
  | (f1, none) => f1.syscall
  | (f1, some e) => (f1, some e)

end RandomAccessFile

/-! ## db/store.h -/

/-- The class `ValueStore`. -/
structure ValueStore where
  file_ : RandomAccessFile
  size_ : Nat
  deriving DecidableEq, Repr

namespace ValueStore

/-- The constant `value_offset = MaxSize() + sizeof(std::uint32_t)`. -/
def value_offset (b : Build) : Nat := KeyUtil.MaxSize b + 4

def Open (v : ValueStore) : ValueStore × error_condition :=
  match v.file_.OpenAppend with
  | (f, some e) => ({ v with file_ := f }, some e)
  | (f, none) =>
    match f.Size v.size_ with
    | (f1, err, size) => ({ file_ := f1, size_ := size }, err)

def Clear (v : ValueStore) : ValueStore × error_condition :=
  match v.file_.Truncate with
  | (f, err) => ({ file_ := f, size_ := 0 }, err)

def Close (v : ValueStore) : ValueStore × error_condition :=
  match v.file_.Close with
  | (f, err) => ({ v with file_ := f }, err)

/-- The function `Get`: `value` is the string behind the out-pointer; the result carries
its content after the call. The `resize` argument is computed in `std::size_t`. -/
def Get (b : Build) (v : ValueStore) (offset length : Nat) (value : List Nat) :
    Except Thrown (ValueStore × error_condition × List Nat) := do
  let n := (length + 2 ^ 64 - value_offset b % 2 ^ 64) % 2 ^ 64
  if n ≥ 2 ^ 63 then throw .length_error
  let value := resize value n
  if value.length = 0 then throw .zero_length_read
  match v.file_.ReadAt (offset + value_offset b) value with
  | (f, (bytesRead, err), value) =>
    let v := { v with file_ := f }
    if err.isSome then pure (v, err, value)
    else if bytesRead < value.length then pure (v, some .short_read, value)
    else pure (v, none, value)

def Append (v : ValueStore) (buf : List Nat) : ValueStore × error_condition :=
  match v.file_.Write buf with
  | (f, (bytesWritten, err)) =>
    if err.isSome then ({ v with file_ := f }, err)
    else if bytesWritten != buf.length then ({ v with file_ := f }, some .short_write)
    else ({ file_ := f, size_ := v.size_ + bytesWritten }, none)

def Size (v : ValueStore) : Nat := v.size_

/-- The enumerator `Bytes = BITS / 8`. -/
def Bytes (b : Build) : Nat := b.BITS / 8

/-- The for-loop of `Each` over the chunk `str`, of which `bytesRead` bytes were read. The
state is `pos`, `filePosition` and the state the callback captures; the loop returns
`filePosition` and that state. -/
def eachRecords {σ : Type} (b : Build) (f : List Nat → List Nat → σ → σ) (str : List Nat)
    (bytesRead : Nat) : Nat → Nat → Nat → σ → Except Thrown (Nat × σ)
  | 0, _, _, _ => .error .fuel
  | fuel + 1, pos, filePosition, s =>
    if pos < bytesRead then do
      let (length, _) ← string_read 4 str pos
      -- tail case
      if pos + length > bytesRead then pure (filePosition, s)
      else
        let pos := pos + 4
        let key ← assignFrom str pos (Bytes b)
        let pos := pos + Bytes b
        let valueLength := (length + 2 ^ 64 - value_offset b % 2 ^ 64) % 2 ^ 64
        let value ← assignFrom str pos valueLength
        let pos := (pos + valueLength) % 2 ^ 64
        eachRecords b f str bytesRead fuel pos ((filePosition + length) % 2 ^ 64) (f key value s)
    else pure (filePosition, s)

/-- The do-while loop of `Each`: one `ReadAt` into `str` per round, then the records of the
chunk. -/
def eachLoop {σ : Type} (b : Build) (f : List Nat → List Nat → σ → σ) :
    Nat → ValueStore → Nat → List Nat → σ → Except Thrown (ValueStore × σ × error_condition)
  | 0, _, _, _, _ => .error .fuel
  | fuel + 1, v, filePosition, str, s =>
    match v.file_.ReadAt filePosition str with
    | (file, (bytesRead, err), str) =>
      let v := { v with file_ := file }
      if err.isSome then .ok (v, s, err)
      else do
        let (filePosition, s) ← eachRecords b f str bytesRead fuel 0 filePosition s
        if filePosition < v.size_ then eachLoop b f fuel v filePosition str s
        else pure (v, s, none)

/-- The function `Each`, with the state the callback captures passed explicitly. The
chunk is a string of 64 KiB. -/
def Each {σ : Type} (b : Build) (fuel : Nat) (v : ValueStore)
    (f : List Nat → List Nat → σ → σ) (s : σ) :
    Except Thrown (ValueStore × σ × error_condition) :=
  eachLoop b f fuel v 0 (List.replicate (1024 * 64) 0) s

end ValueStore

/-- The class `KeyStore`. -/
structure KeyStore where
  block_size_ : Nat
  degree_ : Nat
  file_ : RandomAccessFile
  size_ : Nat
  deriving DecidableEq, Repr

namespace KeyStore

/-- The constructor. -/
def new (b : Build) (block_size : Nat) (file : RandomAccessFile) : KeyStore :=
  { block_size_ := block_size, degree_ := Node.CalculateDegree b block_size, file_ := file,
    size_ := 0 }

def Open (k : KeyStore) : KeyStore × error_condition :=
  match k.file_.Open with
  | (f, some e) => ({ k with file_ := f }, some e)
  | (f, none) =>
    match f.Size k.size_ with
    | (f1, err, size) => ({ k with file_ := f1, size_ := size }, err)

def Clear (k : KeyStore) : KeyStore × error_condition :=
  match k.file_.Truncate with
  | (f, err) => ({ k with file_ := f, size_ := 0 }, err)

def Close (k : KeyStore) : KeyStore × error_condition :=
  match k.file_.Close with
  | (f, err) => ({ k with file_ := f }, err)

/-- The function `New`: the size grows by one block, the node gets the old size as id. -/
def New (k : KeyStore) (level first last : Nat) : Except Thrown (KeyStore × Node) := do
  let k1 := { k with size_ := k.size_ + k.block_size_ }
  let n ← Node.new (k1.size_ - k1.block_size_) level k1.degree_ first last
  pure (k1, n)

/-- The function `Get`: the pair of the node pointer (null on error) and the error. -/
def Get (b : Build) (k : KeyStore) (id : Nat) :
    Except Thrown (KeyStore × Option Node × error_condition) := do
  let str := resize [] k.block_size_
  let node ← Node.new id 0 k.degree_ 0 1
  match k.file_.ReadAt id str with
  | (f, (bytesRead, err), str) =>
    let k1 := { k with file_ := f }
    if err.isSome then pure (k1, none, err)
    else if bytesRead = 0 then pure (k1, none, some .key_not_found)
    else if bytesRead != k.block_size_ then pure (k1, none, some .short_read)
    else
      let (node, _) ← Node.Read b node str
      pure (k1, some node, none)

def Set (b : Build) (k : KeyStore) (node : Node) : Except Thrown (KeyStore × error_condition) := do
  let str := resize [] k.block_size_
  let (str, _) ← Node.Write b node str
  match k.file_.WriteAt str node.id with
  | (f, (bytesWritten, err)) =>
    let k1 := { k with file_ := f }
    if err.isSome then pure (k1, err)
    else if bytesWritten != k.block_size_ then pure (k1, some .short_write)
    else pure (k1, none)

def Size (k : KeyStore) : Nat := k.size_

end KeyStore

/-! ## db/cache.h -/

/-- The struct `CacheKey`. -/
structure CacheKey where
  level : Nat
  key : Nat
  deriving DecidableEq, Repr

/-- The operator `<` of `CacheKey`: deeper levels first, then ascending keys. -/
def CacheKey.lt (lhs rhs : CacheKey) : Bool :=
  if lhs.level = rhs.level then decide (lhs.key < rhs.key) else decide (lhs.level > rhs.level)

/-- The class `NodeCache`. The list `nodes_` is the right (`list_of`) view of the bimap:
the entries in recency order, least recently used first; `index_` is the map from node id
to cache key. -/
structure NodeCache where
  maxSize_ : Nat
  hits_ : Nat
  misses_ : Nat
  inserts_ : Nat
  updates_ : Nat
  nodes_ : List (CacheKey × Node)
  index_ : List (Nat × CacheKey)
  deriving DecidableEq, Repr

namespace NodeCache

/-- A default-constructed cache. -/
def empty : NodeCache :=
  { maxSize_ := 0, hits_ := 0, misses_ := 0, inserts_ := 0, updates_ := 0, nodes_ := [],
    index_ := [] }

/-- Ordered insertion of an entry into the left view. -/
def leftInsert (e : CacheKey × Node) : List (CacheKey × Node) → List (CacheKey × Node)
  | [] => [e]
  | x :: rest => if CacheKey.lt e.1 x.1 then e :: x :: rest else x :: leftInsert e rest

/-- The left (`set_of<CacheKey>`) view of the bimap: the entries in `CacheKey` order. -/
def left (c : NodeCache) : List (CacheKey × Node) :=
  c.nodes_.foldr leftInsert []

def SetMaxSize (c : NodeCache) (maxSize : Nat) : NodeCache := { c with maxSize_ := maxSize }

def Reset (c : NodeCache) : NodeCache :=
  { c with hits_ := 0, misses_ := 0, inserts_ := 0, updates_ := 0, nodes_ := [], index_ := [] }

/-- The call `nodes_.right.relocate(nodes_.right.end(), ...)` for the entry of `k`, storing
`node` in it: the entry moves to the most recently used end. -/
def relocate (nodes : List (CacheKey × Node)) (k : CacheKey) (node : Node) :
    List (CacheKey × Node) :=
  nodes.filter (fun e => e.1 != k) ++ [(k, node)]

/-- The function `Add`. -/
def Add (b : Build) (c : NodeCache) (node : Node) : Except Thrown NodeCache := do
  if c.maxSize_ = 0 then pure c
  else
    let keyPair : CacheKey := ⟨node.level, node.first⟩
    match c.nodes_.find? (fun e => e.1 == keyPair) with
    | some it =>
      cassert b (it.2.id == node.id)
      pure { c with updates_ := c.updates_ + 1, nodes_ := relocate c.nodes_ keyPair node }
    | none =>
      let c1 := { c with inserts_ := c.inserts_ + 1 }
      let c2 ←
        (if c1.nodes_.length = c1.maxSize_ then
          match c1.nodes_ with
          | [] => throw .undefined
          | evictee :: rest =>
            pure { c1 with index_ := c1.index_.filter (fun e => e.1 != evictee.2.id),
                           nodes_ := rest }
        else pure c1)
      cassert b (decide (c2.nodes_.length ≤ c2.maxSize_) && decide (c2.index_.length ≤ c2.maxSize_))
      pure { c2 with nodes_ := c2.nodes_ ++ [(keyPair, node)],
                     index_ := c2.index_.filter (fun e => e.1 != node.id) ++ [(node.id, keyPair)] }

/-- The function `GetById`. -/
def GetById (c : NodeCache) (id : Nat) : Except Thrown (Option Node) :=
  match c.index_.find? (fun e => e.1 == id) with
  | some found =>
    match c.nodes_.find? (fun e => e.1 == found.2) with
    | some e => .ok (some e.2)
    | none => .error .out_of_range
  | none => .ok none

/-- The position `nodes_.left.upper_bound(q)` in the left view. -/
def upper_bound (lv : List (CacheKey × Node)) (q : CacheKey) : Nat :=
  (lv.takeWhile (fun e => !CacheKey.lt q e.1)).length

/-- The loop of `Get` from `level` down to 1: the entry hit, if any. -/
def getLoop (lv : List (CacheKey × Node)) (key : Nat) : Nat → Except Thrown (Option (CacheKey × Node))
  | 0 => .ok none
  | level + 1 =>
    let ub := upper_bound lv ⟨level + 1, key⟩
    let pos := if ub ≠ 0 then ub - 1 else ub
    match lv.get? pos with
    | none => .error .undefined
    | some it =>
      if it.2.level > level + 1 then .ok none
      else if it.2.first < key ∧ it.2.last > key then .ok (some it)
      else getLoop lv key level

/-- The function `Get`. -/
def Get (c : NodeCache) (key : Nat) : Except Thrown (NodeCache × Option Node) := do
  if c.maxSize_ = 0 ∨ c.nodes_.length = 0 then pure (c, none)
  else
    match c.left with
    | [] => throw .undefined
    | begin :: _ =>
      let level := (begin.1.level + 1) % 2 ^ 32
      match ← getLoop c.left key level with
      | some it =>
        pure ({ c with hits_ := c.hits_ + 1, nodes_ := relocate c.nodes_ it.1 it.2 }, some it.2)
      | none => pure ({ c with misses_ := c.misses_ + 1 }, none)

end NodeCache

/-! ## db/buffer.h -/

/-- The enum `Buffer::ValueState`. -/
inductive ValueState where
  | Unprocessed
  | Evicted
  | NeedsCommitting
  | Committed
  deriving DecidableEq, Repr

/-- The underlying value of a `ValueState`, which orders the states. -/
def ValueState.toNat : ValueState → Nat
  | .Unprocessed => 0
  | .Evicted => 1
  | .NeedsCommitting => 2
  | .Committed => 3

/-- The struct `Buffer::Value`. -/
structure Value where
  offset : Nat
  length : Nat
  value : List Nat
  status : ValueState
  deriving DecidableEq, Repr

/-- The operator `<` of `std::string`: lexicographic on bytes. -/
def strLt : List Nat → List Nat → Bool
  | [], [] => false
  | [], _ :: _ => true
  | _ :: _, [] => false
  | a :: as, c :: cs => if a < c then true else if c < a then false else strLt as cs

namespace Value

def ReadyForWriting (v : Value) : Bool := v.status == .NeedsCommitting

/-- The operator `<` of `Value`: by status, then offset, then value bytes. -/
def lt (lhs rhs : Value) : Bool :=
  if lhs.status = rhs.status ∧ lhs.offset = rhs.offset then strLt lhs.value rhs.value
  else if lhs.status = rhs.status then decide (lhs.offset < rhs.offset)
  else decide (lhs.status.toNat < rhs.status.toNat)

end Value

/-- A `std::set<KeyValue>`: ascending by key, one element per key. Insertion of an element
whose key is present changes nothing. -/
def setInsert (kv : KeyValue) : List KeyValue → List KeyValue
  | [] => [kv]
  | x :: rest =>
    if kv.key < x.key then kv :: x :: rest
    else if kv.key = x.key then x :: rest
    else x :: setInsert kv rest

/-- The call `set.erase(kv)`: removes the element with the key of `kv`. -/
def setErase (kv : KeyValue) (s : List KeyValue) : List KeyValue :=
  s.filter (fun x => x.key != kv.key)

/-- The call `set.count(kv)`. -/
def setCount (kv : KeyValue) (s : List KeyValue) : Nat :=
  s.countP (fun x => x.key == kv.key)

/-- The class `Buffer`: `buf_` is the left (`set_of<key_type>`) view of the bimap, the
entries in ascending key order, one per key. -/
structure Buffer where
  buf_ : List (Nat × Value)
  deriving DecidableEq, Repr

namespace Buffer

def emptyBufferValue : List Nat := []

/-- The constant `maxValueLength`, computed in `std::size_t` and stored in 32 bits. -/
def maxValueLength (b : Build) : Nat :=
  ((2 ^ 64 + (2 ^ 32 - 1) - 4 - (b.BITS / 8) % 2 ^ 64) % 2 ^ 64) % 2 ^ 32

/-- The call `buf_.left.find(k)`. -/
def find (buf : Buffer) (k : Nat) : Option (Nat × Value) :=
  buf.buf_.find? (fun e => e.1 == k)

/-- The call `buf_.left.insert(v)`: no effect when the key is present. -/
def leftInsert (e : Nat × Value) : List (Nat × Value) → List (Nat × Value)
  | [] => [e]
  | x :: rest =>
    if e.1 < x.1 then e :: x :: rest
    else if e.1 = x.1 then x :: rest
    else x :: leftInsert e rest

/-- Ordered insertion into the right view, after the entries that are not greater. -/
def rightInsert (e : Nat × Value) : List (Nat × Value) → List (Nat × Value)
  | [] => [e]
  | x :: rest => if Value.lt e.2 x.2 then e :: x :: rest else x :: rightInsert e rest

/-- The right (`multiset_of<Value>`) view of the bimap: the entries in `Value` order
(entries that compare equal are kept in key order). -/
def right (buf : Buffer) : List (Nat × Value) :=
  buf.buf_.foldl (fun acc e => rightInsert e acc) []

/-- The private function `first(state)`: the right view from
`lower_bound(Value{0, 0, emptyBufferValue, state})` on (empty at `end()`). -/
def first (buf : Buffer) (state : ValueState) : List (Nat × Value) :=
  buf.right.dropWhile (fun e => Value.lt e.2 ⟨0, 0, emptyBufferValue, state⟩)

/-- The private function `lower`: the position `buf_.left.upper_bound(first)`. -/
def lower (buf : Buffer) (firstKey : Nat) : Nat :=
  (buf.buf_.takeWhile (fun e => decide (e.1 ≤ firstKey))).length

/-- The private function `upper`: the position `buf_.left.lower_bound(last)`. -/
def upper (buf : Buffer) (lastKey : Nat) : Nat :=
  (buf.buf_.takeWhile (fun e => decide (e.1 < lastKey))).length

/-- The iterator range `[lower(first), upper(last))` of the left view; walking it is
undefined when the first position lies behind the second. -/
def range (buf : Buffer) (firstKey lastKey : Nat) : Except Thrown (List (Nat × Value)) :=
  if buf.lower firstKey ≤ buf.upper lastKey then
    .ok ((buf.buf_.drop (buf.lower firstKey)).take (buf.upper lastKey - buf.lower firstKey))
  else .error .undefined

/-- The function `Get`. -/
def Get (b : Build) (buf : Buffer) (key : List Nat) : Except Thrown (Option (List Nat)) := do
  let k ← KeyUtil.FromBytes b key
  match buf.find k with
  | some v => if v.2.status != .Evicted then pure (some v.2.value) else pure none
  | none => pure none

/-- The function `Add`: returns the buffer and its size. The length is stored in 32 bits. -/
def Add (b : Build) (buf : Buffer) (key value : List Nat) : Except Thrown (Buffer × Nat) := do
  let k ← KeyUtil.FromBytes b key
  match buf.find k with
  | none =>
    cassert b (decide (value.length ≤ maxValueLength b))
    let length := (value.length + 4 + b.BITS / 8) % 2 ^ 32
    let buf1 : Buffer := ⟨leftInsert (k, ⟨0, length, value, .Unprocessed⟩) buf.buf_⟩
    pure (buf1, buf1.buf_.length)
  | some _ => pure (buf, buf.buf_.length)

/-- The function `AddEvictee`. -/
def AddEvictee (b : Build) (buf : Buffer) (key offset length : Nat) :
    Except Thrown (Buffer × Nat) := do
  cassert b (buf.find key).isNone
  let buf1 : Buffer := ⟨leftInsert (key, ⟨offset, length, emptyBufferValue, .Evicted⟩) buf.buf_⟩
  pure (buf1, buf1.buf_.length)

/-- The function `RemoveDuplicate`. -/
def RemoveDuplicate (buf : Buffer) (key : Nat) : Buffer :=
  ⟨buf.buf_.filter (fun e => e.1 != key)⟩

/-- Replacement of the value stored under `key` (`modify_data`, `modify_key`). -/
def modify (buf : Buffer) (key : Nat) (v : Value) : Buffer :=
  ⟨buf.buf_.map (fun e => if e.1 == key then (e.1, v) else e)⟩

/-- The function `SetOffset`. Without the assert, a missing key dereferences `end()`. -/
def SetOffset (b : Build) (buf : Buffer) (key offset : Nat) : Except Thrown Buffer := do
  match buf.find key with
  | none =>
    cassert b false
    throw .undefined
  | some it => pure (buf.modify key ⟨offset, it.2.length, it.2.value, .NeedsCommitting⟩)

/-- The body of the do-while loop of `Write`, entered with the entry `it` to write; each
round turns one entry from NeedsCommitting to Committed. -/
def writeLoop (b : Build) (batchSize : Nat) :
    Nat → Buffer → Nat → List Nat → Nat × Value → Except Thrown (Buffer × List Nat)
  | 0, _, _, _, _ => .error .fuel
  | fuel + 1, buf, pos, wb, it => do
    let wb := resize wb (pos + it.2.length)
    let wb ← memcpy wb pos (leBytes 4 it.2.length)
    let pos := pos + 4
    let bytes := KeyUtil.ToBytes b it.1
    let wb ← memcpy wb pos bytes
    let pos := pos + bytes.length
    let wb ← memcpy wb pos it.2.value
    let pos := pos + it.2.value.length
    let buf := buf.modify it.1 ⟨it.2.offset, it.2.length, it.2.value, .Committed⟩
    match buf.first .NeedsCommitting with
    | [] => pure (buf, wb)
    | next :: _ =>
      if next.2.status == .NeedsCommitting && decide (pos + next.2.length ≤ batchSize) then
        writeLoop b batchSize fuel buf pos wb next
      else pure (buf, wb)

/-- The function `Write`: returns the buffer, the write buffer and the result. -/
def Write (b : Build) (buf : Buffer) (batchSize : Nat) (wb : List Nat) :
    Except Thrown (Buffer × List Nat × Bool) :=
  match buf.first .NeedsCommitting with
  | [] => .ok (buf, wb, false)
  | it :: _ =>
    if it.2.status != .NeedsCommitting then .ok (buf, wb, false)
    else do
      let (buf1, wb1) ← writeLoop b batchSize (buf.buf_.length + 1) buf 0 wb it
      pure (buf1, wb1, true)

/-- The function `Purge`: erases the right view from `first(Evicted)` to its end. -/
def Purge (buf : Buffer) : Except Thrown Buffer :=
  let erase (buf : Buffer) : Buffer :=
    ⟨buf.buf_.filter (fun e => !(buf.first .Evicted).any (fun g => g.1 == e.1))⟩
  match buf.first .NeedsCommitting with
  | [] => .ok (erase buf)
  | check :: _ =>
    if check.2.status == .NeedsCommitting then .error .bad_buffer_purge
    else .ok (erase buf)

/-- The function `GetCandidates`: returns the two sets after the call. -/
def GetCandidates (buf : Buffer) (firstKey lastKey : Nat)
    (candidates evictions : List KeyValue) :
    Except Thrown (List KeyValue × List KeyValue) := do
  let r ← buf.range firstKey lastKey
  pure (r.foldl (fun (acc : List KeyValue × List KeyValue) kv =>
    if kv.2.status == .Unprocessed then
      (setInsert ⟨kv.1, kv.2.offset, kv.2.length⟩ acc.1, acc.2)
    else if kv.2.status == .Evicted then
      (acc.1, setInsert ⟨kv.1, kv.2.offset, kv.2.length⟩ acc.2)
    else acc) (candidates, evictions))

/-- The function `ContainsRange`. -/
def ContainsRange (b : Build) (buf : Buffer) (firstKey lastKey : Nat) : Except Thrown Bool := do
  cassert b (decide (firstKey ≤ lastKey))
  let r ← buf.range firstKey lastKey
  pure (r.any (fun kv => kv.2.status == .Unprocessed || kv.2.status == .Evicted))

def Clear (_buf : Buffer) : Buffer := ⟨[]⟩

def Size (buf : Buffer) : Nat := buf.buf_.length

/-- The function `ReadyForCommitting`: the distance between `first(NeedsCommitting)` and
`first(Committed)` in the right view. -/
def ReadyForCommitting (buf : Buffer) : Nat :=
  (buf.first .NeedsCommitting).length - (buf.first .Committed).length

end Buffer

/-! ## db/delta.h -/

/-- The class `Delta`. The field `previous_` is the null pointer until the first `Flip`. -/
structure Delta where
  existing_ : Nat
  insertions_ : Nat
  evictions_ : Nat
  synthetics_ : Nat
  children_ : Nat
  current_ : Node
  previous_ : Option Node
  deriving DecidableEq, Repr

/-- The algorithm `std::set_intersection` on two ascending ranges: the elements of the
first range that have an equivalent in the second. -/
def set_intersection : List KeyValue → List KeyValue → List KeyValue
  | [], _ => []
  | x :: xs, ys =>
    match ys.dropWhile (fun y => KeyValue.lt y x) with
    | [] => []
    | y :: rest =>
      if KeyValue.lt x y then set_intersection xs (y :: rest)
      else x :: set_intersection xs rest

/-- The algorithm `std::copy` into a vector from position `pos` on: undefined when it runs
past the end. -/
def copyAt (dst : List KeyValue) (pos : Nat) (src : List KeyValue) :
    Except Thrown (List KeyValue) :=
  if pos + src.length ≤ dst.length then
    .ok (dst.take pos ++ src ++ dst.drop (pos + src.length))
  else .error .undefined

/-- Ordered insertion of a slot, behind the slots that are not greater. -/
def sortInsert (kv : KeyValue) : List KeyValue → List KeyValue
  | [] => [kv]
  | x :: rest => if KeyValue.lt kv x then kv :: x :: rest else x :: sortInsert kv rest

/-- The call `std::sort(keys.begin(), keys.end())`: ascending by key. (Slots of equal key
keep their order here; the library leaves their order open.) -/
def sortKeys (ks : List KeyValue) : List KeyValue :=
  ks.foldl (fun acc kv => sortInsert kv acc) []

namespace Delta

/-- The constructor. -/
def new (node : Node) : Delta :=
  { existing_ := 0, insertions_ := 0, evictions_ := 0, synthetics_ := 0, children_ := 0,
    current_ := node, previous_ := none }

def Dirty (d : Delta) : Bool := d.previous_.isSome

/-- The function `Flip`: copy on write. -/
def Flip (d : Delta) : Delta :=
  if !d.Dirty then { d with previous_ := some d.current_, current_ := d.current_ } else d

def Current (d : Delta) : Node := d.current_

/-- The function `Insertions`, in 64-bit unsigned arithmetic. -/
def Insertions (d : Delta) : Nat := (d.insertions_ + 2 ^ 64 - d.evictions_ % 2 ^ 64) % 2 ^ 64

def CheckSanity (d : Delta) : Except Thrown Bool := d.current_.IsSane

def SetChild (d : Delta) (i cid : Nat) : Except Thrown Delta := do
  let d := d.Flip
  let d := { d with children_ := d.children_ + 1 }
  let n ← d.current_.SetChild i cid
  pure { d with current_ := n }

/-- The loop of the branch that does not overflow over the first `c` slots: it sets the
offset of each and advances the running offset. Returns the slots, the buffer, the offset
and the insertions counter. -/
def placeLoop (b : Build) :
    List KeyValue → Buffer → Nat → Nat → Except Thrown (List KeyValue × Buffer × Nat × Nat)
  | [], buf, offset, ins => .ok ([], buf, offset, ins)
  | it :: rest, buf, offset, ins => do
    let ins := ins + 1
    let buf ← buf.SetOffset b it.key offset
    let it1 : KeyValue := { it with offset := offset }
    let offset := (offset + it1.length) % 2 ^ 64
    let (rest1, buf, offset, ins) ← placeLoop b rest buf offset ins
    pure (it1 :: rest1, buf, offset, ins)

/-- The loop of the overflow branch over the combined set: each key goes to the slot of
its nearest stride position when it is the first for that slot or nearer than the best so
far. The state is the node, `index` and `best`. -/
def strideLoop (stride : Nat) :
    List KeyValue → Node → Nat → Nat → Except Thrown Node
  | [], n, _, _ => .ok n
  | kv :: rest, n, index, best => do
    let (distance, nearest) ← KeyUtil.NearestStride n.first stride kv.key
    if (nearest = index ∧ distance < best) ∨ nearest ≠ index then
      let n ← n.SetKeyValue nearest kv
      strideLoop stride rest n nearest distance
    else
      strideLoop stride rest n nearest best

/-- The loop of the overflow branch over the rebuilt slots: a slot that came from the
candidates gets its offset. The state is the buffer, the offset, the insertions counter
and the set `existing`; returns the slots and the state. -/
def assignLoop (b : Build) (candidates : List KeyValue) :
    List KeyValue → Buffer → Nat → Nat → List KeyValue →
      Except Thrown (List KeyValue × Buffer × Nat × Nat × List KeyValue)
  | [], buf, offset, ins, existing => .ok ([], buf, offset, ins, existing)
  | kv :: rest, buf, offset, ins, existing => do
    if kv.IsSynthetic then
      let (rest1, r) ← assignLoop b candidates rest buf offset ins existing
      pure (kv :: rest1, r)
    else
      let (kv1, buf, offset, ins) ←
        (if setCount kv candidates > 0 then do
          let buf ← buf.SetOffset b kv.key offset
          let kv1 : KeyValue := { kv with offset := offset }
          pure (kv1, buf, (offset + kv1.length) % 2 ^ 64, ins + 1)
        else pure (kv, buf, offset, ins))
      let existing := setErase kv1 existing
      let (rest1, r) ← assignLoop b candidates rest buf offset ins existing
      pure (kv1 :: rest1, r)

/-- The loop of the overflow branch over what is left of `existing`: every slot that is
not synthetic becomes an evictee. The state is the buffer and the evictions counter. -/
def evictLoop (b : Build) : List KeyValue → Buffer → Nat → Except Thrown (Buffer × Nat)
  | [], buf, ev => .ok (buf, ev)
  | kv :: rest, buf, ev =>
    if kv.IsSynthetic then evictLoop b rest buf ev
    else do
      let (buf, _) ← buf.AddEvictee b kv.key kv.offset kv.length
      evictLoop b rest buf (ev + 1)

/-- The function `AddKeys`: returns the delta, the buffer and the offset. -/
def AddKeys (b : Build) (d : Delta) (buffer : Buffer) (offset : Nat) :
    Except Thrown (Delta × Buffer × Nat) := do
  let N := d.current_.MaxKeys
  let (candidates, evictions) ← buffer.GetCandidates d.current_.first d.current_.last [] []
  if candidates.length + evictions.length = 0 then
    -- Nothing to do, this is the root node being checked for work
    pure (d, buffer, offset)
  else
    let existing := (d.current_.keys.drop d.current_.NonZeroBegin).foldl
      (fun acc kv => setInsert kv acc) []
    let d := { d with existing_ := existing.length }
    let dupes := set_intersection candidates existing
    let (buffer, candidates) := dupes.foldl
      (fun (acc : Buffer × List KeyValue) kv => (acc.1.RemoveDuplicate kv.key, setErase kv acc.2))
      (buffer, candidates)
    if (candidates.length = 0 ∧ evictions.length = 0) ∨ d.current_.EmptyKeyCount = 0 then
      -- Nothing to do
      pure (d, buffer, offset)
    else
      let d := d.Flip
      if existing.length + candidates.length + evictions.length ≤ N then
        -- Won't overflow copy and sort
        let d := { d with insertions_ := candidates.length }
        let ks ← copyAt d.current_.keys 0 candidates
        let lastCandidate := candidates.length
        let ks ← copyAt ks lastCandidate evictions
        let (placed, buffer, offset, ins) ←
          placeLoop b (ks.take lastCandidate) buffer offset d.insertions_
        let ks := placed ++ ks.drop lastCandidate
        let d := { d with insertions_ := ins, current_ := { d.current_ with keys := sortKeys ks } }
        pure (d, buffer, offset)
      else
        -- Handle overflowing node
        let combined := evictions.foldl (fun acc kv => setInsert kv acc) candidates
        let combined := existing.foldl (fun acc kv => setInsert kv acc) combined
        let cur := d.current_.Clear
        let stride ← cur.Stride
        let cur ← strideLoop stride combined cur 0 (KeyUtil.Max b)
        let (cur, synthetics) ← cur.AddSyntheticKeyValues b
        let d := { d with synthetics_ := synthetics }
        let (ks, buffer, offset, ins, existing) ←
          assignLoop b candidates cur.keys buffer offset d.insertions_ existing
        let d := { d with insertions_ := ins, current_ := { cur with keys := ks } }
        let (buffer, ev) ← evictLoop b existing buffer d.evictions_
        let d := { d with evictions_ := ev }
        pure (d, buffer, offset)

end Delta

/-! ## db/tree.h -/

/-- The class `Tree`: the key store and the node cache it holds by reference. -/
structure Tree where
  store_ : KeyStore
  cache_ : NodeCache
  deriving DecidableEq, Repr

namespace Tree

def rootId : Nat := 0

/-- The function `firstRootKey`: `Min() + 1`. -/
def firstRootKey (b : Build) : Except Thrown Nat := KeyUtil.add b KeyUtil.Min 1

def lastRootKey (b : Build) : Nat := KeyUtil.Max b

/-- The function `Init`: builds the root node if it is not already present. -/
def Init (b : Build) (t : Tree) (addSynthetics : Bool) : Except Thrown (Tree × error_condition) := do
  let (store, _, err) ← t.store_.Get b rootId
  let t := { t with store_ := store }
  if err.isNone then pure (t, err)
  else
    let first ← firstRootKey b
    let (store, root) ← t.store_.New 0 first (lastRootKey b)
    let t := { t with store_ := store }
    let root ← (if addSynthetics then do
        let (r, _) ← root.AddSyntheticKeyValues b
        pure r
      else pure root)
    let cache := t.cache_.Reset
    let cache ← cache.Add b root
    let (store, err) ← t.store_.Set b root
    pure ({ store_ := store, cache_ := cache }, err)

/-- The function `GetNode`. -/
def GetNode (b : Build) (t : Tree) (id : Nat) :
    Except Thrown (Tree × Option Node × error_condition) := do
  match ← t.cache_.GetById id with
  | some node => pure (t, some node, none)
  | none =>
    let (store, node, err) ← t.store_.Get b id
    pure ({ t with store_ := store }, node, err)

def Root (b : Build) (t : Tree) : Except Thrown (Tree × Option Node × error_condition) :=
  t.GetNode b rootId

def CreateNode (t : Tree) (level first last : Nat) : Except Thrown (Tree × Node) := do
  let (store, n) ← t.store_.New level first last
  pure ({ t with store_ := store }, n)

/-- The callback that the private function `get` passes to `EachChild`; `descend` is the
recursive call of `get` on a child. The state is the tree, `kv` and `found`. -/
def getChild (b : Build)
    (descend : Tree → Node → Except Thrown (Tree × KeyValue × error_condition)) (key : Nat) :
    Nat → Nat → Nat → Nat → Tree × KeyValue × Bool →
      Except Thrown ((Tree × KeyValue × Bool) × error_condition) :=
  fun _ first last cid s =>
    if key > first ∧ key < last then
      if cid = EmptyChild then
        pure (s, some db_error.key_not_found)
      else do
        let (store, child, err) ← s.1.store_.Get b cid
        let t1 : Tree := { s.1 with store_ := store }
        match child, err with
        | some child, none =>
          let cache ← t1.cache_.Add b child
          let (t2, kv, err) ← descend { t1 with cache_ := cache } child
          pure ((t2, kv, true), err)
        | _, err => pure ((t1, s.2.1, true), err)
    else pure (s, none)

/-- The private function `get`. A default-initialised `kv` is taken to be all zero. -/
def get (b : Build) : Nat → Tree → Node → Nat → Except Thrown (Tree × KeyValue × error_condition)
  | 0, _, _, _ => .error .fuel
  | fuel + 1, t, node, key =>
    match node.Find key with
    | some kv => .ok (t, kv, none)
    | none => do
      let ((t, kv, found), err) ← node.EachChild
        (getChild b (fun t child => get b fuel t child key) key) (t, KeyValue.zero, false)
      let err := if !found then some db_error.key_not_found else err
      pure (t, kv, err)

/-- The function `Get`. -/
def Get (b : Build) (fuel : Nat) (t : Tree) (key : Nat) :
    Except Thrown (Tree × KeyValue × error_condition) := do
  let (cache, node) ← t.cache_.Get key
  let t := { t with cache_ := cache }
  match node with
  | some node => get b fuel t node key
  | none =>
    let (store, node, err) ← t.store_.Get b rootId
    let t := { t with store_ := store }
    match node, err with
    | some node, none => get b fuel t node key
    | _, _ => throw .no_root

/-- The function `Update`. -/
def Update (b : Build) (t : Tree) (node : Node) : Except Thrown (Tree × error_condition) := do
  let (store, err) ← t.store_.Set b node
  let t := { t with store_ := store }
  if err.isSome then pure (t, err)
  else
    let cache ← t.cache_.Add b node
    pure ({ t with cache_ := cache }, none)

/-- The private function `walk`, with the state of the visitor passed explicitly. -/
def walk {σ : Type} (b : Build) (f : Node → Nat → σ → Except Thrown (σ × error_condition)) :
    Nat → Nat → Nat → Tree × σ → Except Thrown ((Tree × σ) × error_condition)
  | 0, _, _, _ => .error .fuel
  | fuel + 1, id, level, (t, s) => do
    let (store, node, err) ← t.store_.Get b id
    let t := { t with store_ := store }
    match node, err with
    | some node, none =>
      let (s, err) ← f node level s
      if err.isSome then pure ((t, s), err)
      else
        node.EachChild (fun _ _ _ cid (ts : Tree × σ) =>
          if cid ≠ EmptyChild then do
            let (ts1, err) ← walk b f fuel cid (level + 1) ts
            if err.isSome then pure (ts1, err) else pure (ts1, none)
          else pure (ts, none)) (t, s)
    | _, err => pure ((t, s), err)

def Walk {σ : Type} (b : Build) (fuel : Nat)
    (f : Node → Nat → σ → Except Thrown (σ × error_condition)) (t : Tree) (s : σ) :
    Except Thrown ((Tree × σ) × error_condition) :=
  walk b f fuel rootId 0 (t, s)

/-- The function `IsSane` of the tree. -/
def IsSane (b : Build) (fuel : Nat) (t : Tree) : Except Thrown (Tree × Bool × error_condition) := do
  let ((t, sane), err) ← Walk b fuel (fun n _ (sane : Bool) => do
    let ok ← n.IsSane
    pure (sane && ok, none)) t true
  pure (t, sane, err)

/-- The function `NonSyntheticKeyCount` of the tree. -/
def NonSyntheticKeyCount (b : Build) (fuel : Nat) (t : Tree) :
    Except Thrown (Tree × Nat × error_condition) := do
  let ((t, count), err) ← Walk b fuel (fun n _ (count : Nat) =>
    pure (count + n.NonSyntheticKeyCount, none)) t 0
  pure (t, count, err)

end Tree

/-! ## db/journal.h -/

/-- The class `Journal`: the buffer and the value store it holds by reference, the
multimap `deltas_` (ascending by level, equal levels in insertion order) and `offset_`. -/
structure Journal where
  buffer_ : Buffer
  values_ : ValueStore
  deltas_ : List (Nat × Delta)
  offset_ : Nat
  deriving DecidableEq, Repr

namespace Journal

/-- The constructor. An uninitialised `offset_` is taken to be zero. -/
def new (buffer : Buffer) (values : ValueStore) : Journal :=
  { buffer_ := buffer, values_ := values, deltas_ := [], offset_ := 0 }

/-- The call `deltas_.emplace(level, delta)`: behind the entries of levels not greater. -/
def emplace (e : Nat × Delta) : List (Nat × Delta) → List (Nat × Delta)
  | [] => [e]
  | x :: rest => if e.1 < x.1 then e :: x :: rest else x :: emplace e rest

/-- The statement `assert(delta.CheckSanity())`. -/
def assertSanity (b : Build) (delta : Delta) : Except Thrown Unit :=
  if b.NDEBUG then .ok ()
  else do
    let ok ← delta.CheckSanity
    cassert b ok

/-- The private function `process`. The state of the callback is the journal, the tree
and the delta. -/
def process (b : Build) :
    Nat → Journal × Tree → Node → Except Thrown ((Journal × Tree) × error_condition)
  | 0, _, _ => .error .fuel
  | fuel + 1, (j, t), node => do
    let delta := Delta.new node
    let (delta, buffer, offset) ← delta.AddKeys b j.buffer_ j.offset_
    let j := { j with buffer_ := buffer, offset_ := offset }
    assertSanity b delta
    let ((j, t, delta), err) ←
      (if delta.Current.EmptyKeyCount = 0 then
        delta.Current.EachChild
          (fun i first last cid (s : Journal × Tree × Delta) => do
            let (j, t, delta) := s
            if !(← j.buffer_.ContainsRange b first last) then
              pure (s, none)
            else if cid = EmptyChild then
              let (t, child) ← t.CreateNode ((node.level + 1) % 2 ^ 32) first last
              let delta ← delta.SetChild i child.id
              let ((j, t), err) ← process b fuel (j, t) child
              pure ((j, t, delta), err)
            else
              let (t, child, err) ← t.GetNode b cid
              match child, err with
              | some child, none =>
                let ((j, t), err) ← process b fuel (j, t) child
                pure ((j, t, delta), err)
              | _, err => pure ((j, t, delta), err))
          (j, t, delta)
      else pure ((j, t, delta), none))
    if err.isSome then pure ((j, t), err)
    else
      assertSanity b delta
      let j := if delta.Dirty then { j with deltas_ := emplace (node.level, delta) j.deltas_ } else j
      pure ((j, t), none)

/-- The function `Process`. -/
def Process (b : Build) (fuel : Nat) (j : Journal) (t : Tree) :
    Except Thrown ((Journal × Tree) × error_condition) := do
  let j := { j with offset_ := j.values_.Size }
  let (t, root, err) ← t.Root b
  match root, err with
  | some root, none => process b fuel (j, t) root
  | _, err => pure ((j, t), err)

/-- The loop `while (buffer_.Write(batchSize, writeBuffer))` of `Commit`. -/
def commitWrites (b : Build) (batchSize : Nat) :
    Nat → Journal → List Nat → Except Thrown (Journal × error_condition)
  | 0, _, _ => .error .fuel
  | fuel + 1, j, writeBuffer => do
    let (buffer, writeBuffer, more) ← j.buffer_.Write b batchSize writeBuffer
    let j := { j with buffer_ := buffer }
    if !more then pure (j, none)
    else
      let (values, err) := j.values_.Append writeBuffer
      let j := { j with values_ := values }
      if err.isSome then pure (j, err)
      else commitWrites b batchSize fuel j writeBuffer

/-- The loop of `Commit` over the deltas, deepest first. -/
def commitDeltas (b : Build) : List (Nat × Delta) → Tree → Except Thrown (Tree × error_condition)
  | [], t => .ok (t, none)
  | it :: rest, t => do
    let (t, err) ← t.Update b it.2.Current
    if err.isSome then pure (t, err)
    else commitDeltas b rest t

/-- The function `Commit`. -/
def Commit (b : Build) (j : Journal) (t : Tree) (batchSize : Nat) :
    Except Thrown ((Journal × Tree) × error_condition) := do
  let (j, err) ← commitWrites b batchSize (j.buffer_.buf_.length + 1) j []
  if err.isSome then pure ((j, t), err)
  else
    let (t, err) ← commitDeltas b j.deltas_.reverse t
    if err.isSome then pure ((j, t), err)
    else
      let buffer ← j.buffer_.Purge
      pure (({ j with buffer_ := buffer, deltas_ := [] }, t), none)

def Size (j : Journal) : Nat := j.deltas_.length

def TotalInsertions (j : Journal) : Nat :=
  j.deltas_.foldl (fun total kv => (total + kv.2.Insertions) % 2 ^ 64) 0

end Journal

/-! ## db/db.h -/

/-- The struct `Options` (without the file names). -/
structure Options where
  blockSize : Nat := 4096
  cacheSize : Nat := 1024 * 1024 * 1024 / 4096
  writeBufferSize : Nat := 1024 * 1024
  flushInterval : Nat := 1000
  deriving DecidableEq, Repr

/-- The class `DB`. The tree holds the key store `keys_` and the cache `cache_`. -/
structure DB where
  options_ : Options
  values_ : ValueStore
  tree_ : Tree
  buffer_ : Buffer
  buffer_hits_ : Nat
  key_misses_ : Nat
  value_hits_ : Nat
  value_misses_ : Nat
  close_ : Bool
  deriving DecidableEq, Repr

namespace DB

/-- The enumerator `key_length = BITS / 8`. -/
def key_length (b : Build) : Nat := b.BITS / 8

/-- The constructor, on the two files of the store. -/
def new (b : Build) (options : Options) (keyFile valueFile : RandomAccessFile) : DB :=
  { options_ := options,
    values_ := { file_ := valueFile, size_ := 0 },
    tree_ := { store_ := KeyStore.new b options.blockSize keyFile,
               cache_ := NodeCache.empty.SetMaxSize options.cacheSize },
    buffer_ := ⟨[]⟩,
    buffer_hits_ := 0, key_misses_ := 0, value_hits_ := 0, value_misses_ := 0,
    close_ := false }

/-- The function `Open`. -/
def Open (b : Build) (db : DB) : Except Thrown (DB × error_condition) := do
  let (keys, err) := db.tree_.store_.Open
  let db := { db with tree_ := { db.tree_ with store_ := keys } }
  if err.isSome then pure (db, err)
  else
    let (tree, err) ← db.tree_.Init b true
    let db := { db with tree_ := tree }
    if err.isSome then pure (db, err)
    else
      let (values, err) := db.values_.Open
      pure ({ db with values_ := values }, err)

/-- The function `Clear`. -/
def Clear (b : Build) (db : DB) : Except Thrown (DB × error_condition) := do
  let db := { db with buffer_ := db.buffer_.Clear }
  let (keys, err) := db.tree_.store_.Clear
  let db := { db with tree_ := { db.tree_ with store_ := keys } }
  if err.isSome then pure (db, err)
  else
    let (tree, err) ← db.tree_.Init b true
    let db := { db with tree_ := tree }
    if err.isSome then pure (db, err)
    else
      let (values, err) := db.values_.Clear
      pure ({ db with values_ := values }, err)

/-- The function `Get`: `value` is the string behind the out-pointer, the result carries
its content after the call. -/
def Get (b : Build) (fuel : Nat) (db : DB) (key : List Nat) (value : List Nat) :
    Except Thrown (DB × error_condition × List Nat) := do
  if key.length ≠ key_length b then pure (db, some .key_wrong_length, value)
  else
    match ← db.buffer_.Get b key with
    | some v =>
      if v.length = 0 then throw .bad_get
      else pure ({ db with buffer_hits_ := db.buffer_hits_ + 1 }, none, v)
    | none =>
      -- Value must be on disk
      let k ← KeyUtil.FromBytes b key
      let (tree, kv, err) ← db.tree_.Get b fuel k
      let db := { db with tree_ := tree }
      if err.isSome then pure ({ db with key_misses_ := db.key_misses_ + 1 }, err, value)
      else if kv.length = 0 then throw .bad_length
      else
        let (values, err, value) ← db.values_.Get b kv.offset kv.length value
        let db := { db with values_ := values }
        if err.isSome then pure ({ db with value_misses_ := db.value_misses_ + 1 }, err, value)
        else pure ({ db with value_hits_ := db.value_hits_ + 1 }, err, value)

/-- The function `Put`. -/
def Put (b : Build) (db : DB) (key value : List Nat) : Except Thrown (DB × error_condition) := do
  if key.length ≠ key_length b then pure (db, some .key_wrong_length)
  else if value.length > 2 ^ 32 - 1 then pure (db, some .value_too_long)
  else if value.length = 0 then pure (db, some .zero_length_value)
  else
    let (buffer, _) ← db.buffer_.Add b key value
    pure ({ db with buffer_ := buffer }, none)

/-- The function `DB::Each`. -/
def Each {σ : Type} (b : Build) (fuel : Nat) (db : DB)
    (f : List Nat → List Nat → σ → σ) (s : σ) :
    Except Thrown (DB × σ × error_condition) := do
  let (values, s, err) ← db.values_.Each b fuel f s
  pure ({ db with values_ := values }, s, err)

/-- The private function `flush`: one cycle of the flush thread. -/
def flush (b : Build) (fuel : Nat) (db : DB) : Except Thrown (DB × error_condition) := do
  let journal := Journal.new db.buffer_ db.values_
  let ((journal, tree), err) ← journal.Process b fuel db.tree_
  let db := { db with buffer_ := journal.buffer_, values_ := journal.values_, tree_ := tree }
  if err.isSome then pure (db, err)
  else
    let ((journal, tree), err) ← journal.Commit b tree db.options_.writeBufferSize
    pure ({ db with buffer_ := journal.buffer_, values_ := journal.values_, tree_ := tree }, err)

end DB

/-! ## Auxiliary notions for the statements -/

deriving instance DecidableEq for Except

/-- The key widths for which a key occupies exactly `BITS / 8` bytes in whole limbs. -/
def Build.WholeLimbs (b : Build) : Prop :=
  b.BITS = 8 ∨ b.BITS = 16 ∨ b.BITS = 32 ∨ (0 < b.BITS ∧ b.BITS % 64 = 0)

/-- The invariant of the left view of the buffer: strictly ascending keys (a `set_of`
holds one entry per key, in key order). -/
def Buffer.Ordered (buf : Buffer) : Prop :=
  buf.buf_.Pairwise (fun a c => a.1 < c.1)

/-- A buffer entry the flush still has to route: Unprocessed or Evicted. -/
def Value.pending (v : Value) : Bool :=
  v.status == .Unprocessed || v.status == .Evicted

/-! ## A concrete store for the closed statements -/

namespace Scenario

/-- A build with 256-bit keys and asserts compiled in. -/
def build : Build := ⟨256, false⟩

/-- The same build with `NDEBUG` defined. -/
def release : Build := ⟨256, true⟩

/-- Options with a block size of 232 bytes, which gives nodes of degree 3. -/
def options : Options := { blockSize := 232 }

/-- A store opened and then cleared, on two empty files that never fail. -/
def opened (b : Build) : Except Thrown (DB × error_condition) := do
  let (db, err) ← DB.Open b (DB.new b options ⟨[], []⟩ ⟨[], []⟩)
  if err.isSome then pure (db, err) else DB.Clear b db

/-- The key of 32 bytes `0x55`: the number `1 + (2^256 - 2) / 3`, the first synthetic key
of the root of a tree of degree 3. -/
def keyU : List Nat := List.replicate 32 85

/-- The key of 32 bytes `0x41`. -/
def keyA : List Nat := List.replicate 32 65

/-- The key of 31 zero bytes and a last byte 2: the number 2. -/
def key2 : List Nat := List.replicate 31 0 ++ [2]

/-- The key of 31 zero bytes and a last byte 3: the number 3. -/
def key3 : List Nat := List.replicate 31 0 ++ [3]

/-- The key of 31 bytes `0xFF` and a last byte `0xFE`: the number `2^256 - 2`, the greatest
key below the upper bound of the root. -/
def keyTop : List Nat := List.replicate 31 255 ++ [254]

end Scenario

/-- The store a run leaves behind (the store as constructed, if the run threw). -/
def Scenario.state (r : Except Thrown (DB × error_condition)) : DB :=
  match r with
  | .ok (db, _) => db
  | .error _ => DB.new Scenario.build Scenario.options ⟨[], []⟩ ⟨[], []⟩

/-- The run: open, clear, `Put` of `keyA` with the value of one byte 1. -/
def Scenario.afterPut : Except Thrown (DB × error_condition) := do
  let (db, _) ← Scenario.opened Scenario.build
  DB.Put Scenario.build db Scenario.keyA [1]

/-- The run `afterPut` followed by one flush. -/
def Scenario.afterFlush : Except Thrown (DB × error_condition) := do
  let (db, _) ← Scenario.afterPut
  DB.flush Scenario.build 8 db

/-- The key store left by the run `afterFlush`: the root, primed with synthetic keys, and
one child that holds `keyA`. -/
def Scenario.store : KeyStore := (Scenario.state Scenario.afterFlush).tree_.store_

/-- The node read from block `id` of `store` (an empty node if there is none). -/
def Scenario.node (id : Nat) : Node :=
  match Scenario.store.Get Scenario.build id with
  | .ok (_, some n, _) => n
  | _ => ⟨0, 0, 0, 0, 0, [], []⟩

/-- A tree initialised without synthetic keys on an empty file of blocks of 232 bytes,
with the cache switched off: the root has two empty slots. -/
def Scenario.bare : Tree :=
  match Tree.Init Scenario.build
      { store_ := KeyStore.new Scenario.build 232 ⟨[], []⟩, cache_ := NodeCache.empty } false with
  | .ok (t, _) => t
  | .error _ => { store_ := KeyStore.new Scenario.build 232 ⟨[], []⟩, cache_ := NodeCache.empty }

/-- The root of `bare`. -/
def Scenario.bareRoot : Node :=
  match Scenario.bare.store_.Get Scenario.build 0 with
  | .ok (_, some n, _) => n
  | _ => ⟨0, 0, 0, 0, 0, [], []⟩

/-- The value-log record of the data model: the total length in 32 bits, the `BITS / 8`
key bytes, the value bytes. -/
def Spec.record (length : Nat) (key value : List Nat) : List Nat :=
  leBytes 4 length ++ key ++ value

/-! ## The tree invariants of the data model -/

/-- The lower bound of child interval `i`: `first` for child 0, else the key of slot
`i - 1`. -/
def Node.lo (n : Node) (i : Nat) : Nat :=
  if i = 0 then n.first else (n.keys.getD (i - 1) KeyValue.zero).key

/-- The upper bound of child interval `i`: `last` for the last child, else the key of
slot `i`. -/
def Node.hi (n : Node) (i : Nat) : Nat :=
  if i = n.children.length - 1 then n.last else (n.keys.getD i KeyValue.zero).key

/-- The node invariants of the data model (1 to 4; 5 is the definition of `lo` and `hi`),
for a node with `D - 1` slots and `D` child ids, `D ≥ 2`. -/
structure Node.Invariant (n : Node) : Prop where
  /-- One child id more than slots. -/
  shape : n.children.length = n.keys.length + 1
  /-- At least one slot. -/
  slots : 1 ≤ n.keys.length
  /-- The slots are sorted ascending by key. -/
  sorted : n.keys.Pairwise (fun a c => a.key ≤ c.key)
  /-- Non-zero keys are unique. -/
  unique : n.keys.Pairwise (fun a c => c.key ≠ 0 → a.key ≠ c.key)
  /-- The bounds are ordered. -/
  bounds : n.first < n.last
  /-- Every non-zero key lies strictly between the bounds. -/
  inside : ∀ s ∈ n.keys, s.key ≠ 0 → n.first < s.key ∧ s.key < n.last
  /-- If a slot is zero, all children are zero. -/
  leaf : (∃ s ∈ n.keys, s.key = 0) → ∀ c ∈ n.children, c = EmptyChild

/-- A tree of depth at most `depth` below `n` in the key store: every node satisfies the
node invariants, and every non-zero child id is read from the store without error and
without consuming the store, as a node that carries the bounds of its child interval and
is itself the root of such a tree. -/
def Tree.WellFormed (b : Build) (store : KeyStore) : Nat → Node → Prop
  | 0, _ => False
  | depth + 1, n =>
    n.Invariant ∧
    ∀ i cid, n.children.get? i = some cid → cid ≠ EmptyChild →
      ∃ c, store.Get b cid = .ok (store, some c, none) ∧ c.first = n.lo i ∧ c.last = n.hi i ∧
        Tree.WellFormed b store depth c

/-- The key `k` occupies a slot of some node of the tree below `n`. -/
def Tree.Holds (b : Build) (store : KeyStore) : Nat → Node → Nat → Prop
  | 0, _, _ => False
  | depth + 1, n, k =>
    (∃ s ∈ n.keys, s.key = k) ∨
    ∃ i cid c, n.children.get? i = some cid ∧ cid ≠ EmptyChild ∧
      store.Get b cid = .ok (store, some c, none) ∧ Tree.Holds b store depth c k

/-- A cache whose asserts cannot fail: asserts are compiled out, or the cache is switched
off (`maxSize_ = 0`, `Add` returns at once). -/
def NodeCache.Quiet (b : Build) (c : NodeCache) : Prop :=
  b.NDEBUG = true ∨ c.maxSize_ = 0

/-- Whether `EachChild` calls the callback for child `i`: the bounding slots are not zero. -/
def Node.visits (n : Node) (i : Nat) : Bool :=
  if i = 0 then !(n.keys.getD 0 KeyValue.zero).IsZero
  else if i = n.children.length - 1 then !(n.keys.getD (i - 1) KeyValue.zero).IsZero
  else !(n.keys.getD (i - 1) KeyValue.zero).IsZero && !(n.keys.getD i KeyValue.zero).IsZero

/-! ## Notions for the buffer, the journal and the commit order -/

/-- The key of 31 zero bytes and a last byte 1: the number 1, the lower bound of the root. -/
def Scenario.key1 : List Nat := List.replicate 31 0 ++ [1]

/-- Two nodes that differ in their slots at most. -/
def Node.SameFrame (n m : Node) : Prop :=
  m.id = n.id ∧ m.level = n.level ∧ m.degree = n.degree ∧ m.first = n.first ∧
    m.last = n.last ∧ m.children = n.children

/-- The callback that `process` passes to `EachChild` for the node `node`; `descend` is
the recursive call of `process`. The state is the journal, the tree and the delta. -/
def Journal.processChild (b : Build)
    (descend : Journal × Tree → Node → Except Thrown ((Journal × Tree) × error_condition))
    (node : Node) :
    Nat → Nat → Nat → Nat → Journal × Tree × Delta →
      Except Thrown ((Journal × Tree × Delta) × error_condition) :=
  fun i first last cid (s : Journal × Tree × Delta) => do
    let (j, t, delta) := s
    if !(← j.buffer_.ContainsRange b first last) then
      pure (s, none)
    else if cid = EmptyChild then
      let (t, child) ← t.CreateNode ((node.level + 1) % 2 ^ 32) first last
      let delta ← delta.SetChild i child.id
      let ((j, t), err) ← descend (j, t) child
      pure ((j, t, delta), err)
    else
      let (t, child, err) ← t.GetNode b cid
      match child, err with
      | some child, none =>
        let ((j, t), err) ← descend (j, t) child
        pure ((j, t, delta), err)
      | _, err => pure ((j, t, delta), err)

/-- The multimap `deltas_` as `process` fills it: ascending keys, and the key of an entry
is the level of its node. -/
def Journal.Levelled (ds : List (Nat × Delta)) : Prop :=
  ds.Pairwise (fun a c => a.1 ≤ c.1) ∧ ∀ e ∈ ds, e.2.current_.level = e.1

/-- Every child id of a recorded node was at that position in the node before the flush,
or is the id of a node recorded one level further down. -/
def Journal.Closed (ds : List (Nat × Delta)) : Prop :=
  ∀ e ∈ ds, ∀ i cid, e.2.current_.children.get? i = some cid → cid ≠ EmptyChild →
    (∃ p, e.2.previous_ = some p ∧ p.children.get? i = some cid) ∨
    (∃ f ∈ ds, f.2.current_.id = cid ∧ f.1 = (e.1 + 1) % 2 ^ 32)

/-- The invariant of the loop of `process` over the children of `n`, on the state of the
callback: `ds` are the deltas recorded when `process` was entered, `deg` is the degree of
the key store, `dirty` says that `AddKeys` left the delta dirty. -/
def Journal.LoopInv (ds : List (Nat × Delta)) (n : Node) (deg : Nat) (dirty : Prop)
    (s : Journal × Tree × Delta) : Prop :=
  s.2.1.store_.degree_ = deg ∧
  (∀ x ∈ ds, x ∈ s.1.deltas_) ∧
  (Journal.Levelled ds → Journal.Levelled s.1.deltas_) ∧
  s.2.2.current_.id = n.id ∧ s.2.2.current_.level = n.level ∧
  (s.2.2.previous_ = none ∧ s.2.2.current_ = n ∨ s.2.2.previous_ = some n) ∧
  (dirty → s.2.2.previous_ = some n) ∧
  ((deg + (2 ^ 32 - 1)) % 2 ^ 32 ≠ 0 →
    (Journal.Closed ds → Journal.Closed s.1.deltas_) ∧
    ∀ i cid, s.2.2.current_.children.get? i = some cid → cid ≠ EmptyChild →
      n.children.get? i = some cid ∨
      ∃ f ∈ s.1.deltas_, f.2.current_.id = cid ∧ f.1 = (n.level + 1) % 2 ^ 32)

/-- What a run of `process` that returns no error does to the recorded deltas. -/
def Journal.Records (b : Build) (fuel : Nat) : Prop :=
  ∀ (j : Journal) (t : Tree) (node : Node) (j1 : Journal) (t1 : Tree),
    Journal.process b fuel (j, t) node = .ok ((j1, t1), none) →
      t1.store_.degree_ = t.store_.degree_ ∧
      (∀ x ∈ j.deltas_, x ∈ j1.deltas_) ∧
      (Journal.Levelled j.deltas_ → Journal.Levelled j1.deltas_) ∧
      ((t.store_.degree_ + (2 ^ 32 - 1)) % 2 ^ 32 ≠ 0 →
        (Journal.Closed j.deltas_ → Journal.Closed j1.deltas_) ∧
        ((∀ k ∈ node.keys, k.IsZero = true) → node.keys ≠ [] →
          j.buffer_.ContainsRange b node.first node.last = .ok true →
          ∃ e ∈ j1.deltas_, e.2.current_.id = node.id ∧ e.1 = node.level))

/-- The commit order of the data model: `tree.update` on each node of the list, in list
order, stopping at the first error. -/
def Spec.updateInOrder (b : Build) : List Node → Tree → Except Thrown (Tree × error_condition)
  | [], t => .ok (t, none)
  | n :: rest, t => do
    let (t, err) ← t.Update b n
    if err.isSome then pure (t, err)
    else Spec.updateInOrder b rest t

/-- The journal and the tree that `Process` leaves for the store of the run `afterPut` (an
empty journal on the bare tree if `Process` throws). -/
def Scenario.processed : Journal × Tree :=
  match (Journal.new (Scenario.state Scenario.afterPut).buffer_
      (Scenario.state Scenario.afterPut).values_).Process Scenario.build 8
      (Scenario.state Scenario.afterPut).tree_ with
  | .ok (r, _) => r
  | .error _ => (Journal.new ⟨[]⟩ ⟨⟨[], []⟩, 0⟩, Scenario.bare)

/-- The delta that `Process` records for the root in the run `processed`. -/
def Scenario.rootDelta : Nat × Delta :=
  Scenario.processed.1.deltas_.headD (0, Delta.new (Scenario.node 0))

/-! ## Notions for the node cache -/

/-- One call on a `NodeCache`. -/
inductive CacheCall where
  | Add (node : Node)
  | Get (key : Nat)
  | GetById (id : Nat)
  | Reset

/-- The nodes that a sequence of calls adds. -/
def CacheCall.nodes : List CacheCall → List Node
  | [] => []
  | .Add node :: rest => node :: CacheCall.nodes rest
  | _ :: rest => CacheCall.nodes rest

/-- The cache after one call. -/
def NodeCache.call (b : Build) (c : NodeCache) : CacheCall → Except Thrown NodeCache
  | .Add node => c.Add b node
  | .Get key => do
    let (c1, _) ← c.Get key
    pure c1
  | .GetById id => do
    let _ ← c.GetById id
    pure c
  | .Reset => pure c.Reset

/-- The cache after a sequence of calls, in order. -/
def NodeCache.calls (b : Build) : List CacheCall → NodeCache → Except Thrown NodeCache
  | [], c => .ok c
  | x :: rest, c => do
    let c1 ← c.call b x
    NodeCache.calls b rest c1

/-- Node ids and cache keys name the same nodes: two nodes of the list have the same id
exactly when they have the same level and first key. -/
def Spec.IdsAgree (ns : List Node) : Prop :=
  ∀ n1 ∈ ns, ∀ n2 ∈ ns, (n1.id = n2.id ↔ n1.level = n2.level ∧ n1.first = n2.first)

/-- The invariant of the cache: at most `maxSize_` entries, one entry per cache key and
per node id, every entry stored under the level and first key of its node, and the index
holds exactly the pairs of node id and cache key of the entries. -/
structure NodeCache.Inv (c : NodeCache) : Prop where
  /-- At most `maxSize_` entries. -/
  size : c.nodes_.length ≤ c.maxSize_
  /-- One entry per cache key. -/
  keys : (c.nodes_.map (fun e => e.1)).Nodup
  /-- One entry per node id. -/
  ids : (c.nodes_.map (fun e => e.2.id)).Nodup
  /-- The cache key of an entry is the level and first key of its node. -/
  keyed : ∀ e ∈ c.nodes_, e.1 = ⟨e.2.level, e.2.first⟩
  /-- The index is a rearrangement of the entries. -/
  index : c.index_.Perm (c.nodes_.map (fun e => (e.2.id, e.1)))

/-! ## Notions for the node block -/

/-- The node has `d` child ids and `d - 1` slots, and every field fits its type:
the level and the slot lengths 32 bits, the slot offsets and the child ids 64 bits, the
keys `BITS` bits. -/
structure Node.Fits (b : Build) (n : Node) (d : Nat) : Prop where
  /-- The field `degree_`. -/
  degree : n.degree = d
  /-- One child id per child. -/
  children : n.children.length = d
  /-- One slot less than children. -/
  slots : n.keys.length + 1 = d
  /-- The level is a `std::uint32_t`. -/
  level : n.level < 2 ^ 32
  /-- The lower bound is a key. -/
  first : n.first ≤ KeyUtil.Max b
  /-- The upper bound is a key. -/
  last : n.last ≤ KeyUtil.Max b
  /-- The fields of every slot. -/
  keys : ∀ kv ∈ n.keys, kv.key ≤ KeyUtil.Max b ∧ kv.offset < 2 ^ 64 ∧ kv.length < 2 ^ 32
  /-- The child ids are `std::uint64_t`. -/
  ids : ∀ c ∈ n.children, c < 2 ^ 64

/-! ## Notions for the node -/

/-- A callback for `EachChild` that records the arguments of each call and reports no
error. -/
def Node.recordChild : Nat → Nat → Nat → Nat → List (Nat × Nat × Nat × Nat) →
    Except Thrown (List (Nat × Nat × Nat × Nat) × error_condition) :=
  fun i first last cid s => .ok (s ++ [(i, first, last, cid)], none)

/-! ## Notions for `Delta::AddKeys` -/

/-- The entries of the buffer in state `state` with a key strictly between the bounds, as
slots, in key order: what `GetCandidates` collects for one state. -/
def Buffer.pendingIn (buf : Buffer) (firstKey lastKey : Nat) (state : ValueState) :
    List KeyValue :=
  ((buf.buf_.filter (fun e => decide (firstKey < e.1) && decide (e.1 < lastKey))).filter
    (fun e => e.2.status == state)).map (fun e => (⟨e.1, e.2.offset, e.2.length⟩ : KeyValue))

/-- The set `existing` of `AddKeys`: the slots of the node from `NonZeroBegin()` on, as a
set ordered by key. -/
def Delta.existing (d : Delta) : List KeyValue :=
  (d.current_.keys.drop d.current_.NonZeroBegin).foldl (fun acc kv => setInsert kv acc) []

/-- The set `evictions` of `AddKeys`: the Evicted entries strictly inside the range of the
node. -/
def Delta.evictions (d : Delta) (buffer : Buffer) : List KeyValue :=
  buffer.pendingIn d.current_.first d.current_.last .Evicted

/-- The set `candidates` of `AddKeys` once the duplicates are removed: the Unprocessed
entries strictly inside the range of the node whose key is not the key of a member of
`existing`. -/
def Delta.candidates (d : Delta) (buffer : Buffer) : List KeyValue :=
  (buffer.pendingIn d.current_.first d.current_.last .Unprocessed).filter
    (fun c => !d.existing.any (fun x => x.key == c.key))

/-- The buffer of `AddKeys` once the duplicates are removed: without the Unprocessed
entries strictly inside the range of the node whose key is the key of a member of
`existing`. -/
def Delta.deduped (d : Delta) (buffer : Buffer) : Buffer :=
  ⟨buffer.buf_.filter (fun e => !(e.2.status == .Unprocessed &&
    (decide (d.current_.first < e.1) && decide (e.1 < d.current_.last)) &&
    d.existing.any (fun x => x.key == e.1)))⟩

/-- The slots carry consecutive offsets in 64-bit unsigned arithmetic: the first starts at
`o`, each next one where its predecessor ends, and the last ends at `o1`. -/
def Spec.Consecutive : Nat → List KeyValue → Nat → Prop
  | o, [], o1 => o1 = o
  | o, kv :: rest, o1 => kv.offset = o ∧ Spec.Consecutive ((o + kv.length) % 2 ^ 64) rest o1

/-- The set `combined` of the overflow branch of `AddKeys`: the candidates, then the
evictions, then `existing` inserted into one set. -/
def Delta.combined (d : Delta) (buffer : Buffer) : List KeyValue :=
  d.existing.foldl (fun acc kv => setInsert kv acc)
    ((d.evictions buffer).foldl (fun acc kv => setInsert kv acc) (d.candidates buffer))

/-! ## Nodes and buffers for the closed statements about `AddKeys` -/

/-- A node of degree 4 with the bounds 100 and 500, one empty slot and the keys 310 and
320 in the other two. -/
def Scenario.crowded : Node :=
  ⟨0, 0, 4, 100, 500, [0, 0, 0, 0], [⟨0, 0, 0⟩, ⟨310, 5, 37⟩, ⟨320, 42, 37⟩]⟩

/-- A buffer that holds the Unprocessed keys 150 and 450. -/
def Scenario.arrivals : Buffer :=
  ⟨[(150, ⟨0, 37, [97], .Unprocessed⟩), (450, ⟨0, 38, [98, 99], .Unprocessed⟩)]⟩

/-- The delta that `AddKeys` returns for the node `crowded`, the buffer `arrivals` and the
offset 1000. -/
def Scenario.crowdedDelta : Delta :=
  { existing_ := 2, insertions_ := 2, evictions_ := 1, synthetics_ := 0, children_ := 0,
    current_ := ⟨0, 0, 4, 100, 500, [0, 0, 0, 0],
      [⟨150, 1000, 37⟩, ⟨310, 5, 37⟩, ⟨450, 1037, 38⟩]⟩,
    previous_ := some Scenario.crowded }

/-- The buffer that `AddKeys` returns for the node `crowded`, the buffer `arrivals` and the
offset 1000. -/
def Scenario.arrivalsPlaced : Buffer :=
  ⟨[(150, ⟨1000, 37, [97], .NeedsCommitting⟩), (320, ⟨42, 37, [], .Evicted⟩),
    (450, ⟨1037, 38, [98, 99], .NeedsCommitting⟩)]⟩

/-- A node of degree 4 with the bounds 100 and 500, two empty slots and the key 320. -/
def Scenario.sparse : Node :=
  ⟨0, 0, 4, 100, 500, [0, 0, 0, 0], [⟨0, 0, 0⟩, ⟨0, 0, 0⟩, ⟨320, 42, 37⟩]⟩

/-- A node of degree 4 with the bounds 100 and 500 and no empty slot. -/
def Scenario.packed : Node :=
  ⟨0, 0, 4, 100, 500, [0, 0, 0, 0], [⟨150, 3, 37⟩, ⟨310, 5, 37⟩, ⟨320, 42, 37⟩]⟩

/-- A buffer that holds the Unprocessed keys 150 and 320 and the Evicted key 450. -/
def Scenario.mixed : Buffer :=
  ⟨[(150, ⟨0, 37, [97], .Unprocessed⟩), (320, ⟨0, 37, [97], .Unprocessed⟩),
    (450, ⟨7, 38, [], .Evicted⟩)]⟩

/-! ## Notions for `Tree::Get` -/

/-- The node `m` is a node of the tree below `n`: `n` itself, or a node of the tree below
a child that `n` names and the store holds. -/
def Tree.Member (b : Build) (store : KeyStore) : Nat → Node → Node → Prop
  | 0, _, _ => False
  | depth + 1, n, m =>
    m = n ∨ ∃ i cid c, n.children.get? i = some cid ∧ cid ≠ EmptyChild ∧
      store.Get b cid = .ok (store, some c, none) ∧ Tree.Member b store depth c m

/-- The run: open and clear on a key file whose ninth system call fails with `EIO`, `Put`
of `keyA` with the value of one byte `a`, one flush. The flush writes the new child and
fails to write the root. -/
def Scenario.afterRootFault : Except Thrown (DB × error_condition) := do
  let (db, _) ← DB.Open Scenario.build (DB.new Scenario.build Scenario.options
    ⟨[], List.replicate 8 none ++ [some 5]⟩ ⟨[], []⟩)
  let (db, _) ← DB.Clear Scenario.build db
  let (db, _) ← DB.Put Scenario.build db Scenario.keyA [97]
  DB.flush Scenario.build 8 db

/-! ## Runs for the lower bound of the root and for a child created twice -/

/-- The key of 31 bytes `0x41` and a last byte `0x42`: the number of `keyA` plus one, a key
of the same child interval of the root. -/
def Scenario.keyB : List Nat := List.replicate 31 65 ++ [66]

/-- The run: open and clear on a key file whose ninth system call fails with `EIO`, `Put`
of `keyA`, one flush (it writes the new child of the root at id 232 and fails to write the
root), then `Put` of `keyB`. The next flush finds the root without that child and creates
it again, under the id 464. -/
def Scenario.beforeSecondChild (b : Build) : Except Thrown (DB × List error_condition) := do
  let (db, e0) ← DB.Open b (DB.new b Scenario.options
    ⟨[], List.replicate 8 none ++ [some 5]⟩ ⟨[], []⟩)
  let (db, e1) ← DB.Clear b db
  let (db, e2) ← DB.Put b db Scenario.keyA [97]
  let (db, e3) ← DB.flush b 8 db
  let (db, e4) ← DB.Put b db Scenario.keyB [98]
  pure (db, [e0, e1, e2, e3, e4])

/-- The store as it is opened again on the two files that `db` leaves behind: a new
object with an empty buffer and an empty cache. -/
def Scenario.reopened (b : Build) (db : DB) : Except Thrown (DB × error_condition) :=
  DB.Open b (DB.new b db.options_ db.tree_.store_.file_ db.values_.file_)

/-! ## Notions for the nodes that the key file holds -/

/-- The parameters of a key store as `CreateKeyStore` sets them, for keys of whole limbs
and a block size that fits the 32-bit degree computation and holds at least one slot. -/
structure KeyStore.Sized (b : Build) (k : KeyStore) : Prop where
  /-- A key occupies `BITS / 8` bytes. -/
  whole : b.WholeLimbs
  /-- The block holds the header, one slot and two child ids. -/
  low : 3 * (b.BITS / 8) + 32 ≤ k.block_size_
  /-- The block size is a `std::uint32_t`. -/
  high : k.block_size_ < 2 ^ 32
  /-- The degree is the one the constructor computes. -/
  degree : k.degree_ = Node.CalculateDegree b k.block_size_

/-- The node that the key file holds in the block at `id`: what `Get(id)` reads when the
system call does not fail, provided `id` is a multiple of the block size, the file has a
whole block there and the bounds read are ordered as the constructor of `Node` demands. A
block that was never written has no bytes, or the zero bytes of a hole, which read as the
bounds `0` and `0`: it holds no node. -/
def KeyStore.block (b : Build) (k : KeyStore) (id : Nat) : Option Node :=
  if id % k.block_size_ = 0 then
    match ({ k with file_ := ⟨k.file_.data, []⟩ } : KeyStore).Get b id with
    | .ok (_, some n, none) => if n.first < n.last then some n else none
    | _ => none
  else none

/-- The id refers to a persisted node: the key file holds a node in the block at `id`. -/
def KeyStore.Persisted (b : Build) (k : KeyStore) (id : Nat) : Prop :=
  (k.block b id).isSome = true

/-- The node can be written to the key file without a dangling reference: its id is a
block position, its bounds are ordered, and every child id it holds that is not zero
refers to a persisted node. -/
def KeyStore.Linked (b : Build) (k : KeyStore) (n : Node) : Prop :=
  n.id % k.block_size_ = 0 ∧ n.first < n.last ∧
    ∀ cid ∈ n.children, cid ≠ EmptyChild → k.Persisted b cid

/-- The invariant of the key file: it consists of whole blocks, and every child id that is
not zero and is stored in a persisted node refers to a persisted node. -/
def KeyStore.Intact (b : Build) (k : KeyStore) : Prop :=
  k.file_.data.length % k.block_size_ = 0 ∧
    ∀ id n, k.block b id = some n → ∀ cid ∈ n.children, cid ≠ EmptyChild → k.Persisted b cid

/-- The invariant of the tree between flushes: the key file is intact and holds the root,
the next id to hand out is a block position, and every node in the cache can be written
back without a dangling reference. -/
def Tree.Intact (b : Build) (t : Tree) : Prop :=
  t.store_.Intact b ∧ t.store_.Persisted b Tree.rootId ∧
    t.store_.size_ % t.store_.block_size_ = 0 ∧
    ∀ e ∈ t.cache_.nodes_, t.store_.Linked b e.2

/-- The key store `k` has the block size, the degree and the bytes of `k0`. -/
def KeyStore.Agrees (k0 k : KeyStore) : Prop :=
  k.block_size_ = k0.block_size_ ∧ k.degree_ = k0.degree_ ∧ k.file_.data = k0.file_.data

/-- The tree while `Process` runs on the key store `k0` and the cache `c0`: the cache and
the bytes of the key file are untouched, and the next id to hand out is a block position. -/
def Tree.During (k0 : KeyStore) (c0 : NodeCache) (t : Tree) : Prop :=
  t.cache_ = c0 ∧ k0.Agrees t.store_ ∧ t.store_.size_ % k0.block_size_ = 0

/-- The delta can be committed to the key store `k0`: the id of its node is a block
position, the bounds of its node are ordered, and the node as `process` got it holds no
child id that is not zero and refers to no persisted node. -/
def Journal.Writable (b : Build) (k0 : KeyStore) (e : Nat × Delta) : Prop :=
  e.2.current_.id % k0.block_size_ = 0 ∧ e.2.current_.first < e.2.current_.last ∧
    ∃ p, e.2.previous_ = some p ∧ ∀ cid ∈ p.children, cid ≠ EmptyChild → k0.Persisted b cid

/-- The invariant of the loop of `process` over the children of `node`, on the state of
the callback, for a flush that started on the key store `k0` and the cache `c0`. -/
def Journal.LinkInv (b : Build) (k0 : KeyStore) (c0 : NodeCache) (node : Node)
    (s : Journal × Tree × Delta) : Prop :=
  Tree.During k0 c0 s.2.1 ∧ (∀ e ∈ s.1.deltas_, Journal.Writable b k0 e) ∧
    s.2.2.current_.id = node.id ∧ s.2.2.current_.first = node.first ∧
    s.2.2.current_.last = node.last ∧
    (s.2.2.previous_ = none ∧ s.2.2.current_ = node ∨ s.2.2.previous_ = some node)

/-- What a run of `process` that returns no error does to the tree and to the recorded
deltas, on an intact key store `k0` whose nodes in the cache `c0` are linked: it reads
linked nodes only, creates linked nodes only, and leaves the bytes of the key file and the
cache as they are. -/
def Journal.Links (b : Build) (fuel : Nat) : Prop :=
  ∀ (k0 : KeyStore) (c0 : NodeCache) (j : Journal) (t : Tree) (node : Node) (j1 : Journal)
    (t1 : Tree),
    k0.Sized b → k0.Intact b → (∀ e ∈ c0.nodes_, k0.Linked b e.2) →
    Tree.During k0 c0 t → k0.Linked b node → (∀ e ∈ j.deltas_, Journal.Writable b k0 e) →
    Journal.process b fuel (j, t) node = .ok ((j1, t1), none) →
      Tree.During k0 c0 t1 ∧ ∀ e ∈ j1.deltas_, Journal.Writable b k0 e

/-! ## The commit of the run `processed` -/

/-- The delta that `Process` records for the new child of the root in the run
`processed`. -/
def Scenario.childDelta : Nat × Delta :=
  Scenario.processed.1.deltas_.getLastD (1, Delta.new (Scenario.node 232))

/-- The tree in the middle of the commit of the run `processed`: the loop of `Commit` has
written the new child of the root and not yet the root. -/
def Scenario.childWritten : Tree :=
  match Journal.commitDeltas Scenario.build [Scenario.childDelta] Scenario.processed.2 with
  | .ok (t, _) => t
  | .error _ => Scenario.bare

/-- The journal and the tree that `Commit` leaves for the run `processed`. -/
def Scenario.committed : Journal × Tree :=
  match Scenario.processed.1.Commit Scenario.build Scenario.processed.2 1048576 with
  | .ok (r, _) => r
  | .error _ => Scenario.processed


/-! # Theorems -/

/-! ## Key encoding -/

theorem limbsNeeded_pow (limb P n : Nat) (hPe : 256 ^ limb = P) (hP : 1 < P) :
    KeyUtil.limbsNeeded limb (n + 1) (P ^ (n + 1) - 1) = n + 1 := by
  induction n with
  | zero =>
    rw [KeyUtil.limbsNeeded, hPe, if_pos]
    simp only [zero_add, pow_one]; omega
  | succ m ih =>
    have hp : 0 < P ^ (m + 1) := Nat.pos_pow_of_pos _ (by omega)
    have h1 : ¬ (P ^ (m + 1 + 1) - 1 < P) := by
      have : P ^ (m + 1 + 1) = P ^ (m + 1) * P := pow_succ P (m + 1)
      have h3 : 1 < P ^ (m + 1) := Nat.one_lt_pow (by omega) hP
      have h4 : 2 * P ≤ P ^ (m + 1) * P := Nat.mul_le_mul_right P h3
      omega
    have h4 : (P ^ (m + 1 + 1) - 1) / P = P ^ (m + 1) - 1 := by
      have e : P ^ (m + 1 + 1) - 1 = (P - 1) + (P ^ (m + 1) - 1) * P := by
        have : P ^ (m + 1 + 1) = P ^ (m + 1) * P := pow_succ P (m + 1)
        rw [this, Nat.sub_mul]
        have : P ≤ P ^ (m + 1) * P := by
          calc P = 1 * P := (Nat.one_mul P).symm
            _ ≤ P ^ (m + 1) * P := Nat.mul_le_mul_right P hp
        omega
      rw [e, Nat.add_mul_div_right _ _ (by omega : 0 < P), Nat.div_eq_of_lt (by omega)]
      omega
    rw [KeyUtil.limbsNeeded, hPe, if_neg h1, h4, ih]; omega

theorem limbsNeeded_max (limb n : Nat) (h : 0 < limb) :
    KeyUtil.limbsNeeded limb (n + 1) ((256 ^ limb) ^ (n + 1) - 1) = n + 1 :=
  limbsNeeded_pow limb _ n rfl (Nat.one_lt_pow (by omega) (by norm_num))

theorem limbSize_cases (b : Build) :
    (b.BITS ≤ 8 ∧ KeyUtil.limbSize b = 1) ∨ (8 < b.BITS ∧ b.BITS ≤ 16 ∧ KeyUtil.limbSize b = 2) ∨
    (16 < b.BITS ∧ b.BITS ≤ 32 ∧ KeyUtil.limbSize b = 4) ∨ (32 < b.BITS ∧ KeyUtil.limbSize b = 8) := by
  unfold KeyUtil.limbSize
  split_ifs <;> omega

theorem MaxSize_eq (b : Build) (hb : b.WholeLimbs) : KeyUtil.MaxSize b = b.BITS / 8 := by
  unfold Build.WholeLimbs at hb
  rcases limbSize_cases b with ⟨h1, hl⟩ | ⟨h1, h2, hl⟩ | ⟨h1, h2, hl⟩ | ⟨h1, hl⟩
  · have h64 : b.BITS ≤ 64 := by omega
    simp only [KeyUtil.MaxSize, KeyUtil.size, if_pos h64, hl]; omega
  · have h64 : b.BITS ≤ 64 := by omega
    simp only [KeyUtil.MaxSize, KeyUtil.size, if_pos h64, hl]; omega
  · have h64 : b.BITS ≤ 64 := by omega
    simp only [KeyUtil.MaxSize, KeyUtil.size, if_pos h64, hl]; omega
  · by_cases h64 : b.BITS ≤ 64
    · simp only [KeyUtil.MaxSize, KeyUtil.size, if_pos h64, hl]; omega
    · obtain ⟨n, hn⟩ : ∃ n, b.BITS = 64 * (n + 1) := ⟨b.BITS / 64 - 1, by omega⟩
      have hd : b.BITS / 64 = n + 1 := by omega
      have hpow : (2:Nat) ^ b.BITS = (256 ^ 8) ^ (n + 1) := by
        rw [hn, ← pow_mul]
        have : (256:Nat) = 2 ^ 8 := by norm_num
        rw [this, ← pow_mul]; congr 1; ring
      simp only [KeyUtil.MaxSize, KeyUtil.size, if_neg h64, hl, KeyUtil.Max, hd, hpow]
      rw [limbsNeeded_max 8 n (by norm_num)]; omega

theorem limbSize_dvd (b : Build) (hb : b.WholeLimbs) : (b.BITS / 8) % KeyUtil.limbSize b = 0 := by
  unfold Build.WholeLimbs at hb
  rcases limbSize_cases b with ⟨h1, hl⟩ | ⟨h1, h2, hl⟩ | ⟨h1, h2, hl⟩ | ⟨h1, hl⟩ <;> rw [hl] <;> omega

theorem FromBytes_ok (b : Build) (hb : b.WholeLimbs) (key : List Nat)
    (hk : key.length = b.BITS / 8) : KeyUtil.FromBytes b key = .ok (leValue key.reverse) := by
  unfold KeyUtil.FromBytes
  rw [if_pos]
  rw [hk, MaxSize_eq b hb]
  exact ⟨limbSize_dvd b hb, le_refl _⟩

/-! ## The public operations: validation and the buffer path -/

theorem find_leftInsert (k : Nat) (v : Value) (l : List (Nat × Value))
    (h : l.find? (fun x => x.1 == k) = none) :
    (Buffer.leftInsert (k, v) l).find? (fun x => x.1 == k) = some (k, v) := by
  induction l with
  | nil => simp [Buffer.leftInsert]
  | cons x rest ih =>
    simp only [List.find?_cons] at h
    split at h
    · exact absurd h (by simp)
    · rename_i hx
      have hne : ¬ k = x.1 := by
        intro heq; simp [heq] at hx
      unfold Buffer.leftInsert
      by_cases hlt : k < x.1
      · simp [hlt]
      · simp only [hlt, if_false, hne, List.find?_cons, hx]
        exact ih h

/-- C6. A key whose length differs from `BITS / 8` makes `Put` and `Get` return
`key_wrong_length`, and the whole store state (buffer, tree, value log, counters) and the
caller's output string are left as they were. -/
theorem wrong_length_rejected (b : Build) (fuel : Nat) (db : DB) (key value out : List Nat)
    (h : key.length ≠ DB.key_length b) :
    DB.Put b db key value = .ok (db, some .key_wrong_length) ∧
    DB.Get b fuel db key out = .ok (db, some .key_wrong_length, out) := by
  constructor
  · simp [DB.Put, h]; rfl
  · simp [DB.Get, h]; rfl

theorem wrong_length_rejected_witness :
    DB.Put ⟨256, false⟩ (DB.new ⟨256, false⟩ {} ⟨[], []⟩ ⟨[], []⟩) [65, 66, 67] [118]
      = .ok (DB.new ⟨256, false⟩ {} ⟨[], []⟩ ⟨[], []⟩, some .key_wrong_length) ∧
    DB.Get ⟨256, false⟩ 0 (DB.new ⟨256, false⟩ {} ⟨[], []⟩ ⟨[], []⟩) [65, 66, 67] [118]
      = .ok (DB.new ⟨256, false⟩ {} ⟨[], []⟩ ⟨[], []⟩, some .key_wrong_length, [118]) :=
  wrong_length_rejected ⟨256, false⟩ 0 _ [65, 66, 67] [118] [118] (by decide)

theorem put_get_fresh (b : Build) (hb : b.WholeLimbs) (fuel : Nat) (db : DB)
    (key value out : List Nat)
    (hk : key.length = DB.key_length b) (hv0 : 0 < value.length)
    (hv1 : value.length ≤ 2 ^ 32 - 1)
    (ha : b.NDEBUG = true ∨ value.length ≤ Buffer.maxValueLength b)
    (hfree : ∀ k, KeyUtil.FromBytes b key = .ok k → db.buffer_.find k = none) :
    ∃ db1, DB.Put b db key value = .ok (db1, none) ∧
      DB.Get b fuel db1 key out
        = .ok ({ db1 with buffer_hits_ := db1.buffer_hits_ + 1 }, none, value) := by
  have hF := FromBytes_ok b hb key hk
  have hfind := hfree _ hF
  have hassert : cassert b (decide (value.length ≤ Buffer.maxValueLength b)) = .ok () := by
    unfold cassert
    rcases ha with h | h
    · simp [h]
    · simp [h]
  have hkl : ¬ key.length ≠ DB.key_length b := by simp [hk]
  have hAdd : Buffer.Add b db.buffer_ key value
      = .ok (⟨Buffer.leftInsert (leValue key.reverse,
          ⟨0, (value.length + 4 + b.BITS / 8) % 2 ^ 32, value, .Unprocessed⟩) db.buffer_.buf_⟩,
        (Buffer.leftInsert (leValue key.reverse,
          ⟨0, (value.length + 4 + b.BITS / 8) % 2 ^ 32, value, .Unprocessed⟩)
            db.buffer_.buf_).length) := by
    simp only [Buffer.Add, hF, hfind, hassert, bind, Except.bind, pure, Except.pure]
  refine ⟨{ db with buffer_ := ⟨Buffer.leftInsert (leValue key.reverse,
          ⟨0, (value.length + 4 + b.BITS / 8) % 2 ^ 32, value, .Unprocessed⟩) db.buffer_.buf_⟩ },
    ?_, ?_⟩
  · simp only [DB.Put, if_neg hkl]
    rw [if_neg (by omega), if_neg (by omega)]
    simp only [hAdd, bind, Except.bind, pure, Except.pure]
  · have hG : Buffer.Get b ⟨Buffer.leftInsert (leValue key.reverse,
          ⟨0, (value.length + 4 + b.BITS / 8) % 2 ^ 32, value, .Unprocessed⟩) db.buffer_.buf_⟩ key
        = .ok (some value) := by
      unfold Buffer.find at hfind
      simp only [Buffer.Get, hF, Buffer.find, bind, Except.bind]
      rw [find_leftInsert _ _ _ hfind]
      simp [pure, Except.pure]
    have hv : ¬ value.length = 0 := by omega
    simp only [DB.Get, if_neg hkl, hG, bind, Except.bind, if_neg hv]
    rfl

/-! ## Ordered lists and the iterator range of the buffer -/

theorem takeWhile_length_le {α : Type} (p q : α → Bool) (l : List α)
    (h : ∀ x ∈ l, p x = true → q x = true) :
    (l.takeWhile p).length ≤ (l.takeWhile q).length := by
  induction l with
  | nil => simp
  | cons x rest ih =>
    simp only [List.takeWhile_cons]
    by_cases hp : p x = true
    · have hq := h x (List.mem_cons_self _ _) hp
      simp only [hp, hq, if_true, List.length_cons]
      exact Nat.succ_le_succ (ih (fun y hy => h y (List.mem_cons_of_mem _ hy)))
    · simp [hp]

theorem take_length_takeWhile {α : Type} (p : α → Bool) (l : List α) :
    l.take (l.takeWhile p).length = l.takeWhile p := by
  induction l with
  | nil => simp
  | cons x rest ih =>
    by_cases hp : p x = true
    · simp [List.takeWhile_cons, hp, ih]
    · simp [List.takeWhile_cons, hp]

theorem take_takeWhile_filter_below (l : List (Nat × Value)) (lastKey : Nat)
    (hs : l.Pairwise (fun a c => a.1 < c.1)) :
    l.takeWhile (fun e => decide (e.1 < lastKey)) = l.filter (fun e => decide (e.1 < lastKey)) := by
  induction l with
  | nil => simp
  | cons x rest ih =>
    rw [List.pairwise_cons] at hs
    by_cases hx : x.1 < lastKey
    · simp only [List.takeWhile_cons, List.filter_cons, hx, decide_True, if_true]
      rw [ih hs.2]
    · simp only [List.takeWhile_cons, List.filter_cons, hx, decide_False]
      simp only [Bool.false_eq_true, if_false]
      symm
      rw [List.filter_eq_nil_iff]
      intro y hy
      have := hs.1 y hy
      simp only [decide_eq_true_eq]; omega

theorem range_ordered (l : List (Nat × Value)) (firstKey lastKey : Nat)
    (hs : l.Pairwise (fun a c => a.1 < c.1)) (hfl : firstKey < lastKey) :
    (l.drop (l.takeWhile (fun e => decide (e.1 ≤ firstKey))).length).take
        ((l.takeWhile (fun e => decide (e.1 < lastKey))).length
          - (l.takeWhile (fun e => decide (e.1 ≤ firstKey))).length)
      = l.filter (fun e => decide (firstKey < e.1) && decide (e.1 < lastKey)) := by
  induction l with
  | nil => simp
  | cons x rest ih =>
    have hs' := hs
    rw [List.pairwise_cons] at hs
    by_cases hx : x.1 ≤ firstKey
    · have hx2 : x.1 < lastKey := by omega
      have hx3 : ¬ firstKey < x.1 := by omega
      simp only [List.takeWhile_cons, hx, hx2, decide_True, if_true, List.length_cons,
        List.drop_succ_cons, Nat.add_sub_add_right, List.filter_cons, hx3, decide_False,
        Bool.false_and, Bool.false_eq_true, if_false]
      exact ih hs.2
    · have hx3 : firstKey < x.1 := by omega
      have hall : ∀ y ∈ x :: rest, firstKey < y.1 := by
        intro y hy
        rcases List.mem_cons.mp hy with h | h
        · rw [h]; exact hx3
        · have := hs.1 y h; omega
      have e1 : (x :: rest).takeWhile (fun e => decide (e.1 ≤ firstKey)) = [] := by
        simp [List.takeWhile_cons, hx]
      rw [e1]
      simp only [List.length_nil, List.drop_zero, Nat.sub_zero]
      rw [take_length_takeWhile]
      rw [take_takeWhile_filter_below _ _ hs']
      apply List.filter_congr
      intro y hy
      have := hall y hy
      simp [this]

theorem Buffer.range_eq (buf : Buffer) (firstKey lastKey : Nat) (hs : buf.Ordered)
    (hfl : firstKey < lastKey) :
    buf.range firstKey lastKey
      = .ok (buf.buf_.filter (fun e => decide (firstKey < e.1) && decide (e.1 < lastKey))) := by
  unfold Buffer.range Buffer.lower Buffer.upper
  rw [if_pos, range_ordered _ _ _ hs hfl]
  apply takeWhile_length_le
  intro x _ hx
  simp only [decide_eq_true_eq] at hx ⊢
  omega

/-! ## Sets of slots -/

theorem setInsert_keys (kv : KeyValue) (c : List KeyValue) (x : Nat) :
    (∃ y ∈ setInsert kv c, y.key = x) ↔ (x = kv.key ∨ ∃ y ∈ c, y.key = x) := by
  induction c with
  | nil => simp [setInsert, eq_comm]
  | cons z rest ih =>
    unfold setInsert
    by_cases h1 : kv.key < z.key
    · simp only [h1, if_true, List.mem_cons, exists_eq_or_imp]
      tauto
    · by_cases h2 : kv.key = z.key
      · rw [if_neg h1, if_pos h2]
        simp only [List.mem_cons, exists_eq_or_imp]
        constructor
        · intro h; exact Or.inr h
        · rintro (h | h)
          · exact Or.inl (h2 ▸ h).symm
          · exact h
      · rw [if_neg h1, if_neg h2]
        simp only [List.mem_cons, exists_eq_or_imp, ih]
        tauto

theorem setInsert_sorted (kv : KeyValue) (c : List KeyValue)
    (hs : c.Pairwise (fun a d => a.key < d.key)) :
    (setInsert kv c).Pairwise (fun a d => a.key < d.key) := by
  induction c with
  | nil => simp [setInsert]
  | cons z rest ih =>
    have hs' := hs
    rw [List.pairwise_cons] at hs
    unfold setInsert
    by_cases h1 : kv.key < z.key
    · simp only [h1, if_true]
      rw [List.pairwise_cons]
      refine ⟨?_, hs'⟩
      intro y hy
      rcases List.mem_cons.mp hy with h | h
      · rw [h]; exact h1
      · have := hs.1 y h; omega
    · by_cases h2 : kv.key = z.key
      · rw [if_neg h1, if_pos h2]; exact hs'
      · rw [if_neg h1, if_neg h2]
        rw [List.pairwise_cons]
        refine ⟨?_, ih hs.2⟩
        intro y hy
        have hk : ∃ w ∈ setInsert kv rest, w.key = y.key := ⟨y, hy, rfl⟩
        rw [setInsert_keys] at hk
        rcases hk with h | ⟨w, hw, hwk⟩
        · omega
        · have := hs.1 w hw; omega

theorem foldl_setInsert_sorted (l acc : List KeyValue)
    (hs : acc.Pairwise (fun a d => a.key < d.key)) :
    (l.foldl (fun acc kv => setInsert kv acc) acc).Pairwise (fun a d => a.key < d.key) := by
  induction l generalizing acc with
  | nil => exact hs
  | cons x rest ih => exact ih _ (setInsert_sorted x acc hs)

theorem foldl_setInsert_keys (l acc : List KeyValue) (x : Nat) :
    (∃ y ∈ l.foldl (fun acc kv => setInsert kv acc) acc, y.key = x)
      ↔ ((∃ y ∈ l, y.key = x) ∨ ∃ y ∈ acc, y.key = x) := by
  induction l generalizing acc with
  | nil => simp
  | cons z rest ih =>
    simp only [List.foldl_cons, ih, setInsert_keys, List.mem_cons, exists_eq_or_imp]
    constructor
    · rintro (h | h | h)
      · exact Or.inl (Or.inr h)
      · exact Or.inl (Or.inl h.symm)
      · exact Or.inr h
    · rintro ((h | h) | h)
      · exact Or.inr (Or.inl h.symm)
      · exact Or.inl h
      · exact Or.inr (Or.inr h)

theorem drop_length_takeWhile {α : Type} (p : α → Bool) (l : List α) :
    l.drop (l.takeWhile p).length = l.dropWhile p := by
  induction l with
  | nil => simp
  | cons x rest ih =>
    by_cases hp : p x = true
    · simp [List.takeWhile_cons, List.dropWhile_cons, hp, ih]
    · simp [List.takeWhile_cons, List.dropWhile_cons, hp]

theorem mem_dropWhile_of_not {α : Type} (p : α → Bool) (l : List α) (x : α)
    (hx : x ∈ l) (hp : p x = false) : x ∈ l.dropWhile p := by
  induction l with
  | nil => simp at hx
  | cons z rest ih =>
    by_cases hz : p z = true
    · rw [List.dropWhile_cons, if_pos hz]
      rcases List.mem_cons.mp hx with h | h
      · rw [h, hz] at hp; exact absurd hp (by simp)
      · exact ih h
    · rw [List.dropWhile_cons, if_neg hz]; exact hx

/-- The set `existing` of `AddKeys` holds a slot for every non-zero key of the node. -/
theorem existing_has_key (n : Node) (k : Nat) (hk : k ≠ 0) (hslot : ∃ s ∈ n.keys, s.key = k) :
    ∃ y ∈ (n.keys.drop n.NonZeroBegin).foldl (fun acc kv => setInsert kv acc) [], y.key = k := by
  obtain ⟨s, hs, hsk⟩ := hslot
  rw [foldl_setInsert_keys]
  left
  refine ⟨s, ?_, hsk⟩
  unfold Node.NonZeroBegin
  rw [drop_length_takeWhile]
  apply mem_dropWhile_of_not _ _ _ hs
  simp [KeyValue.IsZero, hsk, hk]

theorem dropWhile_sorted_key (l : List KeyValue) (c : KeyValue)
    (hs : l.Pairwise (fun a d => a.key < d.key)) (hk : ∃ y ∈ l, y.key = c.key) :
    ∃ y rest, l.dropWhile (fun y => KeyValue.lt y c) = y :: rest ∧ y.key = c.key := by
  induction l with
  | nil => obtain ⟨y, hy, _⟩ := hk; simp at hy
  | cons z rest ih =>
    rw [List.pairwise_cons] at hs
    obtain ⟨y, hy, hyk⟩ := hk
    by_cases hz : z.key < c.key
    · have : KeyValue.lt z c = true := by simp [KeyValue.lt, hz]
      rw [List.dropWhile_cons, if_pos this]
      rcases List.mem_cons.mp hy with h | h
      · rw [h] at hyk; omega
      · exact ih hs.2 ⟨y, h, hyk⟩
    · have hlt : ¬ (KeyValue.lt z c = true) := by simp [KeyValue.lt, hz]
      rw [List.dropWhile_cons, if_neg hlt]
      refine ⟨z, rest, rfl, ?_⟩
      rcases List.mem_cons.mp hy with h | h
      · rw [← h]; exact hyk
      · have := hs.1 y h; omega

theorem set_intersection_single (c : KeyValue) (l : List KeyValue)
    (hs : l.Pairwise (fun a d => a.key < d.key)) (hk : ∃ y ∈ l, y.key = c.key) :
    set_intersection [c] l = [c] := by
  obtain ⟨y, rest, hd, hy⟩ := dropWhile_sorted_key l c hs hk
  unfold set_intersection
  rw [hd]
  have : KeyValue.lt c y = false := by simp [KeyValue.lt, hy]
  simp [this, set_intersection]

/-! ## `Delta::AddKeys` on a pending duplicate -/

/-- The step of the loop of `GetCandidates`. -/
theorem candidates_step_skip (l : List (Nat × Value)) (acc : List KeyValue × List KeyValue)
    (h : ∀ e ∈ l, e.2.pending = false) :
    l.foldl (fun (acc : List KeyValue × List KeyValue) kv =>
      if kv.2.status == .Unprocessed then
        (setInsert ⟨kv.1, kv.2.offset, kv.2.length⟩ acc.1, acc.2)
      else if kv.2.status == .Evicted then
        (acc.1, setInsert ⟨kv.1, kv.2.offset, kv.2.length⟩ acc.2)
      else acc) acc = acc := by
  induction l generalizing acc with
  | nil => rfl
  | cons x rest ih =>
    have hx := h x (List.mem_cons_self _ _)
    simp only [Value.pending, Bool.or_eq_false_iff] at hx
    simp only [List.foldl_cons, hx.1, hx.2, Bool.false_eq_true, if_false]
    exact ih _ (fun e he => h e (List.mem_cons_of_mem _ he))

theorem candidates_single (l : List (Nat × Value)) (k : Nat) (v : Value)
    (hnd : l.Nodup) (hmem : (k, v) ∈ l) (hv : v.status = .Unprocessed)
    (honly : ∀ e ∈ l, e.2.pending = true → e = (k, v)) :
    l.foldl (fun (acc : List KeyValue × List KeyValue) kv =>
      if kv.2.status == .Unprocessed then
        (setInsert ⟨kv.1, kv.2.offset, kv.2.length⟩ acc.1, acc.2)
      else if kv.2.status == .Evicted then
        (acc.1, setInsert ⟨kv.1, kv.2.offset, kv.2.length⟩ acc.2)
      else acc) ([], []) = ([⟨k, v.offset, v.length⟩], []) := by
  obtain ⟨s, t, hst⟩ := List.append_of_mem hmem
  subst hst
  have hnd2 := hnd
  rw [List.nodup_append] at hnd2
  obtain ⟨_, hnt, hdis⟩ := hnd2
  rw [List.nodup_cons] at hnt
  have hs : ∀ e ∈ s, e.2.pending = false := by
    intro e he
    by_contra hp
    have hp' : e.2.pending = true := by simpa using hp
    have := honly e (List.mem_append_left _ he) hp'
    subst this
    exact hdis he (List.mem_cons_self _ _)
  have ht : ∀ e ∈ t, e.2.pending = false := by
    intro e he
    by_contra hp
    have hp' : e.2.pending = true := by simpa using hp
    have := honly e (List.mem_append_right _ (List.mem_cons_of_mem _ he)) hp'
    subst this
    exact hnt.1 he
  rw [List.foldl_append, candidates_step_skip s _ hs, List.foldl_cons]
  simp only [hv, beq_self_eq_true, if_true]
  rw [candidates_step_skip t _ ht]
  simp [setInsert]

theorem ordered_nodup (l : List (Nat × Value)) (hs : l.Pairwise (fun a c => a.1 < c.1)) :
    l.Nodup := by
  unfold List.Nodup
  apply List.Pairwise.imp _ hs
  intro a c h heq
  rw [heq] at h
  exact Nat.lt_irrefl _ h

theorem ordered_unique (l : List (Nat × Value)) (hs : l.Pairwise (fun a c => a.1 < c.1))
    (e f : Nat × Value) (he : e ∈ l) (hf : f ∈ l) (hk : e.1 = f.1) : e = f := by
  induction l with
  | nil => simp at he
  | cons x rest ih =>
    rw [List.pairwise_cons] at hs
    rcases List.mem_cons.mp he with h1 | h1 <;> rcases List.mem_cons.mp hf with h2 | h2
    · rw [h1, h2]
    · have := hs.1 f h2; rw [← h1] at this; omega
    · have := hs.1 e h1; rw [← h2] at this; omega
    · exact ih hs.2 h1 h2

/-- C9. When the only pending (Unprocessed or Evicted) buffer entry strictly inside the
range of the node is an Unprocessed entry whose key equals the key of a slot of the node,
`AddKeys` removes exactly that entry from the buffer (`RemoveDuplicate`), leaves the node
(every slot and child id) as it was, does not mark the delta dirty, and returns the running
offset unchanged. -/
theorem AddKeys_drops_pending_duplicate (b : Build) (d : Delta) (buffer : Buffer)
    (offset k : Nat) (v : Value)
    (hord : buffer.Ordered) (hfl : d.current_.first < d.current_.last)
    (hmem : (k, v) ∈ buffer.buf_) (hv : v.status = .Unprocessed)
    (hk1 : d.current_.first < k) (hk2 : k < d.current_.last)
    (honly : ∀ e ∈ buffer.buf_, d.current_.first < e.1 → e.1 < d.current_.last →
      e.2.pending = true → e.1 = k)
    (hslot : ∃ s ∈ d.current_.keys, s.key = k) :
    ∃ d1, d.AddKeys b buffer offset
        = .ok (d1, ⟨buffer.buf_.filter (fun e => e.1 != k)⟩, offset) ∧
      d1.current_ = d.current_ ∧ d1.previous_ = d.previous_ ∧ d1.Dirty = d.Dirty := by
  have hrange := Buffer.range_eq buffer _ _ hord hfl
  have hcand : buffer.GetCandidates d.current_.first d.current_.last [] []
      = .ok ([⟨k, v.offset, v.length⟩], []) := by
    unfold Buffer.GetCandidates
    simp only [hrange, bind, Except.bind, pure, Except.pure]
    congr 1
    apply candidates_single _ k v
    · exact (ordered_nodup _ hord).filter _
    · rw [List.mem_filter]
      exact ⟨hmem, by simp [hk1, hk2]⟩
    · exact hv
    · intro e he hp
      rw [List.mem_filter] at he
      simp only [Bool.and_eq_true, decide_eq_true_eq] at he
      have hek := honly e he.1 he.2.1 he.2.2 hp
      exact ordered_unique _ hord e (k, v) he.1 hmem hek
  have hex := existing_has_key d.current_ k (by omega) hslot
  have hsorted := foldl_setInsert_sorted (d.current_.keys.drop d.current_.NonZeroBegin) []
    List.Pairwise.nil
  have hdup := set_intersection_single ⟨k, v.offset, v.length⟩ _ hsorted hex
  refine ⟨{ d with existing_ := ((d.current_.keys.drop d.current_.NonZeroBegin).foldl
      (fun acc kv => setInsert kv acc) []).length }, ?_, rfl, rfl, rfl⟩
  unfold Delta.AddKeys
  simp only [hcand, bind, Except.bind, pure, Except.pure]
  simp only [List.length_singleton, List.length_nil, Nat.add_zero, Nat.succ_ne_zero, if_false,
    hdup, List.foldl_cons, List.foldl_nil, Buffer.RemoveDuplicate, setErase]
  simp

/-! ## The value-length check of `Put` -/

theorem wholeLimbs_256 (nd : Bool) : (⟨256, nd⟩ : Build).WholeLimbs :=
  Or.inr (Or.inr (Or.inr ⟨by simp, by simp⟩))

/-- What `Put` does with a value longer than `maxValueLength` but not longer than
`2^32 - 1`, on a store with 256-bit keys whose buffer is empty. -/
theorem put_oversized (value : List Nat) (h1 : 4294967259 < value.length)
    (h2 : value.length ≤ 4294967295) :
    (DB.Put Scenario.release (DB.new Scenario.release Scenario.options ⟨[], []⟩ ⟨[], []⟩)
        Scenario.keyA value).map
      (fun r => (r.2, r.1.buffer_.buf_.map (fun e => (e.2.length, e.2.value.length))))
      = .ok (none, [(value.length - 4294967260, value.length)]) ∧
    (DB.Put Scenario.build (DB.new Scenario.build Scenario.options ⟨[], []⟩ ⟨[], []⟩)
        Scenario.keyA value).map Prod.snd
      = .error .assertion := by
  have hlen : Scenario.keyA.length = 32 := by decide
  have hv1 : ¬ value.length > 2 ^ 32 - 1 := by norm_num; omega
  have hv0 : ¬ value.length = 0 := by omega
  have hmod : (value.length + 4 + 256 / 8) % 2 ^ 32 = value.length - 4294967260 := by
    norm_num; omega
  have hmax : Buffer.maxValueLength Scenario.build = 4294967259 := by decide
  constructor
  · have hF := FromBytes_ok Scenario.release (wholeLimbs_256 true) Scenario.keyA (by decide)
    simp only [DB.Put, DB.key_length, Scenario.release, hlen, hv1, hv0] at hF ⊢
    simp only [Buffer.Add, hF, DB.new, Buffer.find, cassert, Buffer.leftInsert, Except.map, bind,
      Except.bind, pure, Except.pure, List.find?_nil, Bool.true_or, if_true, hmod]
    simp
  · have hF := FromBytes_ok Scenario.build (wholeLimbs_256 false) Scenario.keyA (by decide)
    have hle : ¬ value.length ≤ Buffer.maxValueLength ⟨256, false⟩ := by
      have := hmax; simp only [Scenario.build] at this; rw [this]; omega
    simp only [DB.Put, DB.key_length, Scenario.build, hlen, hv1, hv0] at hF ⊢
    simp only [Buffer.Add, hF, DB.new, Buffer.find, cassert, Except.map, bind,
      Except.bind, pure, Except.pure, List.find?_nil, hle]
    simp

/-- C7 (the code at the failing input). With 256-bit keys `maxValueLength` is
`2^32 - 1 - 4 - 32 = 4294967259`, but `Put` compares the value size with `2^32 - 1` only:
a value of `2^32 - 1` bytes is not rejected with `value_too_long`. With `NDEBUG` it is
added to the buffer and the 32-bit record length wraps around to `35`; with asserts
compiled in, the `assert` of `Buffer::Add` fails. -/
theorem put_accepts_value_beyond_maxValueLength :
    Buffer.maxValueLength Scenario.release = 4294967259 ∧
    ((DB.Put Scenario.release (DB.new Scenario.release Scenario.options ⟨[], []⟩ ⟨[], []⟩)
        Scenario.keyA (List.replicate 4294967295 7)).map
      (fun r => (r.2, r.1.buffer_.buf_.map (fun e => (e.2.length, e.2.value.length))))
      = .ok (none, [((List.replicate 4294967295 7).length - 4294967260,
          (List.replicate 4294967295 7).length)]) ∧
    (DB.Put Scenario.build (DB.new Scenario.build Scenario.options ⟨[], []⟩ ⟨[], []⟩)
        Scenario.keyA (List.replicate 4294967295 7)).map Prod.snd
      = .error .assertion) ∧
    (List.replicate 4294967295 7).length - 4294967260 = 35 :=
  ⟨by decide,
   put_oversized (List.replicate 4294967295 7)
    (by rw [List.length_replicate]; omega) (by rw [List.length_replicate]),
   by rw [List.length_replicate]⟩

/-! ## Closed runs of the store -/

/-- C5 (amended). On every store state whose buffer holds no entry for the key, for every
key of `BITS / 8` bytes and every non-empty value that `Put` accepts (at most `2^32 - 1`
bytes, and at most `maxValueLength` bytes when asserts are compiled in), `Put` succeeds and
an immediately following `Get` returns success with exactly that value, served from the
buffer (only the hit counter changes). -/
theorem put_then_get_on_free_key (b : Build) (hb : b.WholeLimbs) (fuel : Nat) (db : DB)
    (key value out : List Nat)
    (hk : key.length = DB.key_length b) (hv0 : 0 < value.length)
    (hv1 : value.length ≤ 2 ^ 32 - 1)
    (ha : b.NDEBUG = true ∨ value.length ≤ Buffer.maxValueLength b)
    (hfree : ∀ k, KeyUtil.FromBytes b key = .ok k → db.buffer_.find k = none) :
    ∃ db1, DB.Put b db key value = .ok (db1, none) ∧
      DB.Get b fuel db1 key out
        = .ok ({ db1 with buffer_hits_ := db1.buffer_hits_ + 1 }, none, value) :=
  put_get_fresh b hb fuel db key value out hk hv0 hv1 ha hfree

theorem put_then_get_on_free_key_witness :
    ∃ db1, DB.Put Scenario.build (DB.new Scenario.build Scenario.options ⟨[], []⟩ ⟨[], []⟩)
        Scenario.keyA [97] = .ok (db1, none) ∧
      DB.Get Scenario.build 0 db1 Scenario.keyA []
        = .ok ({ db1 with buffer_hits_ := db1.buffer_hits_ + 1 }, none, [97]) :=
  put_then_get_on_free_key Scenario.build (wholeLimbs_256 false) 0 _ Scenario.keyA [97] []
    (by decide) (by decide) (by decide) (Or.inr (by decide)) (fun _ _ => rfl)

set_option maxRecDepth 100000 in
/-- C5 (counterexample). On the store state reached by `Put(k, "a")`, the calls
`Put(k, "b")` and then `Get(k)` both succeed, and `Get` returns `"a"`, not `"b"`:
`Buffer::Add` does not overwrite an entry. -/
theorem put_then_get_keeps_first_value :
    (do let (db, _) ← Scenario.opened Scenario.build
        let (db, e1) ← DB.Put Scenario.build db Scenario.keyA [97]
        let (db, e2) ← DB.Put Scenario.build db Scenario.keyA [98]
        let (_, e3, value) ← DB.Get Scenario.build 8 db Scenario.keyA []
        pure (e1, e2, e3, value) :
          Except Thrown (error_condition × error_condition × error_condition × List Nat))
      = .ok (none, none, none, [97]) := by decide!

set_option maxRecDepth 100000 in
/-- C8 (the code at the failing input). The store is opened and cleared without error
(degree 3: block size 232), and `Get` of the key of 32 bytes `0x55`, which is the first
synthetic key `1 + (2^256 - 2) / 3` of the root, does not return `key_not_found`: the tree
finds the synthetic slot, whose length is 0, and `Get` throws
`std::runtime_error("Bad length for: ...")`. -/
theorem get_of_synthetic_key_throws :
    (Scenario.opened Scenario.build).map Prod.snd = .ok none ∧
    KeyUtil.FromBytes Scenario.build Scenario.keyU = .ok (1 + (2 ^ 256 - 2) / 3) ∧
    (do let (db, _) ← Scenario.opened Scenario.build
        let (_, err, value) ← DB.Get Scenario.build 8 db Scenario.keyU []
        pure (err, value) : Except Thrown (error_condition × List Nat))
      = .error .bad_length := by decide!

set_option maxRecDepth 100000 in
/-- C1 (the code at two failing inputs), on a store opened and cleared with degree 3.
First: `Put` of the key of 32 bytes `0x55` (the first synthetic key of the root) with value
`"a"` succeeds and the flush completes without error, but the flush drops the entry as a
duplicate of the synthetic slot, and `Get` throws `std::runtime_error("Bad length ...")`.
Second: `Put` of the key `00...02` with value `"a"` succeeds and the flush completes
without error, but `Get` returns success with the byte `0`, not `"a"`: `ToBytes` wrote
only the 8 bytes of the one limb in use into the record. -/
theorem get_after_flush_fails :
    (do let (db, _) ← Scenario.opened Scenario.build
        let (db, e1) ← DB.Put Scenario.build db Scenario.keyU [97]
        let (_, e2) ← DB.flush Scenario.build 8 db
        pure (e1, e2) : Except Thrown (error_condition × error_condition))
      = .ok (none, none) ∧
    (do let (db, _) ← Scenario.opened Scenario.build
        let (db, _) ← DB.Put Scenario.build db Scenario.keyU [97]
        let (db, _) ← DB.flush Scenario.build 8 db
        let (_, err, value) ← DB.Get Scenario.build 8 db Scenario.keyU []
        pure (err, value) : Except Thrown (error_condition × List Nat))
      = .error .bad_length ∧
    (do let (db, _) ← Scenario.opened Scenario.build
        let (db, e1) ← DB.Put Scenario.build db Scenario.key2 [97]
        let (db, e2) ← DB.flush Scenario.build 8 db
        let (_, err, value) ← DB.Get Scenario.build 8 db Scenario.key2 []
        pure (e1, e2, err, value) :
          Except Thrown (error_condition × error_condition × error_condition × List Nat))
      = .ok (none, none, none, [0]) := by decide!

set_option maxRecDepth 100000 in
/-- C2 (the code at the failing input), on a store opened and cleared with degree 3 and
an empty value log. After `Put` of the key `00...02` with value `"a"`, `Process` moves the
entry to NeedsCommitting with offset 0 and length 37, and `Commit` succeeds and stores 37
bytes at `[0, 37)` of the value log; they are not the record of the entry (length, the 32
key bytes, the value byte): the key takes 8 bytes, the value byte follows at position 12,
and 24 zero bytes pad the rest. -/
theorem committed_record_is_malformed :
    (Scenario.opened Scenario.build).map (fun r => (r.1.values_.size_, r.1.values_.file_.data))
      = .ok (0, []) ∧
    (do let (db, _) ← Scenario.opened Scenario.build
        let (db, _) ← DB.Put Scenario.build db Scenario.key2 [97]
        let ((j1, t1), e1) ← (Journal.new db.buffer_ db.values_).Process Scenario.build 8 db.tree_
        let ((j2, _), e2) ← j1.Commit Scenario.build t1 db.options_.writeBufferSize
        pure (e1, j1.buffer_.buf_, e2, j2.values_.file_.data) :
          Except Thrown (error_condition × List (Nat × Value) × error_condition × List Nat))
      = .ok (none, [(2, ⟨0, 37, [97], .NeedsCommitting⟩)], none,
          [37, 0, 0, 0, 0, 0, 0, 0, 0, 0, 0, 2, 97] ++ List.replicate 24 0) ∧
    Spec.record 37 Scenario.key2 [97] = [37, 0, 0, 0] ++ List.replicate 31 0 ++ [2, 97] ∧
    [37, 0, 0, 0, 0, 0, 0, 0, 0, 0, 0, 2, 97] ++ List.replicate 24 0
      ≠ Spec.record 37 Scenario.key2 [97] := by decide!

set_option maxRecDepth 100000 in
/-- C10 (counterexample). On a store opened and cleared with degree 3: `Put(k, "\x01")`,
a completed flush, `Put(k, "\x02")`, then `Get(k)`: every call succeeds and `Get` returns
the second value, not the first. -/
theorem get_after_second_put_returns_second_value :
    (do let (db, _) ← Scenario.opened Scenario.build
        let (db, e1) ← DB.Put Scenario.build db Scenario.keyA [1]
        let (db, e2) ← DB.flush Scenario.build 8 db
        let (db, e3) ← DB.Put Scenario.build db Scenario.keyA [2]
        let (_, e4, value) ← DB.Get Scenario.build 8 db Scenario.keyA []
        pure (e1, e2, e3, e4, value) :
          Except Thrown (error_condition × error_condition × error_condition ×
            error_condition × List Nat))
      = .ok (none, none, none, none, [2]) := by decide!

theorem AddKeys_drops_pending_duplicate_witness :
    ∃ d1, (Delta.new ⟨0, 0, 3, 1, 100, [0, 0, 0], [⟨0, 0, 0⟩, ⟨50, 7, 40⟩]⟩).AddKeys
        Scenario.build ⟨[(50, ⟨0, 40, [1], .Unprocessed⟩)]⟩ 9
        = .ok (d1, ⟨[(50, (⟨0, 40, [1], .Unprocessed⟩ : Value))].filter (fun e => e.1 != 50)⟩, 9) ∧
      d1.current_ = (Delta.new ⟨0, 0, 3, 1, 100, [0, 0, 0], [⟨0, 0, 0⟩, ⟨50, 7, 40⟩]⟩).current_ ∧
      d1.previous_ = (Delta.new ⟨0, 0, 3, 1, 100, [0, 0, 0], [⟨0, 0, 0⟩, ⟨50, 7, 40⟩]⟩).previous_ ∧
      d1.Dirty = (Delta.new ⟨0, 0, 3, 1, 100, [0, 0, 0], [⟨0, 0, 0⟩, ⟨50, 7, 40⟩]⟩).Dirty :=
  AddKeys_drops_pending_duplicate Scenario.build
    (Delta.new ⟨0, 0, 3, 1, 100, [0, 0, 0], [⟨0, 0, 0⟩, ⟨50, 7, 40⟩]⟩)
    ⟨[(50, ⟨0, 40, [1], .Unprocessed⟩)]⟩ 9 50 ⟨0, 40, [1], .Unprocessed⟩
    (by simp [Buffer.Ordered]) (by decide) (by simp) rfl (by decide) (by decide)
    (by intro e he _ _ _; simp at he; rw [he])
    ⟨⟨50, 7, 40⟩, by simp [Delta.new], rfl⟩

/-! ## `NodeCache::Add` on a quiet cache -/

theorem NodeCache.Add_quiet (b : Build) (c : NodeCache) (node : Node) (h : c.Quiet b) :
    ∃ c1, c.Add b node = .ok c1 ∧ c1.Quiet b := by
  unfold NodeCache.Quiet at h
  by_cases h0 : c.maxSize_ = 0
  · exact ⟨c, by simp [NodeCache.Add, h0, pure, Except.pure], Or.inr h0⟩
  · have hn : b.NDEBUG = true := by
      rcases h with h | h
      · exact h
      · exact absurd h h0
    have hassert : ∀ x, cassert b x = .ok () := by
      intro x; simp [cassert, hn]
    unfold NodeCache.Add
    simp only [if_neg h0]
    cases hf : c.nodes_.find? (fun e => e.1 == (⟨node.level, node.first⟩ : CacheKey)) with
    | some it =>
      simp only [hassert, bind, Except.bind, pure, Except.pure]
      exact ⟨_, rfl, Or.inl hn⟩
    | none =>
      simp only [hassert, bind, Except.bind, pure, Except.pure]
      by_cases hl : c.nodes_.length = c.maxSize_
      · cases hnodes : c.nodes_ with
        | nil => rw [hnodes] at hl; simp at hl; exact absurd hl.symm h0
        | cons ev rest =>
          rw [hnodes] at hl
          simp only [hl, if_true]
          exact ⟨_, rfl, Or.inl hn⟩
      · simp only [hl, if_false]
        exact ⟨_, rfl, Or.inl hn⟩

/-! ## `Node::EachChild` -/

theorem eachChildLoop_append {σ : Type} (n : Node)
    (f : Nat → Nat → Nat → Nat → σ → Except Thrown (σ × error_condition))
    (l1 l2 : List Nat) (s : σ) :
    Node.eachChildLoop n f (l1 ++ l2) s
      = (Node.eachChildLoop n f l1 s >>= fun r =>
          if r.2.isSome then pure r else Node.eachChildLoop n f l2 r.1) := by
  induction l1 generalizing s with
  | nil => simp [Node.eachChildLoop, bind, Except.bind]
  | cons i rest ih =>
    simp only [List.cons_append, Node.eachChildLoop, bind, Except.bind]
    cases hstep : Node.eachChildStep n f i s with
    | error e => rfl
    | ok r =>
      obtain ⟨s1, err⟩ := r
      simp only
      cases err with
      | some e => simp [pure, Except.pure]
      | none =>
        simp only [Option.isSome_none, Bool.false_eq_true, if_false]
        exact ih s1

theorem eachChildLoop_skip {σ : Type} (n : Node)
    (f : Nat → Nat → Nat → Nat → σ → Except Thrown (σ × error_condition))
    (l : List Nat) (s : σ)
    (h : ∀ i ∈ l, Node.eachChildStep n f i s = .ok (s, none)) :
    Node.eachChildLoop n f l s = .ok (s, none) := by
  induction l with
  | nil => rfl
  | cons i rest ih =>
    simp only [Node.eachChildLoop, bind, Except.bind, h i (List.mem_cons_self _ _)]
    simp only [Option.isSome_none, Bool.false_eq_true, if_false]
    exact ih (fun j hj => h j (List.mem_cons_of_mem _ hj))

theorem keysAt_eq (n : Node) (i : Nat) (h : i < n.keys.length) :
    n.keysAt i = .ok (n.keys.getD i KeyValue.zero) := by
  unfold Node.keysAt
  rw [List.get?_eq_get h]
  simp [List.getD_eq_getElem?_getD, List.getElem?_eq_getElem h]

theorem childrenAt_eq (n : Node) (i : Nat) (h : i < n.children.length) :
    n.childrenAt i = .ok (n.children.getD i EmptyChild) := by
  unfold Node.childrenAt
  rw [List.get?_eq_get h]
  simp [List.getD_eq_getElem?_getD, List.getElem?_eq_getElem h]

theorem eachChildStep_eq {σ : Type} (n : Node)
    (f : Nat → Nat → Nat → Nat → σ → Except Thrown (σ × error_condition))
    (hshape : n.children.length = n.keys.length + 1) (hslots : 1 ≤ n.keys.length)
    (i : Nat) (hi : i < n.children.length) (s : σ) :
    Node.eachChildStep n f i s
      = if n.visits i then f i (n.lo i) (n.hi i) (n.children.getD i EmptyChild) s
        else .ok (s, none) := by
  unfold Node.eachChildStep Node.visits Node.lo Node.hi Node.Degree
  by_cases h0 : i = 0
  · subst h0
    have hne : ¬ (0 = n.children.length - 1) := by omega
    simp only [if_true, keysAt_eq n 0 (by omega), childrenAt_eq n 0 hi, bind, Except.bind,
      if_neg hne]
    cases (n.keys.getD 0 KeyValue.zero).IsZero <;> simp [pure, Except.pure]
  · by_cases hl : i = n.children.length - 1
    · simp only [if_neg h0, if_pos hl, keysAt_eq n (i - 1) (by omega), childrenAt_eq n i hi,
        bind, Except.bind]
      cases (n.keys.getD (i - 1) KeyValue.zero).IsZero <;> simp [pure, Except.pure]
    · simp only [if_neg h0, if_neg hl, keysAt_eq n (i - 1) (by omega),
        keysAt_eq n i (by omega), childrenAt_eq n i hi, bind, Except.bind]
      cases (n.keys.getD (i - 1) KeyValue.zero).IsZero <;>
        cases (n.keys.getD i KeyValue.zero).IsZero <;> simp [pure, Except.pure]

/-! ## Child intervals of a node that satisfies the invariants -/

theorem sorted_getD_le (l : List KeyValue) (hs : l.Pairwise (fun a c => a.key ≤ c.key))
    (i j : Nat) (hij : i ≤ j) (hj : j < l.length) :
    (l.getD i KeyValue.zero).key ≤ (l.getD j KeyValue.zero).key := by
  rcases Nat.eq_or_lt_of_le hij with h | h
  · subst h; exact le_refl _
  · rw [List.pairwise_iff_getElem] at hs
    have := hs i j (by omega) hj h
    simpa [List.getD_eq_getElem?_getD, List.getElem?_eq_getElem hj,
      List.getElem?_eq_getElem (show i < l.length by omega)] using this

theorem getD_mem (l : List KeyValue) (i : Nat) (h : i < l.length) :
    l.getD i KeyValue.zero ∈ l := by
  simp [List.getD_eq_getElem?_getD, List.getElem?_eq_getElem h]

theorem interval_disjoint (n : Node) (hinv : n.Invariant) (i m : Nat) (him : i < m)
    (hm : m < n.children.length) : n.hi i ≤ n.lo m := by
  unfold Node.hi Node.lo
  have hs := hinv.shape
  rw [if_neg (by omega), if_neg (by omega)]
  exact sorted_getD_le _ hinv.sorted i (m - 1) (by omega) (by omega)

theorem interval_unique (n : Node) (hinv : n.Invariant) (k i m : Nat)
    (hi : i < n.children.length) (hm : m < n.children.length)
    (h1 : n.lo i < k ∧ k < n.hi i) (h2 : n.lo m < k ∧ k < n.hi m) : i = m := by
  rcases Nat.lt_trichotomy i m with h | h | h
  · have := interval_disjoint n hinv i m h hm; omega
  · exact h
  · have := interval_disjoint n hinv m i h hi; omega

/-- A node with a non-zero child id has no zero slot. -/
theorem full_of_child (n : Node) (hinv : n.Invariant) (i cid : Nat)
    (hc : n.children.get? i = some cid) (hne : cid ≠ EmptyChild) :
    ∀ s ∈ n.keys, s.key ≠ 0 := by
  intro s hs hz
  have := hinv.leaf ⟨s, hs, hz⟩ cid (List.get?_mem hc)
  exact hne this

theorem visits_of_full (n : Node) (hinv : n.Invariant) (hfull : ∀ s ∈ n.keys, s.key ≠ 0)
    (i : Nat) (hi : i < n.children.length) : n.visits i = true := by
  have hs := hinv.shape
  have hsl := hinv.slots
  have hnz : ∀ j, j < n.keys.length → (n.keys.getD j KeyValue.zero).IsZero = false := by
    intro j hj
    have := hfull _ (getD_mem n.keys j hj)
    simp only [KeyValue.IsZero, beq_eq_false_iff_ne, ne_eq]
    exact this
  unfold Node.visits
  by_cases h0 : i = 0
  · subst h0
    rw [if_pos rfl, hnz 0 (by omega)]; rfl
  · by_cases hl : i = n.children.length - 1
    · rw [if_neg h0, if_pos hl, hnz _ (by omega)]; rfl
    · rw [if_neg h0, if_neg hl, hnz _ (by omega), hnz _ (by omega)]; rfl

theorem interval_inside (n : Node) (hinv : n.Invariant) (hfull : ∀ s ∈ n.keys, s.key ≠ 0)
    (i : Nat) (hi : i < n.children.length) : n.first ≤ n.lo i ∧ n.hi i ≤ n.last := by
  have hs := hinv.shape
  unfold Node.lo Node.hi
  constructor
  · by_cases h0 : i = 0
    · simp [h0]
    · rw [if_neg h0]
      have hm := getD_mem n.keys (i - 1) (by omega)
      exact le_of_lt (hinv.inside _ hm (hfull _ hm)).1
  · by_cases hl : i = n.children.length - 1
    · simp [hl]
    · rw [if_neg hl]
      have hm := getD_mem n.keys i (by omega)
      exact le_of_lt (hinv.inside _ hm (hfull _ hm)).2

/-- Every non-zero key that occupies a slot of a tree lies strictly inside the bounds of
its root. -/
theorem Holds_inside (b : Build) (store : KeyStore) (depth : Nat) (n : Node) (k : Nat)
    (hk : k ≠ 0) (hwf : Tree.WellFormed b store depth n) (hh : Tree.Holds b store depth n k) :
    n.first < k ∧ k < n.last := by
  induction depth generalizing n with
  | zero => exact absurd hh (by simp [Tree.Holds])
  | succ d ih =>
    obtain ⟨hinv, hchild⟩ := hwf
    rcases hh with ⟨s, hs, hsk⟩ | ⟨i, cid, c, hc, hne, hget, hhc⟩
    · exact hsk ▸ hinv.inside s hs (hsk ▸ hk)
    · obtain ⟨c', hget', hf, hl, hwfc⟩ := hchild i cid hc hne
      rw [hget] at hget'
      have hcc : c = c' := by
        injection hget' with h1
        injection h1 with _ h2
        injection h2 with h3
        injection h3
      subst hcc
      have hin := ih c hwfc hhc
      have hi : i < n.children.length := by
        rw [List.get?_eq_some] at hc
        exact hc.1
      have hb := interval_inside n hinv (full_of_child n hinv i cid hc hne) i hi
      rw [hf, hl] at hin
      omega

/-! ## The descent of `Tree::get` -/

theorem eachChildLoop_at {σ : Type} (n : Node)
    (f : Nat → Nat → Nat → Nat → σ → Except Thrown (σ × error_condition))
    (l1 l2 : List Nat) (m : Nat) (s0 s1 : σ) (e : error_condition)
    (h1 : ∀ i ∈ l1, ∀ s, Node.eachChildStep n f i s = .ok (s, none))
    (h2 : ∀ i ∈ l2, ∀ s, Node.eachChildStep n f i s = .ok (s, none))
    (hm : Node.eachChildStep n f m s0 = .ok (s1, e)) :
    Node.eachChildLoop n f (l1 ++ m :: l2) s0 = .ok (s1, e) := by
  rw [eachChildLoop_append, eachChildLoop_skip n f l1 s0 (fun i hi => h1 i hi s0)]
  simp only [bind, Except.bind, Option.isSome_none, Bool.false_eq_true, if_false,
    Node.eachChildLoop, hm]
  cases e with
  | some x => simp [pure, Except.pure]
  | none =>
    simp only [Option.isSome_none, Bool.false_eq_true, if_false]
    exact eachChildLoop_skip n f l2 s1 (fun i hi => h2 i hi s1)

theorem getChild_miss (b : Build)
    (descend : Tree → Node → Except Thrown (Tree × KeyValue × error_condition))
    (key i lo hi cid : Nat) (s : Tree × KeyValue × Bool) (h : ¬ (lo < key ∧ key < hi)) :
    Tree.getChild b descend key i lo hi cid s = .ok (s, none) := by
  unfold Tree.getChild
  have : ¬ (key > lo ∧ key < hi) := h
  rw [if_neg this]; rfl

theorem getChild_empty (b : Build)
    (descend : Tree → Node → Except Thrown (Tree × KeyValue × error_condition))
    (key i lo hi : Nat) (s : Tree × KeyValue × Bool) (h : lo < key ∧ key < hi) :
    Tree.getChild b descend key i lo hi EmptyChild s = .ok (s, some .key_not_found) := by
  unfold Tree.getChild
  have : key > lo ∧ key < hi := h
  rw [if_pos this, if_pos rfl]; rfl

theorem getChild_descend (b : Build)
    (descend : Tree → Node → Except Thrown (Tree × KeyValue × error_condition))
    (key i lo hi cid : Nat) (s : Tree × KeyValue × Bool) (h : lo < key ∧ key < hi)
    (hne : cid ≠ EmptyChild) (store : KeyStore) (c : Node) (cache : NodeCache)
    (t2 : Tree) (kv : KeyValue) (err : error_condition)
    (hget : s.1.store_.Get b cid = .ok (store, some c, none))
    (hadd : s.1.cache_.Add b c = .ok cache)
    (hdesc : descend { store_ := store, cache_ := cache } c = .ok (t2, kv, err)) :
    Tree.getChild b descend key i lo hi cid s = .ok ((t2, kv, true), err) := by
  unfold Tree.getChild
  have : key > lo ∧ key < hi := h
  rw [if_pos this, if_neg hne]
  simp only [hget, bind, Except.bind, hadd, hdesc, pure, Except.pure]

theorem range_split (D m : Nat) (hm : m < D) :
    ∃ l1 l2, List.range D = l1 ++ m :: l2 ∧ (∀ i ∈ l1, i < D ∧ i ≠ m) ∧
      (∀ i ∈ l2, i < D ∧ i ≠ m) := by
  obtain ⟨l1, l2, h⟩ := List.append_of_mem (List.mem_range.mpr hm)
  refine ⟨l1, l2, h, ?_, ?_⟩
  · intro i hi
    have hmem : i ∈ List.range D := by rw [h]; exact List.mem_append_left _ hi
    refine ⟨List.mem_range.mp hmem, ?_⟩
    intro heq
    have hnd := List.nodup_range D
    rw [h, List.nodup_append] at hnd
    exact hnd.2.2 hi (heq ▸ List.mem_cons_self _ _)
  · intro i hi
    have hmem : i ∈ List.range D := by
      rw [h]; exact List.mem_append_right _ (List.mem_cons_of_mem _ hi)
    refine ⟨List.mem_range.mp hmem, ?_⟩
    intro heq
    have hnd := List.nodup_range D
    rw [h, List.nodup_append] at hnd
    have := (List.nodup_cons.mp hnd.2.1).1
    exact this (heq ▸ hi)

theorem get_some_of_getD (l : List Nat) (i cid : Nat) (h : l.get? i = some cid) :
    l.getD i EmptyChild = cid ∧ i < l.length := by
  rw [List.get?_eq_some] at h
  obtain ⟨hi, hg⟩ := h
  refine ⟨?_, hi⟩
  rw [List.getD_eq_getElem?_getD, List.getElem?_eq_getElem hi]
  simpa using hg

theorem get_of_getD (l : List Nat) (i : Nat) (h : i < l.length) :
    l.get? i = some (l.getD i EmptyChild) := by
  rw [List.get?_eq_get h, List.getD_eq_getElem?_getD, List.getElem?_eq_getElem h]
  simp

theorem store_get_inj {store s1 s2 : KeyStore} {b : Build} {cid : Nat} {c1 c2 : Node}
    (h1 : store.Get b cid = .ok (s1, some c1, none))
    (h2 : store.Get b cid = .ok (s2, some c2, none)) : c1 = c2 := by
  rw [h1] at h2
  injection h2 with h
  injection h with _ h
  injection h with h
  injection h

theorem find_none_slot (n : Node) (k : Nat) (h : n.Find k = none) : ∀ s ∈ n.keys, s.key ≠ k := by
  intro s hs heq
  unfold Node.Find at h
  rw [List.find?_eq_none] at h
  have := h s hs
  simp [heq] at this

theorem find_some_slot (n : Node) (k : Nat) (kv : KeyValue) (h : n.Find k = some kv) :
    kv ∈ n.keys ∧ kv.key = k := by
  unfold Node.Find at h
  refine ⟨List.mem_of_find?_eq_some h, ?_⟩
  have := List.find?_some h
  simpa using this

/-- The descent of `get` from a node of a well-formed tree, for a non-zero key: it
returns, leaves the store as it was, and reports exactly whether the key occupies a slot
of the tree below the node. -/
theorem get_descent (b : Build) (store : KeyStore) (k : Nat) (hk : k ≠ 0) (depth : Nat) :
    ∀ (fuel : Nat) (t : Tree) (n : Node), depth ≤ fuel → t.store_ = store → t.cache_.Quiet b →
      Tree.WellFormed b store depth n →
      ∃ t1 kv err, Tree.get b fuel t n k = .ok (t1, kv, err) ∧ t1.store_ = store ∧
        t1.cache_.Quiet b ∧
        ((Tree.Holds b store depth n k ∧ err = none ∧ kv.key = k) ∨
         (¬ Tree.Holds b store depth n k ∧ err = some .key_not_found)) := by
  induction depth with
  | zero => intro fuel t n _ _ _ hwf; exact absurd hwf (by simp [Tree.WellFormed])
  | succ d ih =>
    intro fuel t n hfuel hst hq hwf
    obtain ⟨fuel', rfl⟩ : ∃ f, fuel = f + 1 := ⟨fuel - 1, by omega⟩
    obtain ⟨hinv, hchild⟩ := hwf
    rw [Tree.get]
    cases hfind : n.Find k with
    | some kv =>
      obtain ⟨hmem, hkey⟩ := find_some_slot n k kv hfind
      exact ⟨t, kv, none, rfl, hst, hq, Or.inl ⟨Or.inl ⟨kv, hmem, hkey⟩, rfl, hkey⟩⟩
    | none =>
      have hnoslot := find_none_slot n k hfind
      simp only
      -- a child that holds the key is visited and its interval contains the key
      have hholds : ∀ i cid c, n.children.get? i = some cid → cid ≠ EmptyChild →
          store.Get b cid = .ok (store, some c, none) → Tree.Holds b store d c k →
          i < n.children.length ∧ n.visits i = true ∧ n.lo i < k ∧ k < n.hi i := by
        intro i cid c hc hne hget hh
        obtain ⟨c', hget', hf, hl, hwfc⟩ := hchild i cid hc hne
        have hcc := store_get_inj hget hget'
        subst hcc
        have hin := Holds_inside b store d c k hk hwfc hh
        have hi := (get_some_of_getD _ _ _ hc).2
        refine ⟨hi, visits_of_full n hinv (full_of_child n hinv i cid hc hne) i hi, ?_, ?_⟩
        · rw [← hf]; exact hin.1
        · rw [← hl]; exact hin.2
      have hstep_miss : ∀ i, i < n.children.length → ¬ (n.visits i = true ∧ n.lo i < k ∧ k < n.hi i) →
          ∀ s, Node.eachChildStep n
            (Tree.getChild b (fun t child => Tree.get b fuel' t child k) k) i s = .ok (s, none) := by
        intro i hi hnm s
        rw [eachChildStep_eq n _ hinv.shape hinv.slots i hi]
        by_cases hv : n.visits i = true
        · rw [if_pos hv]
          exact getChild_miss b _ k i _ _ _ s (fun h => hnm ⟨hv, h⟩)
        · rw [if_neg hv]
      unfold Node.EachChild Node.Degree
      by_cases hex : ∃ m, m < n.children.length ∧ n.visits m = true ∧ n.lo m < k ∧ k < n.hi m
      · obtain ⟨m, hm, hvm, hkm⟩ := hex
        obtain ⟨l1, l2, hsplit, hl1, hl2⟩ := range_split n.children.length m hm
        have hskip : ∀ i, i < n.children.length ∧ i ≠ m → ∀ s, Node.eachChildStep n
            (Tree.getChild b (fun t child => Tree.get b fuel' t child k) k) i s = .ok (s, none) := by
          intro i hi s
          apply hstep_miss i hi.1
          intro hmatch
          exact hi.2 (interval_unique n hinv k i m hi.1 hm hmatch.2 hkm)
        have honly : ∀ i cid c, n.children.get? i = some cid → cid ≠ EmptyChild →
            store.Get b cid = .ok (store, some c, none) → Tree.Holds b store d c k → i = m := by
          intro i cid c hc hne hget hh
          obtain ⟨hi, _, hki⟩ := hholds i cid c hc hne hget hh
          exact interval_unique n hinv k i m hi hm hki hkm
        rw [hsplit]
        by_cases hcid : n.children.getD m EmptyChild = EmptyChild
        · -- the covering interval has no child
          have hm_step : Node.eachChildStep n
              (Tree.getChild b (fun t child => Tree.get b fuel' t child k) k) m
              (t, KeyValue.zero, false) = .ok ((t, KeyValue.zero, false), some .key_not_found) := by
            rw [eachChildStep_eq n _ hinv.shape hinv.slots m hm, if_pos hvm, hcid]
            exact getChild_empty b _ k m _ _ _ hkm
          rw [eachChildLoop_at n _ l1 l2 m _ _ _ (fun i hi => hskip i (hl1 i hi))
            (fun i hi => hskip i (hl2 i hi)) hm_step]
          refine ⟨t, KeyValue.zero, some .key_not_found, rfl, hst, hq, Or.inr ⟨?_, rfl⟩⟩
          rintro (⟨s, hs, hsk⟩ | ⟨i, cid, c, hc, hne, hget, hh⟩)
          · exact hnoslot s hs hsk
          · have := honly i cid c hc hne hget hh
            subst this
            exact hne ((get_some_of_getD _ _ _ hc).1 ▸ hcid)
        · -- the covering interval has a child: descend
          have hc := get_of_getD n.children m hm
          obtain ⟨c, hget, hf, hl, hwfc⟩ := hchild m _ hc hcid
          obtain ⟨cache1, hadd, hq1⟩ := NodeCache.Add_quiet b t.cache_ c hq
          obtain ⟨t2, kv, err, hrec, hst2, hq2, hres⟩ :=
            ih fuel' { store_ := store, cache_ := cache1 } c (by omega) rfl hq1 hwfc
          have hm_step : Node.eachChildStep n
              (Tree.getChild b (fun t child => Tree.get b fuel' t child k) k) m
              (t, KeyValue.zero, false) = .ok ((t2, kv, true), err) := by
            rw [eachChildStep_eq n _ hinv.shape hinv.slots m hm, if_pos hvm]
            exact getChild_descend b _ k m _ _ _ _ hkm hcid store c cache1 t2 kv err
              (by rw [hst]; exact hget) hadd hrec
          rw [eachChildLoop_at n _ l1 l2 m _ _ _ (fun i hi => hskip i (hl1 i hi))
            (fun i hi => hskip i (hl2 i hi)) hm_step]
          refine ⟨t2, kv, err, ?_, hst2, hq2, ?_⟩
          · simp [bind, Except.bind, pure, Except.pure]
          · rcases hres with ⟨hh, he, hkv⟩ | ⟨hnh, he⟩
            · exact Or.inl ⟨Or.inr ⟨m, _, c, hc, hcid, hget, hh⟩, he, hkv⟩
            · refine Or.inr ⟨?_, he⟩
              rintro (⟨s, hs, hsk⟩ | ⟨i, cid, c', hc', hne, hget', hh⟩)
              · exact hnoslot s hs hsk
              · have := honly i cid c' hc' hne hget' hh
                subst this
                rw [hc] at hc'
                injection hc' with hc'
                subst hc'
                have := store_get_inj hget hget'
                subst this
                exact hnh hh
      · -- no interval covers the key
        rw [eachChildLoop_skip n _ _ _ (fun i hi => hstep_miss i (List.mem_range.mp hi)
          (fun h => hex ⟨i, List.mem_range.mp hi, h⟩) _)]
        refine ⟨t, KeyValue.zero, some .key_not_found, rfl, hst, hq, Or.inr ⟨?_, rfl⟩⟩
        rintro (⟨s, hs, hsk⟩ | ⟨i, cid, c, hc, hne, hget, hh⟩)
        · exact hnoslot s hs hsk
        · obtain ⟨hi, hv, hki⟩ := hholds i cid c hc hne hget hh
          exact hex ⟨i, hi, hv, hki⟩

/-! ## `Tree::get` from the root -/

/-- C3 (amended). In a well-formed tree (every node satisfies the node invariants, every
child is stored and carries the bounds of its parent's child interval), for every key
other than the all-zero key, `get` started at the root returns: with no error and a slot
whose key is the key asked for if the key occupies a slot of some node of the tree, and
with `key_not_found` otherwise. (The node cache must not abort: asserts compiled out, or
the cache switched off. The fuel need only reach the depth of the tree.) -/
theorem get_from_root (b : Build) (t : Tree) (root : Node) (k depth fuel : Nat)
    (hk : k ≠ 0) (hfuel : depth ≤ fuel) (hq : t.cache_.Quiet b)
    (hwf : Tree.WellFormed b t.store_ depth root) :
    (Tree.Holds b t.store_ depth root k →
      ∃ t1 slot, Tree.get b fuel t root k = .ok (t1, slot, none) ∧ slot.key = k) ∧
    (¬ Tree.Holds b t.store_ depth root k →
      ∃ t1 slot, Tree.get b fuel t root k = .ok (t1, slot, some .key_not_found)) := by
  obtain ⟨t1, kv, err, hget, _, _, hres⟩ :=
    get_descent b t.store_ k hk depth fuel t root hfuel rfl hq hwf
  constructor
  · intro hh
    rcases hres with ⟨_, he, hkv⟩ | ⟨hnh, _⟩
    · exact ⟨t1, kv, he ▸ hget, hkv⟩
    · exact absurd hh hnh
  · intro hnh
    rcases hres with ⟨hh, _, _⟩ | ⟨_, he⟩
    · exact absurd hh hnh
    · exact ⟨t1, kv, he ▸ hget⟩

theorem wellFormed_leaf (b : Build) (store : KeyStore) (d : Nat) (n : Node)
    (hinv : n.Invariant) (hleaf : ∀ c ∈ n.children, c = EmptyChild) :
    Tree.WellFormed b store (d + 1) n := by
  refine ⟨hinv, ?_⟩
  intro i cid hc hne
  exact absurd (hleaf cid (List.get?_mem hc)) hne

set_option maxRecDepth 100000 in
theorem scenario_root :
    Scenario.node 0 = ⟨0, 0, 3, 1, 2 ^ 256 - 1, [232, 0, 0],
      [⟨1 + (2 ^ 256 - 2) / 3, 2 ^ 64 - 1, 0⟩, ⟨1 + 2 * ((2 ^ 256 - 2) / 3), 2 ^ 64 - 1, 0⟩]⟩ := by
  decide!

set_option maxRecDepth 100000 in
theorem scenario_child :
    Scenario.node 232 = ⟨232, 1, 3, 1, 1 + (2 ^ 256 - 2) / 3, [0, 0, 0],
      [⟨0, 0, 0⟩, ⟨2 ^ 256 / 255 * 65, 0, 37⟩]⟩ := by
  decide!

set_option maxRecDepth 100000 in
theorem scenario_store_get :
    Scenario.store.Get Scenario.build 232 = .ok (Scenario.store, some (Scenario.node 232), none) := by
  decide!

theorem scenario_child_invariant : (Scenario.node 232).Invariant := by
  rw [scenario_child]
  exact { shape := by decide, slots := by decide, sorted := by decide, unique := by decide,
          bounds := by decide, inside := by decide, leaf := by decide }

theorem scenario_root_invariant : (Scenario.node 0).Invariant := by
  rw [scenario_root]
  exact { shape := by decide, slots := by decide, sorted := by decide, unique := by decide,
          bounds := by decide, inside := by decide, leaf := by decide }

theorem scenario_wellFormed : Tree.WellFormed Scenario.build Scenario.store 2 (Scenario.node 0) := by
  refine ⟨scenario_root_invariant, ?_⟩
  intro i cid hc hne
  have hch : (Scenario.node 0).children = [232, 0, 0] := by rw [scenario_root]
  rw [hch] at hc
  have hcid : i = 0 ∧ cid = 232 := by
    rcases i with _ | _ | _ | i
    · simp at hc; exact ⟨rfl, hc.symm⟩
    · simp at hc; exact absurd hc.symm hne
    · simp at hc; exact absurd hc.symm hne
    · simp at hc
  obtain ⟨rfl, rfl⟩ := hcid
  refine ⟨Scenario.node 232, scenario_store_get, ?_, ?_, ?_⟩
  · rw [scenario_root, scenario_child]; decide
  · rw [scenario_root, scenario_child]; decide
  · exact wellFormed_leaf _ _ 0 _ scenario_child_invariant (by rw [scenario_child]; decide)

set_option maxRecDepth 100000 in
theorem get_from_root_witness :
    Tree.WellFormed Scenario.build Scenario.store 2 (Scenario.node 0) ∧
    Tree.Holds Scenario.build Scenario.store 2 (Scenario.node 0) (2 ^ 256 / 255 * 65) ∧
    ∃ t1 slot, Tree.get Scenario.build 2 ⟨Scenario.store, NodeCache.empty⟩ (Scenario.node 0)
        (2 ^ 256 / 255 * 65) = .ok (t1, slot, none) ∧ slot.key = 2 ^ 256 / 255 * 65 :=
  have hh : Tree.Holds Scenario.build Scenario.store 2 (Scenario.node 0)
      (2 ^ 256 / 255 * 65) :=
    Or.inr ⟨0, 232, Scenario.node 232, by rw [scenario_root]; rfl, by decide,
      scenario_store_get,
      Or.inl ⟨⟨2 ^ 256 / 255 * 65, 0, 37⟩, by rw [scenario_child]; decide, rfl⟩⟩
  ⟨scenario_wellFormed, hh,
    (get_from_root Scenario.build ⟨Scenario.store, NodeCache.empty⟩ (Scenario.node 0)
      (2 ^ 256 / 255 * 65) 2 2 (by decide) (le_refl 2) (Or.inr rfl) scenario_wellFormed).1 hh⟩

set_option maxRecDepth 100000 in
/-- C3 (counterexample), at the all-zero key. In the well-formed tree `Scenario.store`
(a full root and one child with an empty slot) the key 0 occupies a slot of the child, yet
`get` from the root returns `key_not_found`. In the well-formed tree `Scenario.bare` (a
root with two empty slots, nothing stored) `get` of the key 0 from the root returns no
error and an empty slot. So however an empty slot is counted, the claim fails at key 0. -/
theorem get_from_root_zero_key :
    (Tree.WellFormed Scenario.build Scenario.store 2 (Scenario.node 0) ∧
      Tree.Holds Scenario.build Scenario.store 2 (Scenario.node 0) 0 ∧
      (Tree.get Scenario.build 2 ⟨Scenario.store, NodeCache.empty⟩ (Scenario.node 0) 0).map
          (fun r => r.2.2) = .ok (some .key_not_found)) ∧
    (Tree.WellFormed Scenario.build Scenario.bare.store_ 1 Scenario.bareRoot ∧
      (∀ s ∈ Scenario.bareRoot.keys, s.IsZero = true) ∧
      (Tree.get Scenario.build 1 Scenario.bare Scenario.bareRoot 0).map
          (fun r => (r.2.1, r.2.2)) = .ok (⟨0, 0, 0⟩, none)) := by
  refine ⟨⟨scenario_wellFormed, ?_, by decide!⟩, ⟨?_, by decide!, by decide!⟩⟩
  · refine Or.inr ⟨0, 232, Scenario.node 232, by rw [scenario_root]; rfl, by decide,
      scenario_store_get, ?_⟩
    exact Or.inl ⟨⟨0, 0, 0⟩, by rw [scenario_child]; decide, rfl⟩
  · exact wellFormed_leaf _ _ 0 _
      { shape := by decide!, slots := by decide!, sorted := by decide!, unique := by decide!,
        bounds := by decide!, inside := by decide!, leaf := by decide! } (by decide!)

/-! ## A flush that overflows a node -/

set_option maxRecDepth 100000 in
/-- C4 (the code at the failing input). The tree is the one `Init` produces (degree 3, a
root with two empty slots and bounds `1` and `2^256 - 1`); the buffer holds three
Unprocessed entries, with the keys `2`, `3` and `2^256 - 2`, all strictly between the
bounds of the root. `Process` does not return: three keys overflow the two slots of the
root, `NearestStride` sends the key `2^256 - 2` to slot index 2, and `SetKeyValue` throws
`std::out_of_range`. No `Commit` follows and the three keys are in no node. -/
theorem process_overflow_throws :
    (Scenario.bareRoot.first = 1 ∧ Scenario.bareRoot.last = 2 ^ 256 - 1 ∧
      Scenario.bareRoot.keys = [⟨0, 0, 0⟩, ⟨0, 0, 0⟩]) ∧
    (do let (buf, _) ← (⟨[]⟩ : Buffer).Add Scenario.build Scenario.key2 [97]
        let (buf, _) ← buf.Add Scenario.build Scenario.key3 [98]
        let (buf, _) ← buf.Add Scenario.build Scenario.keyTop [99]
        pure (buf.buf_.map (fun e => (e.1, e.2.status))) :
          Except Thrown (List (Nat × ValueState)))
      = .ok [(2, .Unprocessed), (3, .Unprocessed), (2 ^ 256 - 2, .Unprocessed)] ∧
    (do let (buf, _) ← (⟨[]⟩ : Buffer).Add Scenario.build Scenario.key2 [97]
        let (buf, _) ← buf.Add Scenario.build Scenario.key3 [98]
        let (buf, _) ← buf.Add Scenario.build Scenario.keyTop [99]
        let (_, err) ← (Journal.new buf ⟨⟨[], []⟩, 0⟩).Process Scenario.build 8 Scenario.bare
        pure err : Except Thrown error_condition)
      = .error .out_of_range ∧
    KeyUtil.NearestStride 1 ((2 ^ 256 - 2) / 3) (2 ^ 256 - 2) = .ok (1, 2) := by decide!

/-! ## `Buffer::Purge` and the buffer after a flush -/

theorem mem_rightInsert (e x : Nat × Value) (l : List (Nat × Value)) :
    x ∈ Buffer.rightInsert e l ↔ x = e ∨ x ∈ l := by
  induction l with
  | nil => simp [Buffer.rightInsert]
  | cons y rest ih =>
    unfold Buffer.rightInsert
    by_cases h : Value.lt e.2 y.2 = true
    · rw [if_pos h]; simp
    · rw [if_neg h]
      simp only [List.mem_cons, ih]
      tauto

theorem mem_foldl_rightInsert (l acc : List (Nat × Value)) (x : Nat × Value) :
    x ∈ l.foldl (fun acc e => Buffer.rightInsert e acc) acc ↔ x ∈ l ∨ x ∈ acc := by
  induction l generalizing acc with
  | nil => simp
  | cons y rest ih =>
    simp only [List.foldl_cons, ih, mem_rightInsert, List.mem_cons]
    tauto

theorem mem_right (buf : Buffer) (x : Nat × Value) : x ∈ buf.right ↔ x ∈ buf.buf_ := by
  unfold Buffer.right
  rw [mem_foldl_rightInsert]
  simp

theorem strLt_nil (s : List Nat) : strLt s [] = false := by
  cases s <;> rfl

theorem lt_first_evicted (v : Value)
    (h : Value.lt v ⟨0, 0, Buffer.emptyBufferValue, .Evicted⟩ = true) :
    v.status = .Unprocessed := by
  unfold Value.lt at h
  cases hs : v.status with
  | Unprocessed => rfl
  | Evicted =>
    rw [hs] at h
    by_cases ho : v.offset = 0
    · simp [ho, Buffer.emptyBufferValue, strLt_nil] at h
    · simp [ho] at h
  | NeedsCommitting =>
    rw [hs] at h
    simp [ValueState.toNat] at h
  | Committed =>
    rw [hs] at h
    simp [ValueState.toNat] at h

/-- What `Purge` leaves in the buffer are entries the buffer held, all Unprocessed. -/
theorem Purge_unprocessed (buf buf1 : Buffer) (h : buf.Purge = .ok buf1) :
    ∀ e ∈ buf1.buf_, e ∈ buf.buf_ ∧ e.2.status = .Unprocessed := by
  have hb : buf1 = ⟨buf.buf_.filter
      (fun e => !(buf.first .Evicted).any (fun g => g.1 == e.1))⟩ := by
    unfold Buffer.Purge at h
    cases hf : buf.first .NeedsCommitting with
    | nil => rw [hf] at h; injection h with h; exact h.symm
    | cons check rest =>
      rw [hf] at h
      simp only at h
      split at h
      · exact absurd h (by simp)
      · injection h with h; exact h.symm
  subst hb
  intro e he
  rw [List.mem_filter] at he
  obtain ⟨hmem, hnot⟩ := he
  refine ⟨hmem, ?_⟩
  have hr : e ∈ buf.right := (mem_right buf e).mpr hmem
  rw [← List.takeWhile_append_dropWhile
    (fun e => Value.lt e.2 ⟨0, 0, Buffer.emptyBufferValue, .Evicted⟩) buf.right] at hr
  rcases List.mem_append.mp hr with h1 | h2
  · have := List.mem_takeWhile_imp h1
    exact lt_first_evicted _ this
  · exfalso
    simp only [Bool.not_eq_true', List.any_eq_false, beq_iff_eq] at hnot
    exact hnot e h2 rfl

theorem Commit_purged (b : Build) (j j2 : Journal) (t t2 : Tree) (batchSize : Nat)
    (h : j.Commit b t batchSize = .ok ((j2, t2), none)) :
    ∃ buf : Buffer, buf.Purge = .ok j2.buffer_ := by
  unfold Journal.Commit at h
  simp only [bind, Except.bind] at h
  cases hw : Journal.commitWrites b batchSize (j.buffer_.buf_.length + 1) j [] with
  | error e => rw [hw] at h; exact absurd h (by simp)
  | ok r =>
    obtain ⟨j1, err1⟩ := r
    rw [hw] at h
    simp only at h
    cases err1 with
    | some e => simp [pure, Except.pure] at h
    | none =>
      simp only [Option.isSome_none, Bool.false_eq_true, if_false] at h
      cases hd : Journal.commitDeltas b j1.deltas_.reverse t with
      | error e => rw [hd] at h; exact absurd h (by simp)
      | ok r2 =>
        obtain ⟨t1, err2⟩ := r2
        rw [hd] at h
        simp only at h
        cases err2 with
        | some e => simp [pure, Except.pure] at h
        | none =>
          simp only [Option.isSome_none, Bool.false_eq_true, if_false] at h
          cases hp : j1.buffer_.Purge with
          | error e => rw [hp] at h; exact absurd h (by simp)
          | ok buf =>
            rw [hp] at h
            simp only [pure, Except.pure] at h
            injection h with h
            injection h with h1 _
            injection h1 with h2 _
            refine ⟨j1.buffer_, ?_⟩
            rw [hp, ← h2]

/-- After a flush that completed without error the buffer holds Unprocessed entries
only. -/
theorem flush_leaves_unprocessed (b : Build) (fuel : Nat) (db db2 : DB)
    (h : DB.flush b fuel db = .ok (db2, none)) :
    ∀ e ∈ db2.buffer_.buf_, e.2.status = .Unprocessed := by
  unfold DB.flush at h
  simp only [bind, Except.bind] at h
  cases hp : (Journal.new db.buffer_ db.values_).Process b fuel db.tree_ with
  | error e => rw [hp] at h; exact absurd h (by simp)
  | ok r =>
    obtain ⟨⟨j1, t1⟩, err1⟩ := r
    rw [hp] at h
    simp only at h
    cases err1 with
    | some e => simp [pure, Except.pure] at h
    | none =>
      simp only [Option.isSome_none, Bool.false_eq_true, if_false] at h
      cases hc : j1.Commit b t1 db.options_.writeBufferSize with
      | error e => rw [hc] at h; exact absurd h (by simp)
      | ok r2 =>
        obtain ⟨⟨j2, t2⟩, err2⟩ := r2
        rw [hc] at h
        simp only [pure, Except.pure] at h
        injection h with h
        injection h with h1 h2
        subst h2
        obtain ⟨buf, hbuf⟩ := Commit_purged b j1 j2 t1 t2 _ hc
        intro e he
        rw [← h1] at he
        exact (Purge_unprocessed buf _ hbuf e he).2

/-- C10 (amended). After a completed flush, a `Put` of a key of `BITS / 8` bytes with a
non-empty value `v2` that `Put` accepts succeeds, and a `Get` of the key issued before the
next flush is answered from the buffer, never from the tree: with `v2` when the flush left
no entry for the key in the buffer (it placed the key in the tree or dropped it as a
duplicate), and with the value still pending under the key, an Unprocessed entry, when
the flush left one. -/
theorem get_after_flush_and_second_put (b : Build) (hb : b.WholeLimbs) (fuel : Nat)
    (db db2 : DB) (key v2 out : List Nat)
    (hflush : DB.flush b fuel db = .ok (db2, none))
    (hk : key.length = DB.key_length b) (hv0 : 0 < v2.length) (hv1 : v2.length ≤ 2 ^ 32 - 1)
    (ha : b.NDEBUG = true ∨ v2.length ≤ Buffer.maxValueLength b) :
    ∃ db3 w, DB.Put b db2 key v2 = .ok (db3, none) ∧
      ((∀ k, KeyUtil.FromBytes b key = .ok k → db2.buffer_.find k = none) → w = v2) ∧
      (∀ k e, KeyUtil.FromBytes b key = .ok k → db2.buffer_.find k = some e →
        w = e.2.value ∧ e.2.status = .Unprocessed) ∧
      (w ≠ [] → DB.Get b fuel db3 key out
        = .ok ({ db3 with buffer_hits_ := db3.buffer_hits_ + 1 }, none, w)) := by
  have hF := FromBytes_ok b hb key hk
  cases hfind : db2.buffer_.find (leValue key.reverse) with
  | none =>
    have hfree : ∀ k, KeyUtil.FromBytes b key = .ok k → db2.buffer_.find k = none := by
      intro k hk'
      rw [hF] at hk'
      injection hk' with hk'
      rw [← hk']; exact hfind
    obtain ⟨db3, hput, hget⟩ := put_get_fresh b hb fuel db2 key v2 out hk hv0 hv1 ha hfree
    refine ⟨db3, v2, hput, fun _ => rfl, ?_, fun _ => hget⟩
    intro k e hk' he
    rw [hfree k hk'] at he
    exact absurd he (by simp)
  | some e =>
    have hmem : e ∈ db2.buffer_.buf_ := by
      unfold Buffer.find at hfind
      exact List.mem_of_find?_eq_some hfind
    have hst := flush_leaves_unprocessed b fuel db db2 hflush e hmem
    have hkl : ¬ key.length ≠ DB.key_length b := by simp [hk]
    have hput : DB.Put b db2 key v2 = .ok (db2, none) := by
      simp only [DB.Put, if_neg hkl]
      rw [if_neg (by omega), if_neg (by omega)]
      simp only [Buffer.Add, hF, hfind, bind, Except.bind, pure, Except.pure]
    refine ⟨db2, e.2.value, hput, ?_, ?_, ?_⟩
    · intro hfree
      rw [hfree _ hF] at hfind
      exact absurd hfind (by simp)
    · intro k e' hk' he'
      rw [hF] at hk'
      injection hk' with hk'
      rw [← hk', hfind] at he'
      injection he' with he'
      rw [← he']
      exact ⟨rfl, hst⟩
    · intro hw
      have hG : Buffer.Get b db2.buffer_ key = .ok (some e.2.value) := by
        simp only [Buffer.Get, hF, hfind, bind, Except.bind, hst]
        rfl
      have hlen : ¬ e.2.value.length = 0 := by
        intro h0
        exact hw (List.length_eq_zero.mp h0)
      simp only [DB.Get, if_neg hkl, hG, bind, Except.bind, if_neg hlen]
      rfl

set_option maxRecDepth 100000 in
theorem scenario_flushed_buffer : (Scenario.state Scenario.afterFlush).buffer_.buf_ = [] := by
  decide!

set_option maxRecDepth 100000 in
theorem get_after_flush_and_second_put_witness :
    ∃ db3, DB.Put Scenario.build (Scenario.state Scenario.afterFlush) Scenario.keyA [2]
        = .ok (db3, none) ∧
      DB.Get Scenario.build 8 db3 Scenario.keyA []
        = .ok ({ db3 with buffer_hits_ := db3.buffer_hits_ + 1 }, none, [2]) :=
  let ⟨db3, w, hput, hfree, _, hget⟩ :=
    get_after_flush_and_second_put Scenario.build (wholeLimbs_256 false) 8
      (Scenario.state Scenario.afterPut) (Scenario.state Scenario.afterFlush) Scenario.keyA [2] []
      (by decide!) (by decide) (by decide) (by decide) (Or.inr (by decide))
  have hw : w = [2] := hfree (fun k _ => by
    simp only [Buffer.find, scenario_flushed_buffer, List.find?_nil])
  ⟨db3, hput, by
    have h := hget (by rw [hw]; decide)
    rw [hw] at h
    exact h⟩
/-! ## The left view of the buffer -/

theorem find_none_iff (buf : Buffer) (k : Nat) :
    buf.find k = none ↔ ∀ e ∈ buf.buf_, e.1 ≠ k := by
  unfold Buffer.find
  rw [List.find?_eq_none]
  simp

theorem find_of_mem (buf : Buffer) (hord : buf.Ordered) (e : Nat × Value) (he : e ∈ buf.buf_) :
    buf.find e.1 = some e := by
  unfold Buffer.find
  cases hf : buf.buf_.find? (fun x => x.1 == e.1) with
  | none =>
    rw [List.find?_eq_none] at hf
    exact absurd (hf e he) (by simp)
  | some f =>
    have hm := List.mem_of_find?_eq_some hf
    have hk := List.find?_some hf
    simp only [beq_iff_eq] at hk
    rw [ordered_unique _ hord f e hm he hk]

theorem find_some_iff (buf : Buffer) (hord : buf.Ordered) (k : Nat) (e : Nat × Value) :
    buf.find k = some e ↔ e ∈ buf.buf_ ∧ e.1 = k := by
  constructor
  · intro h
    unfold Buffer.find at h
    have hk := List.find?_some h
    simp only [beq_iff_eq] at hk
    exact ⟨List.mem_of_find?_eq_some h, hk⟩
  · rintro ⟨he, rfl⟩
    exact find_of_mem buf hord e he

theorem mem_leftInsert (e : Nat × Value) (l : List (Nat × Value))
    (h : ∀ x ∈ l, x.1 ≠ e.1) (y : Nat × Value) :
    y ∈ Buffer.leftInsert e l ↔ y = e ∨ y ∈ l := by
  induction l with
  | nil => simp [Buffer.leftInsert]
  | cons x rest ih =>
    have hx : ¬ e.1 = x.1 := fun h1 => h x (List.mem_cons_self _ _) h1.symm
    have ih1 := ih (fun z hz => h z (List.mem_cons_of_mem _ hz))
    unfold Buffer.leftInsert
    by_cases hlt : e.1 < x.1
    · rw [if_pos hlt]; simp
    · rw [if_neg hlt, if_neg hx]
      simp only [List.mem_cons, ih1]
      tauto

theorem length_leftInsert (e : Nat × Value) (l : List (Nat × Value))
    (h : ∀ x ∈ l, x.1 ≠ e.1) : (Buffer.leftInsert e l).length = l.length + 1 := by
  induction l with
  | nil => simp [Buffer.leftInsert]
  | cons x rest ih =>
    have hx : ¬ e.1 = x.1 := fun h1 => h x (List.mem_cons_self _ _) h1.symm
    have ih1 := ih (fun z hz => h z (List.mem_cons_of_mem _ hz))
    unfold Buffer.leftInsert
    by_cases hlt : e.1 < x.1
    · rw [if_pos hlt]; simp
    · rw [if_neg hlt, if_neg hx]
      simp [ih1]

theorem mem_leftInsert_imp (e : Nat × Value) (l : List (Nat × Value)) (y : Nat × Value)
    (h : y ∈ Buffer.leftInsert e l) : y = e ∨ y ∈ l := by
  induction l with
  | nil => simpa [Buffer.leftInsert] using h
  | cons x rest ih =>
    unfold Buffer.leftInsert at h
    by_cases hlt : e.1 < x.1
    · rw [if_pos hlt] at h
      exact List.mem_cons.mp h
    · rw [if_neg hlt] at h
      by_cases heq : e.1 = x.1
      · rw [if_pos heq] at h; exact Or.inr h
      · rw [if_neg heq] at h
        rcases List.mem_cons.mp h with h1 | h1
        · exact Or.inr (h1 ▸ List.mem_cons_self _ _)
        · rcases ih h1 with h2 | h2
          · exact Or.inl h2
          · exact Or.inr (List.mem_cons_of_mem _ h2)

theorem ordered_leftInsert (e : Nat × Value) (l : List (Nat × Value))
    (hs : l.Pairwise (fun a c => a.1 < c.1)) :
    (Buffer.leftInsert e l).Pairwise (fun a c => a.1 < c.1) := by
  induction l with
  | nil => simp [Buffer.leftInsert]
  | cons x rest ih =>
    rw [List.pairwise_cons] at hs
    unfold Buffer.leftInsert
    by_cases hlt : e.1 < x.1
    · rw [if_pos hlt]
      refine List.Pairwise.cons ?_ (List.Pairwise.cons hs.1 hs.2)
      intro z hz
      rcases List.mem_cons.mp hz with h1 | h1
      · rw [h1]; exact hlt
      · exact Nat.lt_trans hlt (hs.1 z h1)
    · rw [if_neg hlt]
      by_cases heq : e.1 = x.1
      · rw [if_pos heq]; exact List.Pairwise.cons hs.1 hs.2
      · rw [if_neg heq]
        refine List.Pairwise.cons ?_ (ih hs.2)
        intro z hz
        rcases mem_leftInsert_imp e rest z hz with h1 | h1
        · rw [h1]; omega
        · exact hs.1 z h1

/-! ## `Buffer::Add` and `Buffer::Get` -/

theorem maxValueLength_eq (b : Build) (hB : b.BITS < 2 ^ 32) :
    Buffer.maxValueLength b = 2 ^ 32 - 1 - 4 - b.BITS / 8 := by
  unfold Buffer.maxValueLength
  omega

/-- C15 (amended). For every buffer, every key of `BITS / 8` bytes and every value of at
most `maxValueLength` bytes, `Add` returns the size of the buffer after the call, and:
when the buffer holds no entry for the key, the buffer after the call holds one entry
more, the Unprocessed entry of the key with offset 0, length `len(value) + 4 + BITS / 8`
and the value, and every entry it held; when the buffer holds an entry for the key, in
whatever state, the buffer is left as it was. -/
theorem Add_first_write_wins (b : Build) (hb : b.WholeLimbs) (hB : b.BITS < 2 ^ 32)
    (buf : Buffer) (hord : buf.Ordered) (key value : List Nat)
    (hk : key.length = b.BITS / 8) (hv : value.length ≤ Buffer.maxValueLength b) :
    ∃ buf1, buf.Add b key value = .ok (buf1, buf1.Size) ∧ buf1.Ordered ∧
      ((∀ e ∈ buf.buf_, e.1 ≠ leValue key.reverse) →
        buf1.Size = buf.Size + 1 ∧
        ∀ e, e ∈ buf1.buf_ ↔
          e = (leValue key.reverse,
            ⟨0, value.length + 4 + b.BITS / 8, value, .Unprocessed⟩) ∨ e ∈ buf.buf_) ∧
      ((∃ e ∈ buf.buf_, e.1 = leValue key.reverse) → buf1 = buf) := by
  have hF := FromBytes_ok b hb key hk
  have hmax := maxValueLength_eq b hB
  have hlen : (value.length + 4 + b.BITS / 8) % 2 ^ 32 = value.length + 4 + b.BITS / 8 := by
    apply Nat.mod_eq_of_lt
    rw [hmax] at hv
    omega
  cases hfind : buf.find (leValue key.reverse) with
  | none =>
    have habs := (find_none_iff buf _).mp hfind
    refine ⟨⟨Buffer.leftInsert (leValue key.reverse,
      ⟨0, value.length + 4 + b.BITS / 8, value, .Unprocessed⟩) buf.buf_⟩, ?_, ?_, ?_, ?_⟩
    · simp only [Buffer.Add, hF, hfind, bind, Except.bind, cassert, hv, decide_True,
        Bool.or_true, if_true, hlen, pure, Except.pure, Buffer.Size]
    · exact ordered_leftInsert _ _ hord
    · intro _
      refine ⟨length_leftInsert _ _ habs, fun e => mem_leftInsert _ _ habs e⟩
    · rintro ⟨e, he, hek⟩
      exact absurd hek (habs e he)
  | some f =>
    refine ⟨buf, ?_, hord, ?_, fun _ => rfl⟩
    · simp only [Buffer.Add, hF, hfind, bind, Except.bind, pure, Except.pure, Buffer.Size]
    · intro habs
      have := (find_none_iff buf _).mpr habs
      rw [this] at hfind
      exact absurd hfind (by simp)

/-- C16. For every buffer and every key of `BITS / 8` bytes, `Get` returns the value bytes
stored under the key if the buffer holds an entry for the key whose state is not Evicted,
and nothing otherwise. (`Get` is a `const` member: it returns no buffer.) -/
theorem Get_value_iff (b : Build) (hb : b.WholeLimbs) (buf : Buffer) (hord : buf.Ordered)
    (key : List Nat) (hk : key.length = b.BITS / 8) :
    ∃ r, buf.Get b key = .ok r ∧
      ∀ v, r = some v ↔
        ∃ e ∈ buf.buf_, e.1 = leValue key.reverse ∧ e.2.status ≠ .Evicted ∧ e.2.value = v := by
  have hF := FromBytes_ok b hb key hk
  cases hfind : buf.find (leValue key.reverse) with
  | none =>
    have habs := (find_none_iff buf _).mp hfind
    refine ⟨none, ?_, ?_⟩
    · simp only [Buffer.Get, hF, hfind, bind, Except.bind, pure, Except.pure]
    · intro v
      constructor
      · intro h; exact absurd h (by simp)
      · rintro ⟨e, he, hek, _⟩
        exact absurd hek (habs e he)
  | some f =>
    obtain ⟨hfm, hfk⟩ := (find_some_iff buf hord _ f).mp hfind
    by_cases hst : f.2.status = .Evicted
    · refine ⟨none, ?_, ?_⟩
      · simp only [Buffer.Get, hF, hfind, bind, Except.bind, pure, Except.pure, hst]
        rfl
      · intro v
        constructor
        · intro h; exact absurd h (by simp)
        · rintro ⟨e, he, hek, hne, _⟩
          have := ordered_unique _ hord e f he hfm (hek.trans hfk.symm)
          rw [this] at hne
          exact absurd hst hne
    · refine ⟨some f.2.value, ?_, ?_⟩
      · simp only [Buffer.Get, hF, hfind, bind, Except.bind, pure, Except.pure]
        rw [if_pos]
        simpa using hst
      · intro v
        constructor
        · intro h
          injection h with h
          exact ⟨f, hfm, hfk, hst, h⟩
        · rintro ⟨e, he, hek, _, hev⟩
          have := ordered_unique _ hord e f he hfm (hek.trans hfk.symm)
          rw [← hev, this]

/-- What `Add` does with a value longer than `maxValueLength` but not longer than
`2^32 - 1`, on an empty buffer with 256-bit keys. -/
theorem add_oversized (value : List Nat) (h1 : 4294967259 < value.length)
    (h2 : value.length ≤ 4294967295) :
    ((⟨[]⟩ : Buffer).Add Scenario.release Scenario.keyA value).map
        (fun r => r.1.buf_.map (fun e => (e.2.offset, e.2.length, e.2.status)))
      = .ok [(0, value.length - 4294967260, .Unprocessed)] ∧
    ((⟨[]⟩ : Buffer).Add Scenario.build Scenario.keyA value).map Prod.snd
      = .error .assertion := by
  have hmod : (value.length + 4 + 256 / 8) % 2 ^ 32 = value.length - 4294967260 := by
    norm_num; omega
  have hmax : Buffer.maxValueLength Scenario.build = 4294967259 := by decide
  constructor
  · have hF := FromBytes_ok Scenario.release (wholeLimbs_256 true) Scenario.keyA (by decide)
    simp only [Scenario.release] at hF ⊢
    simp only [Buffer.Add, hF, Buffer.find, cassert, Buffer.leftInsert, Except.map, bind,
      Except.bind, pure, Except.pure, List.find?_nil, Bool.true_or, if_true, hmod]
    simp
  · have hF := FromBytes_ok Scenario.build (wholeLimbs_256 false) Scenario.keyA (by decide)
    have hle : ¬ value.length ≤ Buffer.maxValueLength ⟨256, false⟩ := by
      have := hmax; simp only [Scenario.build] at this; rw [this]; omega
    simp only [Scenario.build] at hF ⊢
    simp only [Buffer.Add, hF, Buffer.find, cassert, Except.map, bind,
      Except.bind, pure, Except.pure, List.find?_nil, hle]
    simp

/-- C15 (counterexample). With 256-bit keys and an empty buffer, `Add` of a value of
`4294967260` bytes, one more than `maxValueLength`: with `NDEBUG` the entry is inserted
with length `0`, not `len(value) + 4 + 32 = 4294967296`, which does not fit the 32-bit
field; with asserts compiled in, the `assert` of `Add` fails and nothing is returned. -/
theorem Add_beyond_maxValueLength_wraps :
    Buffer.maxValueLength Scenario.release = 4294967259 ∧
    (((⟨[]⟩ : Buffer).Add Scenario.release Scenario.keyA (List.replicate 4294967260 7)).map
        (fun r => r.1.buf_.map (fun e => (e.2.offset, e.2.length, e.2.status)))
      = .ok [(0, (List.replicate 4294967260 7).length - 4294967260, .Unprocessed)] ∧
    ((⟨[]⟩ : Buffer).Add Scenario.build Scenario.keyA (List.replicate 4294967260 7)).map Prod.snd
      = .error .assertion) ∧
    (List.replicate 4294967260 7).length - 4294967260 = 0 ∧
    (List.replicate 4294967260 7).length + 4 + 256 / 8 = 4294967296 :=
  ⟨by decide,
   add_oversized (List.replicate 4294967260 7)
    (by rw [List.length_replicate]; omega) (by rw [List.length_replicate]; omega),
   by rw [List.length_replicate],
   by rw [List.length_replicate]⟩

theorem Add_first_write_wins_witness :
    ∃ buf1, (⟨[(5, ⟨9, 40, [1], .Committed⟩)]⟩ : Buffer).Add Scenario.build Scenario.keyA [97]
        = .ok (buf1, buf1.Size) ∧
      buf1.Size = 2 ∧
      (leValue Scenario.keyA.reverse, (⟨0, 37, [97], .Unprocessed⟩ : Value)) ∈ buf1.buf_ ∧
      (5, (⟨9, 40, [1], .Committed⟩ : Value)) ∈ buf1.buf_ :=
  let ⟨buf1, h, _, hnew, _⟩ :=
    Add_first_write_wins Scenario.build (wholeLimbs_256 false) (by decide)
      ⟨[(5, ⟨9, 40, [1], .Committed⟩)]⟩ (by simp [Buffer.Ordered]) Scenario.keyA [97]
      (by decide) (by decide)
  have hfree : ∀ e ∈ (⟨[(5, ⟨9, 40, [1], .Committed⟩)]⟩ : Buffer).buf_,
      e.1 ≠ leValue Scenario.keyA.reverse := by
    intro e he
    simp only [List.mem_singleton] at he
    rw [he]
    decide
  ⟨buf1, h, by simpa [Buffer.Size] using (hnew hfree).1,
    ((hnew hfree).2 _).mpr (Or.inl rfl), ((hnew hfree).2 _).mpr (Or.inr (by simp))⟩

theorem Get_value_iff_witness :
    (⟨[(leValue Scenario.keyA.reverse, ⟨9, 37, [97], .Committed⟩)]⟩ : Buffer).Get
        Scenario.build Scenario.keyA = .ok (some [97]) :=
  let ⟨r, h, hiff⟩ :=
    Get_value_iff Scenario.build (wholeLimbs_256 false)
      ⟨[(leValue Scenario.keyA.reverse, ⟨9, 37, [97], .Committed⟩)]⟩ (by simp [Buffer.Ordered])
      Scenario.keyA (by decide)
  have hr : r = some [97] :=
    (hiff [97]).mpr ⟨(leValue Scenario.keyA.reverse, ⟨9, 37, [97], .Committed⟩), by simp, rfl,
      by simp, rfl⟩
  hr ▸ h

/-! ## `Buffer::SetOffset` -/

theorem modify_map_fst (buf : Buffer) (k : Nat) (v : Value) :
    (buf.modify k v).buf_.map Prod.fst = buf.buf_.map Prod.fst := by
  unfold Buffer.modify
  simp only [List.map_map]
  apply List.map_congr_left
  intro e _
  simp only [Function.comp]
  split <;> rfl

theorem modify_ordered (buf : Buffer) (k : Nat) (v : Value) (hord : buf.Ordered) :
    (buf.modify k v).Ordered := by
  unfold Buffer.Ordered at hord ⊢
  have h1 : (buf.modify k v).buf_.map Prod.fst = buf.buf_.map Prod.fst := modify_map_fst buf k v
  have h2 : (buf.buf_.map Prod.fst).Pairwise (fun a c => a < c) := by
    rw [List.pairwise_map]; exact hord
  rw [← h1, List.pairwise_map] at h2
  exact h2

theorem mem_modify (buf : Buffer) (k : Nat) (v : Value) (e : Nat × Value) :
    e ∈ (buf.modify k v).buf_ ↔
      (e.1 = k ∧ e.2 = v ∧ ∃ f ∈ buf.buf_, f.1 = k) ∨ (e.1 ≠ k ∧ e ∈ buf.buf_) := by
  unfold Buffer.modify
  simp only [List.mem_map]
  constructor
  · rintro ⟨f, hf, hfe⟩
    by_cases hk : f.1 = k
    · rw [if_pos (by simpa using hk)] at hfe
      rw [← hfe]
      exact Or.inl ⟨hk, rfl, f, hf, hk⟩
    · rw [if_neg (by simpa using hk)] at hfe
      rw [← hfe]
      exact Or.inr ⟨hk, hf⟩
  · rintro (⟨hk, hv, f, hf, hfk⟩ | ⟨hk, he⟩)
    · refine ⟨f, hf, ?_⟩
      rw [if_pos (by simpa using hfk)]
      rw [hfk, ← hk, ← hv]
    · refine ⟨e, he, ?_⟩
      rw [if_neg (by simpa using hk)]

/-- C18. For every key the buffer holds an entry for, `SetOffset` returns, and in the
buffer after the call the entry of the key has the state NeedsCommitting, the given offset
and the length and value bytes it had; every other entry, the keys and their order, and
the size of the buffer are as before. -/
theorem SetOffset_frame (b : Build) (buf : Buffer) (hord : buf.Ordered) (k offset : Nat)
    (v : Value) (hmem : (k, v) ∈ buf.buf_) :
    ∃ buf1, buf.SetOffset b k offset = .ok buf1 ∧
      buf1.Size = buf.Size ∧ buf1.Ordered ∧
      buf1.buf_.map Prod.fst = buf.buf_.map Prod.fst ∧
      (∀ w, (k, w) ∈ buf1.buf_ ↔ w = ⟨offset, v.length, v.value, .NeedsCommitting⟩) ∧
      (∀ e, e.1 ≠ k → (e ∈ buf1.buf_ ↔ e ∈ buf.buf_)) := by
  have hfind : buf.find k = some (k, v) := find_of_mem buf hord (k, v) hmem
  refine ⟨buf.modify k ⟨offset, v.length, v.value, .NeedsCommitting⟩, ?_, ?_, ?_, ?_, ?_, ?_⟩
  · simp only [Buffer.SetOffset, hfind, pure, Except.pure]
  · have := congrArg List.length (modify_map_fst buf k ⟨offset, v.length, v.value, .NeedsCommitting⟩)
    simpa [Buffer.Size] using this
  · exact modify_ordered buf k _ hord
  · exact modify_map_fst buf k _
  · intro w
    rw [mem_modify]
    constructor
    · rintro (⟨_, hw, _⟩ | ⟨hne, _⟩)
      · exact hw
      · exact absurd rfl hne
    · intro hw
      exact Or.inl ⟨rfl, hw, (k, v), hmem, rfl⟩
  · intro e hne
    rw [mem_modify]
    constructor
    · rintro (⟨hk, _⟩ | ⟨_, he⟩)
      · exact absurd hk hne
      · exact he
    · intro he
      exact Or.inr ⟨hne, he⟩

theorem SetOffset_frame_witness :
    ∃ buf1, (⟨[(3, ⟨0, 40, [7], .Unprocessed⟩), (5, ⟨0, 37, [1], .Unprocessed⟩)]⟩ : Buffer).SetOffset
        Scenario.build 5 64 = .ok buf1 ∧
      buf1.buf_ = [(3, ⟨0, 40, [7], .Unprocessed⟩), (5, ⟨64, 37, [1], .NeedsCommitting⟩)] :=
  let ⟨buf1, h, _, _, _, _, _⟩ :=
    SetOffset_frame Scenario.build
      ⟨[(3, ⟨0, 40, [7], .Unprocessed⟩), (5, ⟨0, 37, [1], .Unprocessed⟩)]⟩
      (by simp [Buffer.Ordered]) 5 64 ⟨0, 37, [1], .Unprocessed⟩ (by simp)
  ⟨buf1, h, by
    have h2 : (⟨[(3, ⟨0, 40, [7], .Unprocessed⟩), (5, ⟨0, 37, [1], .Unprocessed⟩)]⟩ : Buffer).SetOffset
        Scenario.build 5 64
        = .ok ⟨[(3, ⟨0, 40, [7], .Unprocessed⟩), (5, ⟨64, 37, [1], .NeedsCommitting⟩)]⟩ := by
      decide
    rw [h2] at h
    injection h with h
    rw [← h]⟩

/-! ## The right view of the buffer and `Buffer::Purge` -/

theorem lt_status_le (a c : Value) (h : Value.lt a c = true) :
    a.status.toNat ≤ c.status.toNat := by
  unfold Value.lt at h
  by_cases hs : a.status = c.status
  · rw [hs]
  · simp only [hs, false_and, if_false, decide_eq_true_eq] at h
    omega

theorem toNat_inj (s t : ValueState) (h : s.toNat = t.toNat) : s = t := by
  cases s <;> cases t <;> simp [ValueState.toNat] at h <;> rfl

theorem not_lt_status_le (a c : Value) (h : Value.lt a c = false) :
    c.status.toNat ≤ a.status.toNat := by
  unfold Value.lt at h
  by_cases hs : a.status = c.status
  · rw [hs]
  · simp only [hs, false_and, if_false, decide_eq_false_iff_not] at h
    omega

theorem rightInsert_sorted (e : Nat × Value) (l : List (Nat × Value))
    (hs : l.Pairwise (fun a c => a.2.status.toNat ≤ c.2.status.toNat)) :
    (Buffer.rightInsert e l).Pairwise (fun a c => a.2.status.toNat ≤ c.2.status.toNat) := by
  induction l with
  | nil => simp [Buffer.rightInsert]
  | cons x rest ih =>
    rw [List.pairwise_cons] at hs
    unfold Buffer.rightInsert
    by_cases hlt : Value.lt e.2 x.2 = true
    · rw [if_pos hlt]
      have hex := lt_status_le _ _ hlt
      refine List.Pairwise.cons ?_ (List.Pairwise.cons hs.1 hs.2)
      intro z hz
      rcases List.mem_cons.mp hz with h1 | h1
      · rw [h1]; exact hex
      · exact Nat.le_trans hex (hs.1 z h1)
    · rw [if_neg hlt]
      have hxe := not_lt_status_le _ _ (by simpa using hlt)
      refine List.Pairwise.cons ?_ (ih hs.2)
      intro z hz
      rcases (mem_rightInsert e z rest).mp hz with h1 | h1
      · rw [h1]; exact hxe
      · exact hs.1 z h1

theorem right_sorted (buf : Buffer) :
    buf.right.Pairwise (fun a c => a.2.status.toNat ≤ c.2.status.toNat) := by
  unfold Buffer.right
  have : ∀ (l acc : List (Nat × Value)),
      acc.Pairwise (fun a c => a.2.status.toNat ≤ c.2.status.toNat) →
      (l.foldl (fun acc e => Buffer.rightInsert e acc) acc).Pairwise
        (fun a c => a.2.status.toNat ≤ c.2.status.toNat) := by
    intro l
    induction l with
    | nil => intro acc h; exact h
    | cons x rest ih =>
      intro acc h
      exact ih _ (rightInsert_sorted x acc h)
  exact this _ _ List.Pairwise.nil

/-- The probe `Value{0, 0, emptyBufferValue, state}` is greater than exactly the entries of
a lesser state. -/
theorem lt_probe_iff (v : Value) (s : ValueState) :
    Value.lt v ⟨0, 0, Buffer.emptyBufferValue, s⟩ = true ↔ v.status.toNat < s.toNat := by
  unfold Value.lt
  by_cases hs : v.status = s
  · by_cases ho : v.offset = 0
    · simp [hs, ho, Buffer.emptyBufferValue, strLt_nil]
    · simp [hs, ho]
  · have hne : v.status.toNat ≠ s.toNat := fun h => hs (toNat_inj _ _ h)
    simp [hs]

theorem dropWhile_sorted_eq_filter (l : List (Nat × Value)) (n : Nat)
    (hs : l.Pairwise (fun a c => a.2.status.toNat ≤ c.2.status.toNat)) :
    l.dropWhile (fun e => decide (e.2.status.toNat < n))
      = l.filter (fun e => decide (n ≤ e.2.status.toNat)) := by
  induction l with
  | nil => rfl
  | cons x rest ih =>
    rw [List.pairwise_cons] at hs
    by_cases hx : x.2.status.toNat < n
    · rw [List.dropWhile_cons_of_pos (by simpa using hx),
        List.filter_cons_of_neg (by simpa using hx)]
      exact ih hs.2
    · rw [List.dropWhile_cons_of_neg (by simpa using hx),
        List.filter_cons_of_pos (by simpa using hx)]
      congr 1
      symm
      rw [List.filter_eq_self]
      intro z hz
      have := hs.1 z hz
      simp only [decide_eq_true_eq]
      omega

theorem first_eq_filter (buf : Buffer) (s : ValueState) :
    buf.first s = buf.right.filter (fun e => decide (s.toNat ≤ e.2.status.toNat)) := by
  unfold Buffer.first
  rw [← dropWhile_sorted_eq_filter _ _ (right_sorted buf)]
  congr 1
  funext e
  rw [Bool.eq_iff_iff, lt_probe_iff]
  simp

theorem mem_first (buf : Buffer) (s : ValueState) (e : Nat × Value) :
    e ∈ buf.first s ↔ e ∈ buf.buf_ ∧ s.toNat ≤ e.2.status.toNat := by
  rw [first_eq_filter, List.mem_filter, mem_right]
  simp

/-- The right view from `first(NeedsCommitting)` on starts with a NeedsCommitting entry
exactly when the buffer holds one. -/
theorem first_needsCommitting (buf : Buffer) :
    (∃ e ∈ buf.buf_, e.2.status = .NeedsCommitting) ↔
      ∃ it rest, buf.first .NeedsCommitting = it :: rest ∧ it.2.status = .NeedsCommitting := by
  constructor
  · rintro ⟨e, he, hst⟩
    have hmem : e ∈ buf.first .NeedsCommitting :=
      (mem_first buf _ e).mpr ⟨he, by rw [hst]⟩
    cases hf : buf.first .NeedsCommitting with
    | nil => rw [hf] at hmem; exact absurd hmem (by simp)
    | cons it rest =>
      refine ⟨it, rest, rfl, ?_⟩
      have hit : it ∈ buf.first .NeedsCommitting := by rw [hf]; exact List.mem_cons_self _ _
      have h2 := ((mem_first buf _ it).mp hit).2
      have hsorted : (buf.first .NeedsCommitting).Pairwise
          (fun a c => a.2.status.toNat ≤ c.2.status.toNat) := by
        rw [first_eq_filter]
        exact (right_sorted buf).filter _
      rw [hf, List.pairwise_cons] at hsorted
      rw [hf] at hmem
      have h3 : it.2.status.toNat ≤ e.2.status.toNat := by
        rcases List.mem_cons.mp hmem with h | h
        · rw [h]
        · exact hsorted.1 e h
      rw [hst] at h3
      apply toNat_inj
      simp only [ValueState.toNat] at h2 h3 ⊢
      omega
  · rintro ⟨it, rest, hf, hst⟩
    have hit : it ∈ buf.first .NeedsCommitting := by rw [hf]; exact List.mem_cons_self _ _
    exact ⟨it, ((mem_first buf _ it).mp hit).1, hst⟩

/-- C20. For every buffer: when it holds no NeedsCommitting entry, `Purge` returns and the
buffer after the call holds exactly the Unprocessed entries it held, each as it was (the
Evicted and the Committed entries are gone); when it holds a NeedsCommitting entry,
`Purge` throws `std::runtime_error("Bad Buffer Purge")` before it erases anything. -/
theorem Purge_keeps_unprocessed (buf : Buffer) (hord : buf.Ordered) :
    ((∀ e ∈ buf.buf_, e.2.status ≠ .NeedsCommitting) →
      buf.Purge = .ok ⟨buf.buf_.filter (fun e => e.2.status == .Unprocessed)⟩) ∧
    ((∃ e ∈ buf.buf_, e.2.status = .NeedsCommitting) →
      buf.Purge = .error .bad_buffer_purge) := by
  constructor
  · intro hno
    have herase : buf.buf_.filter (fun e => !(buf.first .Evicted).any (fun g => g.1 == e.1))
        = buf.buf_.filter (fun e => e.2.status == .Unprocessed) := by
      apply List.filter_congr
      intro e he
      rw [Bool.eq_iff_iff]
      simp only [Bool.not_eq_true', List.any_eq_false, beq_iff_eq]
      constructor
      · intro h
        by_contra hst
        have : e ∈ buf.first .Evicted := by
          rw [mem_first]
          refine ⟨he, ?_⟩
          cases hs : e.2.status <;> simp [ValueState.toNat]
          exact hst hs
        exact h e this rfl
      · intro hst g hg hk
        obtain ⟨hgm, hgs⟩ := (mem_first buf _ g).mp hg
        have := ordered_unique _ hord g e hgm he hk
        rw [this, hst] at hgs
        simp [ValueState.toNat] at hgs
    unfold Buffer.Purge
    cases hf : buf.first .NeedsCommitting with
    | nil => simp only [herase]
    | cons check rest =>
      have hc : check ∈ buf.first .NeedsCommitting := by rw [hf]; exact List.mem_cons_self _ _
      have hne := hno check ((mem_first buf _ check).mp hc).1
      simp only [herase]
      rw [if_neg (by simpa using hne)]
  · intro hex
    obtain ⟨it, rest, hf, hst⟩ := (first_needsCommitting buf).mp hex
    unfold Buffer.Purge
    simp only [hf, hst, beq_self_eq_true, if_true]

theorem Purge_keeps_unprocessed_witness :
    (⟨[(2, ⟨0, 37, [1], .Unprocessed⟩), (3, ⟨0, 37, [], .Evicted⟩),
        (5, ⟨37, 37, [2], .Committed⟩)]⟩ : Buffer).Purge
      = .ok ⟨[(2, ⟨0, 37, [1], .Unprocessed⟩)]⟩ ∧
    (⟨[(2, ⟨0, 37, [1], .Unprocessed⟩), (3, ⟨0, 37, [2], .NeedsCommitting⟩)]⟩ : Buffer).Purge
      = .error .bad_buffer_purge :=
  ⟨(Purge_keeps_unprocessed
      ⟨[(2, ⟨0, 37, [1], .Unprocessed⟩), (3, ⟨0, 37, [], .Evicted⟩),
        (5, ⟨37, 37, [2], .Committed⟩)]⟩ (by simp [Buffer.Ordered])).1 (by simp),
   (Purge_keeps_unprocessed
      ⟨[(2, ⟨0, 37, [1], .Unprocessed⟩), (3, ⟨0, 37, [2], .NeedsCommitting⟩)]⟩
      (by simp [Buffer.Ordered])).2 ⟨(3, ⟨0, 37, [2], .NeedsCommitting⟩), by simp, rfl⟩⟩

/-! ## Closed runs of the buffer and of failed and extreme flushes -/

set_option maxRecDepth 100000 in
/-- C17 (the code at the failing input). The buffer holds one Unprocessed entry, under the
key `k` of 32 bytes `0x41`. `ContainsRange(k, k)` passes `assert(first <= last)` and then
walks the iterator range from `lower(k)`, the position behind the entry, to `upper(k)`,
the position of the entry: the range is inverted and `std::any_of` runs past `end()`.
For comparison, `ContainsRange(k, k + 1)` is false and `ContainsRange(k - 1, k + 1)` is
true. -/
theorem ContainsRange_at_held_key_is_undefined :
    (do let (buf, _) ← (⟨[]⟩ : Buffer).Add Scenario.build Scenario.keyA [97]
        pure (buf.buf_.map (fun e => (e.1, e.2.status)),
          buf.lower (2 ^ 256 / 255 * 65), buf.upper (2 ^ 256 / 255 * 65)) :
          Except Thrown (List (Nat × ValueState) × Nat × Nat))
      = .ok ([(2 ^ 256 / 255 * 65, .Unprocessed)], 1, 0) ∧
    (do let (buf, _) ← (⟨[]⟩ : Buffer).Add Scenario.build Scenario.keyA [97]
        buf.ContainsRange Scenario.build (2 ^ 256 / 255 * 65) (2 ^ 256 / 255 * 65))
      = .error .undefined ∧
    (do let (buf, _) ← (⟨[]⟩ : Buffer).Add Scenario.release Scenario.keyA [97]
        buf.ContainsRange Scenario.release (2 ^ 256 / 255 * 65) (2 ^ 256 / 255 * 65))
      = .error .undefined ∧
    (do let (buf, _) ← (⟨[]⟩ : Buffer).Add Scenario.build Scenario.keyA [97]
        buf.ContainsRange Scenario.build (2 ^ 256 / 255 * 65) (2 ^ 256 / 255 * 65 + 1))
      = .ok false ∧
    (do let (buf, _) ← (⟨[]⟩ : Buffer).Add Scenario.build Scenario.keyA [97]
        buf.ContainsRange Scenario.build (2 ^ 256 / 255 * 65 - 1) (2 ^ 256 / 255 * 65 + 1))
      = .ok true := by decide!

set_option maxRecDepth 100000 in
/-- C19 (the code at the failing input). The buffer holds one entry, under the key
`00...02` with the value `"a"`, moved to NeedsCommitting at offset 0 with length 37.
`Write` returns true, marks the entry Committed and leaves 37 bytes in the write buffer,
but they are not the record of the entry (length, the 32 key bytes, the value byte):
`ToBytes` gives 8 key bytes, the value byte follows at position 12, and 24 zero bytes pad
the rest. -/
theorem write_record_is_malformed :
    (do let (buf, _) ← (⟨[]⟩ : Buffer).Add Scenario.build Scenario.key2 [97]
        let buf ← buf.SetOffset Scenario.build 2 0
        let (buf1, wb, more) ← buf.Write Scenario.build 1048576 []
        pure (buf.buf_, buf1.buf_, wb, more) :
          Except Thrown (List (Nat × Value) × List (Nat × Value) × List Nat × Bool))
      = .ok ([(2, ⟨0, 37, [97], .NeedsCommitting⟩)], [(2, ⟨0, 37, [97], .Committed⟩)],
          [37, 0, 0, 0, 0, 0, 0, 0, 0, 0, 0, 2, 97] ++ List.replicate 24 0, true) ∧
    KeyUtil.ToBytes Scenario.build 2 = [0, 0, 0, 0, 0, 0, 0, 2] ∧
    Spec.record 37 Scenario.key2 [97] = [37, 0, 0, 0] ++ List.replicate 31 0 ++ [2, 97] ∧
    [37, 0, 0, 0, 0, 0, 0, 0, 0, 0, 0, 2, 97] ++ List.replicate 24 0
      ≠ Spec.record 37 Scenario.key2 [97] := by decide!

set_option maxRecDepth 100000 in
/-- C14 (the code at two failing inputs), on a store of degree 3 opened and cleared
without error, after `Put(k, "a")` with `k` the key of 32 bytes `0x41`.
First: the append to the value log fails in the first flush (`EIO`). The flush returns the
error and does not purge, but `Buffer::Write` has already marked the entry Committed; the
second flush completes without error, finds nothing to process, purges the entry, and
`Get(k)` returns `key_not_found`.
Second: the node write fails in the first flush. The record is in the value log, the entry
is Committed, no node refers to it; the second flush purges the entry and `Get(k)` returns
`key_not_found`. -/
theorem failed_commit_loses_pending_keys :
    (do let (db, e0) ← DB.Open Scenario.build (DB.new Scenario.build Scenario.options
          ⟨[], []⟩ ⟨[], [none, none, none, some 5]⟩)
        let (db, e1) ← DB.Clear Scenario.build db
        let (db, e2) ← DB.Put Scenario.build db Scenario.keyA [97]
        let (db, e3) ← DB.flush Scenario.build 8 db
        pure ([e0, e1, e2, e3], db.buffer_.buf_.map (fun e => e.2.status)) :
          Except Thrown (List error_condition × List ValueState))
      = .ok ([none, none, none, some (.os 5)], [.Committed]) ∧
    (do let (db, _) ← DB.Open Scenario.build (DB.new Scenario.build Scenario.options
          ⟨[], []⟩ ⟨[], [none, none, none, some 5]⟩)
        let (db, _) ← DB.Clear Scenario.build db
        let (db, _) ← DB.Put Scenario.build db Scenario.keyA [97]
        let (db, _) ← DB.flush Scenario.build 8 db
        let (db, e4) ← DB.flush Scenario.build 8 db
        let (_, e5, value) ← DB.Get Scenario.build 8 db Scenario.keyA []
        pure ([e4, e5], db.buffer_.Size, value) :
          Except Thrown (List error_condition × Nat × List Nat))
      = .ok ([none, some .key_not_found], 0, []) ∧
    (do let (db, e0) ← DB.Open Scenario.build (DB.new Scenario.build Scenario.options
          ⟨[], [none, none, none, none, none, none, none, some 5]⟩ ⟨[], []⟩)
        let (db, e1) ← DB.Clear Scenario.build db
        let (db, e2) ← DB.Put Scenario.build db Scenario.keyA [97]
        let (db, e3) ← DB.flush Scenario.build 8 db
        pure ([e0, e1, e2, e3], db.buffer_.buf_.map (fun e => e.2.status)) :
          Except Thrown (List error_condition × List ValueState))
      = .ok ([none, none, none, some (.os 5)], [.Committed]) ∧
    (do let (db, _) ← DB.Open Scenario.build (DB.new Scenario.build Scenario.options
          ⟨[], [none, none, none, none, none, none, none, some 5]⟩ ⟨[], []⟩)
        let (db, _) ← DB.Clear Scenario.build db
        let (db, _) ← DB.Put Scenario.build db Scenario.keyA [97]
        let (db, _) ← DB.flush Scenario.build 8 db
        let (db, e4) ← DB.flush Scenario.build 8 db
        let (_, e5, value) ← DB.Get Scenario.build 8 db Scenario.keyA []
        pure ([e4, e5], db.buffer_.Size, value) :
          Except Thrown (List error_condition × Nat × List Nat))
      = .ok ([none, some .key_not_found], 0, []) := by decide!

/-! ## The candidates of a range -/

theorem setInsert_append (kv : KeyValue) (acc : List KeyValue)
    (h : ∀ y ∈ acc, y.key < kv.key) : setInsert kv acc = acc ++ [kv] := by
  induction acc with
  | nil => rfl
  | cons x rest ih =>
    have hx := h x (List.mem_cons_self _ _)
    unfold setInsert
    rw [if_neg (by omega), if_neg (by omega),
      ih (fun y hy => h y (List.mem_cons_of_mem _ hy))]
    rfl

theorem candidates_fold_eq (r : List (Nat × Value)) (hs : r.Pairwise (fun a c => a.1 < c.1)) :
    ∀ acc : List KeyValue × List KeyValue,
      (∀ y ∈ acc.1, ∀ e ∈ r, y.key < e.1) → (∀ y ∈ acc.2, ∀ e ∈ r, y.key < e.1) →
      r.foldl (fun (acc : List KeyValue × List KeyValue) kv =>
        if kv.2.status == .Unprocessed then
          (setInsert ⟨kv.1, kv.2.offset, kv.2.length⟩ acc.1, acc.2)
        else if kv.2.status == .Evicted then
          (acc.1, setInsert ⟨kv.1, kv.2.offset, kv.2.length⟩ acc.2)
        else acc) acc
      = (acc.1 ++ (r.filter (fun e => e.2.status == .Unprocessed)).map
            (fun e => (⟨e.1, e.2.offset, e.2.length⟩ : KeyValue)),
         acc.2 ++ (r.filter (fun e => e.2.status == .Evicted)).map
            (fun e => (⟨e.1, e.2.offset, e.2.length⟩ : KeyValue))) := by
  induction r with
  | nil => intro acc _ _; simp
  | cons x rest ih =>
    intro acc h1 h2
    rw [List.pairwise_cons] at hs
    simp only [List.foldl_cons]
    have hx1 : ∀ y ∈ acc.1, y.key < x.1 := fun y hy => h1 y hy x (List.mem_cons_self _ _)
    have hx2 : ∀ y ∈ acc.2, y.key < x.1 := fun y hy => h2 y hy x (List.mem_cons_self _ _)
    have hr1 : ∀ y ∈ acc.1, ∀ e ∈ rest, y.key < e.1 :=
      fun y hy e he => h1 y hy e (List.mem_cons_of_mem _ he)
    have hr2 : ∀ y ∈ acc.2, ∀ e ∈ rest, y.key < e.1 :=
      fun y hy e he => h2 y hy e (List.mem_cons_of_mem _ he)
    by_cases hu : (x.2.status == .Unprocessed) = true
    · have hne : ¬ (x.2.status == .Evicted) = true := by
        simp only [beq_iff_eq] at hu ⊢
        rw [hu]; simp
      rw [if_pos hu, setInsert_append _ _ hx1, ih hs.2]
      · simp [List.filter_cons, hu, hne]
      · intro y hy e he
        rcases List.mem_append.mp hy with h | h
        · exact hr1 y h e he
        · simp only [List.mem_singleton] at h
          rw [h]; exact hs.1 e he
      · exact hr2
    · rw [if_neg hu]
      by_cases he : (x.2.status == .Evicted) = true
      · rw [if_pos he, setInsert_append _ _ hx2, ih hs.2]
        · simp [List.filter_cons, hu, he]
        · exact hr1
        · intro y hy e he2
          rcases List.mem_append.mp hy with h | h
          · exact hr2 y h e he2
          · simp only [List.mem_singleton] at h
            rw [h]; exact hs.1 e he2
      · rw [if_neg he, ih hs.2 acc hr1 hr2]
        simp [List.filter_cons, hu, he]

/-- The candidates and the evictions of a range: the Unprocessed and the Evicted entries
with a key strictly between the bounds, in key order. -/
theorem GetCandidates_eq (buf : Buffer) (hord : buf.Ordered) (firstKey lastKey : Nat)
    (hfl : firstKey < lastKey) :
    buf.GetCandidates firstKey lastKey [] [] = .ok
      (((buf.buf_.filter (fun e => decide (firstKey < e.1) && decide (e.1 < lastKey))).filter
          (fun e => e.2.status == .Unprocessed)).map
            (fun e => (⟨e.1, e.2.offset, e.2.length⟩ : KeyValue)),
       ((buf.buf_.filter (fun e => decide (firstKey < e.1) && decide (e.1 < lastKey))).filter
          (fun e => e.2.status == .Evicted)).map
            (fun e => (⟨e.1, e.2.offset, e.2.length⟩ : KeyValue))) := by
  unfold Buffer.GetCandidates
  rw [Buffer.range_eq buf _ _ hord hfl]
  simp only [bind, Except.bind, pure, Except.pure]
  rw [candidates_fold_eq _ (List.Pairwise.filter _ hord) ([], [])
    (fun y hy => absurd hy (by simp)) (fun y hy => absurd hy (by simp))]
  simp

/-! ## What `Delta::AddKeys` leaves of the node -/

theorem SameFrame.refl (n : Node) : n.SameFrame n := ⟨rfl, rfl, rfl, rfl, rfl, rfl⟩

theorem SameFrame.trans {n m k : Node} (h1 : n.SameFrame m) (h2 : m.SameFrame k) :
    n.SameFrame k := by
  obtain ⟨a1, a2, a3, a4, a5, a6⟩ := h1
  obtain ⟨c1, c2, c3, c4, c5, c6⟩ := h2
  exact ⟨c1.trans a1, c2.trans a2, c3.trans a3, c4.trans a4, c5.trans a5, c6.trans a6⟩

theorem SameFrame.keys (n : Node) (ks : List KeyValue) : n.SameFrame { n with keys := ks } :=
  ⟨rfl, rfl, rfl, rfl, rfl, rfl⟩

theorem SetKeyValue_frame (n m : Node) (i : Nat) (kv : KeyValue)
    (h : n.SetKeyValue i kv = .ok m) : n.SameFrame m := by
  unfold Node.SetKeyValue at h
  split at h
  · injection h with h; rw [← h]; exact SameFrame.keys n _
  · exact absurd h (by simp)

theorem strideLoop_frame (stride : Nat) (l : List KeyValue) :
    ∀ (n m : Node) (index best : Nat),
      Delta.strideLoop stride l n index best = .ok m → n.SameFrame m := by
  induction l with
  | nil =>
    intro n m index best h
    simp only [Delta.strideLoop] at h
    injection h with h; rw [← h]; exact SameFrame.refl n
  | cons kv rest ih =>
    intro n m index best h
    simp only [Delta.strideLoop, bind, Except.bind] at h
    cases hn : KeyUtil.NearestStride n.first stride kv.key with
    | error e => rw [hn] at h; exact absurd h (by simp)
    | ok r =>
      obtain ⟨distance, nearest⟩ := r
      rw [hn] at h
      simp only at h
      split at h
      · cases hs : n.SetKeyValue nearest kv with
        | error e => rw [hs] at h; exact absurd h (by simp)
        | ok n1 =>
          rw [hs] at h
          exact SameFrame.trans (SetKeyValue_frame n n1 _ _ hs) (ih _ _ _ _ h)
      · exact ih _ _ _ _ h

theorem AddSyntheticKeyValues_frame (b : Build) (n m : Node) (c : Nat)
    (h : n.AddSyntheticKeyValues b = .ok (m, c)) : n.SameFrame m := by
  unfold Node.AddSyntheticKeyValues at h
  simp only [bind, Except.bind, pure, Except.pure] at h
  split at h
  · exact absurd h (by simp)
  · split at h
    · exact absurd h (by simp)
    · split at h
      · exact absurd h (by simp)
      · injection h with h
        injection h with h1 _
        rw [← h1]; exact SameFrame.keys n _

theorem Flip_current (d : Delta) : d.Flip.current_ = d.current_ := by
  unfold Delta.Flip
  split <;> rfl

theorem Flip_previous (d : Delta) :
    d.Flip.previous_ = d.previous_ ∧ d.previous_ ≠ none ∨
      d.previous_ = none ∧ d.Flip.previous_ = some d.current_ := by
  unfold Delta.Flip Delta.Dirty
  cases hp : d.previous_ with
  | none => right; simp [hp]
  | some p => left; simp [hp]

theorem Flip_previous_existing (d : Delta) (n : Nat) :
    ({ d with existing_ := n } : Delta).Flip.previous_ = d.Flip.previous_ := by
  obtain ⟨e, i, ev, sy, ch, cur, prev⟩ := d
  unfold Delta.Flip Delta.Dirty
  cases prev <;> rfl

theorem Clear_frame (n : Node) : n.SameFrame n.Clear := SameFrame.keys n _

/-- What `AddKeys` leaves of the delta: the node keeps everything but its slots. Either the
call returned at one of its two "nothing to do" tests and the delta is as it was, or it
went through `Flip`. -/
theorem AddKeys_frame (b : Build) (d d1 : Delta) (buffer buffer1 : Buffer) (offset offset1 : Nat)
    (h : d.AddKeys b buffer offset = .ok (d1, buffer1, offset1)) :
    d.current_.SameFrame d1.current_ ∧
    ∃ candidates evictions,
      buffer.GetCandidates d.current_.first d.current_.last [] [] = .ok (candidates, evictions) ∧
      (d1.previous_ = d.previous_ ∧ d1.current_ = d.current_ ∧
          (candidates.length + evictions.length = 0 ∨
            ((List.foldl (fun (acc : Buffer × List KeyValue) kv =>
                (acc.1.RemoveDuplicate kv.key, setErase kv acc.2)) (buffer, candidates)
              (set_intersection candidates
                (List.foldl (fun acc kv => setInsert kv acc) []
                  (List.drop d.current_.NonZeroBegin d.current_.keys)))).2.length = 0 ∧
              evictions.length = 0) ∨
            d.current_.EmptyKeyCount = 0) ∨
        d1.previous_ = d.Flip.previous_) := by
  unfold Delta.AddKeys at h
  simp only [bind, Except.bind, pure, Except.pure] at h
  split at h
  · exact absurd h (by simp)
  · rename_i r hr
    obtain ⟨candidates, evictions⟩ := r
    simp only at h
    split at h
    · rename_i hc
      injection h with h
      injection h with h1 _
      rw [← h1]
      exact ⟨SameFrame.refl _, candidates, evictions, hr, Or.inl ⟨rfl, rfl, Or.inl hc⟩⟩
    · split at h
      · rename_i hc
        injection h with h
        injection h with h1 _
        rw [← h1]
        exact ⟨SameFrame.refl _, candidates, evictions, hr, Or.inl ⟨rfl, rfl, Or.inr hc⟩⟩
      · have hcur := Flip_current
          { d with existing_ := (List.foldl (fun acc kv => setInsert kv acc) []
            (List.drop d.current_.NonZeroBegin d.current_.keys)).length }
        simp only at hcur
        have hP := Flip_previous_existing d (List.foldl (fun acc kv => setInsert kv acc) []
            (List.drop d.current_.NonZeroBegin d.current_.keys)).length
        split at h
        · split at h
          · exact absurd h (by simp)
          · split at h
            · exact absurd h (by simp)
            · split at h
              · exact absurd h (by simp)
              · injection h with h
                injection h with h1 _
                rw [← h1]
                refine ⟨?_, candidates, evictions, hr, Or.inr hP⟩
                simp only [hcur]
                exact SameFrame.keys _ _
        · split at h
          · exact absurd h (by simp)
          · split at h
            · exact absurd h (by simp)
            · rename_i cur1 hstride
              split at h
              · exact absurd h (by simp)
              · rename_i r2 hsyn
                split at h
                · exact absurd h (by simp)
                · split at h
                  · exact absurd h (by simp)
                  · injection h with h
                    injection h with h1 _
                    rw [← h1]
                    refine ⟨?_, candidates, evictions, hr, Or.inr hP⟩
                    simp only [hcur] at hstride
                    have f1 := strideLoop_frame _ _ _ _ _ _ hstride
                    have f2 := AddSyntheticKeyValues_frame b _ _ _ hsyn
                    exact SameFrame.trans (SameFrame.trans (SameFrame.trans (Clear_frame _) f1) f2)
                      (SameFrame.keys _ _)

/-! ## Candidates of a range that holds a pending entry -/

theorem setInsert_ne_nil (kv : KeyValue) (l : List KeyValue) : setInsert kv l ≠ [] := by
  cases l with
  | nil => simp [setInsert]
  | cons x rest =>
    unfold setInsert
    split
    · simp
    · split <;> simp

theorem candidates_fold_nonempty (r : List (Nat × Value)) :
    ∀ acc : List KeyValue × List KeyValue,
      (acc.1 ≠ [] ∨ acc.2 ≠ [] ∨
        r.any (fun kv => kv.2.status == .Unprocessed || kv.2.status == .Evicted) = true) →
      (r.foldl (fun (acc : List KeyValue × List KeyValue) kv =>
        if kv.2.status == .Unprocessed then
          (setInsert ⟨kv.1, kv.2.offset, kv.2.length⟩ acc.1, acc.2)
        else if kv.2.status == .Evicted then
          (acc.1, setInsert ⟨kv.1, kv.2.offset, kv.2.length⟩ acc.2)
        else acc) acc).1 ≠ [] ∨
      (r.foldl (fun (acc : List KeyValue × List KeyValue) kv =>
        if kv.2.status == .Unprocessed then
          (setInsert ⟨kv.1, kv.2.offset, kv.2.length⟩ acc.1, acc.2)
        else if kv.2.status == .Evicted then
          (acc.1, setInsert ⟨kv.1, kv.2.offset, kv.2.length⟩ acc.2)
        else acc) acc).2 ≠ [] := by
  induction r with
  | nil =>
    intro acc h
    rcases h with h | h | h
    · exact Or.inl h
    · exact Or.inr h
    · simp at h
  | cons x rest ih =>
    intro acc h
    simp only [List.foldl_cons]
    apply ih
    by_cases h1 : (x.2.status == .Unprocessed) = true
    · rw [if_pos h1]
      exact Or.inl (setInsert_ne_nil _ _)
    · rw [if_neg h1]
      by_cases h2 : (x.2.status == .Evicted) = true
      · rw [if_pos h2]
        exact Or.inr (Or.inl (setInsert_ne_nil _ _))
      · rw [if_neg h2]
        rcases h with h | h | h
        · exact Or.inl h
        · exact Or.inr (Or.inl h)
        · right; right
          simp only [List.any_cons, Bool.or_eq_true] at h
          rcases h with h | h
          · rcases h with h | h
            · exact absurd h h1
            · exact absurd h h2
          · exact h

/-- A range for which `ContainsRange` is true gives `GetCandidates` something to route. -/
theorem candidates_of_containsRange (b : Build) (buf : Buffer) (firstKey lastKey : Nat)
    (candidates evictions : List KeyValue)
    (hc : buf.ContainsRange b firstKey lastKey = .ok true)
    (hg : buf.GetCandidates firstKey lastKey [] [] = .ok (candidates, evictions)) :
    candidates.length + evictions.length ≠ 0 := by
  unfold Buffer.ContainsRange at hc
  unfold Buffer.GetCandidates at hg
  simp only [bind, Except.bind, pure, Except.pure] at hc hg
  split at hc
  · exact absurd hc (by simp)
  · cases hr : buf.range firstKey lastKey with
    | error e => rw [hr] at hg; exact absurd hg (by simp)
    | ok r =>
      rw [hr] at hc hg
      simp only at hc hg
      injection hc with hc
      injection hg with hg
      have := candidates_fold_nonempty r ([], []) (Or.inr (Or.inr hc))
      rw [hg] at this
      simp only at this
      intro h0
      have h1 : candidates.length = 0 := by omega
      have h2 : evictions.length = 0 := by omega
      rcases this with h | h
      · exact h (List.length_eq_zero.mp h1)
      · exact h (List.length_eq_zero.mp h2)

theorem set_intersection_nil (xs : List KeyValue) : set_intersection xs [] = [] := by
  cases xs with
  | nil => rfl
  | cons x rest => simp [set_intersection]

theorem takeWhile_all {α : Type} (p : α → Bool) (l : List α) (h : ∀ x ∈ l, p x = true) :
    l.takeWhile p = l := by
  induction l with
  | nil => rfl
  | cons x rest ih =>
    rw [List.takeWhile_cons_of_pos (h x (List.mem_cons_self _ _))]
    rw [ih (fun y hy => h y (List.mem_cons_of_mem _ hy))]

/-- On a node with empty slots only, for a range with pending entries, `AddKeys` goes
through `Flip`: the delta it returns is dirty. -/
theorem AddKeys_fresh_dirty (b : Build) (node : Node) (d1 : Delta)
    (buffer buffer1 : Buffer) (offset offset1 : Nat)
    (hz : ∀ k ∈ node.keys, k.IsZero = true) (hne : node.keys ≠ [])
    (hc : buffer.ContainsRange b node.first node.last = .ok true)
    (h : (Delta.new node).AddKeys b buffer offset = .ok (d1, buffer1, offset1)) :
    d1.previous_ = some node := by
  obtain ⟨_, candidates, evictions, hg, hcase⟩ := AddKeys_frame b _ _ _ _ _ _ h
  simp only [Delta.new] at hg hcase
  have hnz := candidates_of_containsRange b buffer _ _ _ _ hc hg
  have hbegin : node.NonZeroBegin = node.keys.length := by
    unfold Node.NonZeroBegin
    rw [takeWhile_all _ _ hz]
  rcases hcase with ⟨_, _, hcond⟩ | hflip
  · exfalso
    rcases hcond with h0 | ⟨h1, h2⟩ | h3
    · exact hnz h0
    · rw [hbegin, List.drop_length] at h1
      simp only [List.foldl_nil, set_intersection_nil] at h1
      omega
    · unfold Node.EmptyKeyCount at h3
      rw [hbegin] at h3
      exact hne (List.length_eq_zero.mp h3)
  · rw [hflip]
    rfl

/-! ## The recursion of `Journal::process` -/

theorem process_succ (b : Build) (fuel : Nat) (j : Journal) (t : Tree) (node : Node) :
    Journal.process b (fuel + 1) (j, t) node = (do
      let delta := Delta.new node
      let (delta, buffer, offset) ← delta.AddKeys b j.buffer_ j.offset_
      let j := { j with buffer_ := buffer, offset_ := offset }
      Journal.assertSanity b delta
      let ((j, t, delta), err) ←
        (if delta.Current.EmptyKeyCount = 0 then
          delta.Current.EachChild (Journal.processChild b (Journal.process b fuel) node)
            (j, t, delta)
        else pure ((j, t, delta), none))
      if err.isSome then pure ((j, t), err)
      else
        Journal.assertSanity b delta
        let j := if delta.Dirty then
          { j with deltas_ := Journal.emplace (node.level, delta) j.deltas_ } else j
        pure ((j, t), none)) := by
  rfl

theorem mem_emplace (e x : Nat × Delta) (l : List (Nat × Delta)) :
    x ∈ Journal.emplace e l ↔ x = e ∨ x ∈ l := by
  induction l with
  | nil => simp [Journal.emplace]
  | cons y rest ih =>
    unfold Journal.emplace
    by_cases h : e.1 < y.1
    · rw [if_pos h]; simp
    · rw [if_neg h]
      simp only [List.mem_cons, ih]
      tauto

theorem emplace_sorted (e : Nat × Delta) (l : List (Nat × Delta))
    (hs : l.Pairwise (fun a c => a.1 ≤ c.1)) :
    (Journal.emplace e l).Pairwise (fun a c => a.1 ≤ c.1) := by
  induction l with
  | nil => simp [Journal.emplace]
  | cons y rest ih =>
    rw [List.pairwise_cons] at hs
    unfold Journal.emplace
    by_cases h : e.1 < y.1
    · rw [if_pos h]
      refine List.Pairwise.cons ?_ (List.Pairwise.cons hs.1 hs.2)
      intro z hz
      rcases List.mem_cons.mp hz with h1 | h1
      · rw [h1]; omega
      · have := hs.1 z h1; omega
    · rw [if_neg h]
      refine List.Pairwise.cons ?_ (ih hs.2)
      intro z hz
      rcases (mem_emplace e z rest).mp hz with h1 | h1
      · rw [h1]; omega
      · exact hs.1 z h1

theorem eachChildStep_inv {σ : Type} (n : Node)
    (f : Nat → Nat → Nat → Nat → σ → Except Thrown (σ × error_condition)) (P : σ → Prop)
    (hf : ∀ i first last cid s s', P s → f i first last cid s = .ok (s', none) → P s')
    (i : Nat) (s s' : σ) (hs : P s) (h : Node.eachChildStep n f i s = .ok (s', none)) : P s' := by
  unfold Node.eachChildStep at h
  simp only [bind, Except.bind, pure, Except.pure] at h
  split at h
  · split at h
    · exact absurd h (by simp)
    · split at h
      · split at h
        · exact absurd h (by simp)
        · exact hf _ _ _ _ _ _ hs h
      · injection h with h; injection h with h1 _; rw [← h1]; exact hs
  · split at h
    · split at h
      · exact absurd h (by simp)
      · split at h
        · split at h
          · exact absurd h (by simp)
          · exact hf _ _ _ _ _ _ hs h
        · injection h with h; injection h with h1 _; rw [← h1]; exact hs
    · split at h
      · exact absurd h (by simp)
      · split at h
        · split at h
          · exact absurd h (by simp)
          · split at h
            · split at h
              · exact absurd h (by simp)
              · exact hf _ _ _ _ _ _ hs h
            · injection h with h; injection h with h1 _; rw [← h1]; exact hs
        · injection h with h; injection h with h1 _; rw [← h1]; exact hs

theorem eachChildLoop_inv {σ : Type} (n : Node)
    (f : Nat → Nat → Nat → Nat → σ → Except Thrown (σ × error_condition)) (P : σ → Prop)
    (hf : ∀ i first last cid s s', P s → f i first last cid s = .ok (s', none) → P s') :
    ∀ (l : List Nat) (s s' : σ), P s → Node.eachChildLoop n f l s = .ok (s', none) → P s' := by
  intro l
  induction l with
  | nil =>
    intro s s' hs h
    simp only [Node.eachChildLoop] at h
    injection h with h; injection h with h1 _; rw [← h1]; exact hs
  | cons i rest ih =>
    intro s s' hs h
    simp only [Node.eachChildLoop, bind, Except.bind, pure, Except.pure] at h
    cases hstep : Node.eachChildStep n f i s with
    | error e => rw [hstep] at h; exact absurd h (by simp)
    | ok r =>
      obtain ⟨s1, err⟩ := r
      rw [hstep] at h
      simp only at h
      cases err with
      | some e =>
        simp at h
      | none =>
        simp only [Option.isSome_none, Bool.false_eq_true, if_false] at h
        exact ih s1 s' (eachChildStep_inv n f P hf i s s1 hs hstep) h

theorem CreateNode_spec (t t2 : Tree) (level first last : Nat) (child : Node)
    (h : t.CreateNode level first last = .ok (t2, child)) :
    t2.store_.degree_ = t.store_.degree_ ∧ child.level = level ∧ child.first = first ∧
      child.last = last ∧
      child.keys = List.replicate ((t.store_.degree_ + (2 ^ 32 - 1)) % 2 ^ 32) KeyValue.zero := by
  unfold Tree.CreateNode KeyStore.New at h
  simp only [bind, Except.bind, pure, Except.pure] at h
  cases hn : Node.new (t.store_.size_ + t.store_.block_size_ - t.store_.block_size_) level
      t.store_.degree_ first last with
  | error e => rw [hn] at h; exact absurd h (by simp)
  | ok n =>
    rw [hn] at h
    simp only at h
    injection h with h
    injection h with h1 h2
    unfold Node.new at hn
    split at hn
    · exact absurd hn (by simp)
    · injection hn with hn
      rw [← h1, ← h2, ← hn]
      simp only [and_self]

theorem KeyStore_Get_degree (b : Build) (k k1 : KeyStore) (id : Nat)
    (r : Option Node × error_condition) (h : k.Get b id = .ok (k1, r)) :
    k1.degree_ = k.degree_ := by
  unfold KeyStore.Get at h
  simp only [bind, Except.bind, pure, Except.pure] at h
  split at h
  · exact absurd h (by simp)
  · split at h
    · injection h with h; injection h with h1 _; rw [← h1]
    · split at h
      · injection h with h; injection h with h1 _; rw [← h1]
      · split at h
        · injection h with h; injection h with h1 _; rw [← h1]
        · split at h
          · exact absurd h (by simp)
          · injection h with h; injection h with h1 _; rw [← h1]

theorem GetNode_degree (b : Build) (t t2 : Tree) (id : Nat) (r : Option Node × error_condition)
    (h : t.GetNode b id = .ok (t2, r)) : t2.store_.degree_ = t.store_.degree_ := by
  unfold Tree.GetNode at h
  simp only [bind, Except.bind, pure, Except.pure] at h
  split at h
  · exact absurd h (by simp)
  · split at h
    · injection h with h; injection h with h1 _; rw [← h1]
    · split at h
      · exact absurd h (by simp)
      · rename_i r2 hr2
        injection h with h; injection h with h1 _; rw [← h1]
        exact KeyStore_Get_degree b _ _ _ _ hr2

theorem Delta_SetChild_spec (d d1 : Delta) (i cid : Nat) (h : d.SetChild i cid = .ok d1) :
    d1.current_.id = d.current_.id ∧ d1.current_.level = d.current_.level ∧
      d1.previous_ = d.Flip.previous_ ∧
      d1.current_.children = d.current_.children.set i cid := by
  unfold Delta.SetChild at h
  simp only [bind, Except.bind, pure, Except.pure] at h
  split at h
  · exact absurd h (by simp)
  · rename_i n hn
    injection h with h
    rw [← h]
    simp only [Flip_current] at hn
    unfold Node.SetChild at hn
    split at hn
    · injection hn with hn
      rw [← hn]
      exact ⟨rfl, rfl, rfl, rfl⟩
    · exact absurd hn (by simp)

theorem replicate_zero_isZero (n : Nat) : ∀ k ∈ List.replicate n KeyValue.zero, k.IsZero = true := by
  intro k hk
  rw [List.eq_of_mem_replicate hk]
  rfl

/-- The callback of `process` keeps the invariant of the loop, when the recursive calls
do what `Records` says. -/
theorem processChild_inv (b : Build) (fuel : Nat) (ih : Journal.Records b fuel)
    (ds : List (Nat × Delta)) (n : Node) (deg : Nat) (dirty : Prop)
    (i first last cid : Nat) (s s1 : Journal × Tree × Delta)
    (hs : Journal.LoopInv ds n deg dirty s)
    (h : Journal.processChild b (Journal.process b fuel) n i first last cid s = .ok (s1, none)) :
    Journal.LoopInv ds n deg dirty s1 := by
  obtain ⟨j, t, delta⟩ := s
  obtain ⟨hdeg, hsub, hlev, hid, hlvl, hprev, hdirty, hclosed⟩ := hs
  simp only at hdeg hsub hlev hid hlvl hprev hdirty hclosed
  unfold Journal.processChild at h
  simp only [bind, Except.bind, pure, Except.pure] at h
  cases hcr : j.buffer_.ContainsRange b first last with
  | error e => rw [hcr] at h; exact absurd h (by simp)
  | ok c =>
    rw [hcr] at h
    simp only at h
    cases c with
    | false =>
      simp only [Bool.not_false, if_true] at h
      injection h with h
      injection h with h1 _
      rw [← h1]
      exact ⟨hdeg, hsub, hlev, hid, hlvl, hprev, hdirty, hclosed⟩
    | true =>
      simp only [Bool.not_true, Bool.false_eq_true, if_false] at h
      split at h
      · -- a new child
        cases hcn : t.CreateNode ((n.level + 1) % 2 ^ 32) first last with
        | error e => rw [hcn] at h; exact absurd h (by simp)
        | ok r =>
          obtain ⟨t2, child⟩ := r
          rw [hcn] at h
          simp only at h
          obtain ⟨hd2, hcl, hcf, hcla, hck⟩ := CreateNode_spec _ _ _ _ _ _ hcn
          cases hsc : delta.SetChild i child.id with
          | error e => rw [hsc] at h; exact absurd h (by simp)
          | ok delta1 =>
            rw [hsc] at h
            simp only at h
            obtain ⟨hsid, hslvl, hsprev, hsch⟩ := Delta_SetChild_spec _ _ _ _ hsc
            cases hpr : Journal.process b fuel (j, t2) child with
            | error e => rw [hpr] at h; exact absurd h (by simp)
            | ok r2 =>
              obtain ⟨⟨j2, t3⟩, err⟩ := r2
              rw [hpr] at h
              simp only at h
              injection h with h
              injection h with h1 h2
              subst h2
              rw [← h1]
              obtain ⟨rdeg, rsub, rlev, rclosed⟩ := ih j t2 child j2 t3 hpr
              have hnew : delta1.previous_ = some n := by
                rw [hsprev]
                rcases hprev with ⟨hp1, hp2⟩ | hp1
                · unfold Delta.Flip Delta.Dirty
                  simp [hp1, hp2]
                · unfold Delta.Flip Delta.Dirty
                  simp [hp1]
              refine ⟨?_, ?_, ?_, ?_, ?_, Or.inr hnew, fun _ => hnew, ?_⟩
              · simp only; rw [rdeg, hd2, hdeg]
              · intro x hx; exact rsub x (hsub x hx)
              · intro hl; exact rlev (hlev hl)
              · simp only; rw [hsid, hid]
              · simp only; rw [hslvl, hlvl]
              · intro hne
                have hne2 : (t2.store_.degree_ + (2 ^ 32 - 1)) % 2 ^ 32 ≠ 0 := by
                  rw [hd2, hdeg]; exact hne
                obtain ⟨rc1, rc2⟩ := rclosed hne2
                obtain ⟨hc1, hc2⟩ := hclosed hne
                refine ⟨fun hc => rc1 (hc1 hc), ?_⟩
                intro i' cid' hget hnz
                simp only at hget
                rw [hsch] at hget
                by_cases hii : i' = i
                · -- the slot of the new child
                  subst hii
                  have hlt : i' < delta.current_.children.length := by
                    by_contra hge
                    rw [List.get?_eq_getElem?, List.getElem?_set] at hget
                    simp at hget
                    omega
                  rw [List.get?_eq_getElem?, List.getElem?_set_self hlt] at hget
                  injection hget with hget
                  right
                  have hfresh := rc2 (by rw [hck]; exact replicate_zero_isZero _)
                    (by
                      rw [hck, hdeg]
                      intro h0
                      have := congrArg List.length h0
                      simp at this
                      omega)
                    (by rw [hcf, hcla]; exact hcr)
                  obtain ⟨e, he, heid, hel⟩ := hfresh
                  exact ⟨e, he, by rw [heid, hget], by rw [hel, hcl]⟩
                · rw [List.get?_eq_getElem?, List.getElem?_set_ne (fun h => hii h.symm),
                    ← List.get?_eq_getElem?] at hget
                  rcases hc2 i' cid' hget hnz with h3 | ⟨f, hf, hfid, hfl⟩
                  · exact Or.inl h3
                  · exact Or.inr ⟨f, rsub f hf, hfid, hfl⟩
      · -- a child that exists
        cases hgn : t.GetNode b cid with
        | error e => rw [hgn] at h; exact absurd h (by simp)
        | ok r =>
          obtain ⟨t2, child, err⟩ := r
          rw [hgn] at h
          simp only at h
          have hd2 := GetNode_degree b _ _ _ _ hgn
          have hskip : ∀ (e : error_condition),
              (Except.ok ((j, t2, delta), e) : Except Thrown _) = Except.ok (s1, none) →
              Journal.LoopInv ds n deg dirty s1 := by
            intro e he
            injection he with he
            injection he with h1 _
            rw [← h1]
            exact ⟨by simp only; rw [hd2, hdeg], hsub, hlev, hid, hlvl, hprev, hdirty, hclosed⟩
          cases child with
          | none => exact hskip _ h
          | some child1 =>
            cases err with
            | some e => exact hskip _ h
            | none =>
              simp only at h
              cases hpr : Journal.process b fuel (j, t2) child1 with
              | error e => rw [hpr] at h; exact absurd h (by simp)
              | ok r2 =>
                obtain ⟨⟨j2, t3⟩, err2⟩ := r2
                rw [hpr] at h
                simp only at h
                injection h with h
                injection h with h1 h2
                subst h2
                rw [← h1]
                obtain ⟨rdeg, rsub, rlev, rclosed⟩ := ih j t2 child1 j2 t3 hpr
                refine ⟨?_, ?_, ?_, hid, hlvl, hprev, hdirty, ?_⟩
                · simp only; rw [rdeg, hd2, hdeg]
                · intro x hx; exact rsub x (hsub x hx)
                · intro hl; exact rlev (hlev hl)
                · intro hne
                  have hne2 : (t2.store_.degree_ + (2 ^ 32 - 1)) % 2 ^ 32 ≠ 0 := by
                    rw [hd2, hdeg]; exact hne
                  obtain ⟨rc1, _⟩ := rclosed hne2
                  obtain ⟨hc1, hc2⟩ := hclosed hne
                  refine ⟨fun hc => rc1 (hc1 hc), ?_⟩
                  intro i' cid' hget hnz
                  rcases hc2 i' cid' hget hnz with h3 | ⟨f, hf, hfid, hfl⟩
                  · exact Or.inl h3
                  · exact Or.inr ⟨f, rsub f hf, hfid, hfl⟩

/-- What `process` records, for every fuel. -/
theorem process_records (b : Build) : ∀ fuel, Journal.Records b fuel := by
  intro fuel
  induction fuel with
  | zero =>
    intro j t node j1 t1 h
    simp [Journal.process] at h
  | succ fuel ih =>
    intro j t node j1 t1 h
    rw [process_succ] at h
    simp only [bind, Except.bind, pure, Except.pure] at h
    cases hak : (Delta.new node).AddKeys b j.buffer_ j.offset_ with
    | error e => rw [hak] at h; exact absurd h (by simp)
    | ok r =>
      obtain ⟨delta, buffer, offset⟩ := r
      rw [hak] at h
      simp only at h
      obtain ⟨hframe, cands, evs, hgc, hcase⟩ := AddKeys_frame b _ _ _ _ _ _ hak
      cases has : Journal.assertSanity b delta with
      | error e => rw [has] at h; exact absurd h (by simp)
      | ok u =>
        rw [has] at h
        simp only at h
        -- the invariant holds when the loop is entered
        have hstart : Journal.LoopInv j.deltas_ node t.store_.degree_
            (delta.previous_ = some node)
            ({ j with buffer_ := buffer, offset_ := offset }, t, delta) := by
          refine ⟨rfl, fun x hx => hx, fun hl => hl, hframe.1, hframe.2.1, ?_, fun hd => hd, ?_⟩
          · rcases hcase with ⟨h1, h2, _⟩ | h1
            · exact Or.inl ⟨h1, h2⟩
            · exact Or.inr h1
          · intro _
            refine ⟨fun hc => hc, ?_⟩
            intro i cid hget _
            left
            simp only at hget
            rw [hframe.2.2.2.2.2] at hget
            exact hget
        -- and when it is left
        have hloop : ∀ j2 t2 delta2,
            (if delta.Current.EmptyKeyCount = 0 then
              delta.Current.EachChild (Journal.processChild b (Journal.process b fuel) node)
                ({ j with buffer_ := buffer, offset_ := offset }, t, delta)
            else Except.ok (({ j with buffer_ := buffer, offset_ := offset }, t, delta), none))
              = .ok ((j2, t2, delta2), none) →
            Journal.LoopInv j.deltas_ node t.store_.degree_ (delta.previous_ = some node)
              (j2, t2, delta2) := by
          intro j2 t2 delta2 hl
          split at hl
          · unfold Node.EachChild at hl
            exact eachChildLoop_inv _ _ _
              (fun i first last cid s s1 hs hf =>
                processChild_inv b fuel ih _ _ _ _ i first last cid s s1 hs hf) _ _ _ hstart hl
          · injection hl with hl
            injection hl with hl1 _
            rw [← hl1]
            exact hstart
        cases hres : (if delta.Current.EmptyKeyCount = 0 then
              delta.Current.EachChild (Journal.processChild b (Journal.process b fuel) node)
                ({ j with buffer_ := buffer, offset_ := offset }, t, delta)
            else Except.ok (({ j with buffer_ := buffer, offset_ := offset }, t, delta), none)) with
        | error e => rw [hres] at h; exact absurd h (by simp)
        | ok r2 =>
          obtain ⟨⟨j2, t2, delta2⟩, err⟩ := r2
          rw [hres] at h
          simp only at h
          cases err with
          | some e => simp at h
          | none =>
            simp only [Option.isSome_none, Bool.false_eq_true, if_false] at h
            obtain ⟨ldeg, lsub, llev, lid, llvl, lprev, ldirty, lclosed⟩ := hloop j2 t2 delta2 hres
            simp only at ldeg lsub llev lid llvl lprev ldirty lclosed
            cases has2 : Journal.assertSanity b delta2 with
            | error e => rw [has2] at h; exact absurd h (by simp)
            | ok u2 =>
              rw [has2] at h
              simp only at h
              injection h with h
              injection h with h1 _
              injection h1 with h1 h2
              subst h2
              by_cases hd : delta2.Dirty = true
              · rw [if_pos hd] at h1
                have hp2 : delta2.previous_ = some node := by
                  rcases lprev with ⟨hp, _⟩ | hp
                  · unfold Delta.Dirty at hd
                    rw [hp] at hd
                    simp at hd
                  · exact hp
                have hmem : ∀ x, x ∈ j1.deltas_ ↔ x = (node.level, delta2) ∨ x ∈ j2.deltas_ := by
                  intro x
                  rw [← h1]
                  exact mem_emplace _ _ _
                refine ⟨ldeg, fun x hx => (hmem x).mpr (Or.inr (lsub x hx)), ?_, ?_⟩
                · intro hl
                  obtain ⟨hs1, hs2⟩ := llev hl
                  refine ⟨?_, ?_⟩
                  · rw [← h1]
                    exact emplace_sorted _ _ hs1
                  · intro e he
                    rcases (hmem e).mp he with h3 | h3
                    · rw [h3]; exact llvl
                    · exact hs2 e h3
                · intro hne
                  obtain ⟨lc1, lc2⟩ := lclosed hne
                  refine ⟨?_, ?_⟩
                  · intro hc e he i cid hget hnz
                    rcases (hmem e).mp he with h3 | h3
                    · rw [h3] at hget ⊢
                      rcases lc2 i cid hget hnz with h4 | ⟨f, hf, hfid, hfl⟩
                      · exact Or.inl ⟨node, hp2, h4⟩
                      · exact Or.inr ⟨f, (hmem f).mpr (Or.inr hf), hfid, hfl⟩
                    · rcases lc1 hc e h3 i cid hget hnz with h4 | ⟨f, hf, hfid, hfl⟩
                      · exact Or.inl h4
                      · exact Or.inr ⟨f, (hmem f).mpr (Or.inr hf), hfid, hfl⟩
                  · intro _ _ _
                    exact ⟨(node.level, delta2), (hmem _).mpr (Or.inl rfl), lid, rfl⟩
              · rw [if_neg hd] at h1
                rw [← h1]
                refine ⟨ldeg, lsub, llev, ?_⟩
                intro hne
                obtain ⟨lc1, _⟩ := lclosed hne
                refine ⟨lc1, ?_⟩
                intro hz hnk hcr
                exfalso
                have := AddKeys_fresh_dirty b node delta _ _ _ _ hz hnk hcr hak
                have := ldirty this
                unfold Delta.Dirty at hd
                rw [this] at hd
                simp at hd

/-! ## `Journal::Process` and `Journal::Commit` -/

theorem commitDeltas_eq (b : Build) (ds : List (Nat × Delta)) :
    ∀ t, Journal.commitDeltas b ds t
      = Spec.updateInOrder b (ds.map (fun e => e.2.Current)) t := by
  induction ds with
  | nil => intro t; rfl
  | cons d rest ih =>
    intro t
    simp only [Journal.commitDeltas, Spec.updateInOrder, List.map_cons, bind, Except.bind]
    cases t.Update b d.2.Current with
    | error e => rfl
    | ok r =>
      obtain ⟨t1, err⟩ := r
      simp only
      cases err with
      | some e => rfl
      | none => simp only [Option.isSome_none, Bool.false_eq_true, if_false]; exact ih t1

theorem commitWrites_deltas (b : Build) (batchSize : Nat) :
    ∀ (fuel : Nat) (j j1 : Journal) (wb : List Nat) (err : error_condition),
      Journal.commitWrites b batchSize fuel j wb = .ok (j1, err) → j1.deltas_ = j.deltas_ := by
  intro fuel
  induction fuel with
  | zero => intro j j1 wb err h; simp [Journal.commitWrites] at h
  | succ fuel ih =>
    intro j j1 wb err h
    simp only [Journal.commitWrites, bind, Except.bind, pure, Except.pure] at h
    cases hw : j.buffer_.Write b batchSize wb with
    | error e => rw [hw] at h; exact absurd h (by simp)
    | ok r =>
      obtain ⟨buffer, wb1, more⟩ := r
      rw [hw] at h
      simp only at h
      cases more with
      | false =>
        simp only [Bool.not_false, if_true] at h
        injection h with h; injection h with h1 _; rw [← h1]
      | true =>
        simp only [Bool.not_true, Bool.false_eq_true, if_false] at h
        split at h
        · injection h with h; injection h with h1 _; rw [← h1]
        · have := ih _ _ _ _ h
          rw [this]

/-- `Commit` is: the loop of appends to the value log; then `tree.update` on the node of
each delta, in the reverse order of the multimap; then `Purge`. -/
theorem Commit_eq (b : Build) (j : Journal) (t : Tree) (batchSize : Nat) :
    j.Commit b t batchSize = (do
      let (j1, err) ← Journal.commitWrites b batchSize (j.buffer_.buf_.length + 1) j []
      if err.isSome then pure ((j1, t), err)
      else
        let (t1, err) ← Spec.updateInOrder b (j.deltas_.reverse.map (fun e => e.2.Current)) t
        if err.isSome then pure ((j1, t1), err)
        else
          let buffer ← j1.buffer_.Purge
          pure (({ j1 with buffer_ := buffer, deltas_ := [] }, t1), none)) := by
  unfold Journal.Commit
  simp only [bind, Except.bind]
  cases hw : Journal.commitWrites b batchSize (j.buffer_.buf_.length + 1) j [] with
  | error e => rfl
  | ok r =>
    obtain ⟨j1, err⟩ := r
    simp only
    rw [commitWrites_deltas b batchSize _ _ _ _ _ hw, commitDeltas_eq]

theorem Process_records (b : Build) (fuel : Nat) (j0 : Journal) (t0 : Tree)
    (j : Journal) (t : Tree) (h0 : j0.deltas_ = [])
    (hp : j0.Process b fuel t0 = .ok ((j, t), none)) :
    Journal.Levelled j.deltas_ ∧
      ((t0.store_.degree_ + (2 ^ 32 - 1)) % 2 ^ 32 ≠ 0 → Journal.Closed j.deltas_) := by
  have hL : Journal.Levelled ([] : List (Nat × Delta)) :=
    ⟨List.Pairwise.nil, fun e he => absurd he (by simp)⟩
  have hC : Journal.Closed ([] : List (Nat × Delta)) := fun e he => absurd he (by simp)
  unfold Journal.Process at hp
  simp only [bind, Except.bind, pure, Except.pure] at hp
  cases hr : t0.Root b with
  | error e => rw [hr] at hp; exact absurd hp (by simp)
  | ok r =>
    obtain ⟨t1, root, err⟩ := r
    rw [hr] at hp
    simp only at hp
    have hd := GetNode_degree b _ _ _ _ hr
    have hskip : ∀ (e : error_condition),
        (Except.ok (({ j0 with offset_ := j0.values_.Size }, t1), e) : Except Thrown _)
          = Except.ok ((j, t), none) →
        Journal.Levelled j.deltas_ ∧
          ((t0.store_.degree_ + (2 ^ 32 - 1)) % 2 ^ 32 ≠ 0 → Journal.Closed j.deltas_) := by
      intro e he
      injection he with he
      injection he with h1 _
      injection h1 with h1 _
      rw [← h1]
      simp only [h0]
      exact ⟨hL, fun _ => hC⟩
    cases root with
    | none => exact hskip _ hp
    | some root1 =>
      cases err with
      | some e => exact hskip _ hp
      | none =>
        simp only at hp
        obtain ⟨_, _, rlev, rclosed⟩ := process_records b fuel _ _ _ _ _ hp
        simp only [h0] at rlev rclosed
        refine ⟨rlev hL, ?_⟩
        intro hne
        rw [← hd] at hne
        exact (rclosed hne).1 hC

/-- C12. For the journal that `Process` leaves without error (started with no recorded
delta), `Commit` is: first the loop of appends to the value log, which does not touch the
tree; then, if no append failed, `tree.update` on the nodes of the recorded deltas in the
reverse order of the multimap, stopping at the first error; then `Purge`. In that order
the levels of the nodes never increase, so a node of greater level is written before every
node of lesser level, and every append precedes the first node write. -/
theorem Commit_updates_deepest_first (b : Build) (fuel : Nat) (j0 : Journal) (t0 : Tree)
    (j : Journal) (t : Tree) (batchSize : Nat) (h0 : j0.deltas_ = [])
    (hp : j0.Process b fuel t0 = .ok ((j, t), none)) :
    (j.deltas_.reverse.map (fun e => e.2.Current.level)).Pairwise (fun l1 l2 => l2 ≤ l1) ∧
    j.Commit b t batchSize = (do
      let (j1, err) ← Journal.commitWrites b batchSize (j.buffer_.buf_.length + 1) j []
      if err.isSome then pure ((j1, t), err)
      else
        let (t1, err) ← Spec.updateInOrder b (j.deltas_.reverse.map (fun e => e.2.Current)) t
        if err.isSome then pure ((j1, t1), err)
        else
          let buffer ← j1.buffer_.Purge
          pure (({ j1 with buffer_ := buffer, deltas_ := [] }, t1), none)) := by
  obtain ⟨⟨hs, hk⟩, _⟩ := Process_records b fuel j0 t0 j t h0 hp
  refine ⟨?_, Commit_eq b j t batchSize⟩
  rw [List.pairwise_map, List.pairwise_reverse]
  apply List.Pairwise.imp_of_mem _ hs
  intro a c ha hc hac
  simp only [Delta.Current]
  rw [hk a ha, hk c hc]
  exact hac

set_option maxRecDepth 100000 in
theorem scenario_processed :
    (Journal.new (Scenario.state Scenario.afterPut).buffer_
      (Scenario.state Scenario.afterPut).values_).Process Scenario.build 8
      (Scenario.state Scenario.afterPut).tree_ = .ok (Scenario.processed, none) := by
  decide!

set_option maxRecDepth 100000 in
theorem Commit_updates_deepest_first_witness :
    Scenario.processed.1.deltas_.reverse.map (fun e => e.2.Current.level) = [1, 0] ∧
    (Scenario.processed.1.deltas_.reverse.map (fun e => e.2.Current.level)).Pairwise
      (fun l1 l2 => l2 ≤ l1) ∧
    Scenario.processed.1.Commit Scenario.build Scenario.processed.2 1048576 = (do
      let (j1, err) ← Journal.commitWrites Scenario.build 1048576
        (Scenario.processed.1.buffer_.buf_.length + 1) Scenario.processed.1 []
      if err.isSome then pure ((j1, Scenario.processed.2), err)
      else
        let (t1, err) ← Spec.updateInOrder Scenario.build
          (Scenario.processed.1.deltas_.reverse.map (fun e => e.2.Current)) Scenario.processed.2
        if err.isSome then pure ((j1, t1), err)
        else
          let buffer ← j1.buffer_.Purge
          pure (({ j1 with buffer_ := buffer, deltas_ := [] }, t1), none)) :=
  ⟨by decide!,
   Commit_updates_deepest_first Scenario.build 8 _ _ Scenario.processed.1 Scenario.processed.2
    1048576 rfl scenario_processed⟩

/-! ## `NearestStride` and the slots of a node -/

theorem NearestStride_eq (first stride key : Nat) (hk : first ≤ key) (hs : 0 < stride)
    (hq : (key - first) / stride < 2 ^ 32) :
    KeyUtil.NearestStride first stride key
      = .ok (if (key - first) / stride = 0 then stride - (key - first) % stride
             else (key - first) % stride, (key - first) / stride - 1) := by
  unfold KeyUtil.NearestStride KeyUtil.sub
  have hs0 : ¬ stride = 0 := by omega
  have hq2 : ¬ 4294967296 ≤ (key - first) / stride := by omega
  simp only [if_pos hk, hs0, if_false, bind, Except.bind, ge_iff_le, Nat.reducePow, hq2]
  by_cases h0 : (key - first) / stride = 0
  · simp only [h0, if_true]; rfl
  · simp only [h0, if_false]; rfl

theorem stride_quotient_lt (first last D key : Nat) (hk2 : key < last) (hD : 1 ≤ D)
    (hs : 0 < (last - first) / D) : (key - first) / ((last - first) / D) < 2 * D := by
  rw [Nat.div_lt_iff_lt_mul hs]
  have h1 : (last - first) < ((last - first) / D + 1) * D := by
    have := Nat.lt_succ_self ((last - first) / D)
    exact (Nat.div_lt_iff_lt_mul (by omega)).mp this
  have h2 : ((last - first) / D + 1) * D ≤ 2 * D * ((last - first) / D) := by
    have : (last - first) / D + 1 ≤ 2 * ((last - first) / D) := by omega
    calc ((last - first) / D + 1) * D ≤ (2 * ((last - first) / D)) * D := Nat.mul_le_mul_right D this
      _ = 2 * D * ((last - first) / D) := by ring
  omega

/-- C30 (the code on the failing inputs). For bounds `first < key < last`, a degree
`2 ≤ D < 2^31` and a stride `(last - first) / D > 0`, `NearestStride` returns the index
`(key - first) / stride - 1`. That index lies in `[0, D - 2]` exactly when
`key < first + D * stride`; it does so for every key when `D` divides `last - first`. For a
key in the remainder `[first + D * stride, last)` the index is at least `D - 1`, and
`SetKeyValue` at that index throws `std::out_of_range` on a node of `D - 1` slots. -/
theorem NearestStride_index_beyond_last_slot (first last D key : Nat) (hk1 : first < key)
    (hk2 : key < last) (hD : 2 ≤ D) (hD2 : D < 2 ^ 31) (hs : 0 < (last - first) / D) :
    (∃ d, KeyUtil.NearestStride first ((last - first) / D) key
        = .ok (d, (key - first) / ((last - first) / D) - 1)) ∧
    ((key - first) / ((last - first) / D) - 1 ≤ D - 2 ↔
      key < first + D * ((last - first) / D)) ∧
    ((last - first) % D = 0 → (key - first) / ((last - first) / D) - 1 ≤ D - 2) ∧
    (first + D * ((last - first) / D) ≤ key → ∀ (n : Node) (kv : KeyValue),
      n.keys.length = D - 1 →
      n.SetKeyValue ((key - first) / ((last - first) / D) - 1) kv = .error .out_of_range) := by
  have hq := stride_quotient_lt first last D key hk2 (by omega) hs
  have hiff : (key - first) / ((last - first) / D) - 1 ≤ D - 2 ↔
      key < first + D * ((last - first) / D) := by
    have h1 : (key - first) / ((last - first) / D) < D ↔ key - first < D * ((last - first) / D) :=
      Nat.div_lt_iff_lt_mul hs
    omega
  refine ⟨⟨_, NearestStride_eq first _ key (by omega) hs (by omega)⟩, hiff, ?_, ?_⟩
  · intro hdiv
    rw [hiff]
    have : D * ((last - first) / D) = last - first := Nat.mul_div_cancel' (Nat.dvd_of_mod_eq_zero hdiv)
    omega
  · intro hge n kv hn
    have hnot : ¬ (key - first) / ((last - first) / D) - 1 ≤ D - 2 := by
      rw [hiff]; omega
    unfold Node.SetKeyValue
    rw [if_neg (by omega)]

theorem NearestStride_index_beyond_last_slot_witness :
    (∃ d, KeyUtil.NearestStride 1 ((2 ^ 256 - 1 - 1) / 3) (2 ^ 256 - 2)
        = .ok (d, (2 ^ 256 - 2 - 1) / ((2 ^ 256 - 1 - 1) / 3) - 1)) ∧
    ((2 ^ 256 - 2 - 1) / ((2 ^ 256 - 1 - 1) / 3) - 1 ≤ 3 - 2 ↔
      2 ^ 256 - 2 < 1 + 3 * ((2 ^ 256 - 1 - 1) / 3)) ∧
    ((2 ^ 256 - 1 - 1) % 3 = 0 → (2 ^ 256 - 2 - 1) / ((2 ^ 256 - 1 - 1) / 3) - 1 ≤ 3 - 2) ∧
    (1 + 3 * ((2 ^ 256 - 1 - 1) / 3) ≤ 2 ^ 256 - 2 → ∀ (n : Node) (kv : KeyValue),
      n.keys.length = 3 - 1 →
      n.SetKeyValue ((2 ^ 256 - 2 - 1) / ((2 ^ 256 - 1 - 1) / 3) - 1) kv = .error .out_of_range) :=
  NearestStride_index_beyond_last_slot 1 (2 ^ 256 - 1) 3 (2 ^ 256 - 2) (by norm_num) (by norm_num)
    (by norm_num) (by norm_num) (by norm_num)

/-! ## Closed runs of the cache, the overflow branch and a serial schedule -/

set_option maxRecDepth 100000 in
/-- C21 (the code at two failing inputs), on caches of nodes with pairwise disjoint ranges
per level. First, a cache of size 2: with the root (level 0, range `(1, 2^256 - 1)`) alone,
`Get(50)` returns the root; after `Add` of a node of level 1 with range `(100, 200)`,
`Get(150)` returns that node, but `Get(50)` returns nothing although the root is cached and
its range contains 50: the loop runs from the deepest level plus one down to 1 and can
land on a node of level 0 only when no deeper node is cached. Second, a cache of size 3
holding a node of level 1 with range `(100, 200)` and a node of level 3 with range
`(120, 130)`: `Get(125)` returns the node of level 3, but `Get(150)` returns nothing
although the node of level 1 contains 150: at level 2 the search lands on the node of
level 3 and the loop breaks. -/
theorem cache_get_misses_covering_shallow_node :
    (do let c ← (NodeCache.empty.SetMaxSize 2).Add Scenario.build
          ⟨0, 0, 3, 1, 2 ^ 256 - 1, [0, 0, 0], [⟨0, 0, 0⟩, ⟨0, 0, 0⟩]⟩
        let (c, r0) ← c.Get 50
        let c ← c.Add Scenario.build ⟨232, 1, 3, 100, 200, [0, 0, 0], [⟨0, 0, 0⟩, ⟨0, 0, 0⟩]⟩
        let (c, r1) ← c.Get 150
        let (c, r2) ← c.Get 50
        pure ([r0.map (fun n => n.id), r1.map (fun n => n.id), r2.map (fun n => n.id)],
          c.nodes_.map (fun e => e.2.id)) : Except Thrown (List (Option Nat) × List Nat))
      = .ok ([some 0, some 232, none], [0, 232]) ∧
    (do let c ← (NodeCache.empty.SetMaxSize 3).Add Scenario.build
          ⟨232, 1, 3, 100, 200, [0, 0, 0], [⟨0, 0, 0⟩, ⟨0, 0, 0⟩]⟩
        let c ← c.Add Scenario.build ⟨464, 3, 3, 120, 130, [0, 0, 0], [⟨0, 0, 0⟩, ⟨0, 0, 0⟩]⟩
        let (c, r1) ← c.Get 125
        let (c, r2) ← c.Get 150
        pure ([r1.map (fun n => n.id), r2.map (fun n => n.id)],
          c.nodes_.map (fun e => e.2.id)) : Except Thrown (List (Option Nat) × List Nat))
      = .ok ([some 464, none], [232, 464]) := by decide!

set_option maxRecDepth 100000 in
/-- C28 (the code at the failing input). The node has degree 3, two empty slots, no
children and the bounds 10 and 21, and `IsSane` holds for it; the buffer holds three
Unprocessed entries with the distinct keys 11, 12 and 20, all strictly between the bounds.
`AddKeys` does not complete: three keys overflow the two slots, the stride is
`(21 - 10) / 3 = 3`, `NearestStride` sends the key 20 to slot index 2, and `SetKeyValue`
throws `std::out_of_range`. -/
theorem AddKeys_overflow_leaves_slots :
    Node.IsSane ⟨0, 0, 3, 10, 21, [0, 0, 0], [⟨0, 0, 0⟩, ⟨0, 0, 0⟩]⟩ = .ok true ∧
    KeyUtil.NearestStride 10 ((21 - 10) / 3) 20 = .ok (1, 2) ∧
    (Delta.new ⟨0, 0, 3, 10, 21, [0, 0, 0], [⟨0, 0, 0⟩, ⟨0, 0, 0⟩]⟩).AddKeys Scenario.build
        ⟨[(11, ⟨0, 37, [97], .Unprocessed⟩), (12, ⟨0, 37, [98], .Unprocessed⟩),
          (20, ⟨0, 37, [99], .Unprocessed⟩)]⟩ 0
      = .error .out_of_range ∧
    (Delta.new ⟨0, 0, 3, 10, 21, [0, 0, 0], [⟨0, 0, 0⟩, ⟨0, 0, 0⟩]⟩).AddKeys Scenario.release
        ⟨[(11, ⟨0, 37, [97], .Unprocessed⟩), (12, ⟨0, 37, [98], .Unprocessed⟩),
          (20, ⟨0, 37, [99], .Unprocessed⟩)]⟩ 0
      = .error .out_of_range := by decide!

set_option maxRecDepth 100000 in
/-- C29 (counterexample). The node has degree 4, three empty slots and the bounds 100 and
500, so the stride is 100 and the ideal positions of the slots are 200, 300 and 400. The
buffer holds the Unprocessed keys 150, 299, 350 and 450. `AddKeys` takes the overflow
branch and leaves the keys 150, 350 and 450 in the slots. Slot 1, with ideal position 300,
holds 350 at distance 50, although the key 299 of the candidates is at distance 1: 299 is
measured against slot 0 only, loses there to 150 and stays Unprocessed in the buffer. -/
theorem overflow_slot_ignores_nearer_key_below :
    (do let (d, buf, _) ← (Delta.new ⟨0, 0, 4, 100, 500, [0, 0, 0, 0],
            [⟨0, 0, 0⟩, ⟨0, 0, 0⟩, ⟨0, 0, 0⟩]⟩).AddKeys Scenario.build
          ⟨[(150, ⟨0, 37, [97], .Unprocessed⟩), (299, ⟨0, 37, [98], .Unprocessed⟩),
            (350, ⟨0, 37, [99], .Unprocessed⟩), (450, ⟨0, 37, [100], .Unprocessed⟩)]⟩ 0
        pure (d.current_.keys.map (fun kv => kv.key),
          buf.buf_.map (fun e => (e.1, e.2.status))) :
          Except Thrown (List Nat × List (Nat × ValueState)))
      = .ok ([150, 350, 450], [(150, .NeedsCommitting), (299, .Unprocessed),
          (350, .NeedsCommitting), (450, .NeedsCommitting)]) ∧
    KeyUtil.Stride 100 500 4 = .ok 100 ∧
    KeyUtil.NearestStride 100 100 299 = .ok (99, 0) ∧
    KeyUtil.NearestStride 100 100 350 = .ok (50, 1) ∧
    KeyUtil.Distance 299 (100 + 2 * 100) = .ok 1 ∧
    KeyUtil.Distance 350 (100 + 2 * 100) = .ok 50 := by decide!

set_option maxRecDepth 100000 in
/-- C27 (the code on a failing schedule), on a store opened and cleared with degree 3. Two
threads with disjoint keys, every call run to its end before the next starts: thread 1
`Put(00...03, "a")`, thread 2 `Put(4141...41, "b")`, one complete flush, thread 2
`Get(4141...41)`, thread 1 `Get(00...03)`. Both `Put` and the flush return no error. The
`Get` of thread 2 returns `short_read`, and the `Get` of thread 1 returns success with the
byte `0x41`, not `"a"`: `Buffer::Write` advances by the 8 bytes that `ToBytes` gives for
the key 3, so the two records overlap in the value log. -/
theorem put_is_lost_after_flush_on_serial_schedule :
    (do let (db, _) ← Scenario.opened Scenario.build
        let (db, e1) ← DB.Put Scenario.build db Scenario.key3 [97]
        let (db, e2) ← DB.Put Scenario.build db Scenario.keyA [98]
        let (db, e3) ← DB.flush Scenario.build 8 db
        let (db, e4, _) ← DB.Get Scenario.build 8 db Scenario.keyA []
        let (db, e5, v1) ← DB.Get Scenario.build 8 db Scenario.key3 []
        pure ([e1, e2, e3, e4, e5], v1, db.buffer_.Size, db.values_.file_.data.length) :
          Except Thrown (List error_condition × List Nat × Nat × Nat))
      = .ok ([none, none, none, some .short_read, none], [65], 0, 50) := by decide!

/-! ## `NodeCache::Get` -/

theorem cache_mem_leftInsert (e x : CacheKey × Node) (l : List (CacheKey × Node)) :
    x ∈ NodeCache.leftInsert e l ↔ x = e ∨ x ∈ l := by
  induction l with
  | nil => simp [NodeCache.leftInsert]
  | cons y rest ih =>
    unfold NodeCache.leftInsert
    split
    · simp
    · simp only [List.mem_cons, ih]
      tauto

theorem cache_mem_left (c : NodeCache) (x : CacheKey × Node) : x ∈ c.left ↔ x ∈ c.nodes_ := by
  unfold NodeCache.left
  induction c.nodes_ with
  | nil => simp
  | cons y rest ih => simp only [List.foldr_cons, cache_mem_leftInsert, ih, List.mem_cons]

theorem getLoop_some (lv : List (CacheKey × Node)) (key level : Nat) (it : CacheKey × Node)
    (h : NodeCache.getLoop lv key level = .ok (some it)) :
    it ∈ lv ∧ it.2.first < key ∧ key < it.2.last := by
  induction level with
  | zero => simp [NodeCache.getLoop] at h
  | succ n ih =>
    unfold NodeCache.getLoop at h
    simp only at h
    split at h
    · exact absurd h (by simp)
    · rename_i x hx
      split at h
      · exact absurd h (by simp)
      · split at h
        · rename_i hr
          injection h with h
          injection h with h
          subst h
          exact ⟨List.get?_mem hx, hr.1, hr.2⟩
        · exact ih h

theorem getLoop_total (lv : List (CacheKey × Node)) (key level : Nat) (hne : lv ≠ []) :
    ∃ r, NodeCache.getLoop lv key level = .ok r := by
  induction level with
  | zero => exact ⟨none, rfl⟩
  | succ n ih =>
    unfold NodeCache.getLoop
    simp only
    have hpos : 0 < lv.length := List.length_pos.mpr hne
    have hub : NodeCache.upper_bound lv ⟨n + 1, key⟩ ≤ lv.length := by
      unfold NodeCache.upper_bound
      exact (List.takeWhile_sublist _).length_le
    have hlt : (if NodeCache.upper_bound lv ⟨n + 1, key⟩ ≠ 0
        then NodeCache.upper_bound lv ⟨n + 1, key⟩ - 1
        else NodeCache.upper_bound lv ⟨n + 1, key⟩) < lv.length := by
      split <;> omega
    obtain ⟨x, hx⟩ : ∃ x, lv.get? (if NodeCache.upper_bound lv ⟨n + 1, key⟩ ≠ 0
        then NodeCache.upper_bound lv ⟨n + 1, key⟩ - 1
        else NodeCache.upper_bound lv ⟨n + 1, key⟩) = some x :=
      ⟨_, List.get?_eq_get hlt⟩
    rw [hx]
    simp only
    split
    · exact ⟨none, rfl⟩
    · split
      · exact ⟨_, rfl⟩
      · exact ih

/-- C22. `NodeCache::Get` always returns. A node it returns is an entry of the cache
before the call and after it, and its range contains the key strictly:
`first < key < last`. So the key zero is a miss in every cache, and so is every key when
`maxSize_` is zero or the cache is empty, in which case the cache is left as it was. -/
theorem Get_returns_cached_covering_node (c : NodeCache) (key : Nat) :
    ∃ c1 r, c.Get key = .ok (c1, r) ∧
      (∀ n, r = some n → (∃ e ∈ c.nodes_, e.2 = n) ∧ (∃ e ∈ c1.nodes_, e.2 = n) ∧
        n.first < key ∧ key < n.last) ∧
      (key = 0 → r = none) ∧
      (c.maxSize_ = 0 ∨ c.nodes_ = [] → r = none ∧ c1 = c) := by
  unfold NodeCache.Get
  by_cases h0 : c.maxSize_ = 0 ∨ c.nodes_.length = 0
  · rw [if_pos h0]
    exact ⟨c, none, rfl, by simp, by simp, by simp⟩
  · rw [if_neg h0]
    have hne : c.nodes_ ≠ [] := by
      intro h; apply h0; right; simp [h]
    have hm : c.maxSize_ ≠ 0 := fun h => h0 (Or.inl h)
    have hlne : c.left ≠ [] := by
      obtain ⟨x, hx⟩ := List.exists_mem_of_ne_nil _ hne
      exact List.ne_nil_of_mem ((cache_mem_left c x).mpr hx)
    cases hl : c.left with
    | nil => exact absurd hl hlne
    | cons begin rest =>
      simp only
      obtain ⟨r, hr⟩ := getLoop_total (begin :: rest) key ((begin.1.level + 1) % 2 ^ 32)
        (by simp)
      cases r with
      | none =>
        refine ⟨{ c with misses_ := c.misses_ + 1 }, none, ?_, by simp, by simp, ?_⟩
        · simp only [bind, Except.bind, hr]; rfl
        · rintro (h | h)
          · exact absurd h hm
          · exact absurd h hne
      | some it =>
        obtain ⟨hmem, h1, h2⟩ := getLoop_some _ _ _ _ hr
        rw [← hl] at hmem
        refine ⟨{ c with hits_ := c.hits_ + 1, nodes_ := NodeCache.relocate c.nodes_ it.1 it.2 },
          some it.2, ?_, ?_, ?_, ?_⟩
        · simp only [bind, Except.bind, hr]; rfl
        · intro n hn
          injection hn with hn
          subst hn
          refine ⟨⟨it, (cache_mem_left c it).mp hmem, rfl⟩, ⟨it, ?_, rfl⟩, h1, h2⟩
          simp [NodeCache.relocate]
        · intro hk
          subst hk
          exact absurd h1 (Nat.not_lt_zero _)
        · rintro (h | h)
          · exact absurd h hm
          · exact absurd h hne

/-! ## `ValueStore::Each` -/

theorem length_leBytes (n v : Nat) : (leBytes n v).length = n := by
  induction n generalizing v with
  | zero => rfl
  | succ m ih => simp [leBytes, ih]

theorem leValue_leBytes (n v : Nat) (h : v < 256 ^ n) : leValue (leBytes n v) = v := by
  induction n generalizing v with
  | zero => simp at h; subst h; rfl
  | succ m ih =>
    have h2 : v / 256 < 256 ^ m := by
      rw [Nat.div_lt_iff_lt_mul (by norm_num)]
      rw [pow_succ] at h; exact h
    simp only [leBytes, leValue, ih _ h2]
    omega

theorem length_record (length : Nat) (key value : List Nat) :
    (Spec.record length key value).length = 4 + key.length + value.length := by
  simp only [Spec.record, List.length_append, length_leBytes]

theorem eachLoop_long_record {σ : Type} (b : Build) (f : List Nat → List Nat → σ → σ)
    (key value : List Nat) (hlong : 1024 * 64 < value.length + 4 + key.length)
    (h32 : value.length + 4 + key.length < 2 ^ 32) (fuel : Nat) :
    ∀ (str : List Nat) (s : σ), str.length = 1024 * 64 →
      ValueStore.eachLoop b f fuel
        ⟨⟨Spec.record (value.length + 4 + key.length) key value, []⟩,
          value.length + 4 + key.length⟩ 0 str s = .error .fuel := by
  induction fuel with
  | zero => intro str s _; rfl
  | succ n ih =>
    intro str s hstr
    have hlen := length_record (value.length + 4 + key.length) key value
    have hgot : ((Spec.record (value.length + 4 + key.length) key value).take str.length).length
        = 1024 * 64 := by
      rw [List.length_take, hlen, hstr]; omega
    unfold ValueStore.eachLoop
    simp only [RandomAccessFile.ReadAt, RandomAccessFile.syscall, List.drop_zero, hgot,
      Option.isSome_none, Bool.false_eq_true, if_false]
    have hdrop : str.drop (1024 * 64) = [] := by
      apply List.drop_eq_nil_of_le; omega
    have hstr1 : ((Spec.record (value.length + 4 + key.length) key value).take str.length
        ++ str.drop (1024 * 64)).length = 1024 * 64 := by
      rw [hdrop, List.append_nil, hgot]
    cases n with
    | zero => rfl
    | succ m =>
      have hread : string_read 4 ((Spec.record (value.length + 4 + key.length) key value).take
          str.length ++ str.drop (1024 * 64)) 0
          = .ok (value.length + 4 + key.length, 4) := by
        unfold string_read
        rw [if_pos (by rw [hstr1]; norm_num)]
        have : (((Spec.record (value.length + 4 + key.length) key value).take str.length
            ++ str.drop (1024 * 64)).drop 0).take 4 = leBytes 4 (value.length + 4 + key.length) := by
          rw [hdrop, List.append_nil, List.drop_zero, List.take_take, hstr]
          unfold Spec.record
          rw [List.append_assoc, List.take_append_of_le_length (by rw [length_leBytes]; norm_num)]
          rw [List.take_of_length_le (by rw [length_leBytes]; norm_num)]
        rw [this, leValue_leBytes _ _ (by norm_num; omega)]
      unfold ValueStore.eachRecords
      rw [if_pos (by norm_num)]
      simp only [hread, bind, Except.bind, zero_add]
      rw [if_pos (by omega)]
      simp only [pure, Except.pure]
      rw [if_pos (by omega)]
      exact ih _ s hstr1

/-- C26 (the code on the failing inputs). The value log holds one well-formed record: the
total length in 32 bits, a key of `BITS / 8` bytes and a value of a permitted length, and
the record is longer than the 64 KiB chunk that `Each` reads. `Each` does not terminate:
every round reads the same chunk, takes the record for a tail that the chunk cuts off,
leaves the file position at zero and never calls `f`; for every amount of fuel the model
runs out of fuel. -/
theorem Each_does_not_terminate_on_long_record {σ : Type} (b : Build)
    (f : List Nat → List Nat → σ → σ) (s : σ) (key value : List Nat)
    (_hk : key.length = b.BITS / 8) (_hv : value.length ≤ Buffer.maxValueLength b)
    (hlong : 1024 * 64 < value.length + 4 + key.length)
    (h32 : value.length + 4 + key.length < 2 ^ 32) (fuel : Nat) :
    ValueStore.Each b fuel
      ⟨⟨Spec.record (value.length + 4 + key.length) key value, []⟩,
        value.length + 4 + key.length⟩ f s = .error .fuel :=
  eachLoop_long_record b f key value hlong h32 fuel _ s (List.length_replicate _ _)

theorem Each_does_not_terminate_on_long_record_witness :
    (Scenario.keyA.length = Scenario.build.BITS / 8 ∧
      (List.replicate 65501 97).length ≤ Buffer.maxValueLength Scenario.build ∧
      1024 * 64 < (List.replicate 65501 97).length + 4 + Scenario.keyA.length) ∧
    ∀ fuel, ValueStore.Each Scenario.build fuel
      ⟨⟨Spec.record ((List.replicate 65501 97).length + 4 + Scenario.keyA.length) Scenario.keyA
          (List.replicate 65501 97), []⟩,
        (List.replicate 65501 97).length + 4 + Scenario.keyA.length⟩
      (fun _ _ (n : Nat) => n + 1) 0 = .error .fuel :=
  have hk : Scenario.keyA.length = Scenario.build.BITS / 8 := by decide
  have hv : (List.replicate 65501 97).length ≤ Buffer.maxValueLength Scenario.build := by
    rw [List.length_replicate]; decide
  have hlong : 1024 * 64 < (List.replicate 65501 97).length + 4 + Scenario.keyA.length := by
    rw [List.length_replicate, hk]; decide
  have h32 : (List.replicate 65501 97).length + 4 + Scenario.keyA.length < 2 ^ 32 := by
    rw [List.length_replicate, hk]; decide
  ⟨⟨hk, hv, hlong⟩, fun fuel => Each_does_not_terminate_on_long_record Scenario.build _ 0
    Scenario.keyA (List.replicate 65501 97) hk hv hlong h32 fuel⟩

/-! ## The invariant of the node cache -/

theorem split_of_nodup_keys {α β : Type} [DecidableEq α] (l : List (α × β)) (it : α × β)
    (hn : (l.map (fun e => e.1)).Nodup) (hit : it ∈ l) :
    ∃ l1 l2, l = l1 ++ it :: l2 ∧ l.filter (fun e => e.1 != it.1) = l1 ++ l2 ∧
      (∀ e ∈ l1, e.1 ≠ it.1) ∧ (∀ e ∈ l2, e.1 ≠ it.1) := by
  obtain ⟨l1, l2, rfl⟩ := List.append_of_mem hit
  simp only [List.map_append, List.map_cons] at hn
  have h1 : ∀ e ∈ l1, e.1 ≠ it.1 := by
    intro e he heq
    have hd := (List.nodup_append.mp hn).2.2
    exact hd (List.mem_map_of_mem (fun e => e.1) he) (by simp [heq])
  have h2 : ∀ e ∈ l2, e.1 ≠ it.1 := by
    intro e he heq
    have hd := (List.nodup_cons.mp (List.nodup_append.mp hn).2.1).1
    exact hd (by rw [← heq]; exact List.mem_map_of_mem (fun e => e.1) he)
  refine ⟨l1, l2, rfl, ?_, h1, h2⟩
  rw [List.filter_append, List.filter_cons]
  simp only [bne_self_eq_false, Bool.false_eq_true, if_false]
  rw [List.filter_eq_self.mpr (fun e he => by simpa using h1 e he),
    List.filter_eq_self.mpr (fun e he => by simpa using h2 e he)]

theorem relocate_map_perm {α β γ : Type} (F : α × β → γ) (l1 l2 : List (α × β)) (it x : α × β)
    (h : F x = F it) : ((l1 ++ l2 ++ [x]).map F).Perm ((l1 ++ it :: l2).map F) := by
  have hp : (l1 ++ l2 ++ [x]).Perm (l1 ++ x :: l2) := by
    rw [List.append_assoc]
    exact List.Perm.append_left l1 (List.perm_append_singleton x l2)
  have he : (l1 ++ x :: l2).map F = (l1 ++ it :: l2).map F := by
    simp [h]
  exact he ▸ hp.map F

theorem index_filter_fresh (l : List (CacheKey × Node)) (ix : List (Nat × CacheKey)) (id : Nat)
    (hix : ix.Perm (l.map (fun e => (e.2.id, e.1)))) (hfresh : ∀ e ∈ l, e.2.id ≠ id) :
    ix.filter (fun e => e.1 != id) = ix := by
  apply List.filter_eq_self.mpr
  intro e he
  have := hix.mem_iff.mp he
  obtain ⟨x, hx, rfl⟩ := List.mem_map.mp this
  simpa using hfresh x hx

theorem index_filter_evictee (ev : CacheKey × Node) (rest : List (CacheKey × Node))
    (ix : List (Nat × CacheKey))
    (hids : ((ev :: rest).map (fun e => e.2.id)).Nodup)
    (hix : ix.Perm ((ev :: rest).map (fun e => (e.2.id, e.1)))) :
    (ix.filter (fun e => e.1 != ev.2.id)).Perm (rest.map (fun e => (e.2.id, e.1))) := by
  have h1 := hix.filter (fun e => e.1 != ev.2.id)
  have h2 : ((ev :: rest).map (fun e => (e.2.id, e.1))).filter (fun e => e.1 != ev.2.id)
      = rest.map (fun e => (e.2.id, e.1)) := by
    rw [List.map_cons, List.filter_cons]
    simp only [bne_self_eq_false, Bool.false_eq_true, if_false]
    apply List.filter_eq_self.mpr
    intro e he
    obtain ⟨x, hx, rfl⟩ := List.mem_map.mp he
    have hn := (List.nodup_cons.mp hids).1
    have : x.2.id ≠ ev.2.id := by
      intro heq
      apply hn
      show ev.2.id ∈ List.map (fun e => e.2.id) rest
      rw [← heq]
      exact List.mem_map_of_mem (fun e => e.2.id) hx
    simpa using this
  rw [h2] at h1
  exact h1

theorem nodup_of_mem_eq {α β : Type} (F : α → β) (l : List α) (hn : (l.map F).Nodup)
    (x y : α) (hx : x ∈ l) (hy : y ∈ l) (h : F x = F y) : x = y :=
  List.inj_on_of_nodup_map hn hx hy h

/-- The state of the cache after `Add` of `node`, when the invariant holds and the id of
`node` is cached under the key of `node` or not at all. -/
theorem Add_step (b : Build) (c : NodeCache) (node : Node) (hc : c.Inv) (hm : c.maxSize_ ≠ 0)
    (hadm : ∀ e ∈ c.nodes_, (e.2.id = node.id ↔ e.1 = ⟨node.level, node.first⟩)) :
    ∃ c1, c.Add b node = .ok c1 ∧ c1.Inv ∧ c1.maxSize_ = c.maxSize_ ∧
      (∀ e ∈ c1.nodes_, e ∈ c.nodes_ ∨ e = (⟨node.level, node.first⟩, node)) ∧
      ((∀ e ∈ c.nodes_, e.1 ≠ ⟨node.level, node.first⟩) → c.nodes_.length = c.maxSize_ →
        c1.nodes_ = c.nodes_.tail ++ [(⟨node.level, node.first⟩, node)]) ∧
      ((∀ e ∈ c.nodes_, e.1 ≠ ⟨node.level, node.first⟩) → c.nodes_.length < c.maxSize_ →
        c1.nodes_ = c.nodes_ ++ [(⟨node.level, node.first⟩, node)]) ∧
      ((∃ e ∈ c.nodes_, e.1 = ⟨node.level, node.first⟩) →
        c1.nodes_ = c.nodes_.filter (fun e => e.1 != ⟨node.level, node.first⟩)
          ++ [(⟨node.level, node.first⟩, node)] ∧
        c1.nodes_.length = c.nodes_.length ∧ c1.index_ = c.index_) := by
  obtain ⟨hsize, hkeys, hids, hkeyed, hindex⟩ := hc
  unfold NodeCache.Add
  rw [if_neg hm]
  simp only
  cases hf : c.nodes_.find? (fun e => e.1 == (⟨node.level, node.first⟩ : CacheKey)) with
  | some it =>
    have hit : it ∈ c.nodes_ := List.mem_of_find?_eq_some hf
    have hk : it.1 = ⟨node.level, node.first⟩ := by
      have := List.find?_some hf
      simpa using this
    have hid : it.2.id = node.id := (hadm it hit).mpr hk
    obtain ⟨l1, l2, hl, hfil, h1, h2⟩ := split_of_nodup_keys c.nodes_ it hkeys hit
    have hrel : NodeCache.relocate c.nodes_ ⟨node.level, node.first⟩ node
        = l1 ++ l2 ++ [(⟨node.level, node.first⟩, node)] := by
      unfold NodeCache.relocate
      rw [← hk, hfil]
    have hassert : cassert b (it.2.id == node.id) = .ok () := by
      unfold cassert
      simp [hid]
    simp only [hassert, bind, Except.bind, pure, Except.pure]
    refine ⟨_, rfl, ⟨?_, ?_, ?_, ?_, ?_⟩, rfl, ?_, ?_, ?_, ?_⟩
    · show (NodeCache.relocate c.nodes_ ⟨node.level, node.first⟩ node).length ≤ c.maxSize_
      rw [hrel]
      rw [hl] at hsize
      simp only [List.length_append, List.length_cons, List.length_nil] at hsize ⊢
      omega
    · show ((NodeCache.relocate c.nodes_ ⟨node.level, node.first⟩ node).map (fun e => e.1)).Nodup
      rw [hrel]
      rw [hl] at hkeys
      exact (relocate_map_perm (fun e => e.1) l1 l2 it (⟨node.level, node.first⟩, node)
        hk.symm).nodup_iff.mpr hkeys
    · show ((NodeCache.relocate c.nodes_ ⟨node.level, node.first⟩ node).map
        (fun e => e.2.id)).Nodup
      rw [hrel]
      rw [hl] at hids
      exact (relocate_map_perm (fun e => e.2.id) l1 l2 it (⟨node.level, node.first⟩, node)
        hid.symm).nodup_iff.mpr hids
    · show ∀ e ∈ NodeCache.relocate c.nodes_ ⟨node.level, node.first⟩ node,
        e.1 = ⟨e.2.level, e.2.first⟩
      intro e he
      unfold NodeCache.relocate at he
      rcases List.mem_append.mp he with he | he
      · exact hkeyed e (List.mem_of_mem_filter he)
      · simp only [List.mem_singleton] at he
        subst he
        rfl
    · show c.index_.Perm ((NodeCache.relocate c.nodes_ ⟨node.level, node.first⟩ node).map
        (fun e => (e.2.id, e.1)))
      rw [hrel]
      rw [hl] at hindex
      exact hindex.trans (relocate_map_perm (fun e => (e.2.id, e.1)) l1 l2 it
        (⟨node.level, node.first⟩, node) (by simp [hid, hk])).symm
    · intro e he
      change e ∈ NodeCache.relocate c.nodes_ ⟨node.level, node.first⟩ node at he
      unfold NodeCache.relocate at he
      rcases List.mem_append.mp he with he | he
      · exact Or.inl (List.mem_of_mem_filter he)
      · exact Or.inr (by simpa using he)
    · intro habs
      exact absurd hk (habs it hit)
    · intro habs
      exact absurd hk (habs it hit)
    · intro _
      refine ⟨rfl, ?_, rfl⟩
      show (NodeCache.relocate c.nodes_ ⟨node.level, node.first⟩ node).length = c.nodes_.length
      rw [hrel, hl]
      simp only [List.length_append, List.length_cons, List.length_nil]
      omega
  | none =>
    have habs : ∀ e ∈ c.nodes_, e.1 ≠ (⟨node.level, node.first⟩ : CacheKey) := by
      intro e he
      have := List.find?_eq_none.mp hf e he
      simpa using this
    have hfresh : ∀ e ∈ c.nodes_, e.2.id ≠ node.id := by
      intro e he heq
      exact habs e he ((hadm e he).mp heq)
    have hilen : c.index_.length = c.nodes_.length := by
      rw [hindex.length_eq, List.length_map]
    by_cases hfull : c.nodes_.length = c.maxSize_
    · cases hn : c.nodes_ with
      | nil =>
        rw [hn] at hfull
        exact absurd hfull.symm hm
      | cons ev rest =>
        rw [hn] at hsize hkeys hids hkeyed hindex habs hfresh hfull
        have hix2 := index_filter_evictee ev rest c.index_ hids hindex
        have hfresh2 : ∀ e ∈ rest, e.2.id ≠ node.id := fun e he =>
          hfresh e (List.mem_cons_of_mem _ he)
        have hfil := index_filter_fresh rest _ node.id hix2 hfresh2
        have hlen2 : (c.index_.filter (fun e => e.1 != ev.2.id)).length ≤ c.maxSize_ := by
          rw [hix2.length_eq, List.length_map]
          simp only [List.length_cons] at hsize
          omega
        have hassert : cassert b (decide (rest.length ≤ c.maxSize_) &&
            decide ((c.index_.filter (fun e => e.1 != ev.2.id)).length ≤ c.maxSize_)) = .ok () := by
          unfold cassert
          simp only [List.length_cons] at hsize
          have : rest.length ≤ c.maxSize_ := by omega
          simp [this, hlen2]
        simp only [hn, hfull, if_true, bind, Except.bind, pure, Except.pure, hassert, hfil]
        refine ⟨_, rfl, ⟨?_, ?_, ?_, ?_, ?_⟩, rfl, ?_, ?_, ?_, ?_⟩
        · simp only [List.length_append, List.length_cons, List.length_nil] at hfull ⊢
          omega
        · simp only [List.map_append, List.map_cons, List.map_nil]
          rw [List.nodup_append]
          refine ⟨(List.nodup_cons.mp hkeys).2, List.nodup_singleton _, ?_⟩
          intro k hk1 hk2
          simp only [List.mem_singleton] at hk2
          obtain ⟨e, he, rfl⟩ := List.mem_map.mp hk1
          exact habs e (List.mem_cons_of_mem _ he) hk2
        · simp only [List.map_append, List.map_cons, List.map_nil]
          rw [List.nodup_append]
          refine ⟨(List.nodup_cons.mp hids).2, List.nodup_singleton _, ?_⟩
          intro k hk1 hk2
          simp only [List.mem_singleton] at hk2
          obtain ⟨e, he, rfl⟩ := List.mem_map.mp hk1
          exact hfresh2 e he hk2
        · intro e he
          rcases List.mem_append.mp he with he | he
          · exact hkeyed e (List.mem_cons_of_mem _ he)
          · simp only [List.mem_singleton] at he
            subst he
            rfl
        · simp only [List.map_append, List.map_cons, List.map_nil]
          exact List.Perm.append_right _ hix2
        · intro e he
          rcases List.mem_append.mp he with he | he
          · exact Or.inl (List.mem_cons_of_mem _ he)
          · exact Or.inr (by simpa using he)
        · intro _ _
          rfl
        · intro _ hlt
          omega
        · rintro ⟨e, he, hk⟩
          exact absurd hk (habs e he)
    · have hfil := index_filter_fresh c.nodes_ c.index_ node.id hindex hfresh
      have hassert : cassert b (decide (c.nodes_.length ≤ c.maxSize_) &&
          decide (c.index_.length ≤ c.maxSize_)) = .ok () := by
        unfold cassert
        simp [hsize, hilen]
      simp only [hfull, if_false, bind, Except.bind, pure, Except.pure, hassert, hfil]
      refine ⟨_, rfl, ⟨?_, ?_, ?_, ?_, ?_⟩, rfl, ?_, ?_, ?_, ?_⟩
      · simp only [List.length_append, List.length_cons, List.length_nil]
        omega
      · simp only [List.map_append, List.map_cons, List.map_nil]
        rw [List.nodup_append]
        refine ⟨hkeys, List.nodup_singleton _, ?_⟩
        intro k hk1 hk2
        simp only [List.mem_singleton] at hk2
        obtain ⟨e, he, rfl⟩ := List.mem_map.mp hk1
        exact habs e he hk2
      · simp only [List.map_append, List.map_cons, List.map_nil]
        rw [List.nodup_append]
        refine ⟨hids, List.nodup_singleton _, ?_⟩
        intro k hk1 hk2
        simp only [List.mem_singleton] at hk2
        obtain ⟨e, he, rfl⟩ := List.mem_map.mp hk1
        exact hfresh e he hk2
      · intro e he
        rcases List.mem_append.mp he with he | he
        · exact hkeyed e he
        · simp only [List.mem_singleton] at he
          subst he
          rfl
      · simp only [List.map_append, List.map_cons, List.map_nil]
        exact List.Perm.append_right _ hindex
      · intro e he
        rcases List.mem_append.mp he with he | he
        · exact Or.inl he
        · exact Or.inr (by simpa using he)
      · intro _ h
        first
          | exact absurd h hfull
          | exact False.elim h
      · intro _ _
        rfl
      · rintro ⟨e, he, hk⟩
        exact absurd hk (habs e he)

theorem cache_left_ne_nil (c : NodeCache) (hne : c.nodes_ ≠ []) : c.left ≠ [] := by
  obtain ⟨x, hx⟩ := List.exists_mem_of_ne_nil _ hne
  exact List.ne_nil_of_mem ((cache_mem_left c x).mpr hx)

/-- The two outcomes of `NodeCache::Get`: a miss, which leaves the entries as they are, or a
hit on an entry whose range contains the key, which moves that entry to the most recently
used end. -/
theorem Get_shape (c : NodeCache) (key : Nat) :
    (∃ c1, c.Get key = .ok (c1, none) ∧ c1.nodes_ = c.nodes_ ∧ c1.index_ = c.index_ ∧
      c1.maxSize_ = c.maxSize_) ∨
    (∃ it ∈ c.nodes_, c.Get key =
        .ok ({ c with hits_ := c.hits_ + 1, nodes_ := NodeCache.relocate c.nodes_ it.1 it.2 },
          some it.2) ∧ it.2.first < key ∧ key < it.2.last) := by
  unfold NodeCache.Get
  by_cases h0 : c.maxSize_ = 0 ∨ c.nodes_.length = 0
  · rw [if_pos h0]
    exact Or.inl ⟨c, rfl, rfl, rfl, rfl⟩
  · rw [if_neg h0]
    have hne : c.nodes_ ≠ [] := by
      intro h; apply h0; right; simp [h]
    cases hl : c.left with
    | nil => exact absurd hl (cache_left_ne_nil c hne)
    | cons begin rest =>
      simp only
      obtain ⟨r, hr⟩ := getLoop_total (begin :: rest) key ((begin.1.level + 1) % 2 ^ 32)
        (by simp)
      cases r with
      | none =>
        refine Or.inl ⟨{ c with misses_ := c.misses_ + 1 }, ?_, rfl, rfl, rfl⟩
        simp only [bind, Except.bind, hr]; rfl
      | some it =>
        obtain ⟨hmem, h1, h2⟩ := getLoop_some _ _ _ _ hr
        rw [← hl] at hmem
        refine Or.inr ⟨it, (cache_mem_left c it).mp hmem, ?_, h1, h2⟩
        simp only [bind, Except.bind, hr]; rfl

theorem relocate_inv (c : NodeCache) (hc : c.Inv) (it : CacheKey × Node) (hit : it ∈ c.nodes_)
    (hits : Nat) :
    NodeCache.Inv { c with hits_ := hits, nodes_ := NodeCache.relocate c.nodes_ it.1 it.2 } := by
  obtain ⟨hsize, hkeys, hids, hkeyed, hindex⟩ := hc
  obtain ⟨l1, l2, hl, hfil, _, _⟩ := split_of_nodup_keys c.nodes_ it hkeys hit
  have hrel : NodeCache.relocate c.nodes_ it.1 it.2 = l1 ++ l2 ++ [it] := by
    unfold NodeCache.relocate
    rw [hfil]
  refine ⟨?_, ?_, ?_, ?_, ?_⟩
  · show (NodeCache.relocate c.nodes_ it.1 it.2).length ≤ c.maxSize_
    rw [hrel]
    rw [hl] at hsize
    simp only [List.length_append, List.length_cons, List.length_nil] at hsize ⊢
    omega
  · show ((NodeCache.relocate c.nodes_ it.1 it.2).map (fun e => e.1)).Nodup
    rw [hrel]
    rw [hl] at hkeys
    exact (relocate_map_perm (fun e => e.1) l1 l2 it it rfl).nodup_iff.mpr hkeys
  · show ((NodeCache.relocate c.nodes_ it.1 it.2).map (fun e => e.2.id)).Nodup
    rw [hrel]
    rw [hl] at hids
    exact (relocate_map_perm (fun e => e.2.id) l1 l2 it it rfl).nodup_iff.mpr hids
  · show ∀ e ∈ NodeCache.relocate c.nodes_ it.1 it.2, e.1 = ⟨e.2.level, e.2.first⟩
    intro e he
    unfold NodeCache.relocate at he
    rcases List.mem_append.mp he with he | he
    · exact hkeyed e (List.mem_of_mem_filter he)
    · simp only [List.mem_singleton] at he
      subst he
      exact hkeyed _ hit
  · show c.index_.Perm ((NodeCache.relocate c.nodes_ it.1 it.2).map (fun e => (e.2.id, e.1)))
    rw [hrel]
    rw [hl] at hindex
    exact hindex.trans (relocate_map_perm (fun e => (e.2.id, e.1)) l1 l2 it it rfl).symm

theorem Get_step (c : NodeCache) (key : Nat) (hc : c.Inv) :
    ∃ c1 r, c.Get key = .ok (c1, r) ∧ c1.Inv ∧ c1.maxSize_ = c.maxSize_ ∧
      (∀ e ∈ c1.nodes_, e ∈ c.nodes_) := by
  rcases Get_shape c key with ⟨c1, h, hn, hi, hm⟩ | ⟨it, hit, h, _, _⟩
  · refine ⟨c1, none, h, ?_, hm, ?_⟩
    · obtain ⟨hsize, hkeys, hids, hkeyed, hindex⟩ := hc
      exact ⟨by rw [hn, hm]; exact hsize, by rw [hn]; exact hkeys, by rw [hn]; exact hids,
        by rw [hn]; exact hkeyed, by rw [hn, hi]; exact hindex⟩
    · rw [hn]; exact fun e he => he
  · refine ⟨_, _, h, relocate_inv c hc it hit _, rfl, ?_⟩
    intro e he
    change e ∈ NodeCache.relocate c.nodes_ it.1 it.2 at he
    unfold NodeCache.relocate at he
    rcases List.mem_append.mp he with he | he
    · exact List.mem_of_mem_filter he
    · simp only [List.mem_singleton] at he
      subst he
      exact hit

/-- Under the invariant `GetById` returns the cached node of that id, if there is one. -/
theorem GetById_spec (c : NodeCache) (hc : c.Inv) (id : Nat) :
    c.GetById id = .ok ((c.nodes_.find? (fun e => e.2.id == id)).map (fun e => e.2)) := by
  obtain ⟨_, hkeys, hids, _, hindex⟩ := hc
  unfold NodeCache.GetById
  cases hf : c.index_.find? (fun e => e.1 == id) with
  | none =>
    have hno : ∀ e ∈ c.nodes_, e.2.id ≠ id := by
      intro e he heq
      have hmem : (e.2.id, e.1) ∈ c.index_ :=
        hindex.mem_iff.mpr (List.mem_map_of_mem (fun e => (e.2.id, e.1)) he)
      have := List.find?_eq_none.mp hf _ hmem
      simp [heq] at this
    have : c.nodes_.find? (fun e => e.2.id == id) = none := by
      apply List.find?_eq_none.mpr
      intro e he
      simpa using hno e he
    simp only [this, Option.map_none']
  | some found =>
    have hfm : found ∈ c.index_ := List.mem_of_find?_eq_some hf
    have hfid : found.1 = id := by
      have := List.find?_some hf
      simpa using this
    obtain ⟨x, hx, hgx⟩ := List.mem_map.mp (hindex.mem_iff.mp hfm)
    have hx1 : x.1 = found.2 := by rw [← hgx]
    have hx2 : x.2.id = id := by rw [← hfid, ← hgx]
    simp only
    cases hf2 : c.nodes_.find? (fun e => e.1 == found.2) with
    | none =>
      have := List.find?_eq_none.mp hf2 x hx
      simp [hx1] at this
    | some e =>
      have he : e ∈ c.nodes_ := List.mem_of_find?_eq_some hf2
      have he1 : e.1 = found.2 := by
        have := List.find?_some hf2
        simpa using this
      have hex : e = x := nodup_of_mem_eq (fun e => e.1) _ hkeys e x he hx (he1.trans hx1.symm)
      cases hf3 : c.nodes_.find? (fun e => e.2.id == id) with
      | none =>
        have := List.find?_eq_none.mp hf3 x hx
        simp [hx2] at this
      | some y =>
        have hy : y ∈ c.nodes_ := List.mem_of_find?_eq_some hf3
        have hy1 : y.2.id = id := by
          have := List.find?_some hf3
          simpa using this
        have hyx : y = x :=
          nodup_of_mem_eq (fun e => e.2.id) _ hids y x hy hx (hy1.trans hx2.symm)
        simp only [Option.map_some', hex, hyx]

theorem Reset_inv (c : NodeCache) : c.Reset.Inv :=
  ⟨Nat.zero_le _, List.nodup_nil, List.nodup_nil, fun _ h => absurd h (List.not_mem_nil _),
    List.Perm.refl _⟩

theorem idsAgree_admits (S : List Node) (hS : Spec.IdsAgree S) (c : NodeCache) (hc : c.Inv)
    (hin : ∀ e ∈ c.nodes_, e.2 ∈ S) (node : Node) (hnode : node ∈ S) :
    ∀ e ∈ c.nodes_, (e.2.id = node.id ↔ e.1 = ⟨node.level, node.first⟩) := by
  intro e he
  rw [hc.keyed e he, hS e.2 (hin e he) node hnode]
  constructor
  · rintro ⟨h1, h2⟩
    rw [h1, h2]
  · intro h
    injection h with h1 h2
    exact ⟨h1, h2⟩

theorem calls_inv (b : Build) (S : List Node) (hS : Spec.IdsAgree S) (calls : List CacheCall) :
    ∀ c : NodeCache, c.Inv → c.maxSize_ ≠ 0 → (∀ e ∈ c.nodes_, e.2 ∈ S) →
      (∀ n ∈ CacheCall.nodes calls, n ∈ S) →
      ∃ c1, NodeCache.calls b calls c = .ok c1 ∧ c1.Inv ∧ c1.maxSize_ = c.maxSize_ ∧
        (∀ e ∈ c1.nodes_, e.2 ∈ S) := by
  induction calls with
  | nil => intro c hc _ hin _; exact ⟨c, rfl, hc, rfl, hin⟩
  | cons x rest ih =>
    intro c hc hm hin hnodes
    cases x with
    | Add node =>
      have hnode : node ∈ S := hnodes node (by simp [CacheCall.nodes])
      obtain ⟨c1, h1, hc1, hm1, hmem, _⟩ :=
        Add_step b c node hc hm (idsAgree_admits S hS c hc hin node hnode)
      have hin1 : ∀ e ∈ c1.nodes_, e.2 ∈ S := by
        intro e he
        rcases hmem e he with h | h
        · exact hin e h
        · rw [h]; exact hnode
      obtain ⟨c2, h2, hc2, hm2, hin2⟩ := ih c1 hc1 (by rw [hm1]; exact hm) hin1
        (fun n hn => hnodes n (by simp [CacheCall.nodes, hn]))
      refine ⟨c2, ?_, hc2, by rw [hm2, hm1], hin2⟩
      simp only [NodeCache.calls, NodeCache.call, h1, bind, Except.bind, h2]
    | Get key =>
      obtain ⟨c1, r, h1, hc1, hm1, hmem⟩ := Get_step c key hc
      obtain ⟨c2, h2, hc2, hm2, hin2⟩ := ih c1 hc1 (by rw [hm1]; exact hm)
        (fun e he => hin e (hmem e he)) (fun n hn => hnodes n (by simpa [CacheCall.nodes] using hn))
      refine ⟨c2, ?_, hc2, by rw [hm2, hm1], hin2⟩
      simp only [NodeCache.calls, NodeCache.call, h1, bind, Except.bind, pure, Except.pure, h2]
    | GetById id =>
      obtain ⟨c2, h2, hc2, hm2, hin2⟩ := ih c hc hm hin
        (fun n hn => hnodes n (by simpa [CacheCall.nodes] using hn))
      refine ⟨c2, ?_, hc2, hm2, hin2⟩
      simp only [NodeCache.calls, NodeCache.call, GetById_spec c hc id, bind, Except.bind,
        pure, Except.pure, h2]
    | Reset =>
      obtain ⟨c2, h2, hc2, hm2, hin2⟩ := ih c.Reset (Reset_inv c) hm
        (fun e he => absurd he (List.not_mem_nil _))
        (fun n hn => hnodes n (by simpa [CacheCall.nodes] using hn))
      refine ⟨c2, ?_, hc2, hm2, hin2⟩
      simp only [NodeCache.calls, NodeCache.call, bind, Except.bind, pure, Except.pure, h2]

/-- The cache when node ids and cache keys agree. Take any sequence of calls `Add`, `Get`, `GetById` and `Reset` on a cache
of size `m > 0`, and one more node to add, such that among the nodes added two have the
same id exactly when they have the same level and first key. Then no call throws, and in
the cache `c` that the sequence leaves: there are at most `m` entries; the index is a
rearrangement of the pairs (node id, cache key) of the entries, with one entry per id;
`GetById` returns the cached node of that id, if any; a hit of `Get` moves the entry hit to
the most recently used end. `Add` of the further node returns and keeps size and index in
step; when its level and first key are absent and the cache is full, exactly the least
recently used entry goes and the node enters at the most recently used end; when they are
absent and there is room, the node is appended; when they are present, the stored node is
replaced and moved to the most recently used end, size and index unchanged. -/
theorem cache_keeps_size_and_index (b : Build) (m : Nat) (hm : 0 < m) (calls : List CacheCall)
    (node : Node) (hids : Spec.IdsAgree (node :: CacheCall.nodes calls)) :
    ∃ c, NodeCache.calls b calls (NodeCache.empty.SetMaxSize m) = .ok c ∧ c.maxSize_ = m ∧
      c.nodes_.length ≤ m ∧
      c.index_.Perm (c.nodes_.map (fun e => (e.2.id, e.1))) ∧
      (c.nodes_.map (fun e => e.2.id)).Nodup ∧
      (∀ id, c.GetById id
        = .ok ((c.nodes_.find? (fun e => e.2.id == id)).map (fun e => e.2))) ∧
      (∀ key c2 n, c.Get key = .ok (c2, some n) → ∃ it ∈ c.nodes_, it.2 = n ∧
        c2.nodes_ = c.nodes_.filter (fun e => e.1 != it.1) ++ [it]) ∧
      ∃ c1, c.Add b node = .ok c1 ∧ c1.nodes_.length ≤ m ∧
        c1.index_.Perm (c1.nodes_.map (fun e => (e.2.id, e.1))) ∧
        ((∀ e ∈ c.nodes_, e.1 ≠ ⟨node.level, node.first⟩) → c.nodes_.length = m →
          c1.nodes_ = c.nodes_.tail ++ [(⟨node.level, node.first⟩, node)]) ∧
        ((∀ e ∈ c.nodes_, e.1 ≠ ⟨node.level, node.first⟩) → c.nodes_.length < m →
          c1.nodes_ = c.nodes_ ++ [(⟨node.level, node.first⟩, node)]) ∧
        ((∃ e ∈ c.nodes_, e.1 = ⟨node.level, node.first⟩) →
          c1.nodes_ = c.nodes_.filter (fun e => e.1 != ⟨node.level, node.first⟩)
            ++ [(⟨node.level, node.first⟩, node)] ∧
          c1.nodes_.length = c.nodes_.length ∧ c1.index_ = c.index_) := by
  have h0 : (NodeCache.empty.SetMaxSize m).Inv :=
    ⟨Nat.zero_le _, List.nodup_nil, List.nodup_nil, fun _ h => absurd h (List.not_mem_nil _),
      List.Perm.refl _⟩
  obtain ⟨c, hrun, hc, hmax, hin⟩ := calls_inv b (node :: CacheCall.nodes calls) hids calls
    (NodeCache.empty.SetMaxSize m) h0 (by show m ≠ 0; omega)
    (fun e he => absurd he (List.not_mem_nil _)) (fun n hn => List.mem_cons_of_mem _ hn)
  have hmax : c.maxSize_ = m := hmax
  obtain ⟨c1, h1, hc1, hm1, _, hfull, hroom, hpresent⟩ := Add_step b c node hc
    (by rw [hmax]; omega)
    (idsAgree_admits _ hids c hc hin node (List.mem_cons_self _ _))
  refine ⟨c, hrun, hmax, by rw [← hmax]; exact hc.size, hc.index, hc.ids,
    GetById_spec c hc, ?_, c1, h1, ?_, hc1.index, ?_, ?_, hpresent⟩
  · intro key c2 n hget
    rcases Get_shape c key with ⟨c3, h, _⟩ | ⟨it, hit, h, _, _⟩
    · rw [h] at hget
      injection hget with hget
      injection hget with _ hget
      exact absurd hget (by simp)
    · rw [h] at hget
      injection hget with hget
      injection hget with h2 h3
      injection h3 with h3
      exact ⟨it, hit, h3, by rw [← h2]; rfl⟩
  · rw [← hmax, ← hm1]; exact hc1.size
  · intro ha hl
    exact hfull ha (by rw [hmax]; exact hl)
  · intro ha hl
    exact hroom ha (by rw [hmax]; exact hl)

theorem cache_keeps_size_and_index_witness :
    Spec.IdsAgree ((⟨232, 1, 3, 100, 500, [0, 0, 0], [⟨0, 0, 0⟩, ⟨0, 0, 0⟩]⟩ : Node) :: CacheCall.nodes
      [.Add ⟨0, 0, 3, 1, 1000, [0, 0, 0], [⟨0, 0, 0⟩, ⟨0, 0, 0⟩]⟩, .Get 2,
        .Add ⟨232, 1, 3, 100, 500, [0, 0, 0], [⟨0, 0, 0⟩, ⟨0, 0, 0⟩]⟩, .GetById 232,
        .Add ⟨464, 2, 3, 200, 400, [0, 0, 0], [⟨0, 0, 0⟩, ⟨0, 0, 0⟩]⟩]) ∧
    ∃ c, NodeCache.calls Scenario.build
      [.Add ⟨0, 0, 3, 1, 1000, [0, 0, 0], [⟨0, 0, 0⟩, ⟨0, 0, 0⟩]⟩, .Get 2,
        .Add ⟨232, 1, 3, 100, 500, [0, 0, 0], [⟨0, 0, 0⟩, ⟨0, 0, 0⟩]⟩, .GetById 232,
        .Add ⟨464, 2, 3, 200, 400, [0, 0, 0], [⟨0, 0, 0⟩, ⟨0, 0, 0⟩]⟩]
      (NodeCache.empty.SetMaxSize 2) = .ok c ∧ c.maxSize_ = 2 ∧
      c.nodes_.length ≤ 2 ∧
      c.index_.Perm (c.nodes_.map (fun e => (e.2.id, e.1))) ∧
      (c.nodes_.map (fun e => e.2.id)).Nodup ∧
      (∀ id, c.GetById id
        = .ok ((c.nodes_.find? (fun e => e.2.id == id)).map (fun e => e.2))) ∧
      (∀ key c2 n, c.Get key = .ok (c2, some n) → ∃ it ∈ c.nodes_, it.2 = n ∧
        c2.nodes_ = c.nodes_.filter (fun e => e.1 != it.1) ++ [it]) ∧
      ∃ c1, c.Add Scenario.build ⟨232, 1, 3, 100, 500, [0, 0, 0], [⟨0, 0, 0⟩, ⟨0, 0, 0⟩]⟩ = .ok c1 ∧
        c1.nodes_.length ≤ 2 ∧
        c1.index_.Perm (c1.nodes_.map (fun e => (e.2.id, e.1))) ∧
        ((∀ e ∈ c.nodes_, e.1 ≠ ⟨1, 100⟩) → c.nodes_.length = 2 →
          c1.nodes_ = c.nodes_.tail ++ [(⟨1, 100⟩, ⟨232, 1, 3, 100, 500, [0, 0, 0], [⟨0, 0, 0⟩, ⟨0, 0, 0⟩]⟩)]) ∧
        ((∀ e ∈ c.nodes_, e.1 ≠ ⟨1, 100⟩) → c.nodes_.length < 2 →
          c1.nodes_ = c.nodes_ ++ [(⟨1, 100⟩, ⟨232, 1, 3, 100, 500, [0, 0, 0], [⟨0, 0, 0⟩, ⟨0, 0, 0⟩]⟩)]) ∧
        ((∃ e ∈ c.nodes_, e.1 = ⟨1, 100⟩) →
          c1.nodes_ = c.nodes_.filter (fun e => e.1 != ⟨1, 100⟩)
            ++ [(⟨1, 100⟩, ⟨232, 1, 3, 100, 500, [0, 0, 0], [⟨0, 0, 0⟩, ⟨0, 0, 0⟩]⟩)] ∧
          c1.nodes_.length = c.nodes_.length ∧ c1.index_ = c.index_) :=
  have hids : Spec.IdsAgree ((⟨232, 1, 3, 100, 500, [0, 0, 0], [⟨0, 0, 0⟩, ⟨0, 0, 0⟩]⟩ : Node) :: CacheCall.nodes
      [.Add ⟨0, 0, 3, 1, 1000, [0, 0, 0], [⟨0, 0, 0⟩, ⟨0, 0, 0⟩]⟩, .Get 2,
        .Add ⟨232, 1, 3, 100, 500, [0, 0, 0], [⟨0, 0, 0⟩, ⟨0, 0, 0⟩]⟩, .GetById 232,
        .Add ⟨464, 2, 3, 200, 400, [0, 0, 0], [⟨0, 0, 0⟩, ⟨0, 0, 0⟩]⟩]) := by
    unfold Spec.IdsAgree
    decide
  ⟨hids, cache_keeps_size_and_index Scenario.build 2 (by decide) _ _ hids⟩

/-! ## The node block: `Node::Write`, `Node::Read`, `KeyStore::Set` and `KeyStore::Get` -/

theorem leBytes_pad (k n v : Nat) (h : v < 256 ^ k) (hk : k ≤ n) :
    leBytes k v ++ List.replicate (n - k) 0 = leBytes n v := by
  induction k generalizing n v with
  | zero =>
    simp only [pow_zero, Nat.lt_one_iff] at h
    subst h
    simp only [leBytes, List.nil_append, Nat.sub_zero]
    clear hk
    induction n with
    | zero => rfl
    | succ m ih => simp only [List.replicate_succ, leBytes, Nat.zero_mod, Nat.zero_div, ih]
  | succ m ih =>
    obtain ⟨n1, rfl⟩ : ∃ n1, n = n1 + 1 := ⟨n - 1, by omega⟩
    have h2 : v / 256 < 256 ^ m := by
      rw [Nat.div_lt_iff_lt_mul (by norm_num)]
      rw [pow_succ] at h; exact h
    simp only [leBytes, List.cons_append]
    rw [show n1 + 1 - (m + 1) = n1 - m by omega, ih n1 _ h2 (by omega)]

theorem limbsNeeded_bound (limb : Nat) (fuel key : Nat) (hf : 0 < fuel)
    (h : key < (256 ^ limb) ^ fuel) :
    KeyUtil.limbsNeeded limb fuel key ≤ fuel ∧
      key < (256 ^ limb) ^ KeyUtil.limbsNeeded limb fuel key := by
  induction fuel generalizing key with
  | zero => omega
  | succ n ih =>
    unfold KeyUtil.limbsNeeded
    by_cases hlt : key < 256 ^ limb
    · rw [if_pos hlt]
      exact ⟨by omega, by simpa using hlt⟩
    · rw [if_neg hlt]
      have hn : 0 < n := by
        rcases Nat.eq_zero_or_pos n with h0 | h0
        · subst h0
          simp only [zero_add, pow_one] at h
          exact absurd h hlt
        · exact h0
      have hP : 0 < 256 ^ limb := Nat.pos_pow_of_pos _ (by norm_num)
      have hdiv : key / 256 ^ limb < (256 ^ limb) ^ n := by
        rw [Nat.div_lt_iff_lt_mul hP]
        rw [pow_succ] at h; exact h
      obtain ⟨h1, h2⟩ := ih (key / 256 ^ limb) hn hdiv
      refine ⟨by omega, ?_⟩
      rw [Nat.add_comm, pow_succ]
      exact (Nat.div_lt_iff_lt_mul hP).mp h2

/-- A key that fits `BITS` bits fits the limbs in use, and these are at most `BITS / 8`
bytes. -/
theorem key_limbs (b : Build) (hb : b.WholeLimbs) (key : Nat) (hk : key ≤ KeyUtil.Max b) :
    KeyUtil.size b key * KeyUtil.limbSize b ≤ b.BITS / 8 ∧
      key < 256 ^ (KeyUtil.size b key * KeyUtil.limbSize b) := by
  have hpos : 0 < 2 ^ b.BITS := Nat.pos_pow_of_pos _ (by norm_num)
  have hk2 : key < 2 ^ b.BITS := by
    unfold KeyUtil.Max at hk; omega
  have h256 : ∀ n : Nat, (256 : Nat) ^ n = 2 ^ (8 * n) := by
    intro n
    rw [show (256 : Nat) = 2 ^ 8 by norm_num, ← pow_mul]
  unfold Build.WholeLimbs at hb
  rcases limbSize_cases b with ⟨h1, hl⟩ | ⟨h1, h2, hl⟩ | ⟨h1, h2, hl⟩ | ⟨h1, hl⟩
  · have h64 : b.BITS ≤ 64 := by omega
    have hB : b.BITS = 8 := by omega
    simp only [KeyUtil.size, if_pos h64, hl, one_mul]
    rw [hB] at hk2 ⊢
    exact ⟨by norm_num, by simpa using hk2⟩
  · have h64 : b.BITS ≤ 64 := by omega
    have hB : b.BITS = 16 := by omega
    simp only [KeyUtil.size, if_pos h64, hl, one_mul]
    rw [hB] at hk2 ⊢
    exact ⟨by norm_num, by simpa using hk2⟩
  · have h64 : b.BITS ≤ 64 := by omega
    have hB : b.BITS = 32 := by omega
    simp only [KeyUtil.size, if_pos h64, hl, one_mul]
    rw [hB] at hk2 ⊢
    exact ⟨by norm_num, by simpa using hk2⟩
  · by_cases h64 : b.BITS ≤ 64
    · have hB : b.BITS = 64 := by omega
      simp only [KeyUtil.size, if_pos h64, hl, one_mul]
      rw [hB] at hk2 ⊢
      exact ⟨by norm_num, by simpa using hk2⟩
    · have hmod : b.BITS % 64 = 0 := by omega
      have hfuel : 0 < b.BITS / 64 := by omega
      have hpw : (256 ^ 8) ^ (b.BITS / 64) = 2 ^ b.BITS := by
        rw [h256, ← pow_mul]
        congr 1
        omega
      obtain ⟨hle, hlt⟩ := limbsNeeded_bound 8 (b.BITS / 64) key hfuel (by rw [hpw]; exact hk2)
      simp only [KeyUtil.size, if_neg h64, hl]
      refine ⟨by omega, ?_⟩
      rw [← pow_mul, Nat.mul_comm] at hlt
      exact hlt

theorem memcpy_zeros (w src : List Nat) (r : Nat) (h : src.length ≤ r) :
    memcpy (w ++ List.replicate r 0) w.length src
      = .ok (w ++ src ++ List.replicate (r - src.length) 0) := by
  unfold memcpy
  rw [if_pos (by simp only [List.length_append, List.length_replicate]; omega)]
  rw [List.take_left, List.drop_append, List.drop_replicate]

theorem string_replace_zeros (size t : Nat) (w : List Nat) (r : Nat) (h : size ≤ r) :
    string_replace size t w.length (w ++ List.replicate r 0)
      = .ok (w ++ leBytes size t ++ List.replicate (r - size) 0, size) := by
  unfold string_replace
  rw [memcpy_zeros w _ r (by rw [length_leBytes]; exact h), length_leBytes]
  rfl

theorem WriteBytes_zeros (b : Build) (hb : b.WholeLimbs) (key : Nat) (hk : key ≤ KeyUtil.Max b)
    (w : List Nat) (r : Nat) (h : b.BITS / 8 ≤ r) :
    KeyUtil.WriteBytes b key w.length (w ++ List.replicate r 0)
      = .ok (w ++ leBytes (b.BITS / 8) key ++ List.replicate (r - b.BITS / 8) 0, b.BITS / 8) := by
  obtain ⟨h1, h2⟩ := key_limbs b hb key hk
  unfold KeyUtil.WriteBytes
  rw [memcpy_zeros w _ r (by rw [length_leBytes]; omega), length_leBytes, MaxSize_eq b hb]
  have : List.replicate (r - KeyUtil.size b key * KeyUtil.limbSize b) 0
      = List.replicate (b.BITS / 8 - KeyUtil.size b key * KeyUtil.limbSize b) 0
        ++ List.replicate (r - b.BITS / 8) 0 := by
    rw [← List.replicate_add]
    congr 1
    omega
  rw [this, ← List.append_assoc, List.append_assoc w, leBytes_pad _ _ _ h2 h1]
  rfl

theorem string_read_at (size v : Nat) (w rest : List Nat) (hv : v < 256 ^ size) :
    string_read size (w ++ leBytes size v ++ rest) w.length = .ok (v, size) := by
  unfold string_read
  rw [if_pos (by simp only [List.length_append, length_leBytes]; omega)]
  rw [List.append_assoc, List.drop_left, List.take_left' (length_leBytes _ _),
    leValue_leBytes _ _ hv]

theorem ReadBytes_at (b : Build) (hb : b.WholeLimbs) (v : Nat) (hv : v ≤ KeyUtil.Max b)
    (w rest : List Nat) :
    KeyUtil.ReadBytes b (w ++ leBytes (b.BITS / 8) v ++ rest) w.length
      = .ok (v, b.BITS / 8) := by
  have hB : 8 * (b.BITS / 8) = b.BITS := by
    unfold Build.WholeLimbs at hb
    omega
  have hv2 : v < 256 ^ (b.BITS / 8) := by
    rw [show (256 : Nat) = 2 ^ 8 by norm_num, ← pow_mul, hB]
    have hpos : 0 < 2 ^ b.BITS := Nat.pos_pow_of_pos _ (by norm_num)
    unfold KeyUtil.Max at hv; omega
  unfold KeyUtil.ReadBytes
  rw [MaxSize_eq b hb]
  rw [if_pos (by simp only [List.length_append, length_leBytes]; omega)]
  rw [List.append_assoc, List.drop_left, List.take_left' (length_leBytes _ _),
    leValue_leBytes _ _ hv2]

theorem writeKeys_zeros (b : Build) (hb : b.WholeLimbs) :
    ∀ (ks : List KeyValue) (w : List Nat) (r pos : Nat), pos = w.length →
      (∀ kv ∈ ks, kv.key ≤ KeyUtil.Max b) → ks.length * (b.BITS / 8 + 12) ≤ r →
      Node.writeKeys b ks pos (w ++ List.replicate r 0)
        = .ok (w ++ ks.flatMap (fun kv => leBytes (b.BITS / 8) kv.key ++
                (leBytes 8 kv.offset ++ leBytes 4 kv.length))
              ++ List.replicate (r - ks.length * (b.BITS / 8 + 12)) 0,
            pos + ks.length * (b.BITS / 8 + 12)) := by
  intro ks
  induction ks with
  | nil =>
    intro w r pos _ _ _
    simp [Node.writeKeys]
  | cons kv rest ih =>
    intro w r pos hpos hk hr
    subst hpos
    simp only [List.length_cons, Nat.succ_mul] at hr
    have hkv := hk kv (List.mem_cons_self _ _)
    unfold Node.writeKeys
    rw [WriteBytes_zeros b hb kv.key hkv w r (by omega)]
    simp only [bind, Except.bind]
    have e1 : w.length + b.BITS / 8 = (w ++ leBytes (b.BITS / 8) kv.key).length := by
      simp only [List.length_append, length_leBytes]
    rw [e1, string_replace_zeros 8 kv.offset _ _ (by omega)]
    simp only
    have e2 : (w ++ leBytes (b.BITS / 8) kv.key).length + 8
        = (w ++ leBytes (b.BITS / 8) kv.key ++ leBytes 8 kv.offset).length := by
      simp only [List.length_append, length_leBytes]
    rw [e2, string_replace_zeros 4 kv.length _ _ (by omega)]
    simp only
    rw [ih _ (r - b.BITS / 8 - 8 - 4) _ (by simp only [List.length_append, length_leBytes])
      (fun x hx => hk x (List.mem_cons_of_mem _ hx)) (by omega)]
    simp only [List.flatMap_cons, List.append_assoc, List.length_append, length_leBytes,
      List.length_cons, Nat.succ_mul]
    have ea : r - b.BITS / 8 - 8 - 4 - rest.length * (b.BITS / 8 + 12)
        = r - (rest.length * (b.BITS / 8 + 12) + (b.BITS / 8 + 12)) := by omega
    have eb : w.length + (b.BITS / 8 + 8) + 4 + rest.length * (b.BITS / 8 + 12)
        = w.length + (rest.length * (b.BITS / 8 + 12) + (b.BITS / 8 + 12)) := by omega
    rw [ea, eb]

theorem writeChildren_zeros :
    ∀ (cs : List Nat) (w : List Nat) (r pos : Nat), pos = w.length → cs.length * 8 ≤ r →
      Node.writeChildren cs pos (w ++ List.replicate r 0)
        = .ok (w ++ cs.flatMap (fun c => leBytes 8 c) ++ List.replicate (r - cs.length * 8) 0,
            pos + cs.length * 8) := by
  intro cs
  induction cs with
  | nil =>
    intro w r pos _ _
    simp [Node.writeChildren]
  | cons c rest ih =>
    intro w r pos hpos hr
    subst hpos
    simp only [List.length_cons, Nat.succ_mul] at hr
    unfold Node.writeChildren
    rw [string_replace_zeros 8 c w r (by omega)]
    simp only [bind, Except.bind]
    rw [ih _ (r - 8) _ (by simp only [List.length_append, length_leBytes]) (by omega)]
    simp only [List.flatMap_cons, List.append_assoc, List.length_append, length_leBytes,
      List.length_cons, Nat.succ_mul]
    have ea : r - 8 - rest.length * 8 = r - (rest.length * 8 + 8) := by omega
    have eb : w.length + 8 + rest.length * 8 = w.length + (rest.length * 8 + 8) := by omega
    rw [ea, eb]

theorem readKeys_at (b : Build) (hb : b.WholeLimbs) :
    ∀ (ks proto : List KeyValue) (w rest : List Nat) (pos : Nat), pos = w.length →
      proto.length = ks.length →
      (∀ kv ∈ ks, kv.key ≤ KeyUtil.Max b ∧ kv.offset < 2 ^ 64 ∧ kv.length < 2 ^ 32) →
      Node.readKeys b (w ++ ks.flatMap (fun kv => leBytes (b.BITS / 8) kv.key ++
          (leBytes 8 kv.offset ++ leBytes 4 kv.length)) ++ rest) proto pos
        = .ok (ks, pos + ks.length * (b.BITS / 8 + 12)) := by
  intro ks
  induction ks with
  | nil =>
    intro proto w rest pos _ hp _
    have : proto = [] := List.length_eq_zero.mp hp
    subst this
    simp [Node.readKeys]
  | cons kv ks ih =>
    intro proto w rest pos hpos hp hk
    subst hpos
    cases proto with
    | nil => simp at hp
    | cons p0 proto =>
      simp only [List.length_cons, Nat.add_right_cancel_iff] at hp
      obtain ⟨hk1, hk2, hk3⟩ := hk kv (List.mem_cons_self _ _)
      unfold Node.readKeys
      simp only [List.flatMap_cons, List.append_assoc]
      have r1 := ReadBytes_at b hb kv.key hk1 w
        (leBytes 8 kv.offset ++ (leBytes 4 kv.length ++
          (ks.flatMap (fun kv => leBytes (b.BITS / 8) kv.key ++
            (leBytes 8 kv.offset ++ leBytes 4 kv.length)) ++ rest)))
      simp only [List.append_assoc] at r1
      rw [r1]
      simp only [bind, Except.bind]
      have r2 := string_read_at 8 kv.offset (w ++ leBytes (b.BITS / 8) kv.key)
        (leBytes 4 kv.length ++
          (ks.flatMap (fun kv => leBytes (b.BITS / 8) kv.key ++
            (leBytes 8 kv.offset ++ leBytes 4 kv.length)) ++ rest)) (by norm_num; omega)
      simp only [List.append_assoc, List.length_append, length_leBytes] at r2
      rw [r2]
      simp only
      have r3 := string_read_at 4 kv.length
        (w ++ leBytes (b.BITS / 8) kv.key ++ leBytes 8 kv.offset)
        (ks.flatMap (fun kv => leBytes (b.BITS / 8) kv.key ++
            (leBytes 8 kv.offset ++ leBytes 4 kv.length)) ++ rest) (by norm_num; omega)
      simp only [List.append_assoc, List.length_append, length_leBytes] at r3
      rw [Nat.add_assoc w.length (b.BITS / 8) 8, r3]
      simp only
      have r4 := ih proto (w ++ leBytes (b.BITS / 8) kv.key ++ leBytes 8 kv.offset
        ++ leBytes 4 kv.length) rest (w.length + (b.BITS / 8 + 8) + 4)
        (by simp only [List.length_append, length_leBytes]; omega) hp
        (fun x hx => hk x (List.mem_cons_of_mem _ hx))
      simp only [List.append_assoc] at r4
      rw [r4]
      simp only [pure, Except.pure, List.length_cons, Nat.succ_mul]
      congr 2
      omega

theorem readChildren_at :
    ∀ (cs proto : List Nat) (w rest : List Nat) (pos : Nat), pos = w.length →
      proto.length = cs.length → (∀ c ∈ cs, c < 2 ^ 64) →
      Node.readChildren (w ++ cs.flatMap (fun c => leBytes 8 c) ++ rest) proto pos
        = .ok (cs, pos + cs.length * 8) := by
  intro cs
  induction cs with
  | nil =>
    intro proto w rest pos _ hp _
    have : proto = [] := List.length_eq_zero.mp hp
    subst this
    simp [Node.readChildren]
  | cons c cs ih =>
    intro proto w rest pos hpos hp hk
    subst hpos
    cases proto with
    | nil => simp at hp
    | cons p0 proto =>
      simp only [List.length_cons, Nat.add_right_cancel_iff] at hp
      have hc := hk c (List.mem_cons_self _ _)
      unfold Node.readChildren
      simp only [List.flatMap_cons, List.append_assoc]
      have r2 := string_read_at 8 c w (cs.flatMap (fun c => leBytes 8 c) ++ rest)
        (by norm_num; omega)
      simp only [List.append_assoc] at r2
      rw [r2]
      simp only [bind, Except.bind]
      have r4 := ih proto (w ++ leBytes 8 c) rest (w.length + 8)
        (by simp only [List.length_append, length_leBytes]) hp
        (fun x hx => hk x (List.mem_cons_of_mem _ hx))
      simp only [List.append_assoc] at r4
      rw [r4]
      simp only [pure, Except.pure, List.length_cons, Nat.succ_mul]
      congr 2
      omega

theorem length_slotBytes (m : Nat) (ks : List KeyValue) :
    (ks.flatMap (fun kv => leBytes m kv.key ++
      (leBytes 8 kv.offset ++ leBytes 4 kv.length))).length = ks.length * (m + 12) := by
  induction ks with
  | nil => simp
  | cons kv rest ih =>
    simp only [List.flatMap_cons, List.length_append, length_leBytes, ih, List.length_cons,
      Nat.succ_mul]
    omega

theorem length_childBytes (cs : List Nat) :
    (cs.flatMap (fun c => leBytes 8 c)).length = cs.length * 8 := by
  induction cs with
  | nil => simp
  | cons c rest ih =>
    simp only [List.flatMap_cons, List.length_append, length_leBytes, ih, List.length_cons,
      Nat.succ_mul]
    omega

/-- The bytes that `Node::Write` leaves in a zero-filled block: the level, the bounds, the
slots and the child ids, each at full width, then the zero bytes not written. -/
theorem Write_zeros (b : Build) (hb : b.WholeLimbs) (n : Node) (d : Nat) (hn : n.Fits b d)
    (bs : Nat)
    (hbs : 4 + 2 * (b.BITS / 8) + n.keys.length * (b.BITS / 8 + 12) + n.children.length * 8 ≤ bs) :
    Node.Write b n (List.replicate bs 0)
      = .ok (leBytes 4 n.level ++ leBytes (b.BITS / 8) n.first ++ leBytes (b.BITS / 8) n.last
            ++ n.keys.flatMap (fun kv => leBytes (b.BITS / 8) kv.key ++
                (leBytes 8 kv.offset ++ leBytes 4 kv.length))
            ++ n.children.flatMap (fun c => leBytes 8 c)
            ++ List.replicate (bs - (4 + 2 * (b.BITS / 8) + n.keys.length * (b.BITS / 8 + 12)
                + n.children.length * 8)) 0,
          4 + 2 * (b.BITS / 8) + n.keys.length * (b.BITS / 8 + 12) + n.children.length * 8) := by
  unfold Node.Write
  have s1 := string_replace_zeros 4 n.level [] bs (by omega)
  simp only [List.nil_append, List.length_nil] at s1
  simp only [s1, bind, Except.bind, zero_add]
  have s2 := WriteBytes_zeros b hb n.first hn.first (leBytes 4 n.level) (bs - 4) (by omega)
  simp only [length_leBytes] at s2
  rw [s2]
  simp only
  have s3 := WriteBytes_zeros b hb n.last hn.last
    (leBytes 4 n.level ++ leBytes (b.BITS / 8) n.first) (bs - 4 - b.BITS / 8) (by omega)
  simp only [List.length_append, length_leBytes] at s3
  rw [s3]
  simp only
  have s4 := writeKeys_zeros b hb n.keys
    (leBytes 4 n.level ++ leBytes (b.BITS / 8) n.first ++ leBytes (b.BITS / 8) n.last)
    (bs - 4 - b.BITS / 8 - b.BITS / 8) (4 + b.BITS / 8 + b.BITS / 8)
    (by simp only [List.length_append, length_leBytes])
    (fun kv hkv => (hn.keys kv hkv).1) (by omega)
  rw [s4]
  simp only
  have s5 := writeChildren_zeros n.children
    (leBytes 4 n.level ++ leBytes (b.BITS / 8) n.first ++ leBytes (b.BITS / 8) n.last
      ++ n.keys.flatMap (fun kv => leBytes (b.BITS / 8) kv.key ++
          (leBytes 8 kv.offset ++ leBytes 4 kv.length)))
    (bs - 4 - b.BITS / 8 - b.BITS / 8 - n.keys.length * (b.BITS / 8 + 12))
    (4 + b.BITS / 8 + b.BITS / 8 + n.keys.length * (b.BITS / 8 + 12))
    (by simp only [List.length_append, length_leBytes, length_slotBytes])
    (by omega)
  rw [s5]
  have ea : bs - 4 - b.BITS / 8 - b.BITS / 8 - n.keys.length * (b.BITS / 8 + 12)
      - n.children.length * 8
      = bs - (4 + 2 * (b.BITS / 8) + n.keys.length * (b.BITS / 8 + 12)
          + n.children.length * 8) := by omega
  have eb : 4 + b.BITS / 8 + b.BITS / 8 + n.keys.length * (b.BITS / 8 + 12)
      + n.children.length * 8
      = 4 + 2 * (b.BITS / 8) + n.keys.length * (b.BITS / 8 + 12) + n.children.length * 8 := by
    omega
  rw [ea, eb]

/-- `Node::Read` on the bytes that `Write` produces returns the fields written. -/
theorem Read_block (b : Build) (hb : b.WholeLimbs) (n proto : Node) (d : Nat) (hn : n.Fits b d)
    (hpk : proto.keys.length = n.keys.length)
    (hpc : proto.children.length = n.children.length) (rest : List Nat) :
    Node.Read b proto
        (leBytes 4 n.level ++ leBytes (b.BITS / 8) n.first ++ leBytes (b.BITS / 8) n.last
          ++ n.keys.flatMap (fun kv => leBytes (b.BITS / 8) kv.key ++
              (leBytes 8 kv.offset ++ leBytes 4 kv.length))
          ++ n.children.flatMap (fun c => leBytes 8 c) ++ rest)
      = .ok ({ proto with level := n.level, first := n.first, last := n.last, keys := n.keys,
                          children := n.children },
          4 + b.BITS / 8 + b.BITS / 8 + n.keys.length * (b.BITS / 8 + 12)
            + n.children.length * 8) := by
  unfold Node.Read
  simp only [List.append_assoc]
  have r1 := string_read_at 4 n.level []
    (leBytes (b.BITS / 8) n.first ++ (leBytes (b.BITS / 8) n.last ++
      (n.keys.flatMap (fun kv => leBytes (b.BITS / 8) kv.key ++
          (leBytes 8 kv.offset ++ leBytes 4 kv.length)) ++
        (n.children.flatMap (fun c => leBytes 8 c) ++ rest)))) (by norm_num; exact hn.level)
  simp only [List.nil_append, List.length_nil, List.append_assoc] at r1
  rw [r1]
  simp only [bind, Except.bind, zero_add]
  have r2 := ReadBytes_at b hb n.first hn.first (leBytes 4 n.level)
    (leBytes (b.BITS / 8) n.last ++
      (n.keys.flatMap (fun kv => leBytes (b.BITS / 8) kv.key ++
          (leBytes 8 kv.offset ++ leBytes 4 kv.length)) ++
        (n.children.flatMap (fun c => leBytes 8 c) ++ rest)))
  simp only [length_leBytes, List.append_assoc] at r2
  rw [r2]
  simp only
  have r3 := ReadBytes_at b hb n.last hn.last (leBytes 4 n.level ++ leBytes (b.BITS / 8) n.first)
    (n.keys.flatMap (fun kv => leBytes (b.BITS / 8) kv.key ++
          (leBytes 8 kv.offset ++ leBytes 4 kv.length)) ++
        (n.children.flatMap (fun c => leBytes 8 c) ++ rest))
  simp only [List.length_append, length_leBytes, List.append_assoc] at r3
  rw [r3]
  simp only
  have r4 := readKeys_at b hb n.keys proto.keys
    (leBytes 4 n.level ++ leBytes (b.BITS / 8) n.first ++ leBytes (b.BITS / 8) n.last)
    (n.children.flatMap (fun c => leBytes 8 c) ++ rest) (4 + b.BITS / 8 + b.BITS / 8)
    (by simp only [List.length_append, length_leBytes]) hpk hn.keys
  simp only [List.append_assoc] at r4
  rw [r4]
  simp only
  have r5 := readChildren_at n.children proto.children
    (leBytes 4 n.level ++ leBytes (b.BITS / 8) n.first ++ leBytes (b.BITS / 8) n.last
      ++ n.keys.flatMap (fun kv => leBytes (b.BITS / 8) kv.key ++
          (leBytes 8 kv.offset ++ leBytes 4 kv.length)))
    rest (4 + b.BITS / 8 + b.BITS / 8 + n.keys.length * (b.BITS / 8 + 12))
    (by simp only [List.length_append, length_leBytes, length_slotBytes]) hpc hn.ids
  simp only [List.append_assoc] at r5
  rw [r5]
  rfl

theorem CalculateDegree_eq (b : Build) (bs : Nat) (h1 : 2 * (b.BITS / 8) + 12 ≤ bs)
    (h2 : bs < 2 ^ 32) :
    Node.CalculateDegree b bs = (bs - 2 * (b.BITS / 8) - 12) / (b.BITS / 8 + 20) := by
  unfold Node.CalculateDegree
  have e1 : (2 * (b.BITS / 8) + 12) % 2 ^ 32 = 2 * (b.BITS / 8) + 12 :=
    Nat.mod_eq_of_lt (by omega)
  rw [e1]
  have e2 : (bs + 2 * 2 ^ 32 - (2 * (b.BITS / 8) + 12)) % 2 ^ 32 = bs - 2 * (b.BITS / 8) - 12 := by
    omega
  rw [e2]

/-- For a block that holds at least one slot, the degree is at least 1 and the bytes of a
node of that degree fit the block. -/
theorem CalculateDegree_bounds (b : Build) (bs : Nat) (h1 : 3 * (b.BITS / 8) + 32 ≤ bs)
    (h2 : bs < 2 ^ 32) :
    1 ≤ Node.CalculateDegree b bs ∧ Node.CalculateDegree b bs < 2 ^ 32 ∧
    4 + 2 * (b.BITS / 8) + (Node.CalculateDegree b bs - 1) * (b.BITS / 8 + 12)
      + 8 * Node.CalculateDegree b bs ≤ bs := by
  rw [CalculateDegree_eq b bs (by omega) h2]
  have hpos : 0 < b.BITS / 8 + 20 := by omega
  have hge : 1 ≤ (bs - 2 * (b.BITS / 8) - 12) / (b.BITS / 8 + 20) :=
    (Nat.one_le_div_iff hpos).mpr (by omega)
  have hmul : (bs - 2 * (b.BITS / 8) - 12) / (b.BITS / 8 + 20) * (b.BITS / 8 + 20)
      ≤ bs - 2 * (b.BITS / 8) - 12 := Nat.div_mul_le_self _ _
  have hlt : (bs - 2 * (b.BITS / 8) - 12) / (b.BITS / 8 + 20) < 2 ^ 32 :=
    lt_of_le_of_lt (Nat.div_le_self _ _) (by omega)
  refine ⟨hge, hlt, ?_⟩
  obtain ⟨q, hq⟩ : ∃ q, (bs - 2 * (b.BITS / 8) - 12) / (b.BITS / 8 + 20) = q + 1 :=
    ⟨_, (Nat.succ_pred_eq_of_pos hge).symm⟩
  rw [hq] at hmul ⊢
  simp only [Nat.add_sub_cancel]
  have e : (q + 1) * (b.BITS / 8 + 20) = q * (b.BITS / 8 + 12) + 8 * q + (b.BITS / 8 + 20) := by
    ring
  omega

theorem resize_nil (n : Nat) : resize [] n = List.replicate n 0 := by
  simp [resize]

theorem length_resize (s : List Nat) (n : Nat) : (resize s n).length = n := by
  simp only [resize, List.length_append, List.length_take, List.length_replicate]
  omega

/-- C24 (amended). The key store has a block size that holds at least one slot
(`3 * (BITS / 8) + 32 <= block_size < 2^32`), its degree is `CalculateDegree(block_size)`
and its file does not fail. For every node of that degree whose fields fit their types,
`Set` writes the node without error, and `Get` at the id of the node then returns a node
equal to it in every field: id, level, degree, bounds, slots and child ids. `Get` at an id
at or behind the end of the file returns `key_not_found` and no node. -/
theorem node_survives_set_and_get (b : Build) (hb : b.WholeLimbs) (k : KeyStore) (n : Node)
    (hbs1 : 3 * (b.BITS / 8) + 32 ≤ k.block_size_) (hbs2 : k.block_size_ < 2 ^ 32)
    (hdeg : k.degree_ = Node.CalculateDegree b k.block_size_)
    (hf : k.file_.faults = []) (hn : n.Fits b k.degree_) :
    (∃ k1, k.Set b n = .ok (k1, none) ∧ k1.Get b n.id = .ok (k1, some n, none)) ∧
    ∀ id, k.file_.data.length ≤ id → k.Get b id = .ok (k, none, some .key_not_found) := by
  obtain ⟨bs, deg, ⟨data, faults⟩, size⟩ := k
  simp only at hbs1 hbs2 hdeg hf hn
  subst hf
  obtain ⟨hd1, hd2, hd3⟩ := CalculateDegree_bounds b bs hbs1 hbs2
  rw [← hdeg] at hd1 hd2 hd3
  have hkl : n.keys.length = deg - 1 := by have := hn.slots; omega
  have hcl : n.children.length = deg := hn.children
  have htot : 4 + 2 * (b.BITS / 8) + n.keys.length * (b.BITS / 8 + 12) + n.children.length * 8
      ≤ bs := by
    rw [hkl, hcl]; omega
  have hnew : ∀ id, Node.new id 0 deg 0 1
      = .ok ⟨id, 0, deg, 0, 1, List.replicate deg EmptyChild,
          List.replicate (deg - 1) KeyValue.zero⟩ := by
    intro id
    unfold Node.new
    rw [if_neg (by omega)]
    have : (deg + (2 ^ 32 - 1)) % 2 ^ 32 = deg - 1 := by omega
    rw [this]
  constructor
  · have hw := Write_zeros b hb n deg hn bs htot
    have hlen : (leBytes 4 n.level ++ leBytes (b.BITS / 8) n.first ++ leBytes (b.BITS / 8) n.last
        ++ n.keys.flatMap (fun kv => leBytes (b.BITS / 8) kv.key ++
            (leBytes 8 kv.offset ++ leBytes 4 kv.length))
        ++ n.children.flatMap (fun c => leBytes 8 c)
        ++ List.replicate (bs - (4 + 2 * (b.BITS / 8) + n.keys.length * (b.BITS / 8 + 12)
            + n.children.length * 8)) 0).length = bs := by
      simp only [List.length_append, length_leBytes, length_slotBytes, length_childBytes,
        List.length_replicate]
      omega
    generalize hS : leBytes 4 n.level ++ leBytes (b.BITS / 8) n.first ++ leBytes (b.BITS / 8) n.last
        ++ n.keys.flatMap (fun kv => leBytes (b.BITS / 8) kv.key ++
            (leBytes 8 kv.offset ++ leBytes 4 kv.length))
        ++ n.children.flatMap (fun c => leBytes 8 c)
        ++ List.replicate (bs - (4 + 2 * (b.BITS / 8) + n.keys.length * (b.BITS / 8 + 12)
            + n.children.length * 8)) 0 = S at hw hlen
    refine ⟨⟨bs, deg, ⟨(resize data n.id).take n.id ++ S ++ data.drop (n.id + bs), []⟩,
      size⟩, ?_, ?_⟩
    · unfold KeyStore.Set
      simp only [resize_nil, hw, bind, Except.bind, RandomAccessFile.WriteAt,
        RandomAccessFile.syscall, Option.isSome_none, Bool.false_eq_true, if_false, hlen,
        bne_self_eq_false, pure, Except.pure]
    · unfold KeyStore.Get
      have hP : ((resize data n.id).take n.id).length = n.id := by
        rw [List.length_take, length_resize]; omega
      have hgot : (((resize data n.id).take n.id ++ S ++ data.drop (n.id + bs)).drop
          n.id).take (List.replicate bs 0).length = S := by
        rw [List.append_assoc, List.drop_left' hP, List.length_replicate,
          List.take_left' hlen]
      have hread := Read_block b hb n ⟨n.id, 0, deg, 0, 1, List.replicate deg EmptyChild,
          List.replicate (deg - 1) KeyValue.zero⟩ deg hn
        (by simp only [List.length_replicate]; exact hkl.symm)
        (by simp only [List.length_replicate]; exact hcl.symm)
        (List.replicate (bs - (4 + 2 * (b.BITS / 8) + n.keys.length * (b.BITS / 8 + 12)
            + n.children.length * 8)) 0)
      rw [hS] at hread
      have hbs0 : ¬ bs = 0 := by omega
      simp only [resize_nil, hnew, bind, Except.bind, RandomAccessFile.ReadAt,
        RandomAccessFile.syscall, hgot, hlen, Option.isSome_none, Bool.false_eq_true, if_false,
        hbs0, bne_self_eq_false, List.drop_replicate, Nat.sub_self, List.replicate_zero,
        List.append_nil, hread, pure, Except.pure]
      have hnd := hn.degree
      cases n
      simp only at hnd
      subst hnd
      rfl
  · intro id hid
    simp only at hid
    unfold KeyStore.Get
    have hgot : (data.drop id).take (List.replicate bs 0).length = [] := by
      rw [List.drop_eq_nil_of_le hid, List.take_nil]
    simp only [resize_nil, hnew, bind, Except.bind, RandomAccessFile.ReadAt,
      RandomAccessFile.syscall, hgot, List.length_nil, Option.isSome_none, Bool.false_eq_true,
      if_false, if_true, pure, Except.pure]

theorem node_survives_set_and_get_witness :
    (3 * (Scenario.build.BITS / 8) + 32 ≤ (KeyStore.new Scenario.build 232 ⟨[], []⟩).block_size_ ∧
      (KeyStore.new Scenario.build 232 ⟨[], []⟩).block_size_ < 2 ^ 32 ∧
      Node.Fits Scenario.build
        ⟨232, 1, 3, 1, 2 ^ 256 - 1, [0, 464, 0], [⟨5, 0, 37⟩, ⟨2 ^ 255, 37, 40⟩]⟩
        (KeyStore.new Scenario.build 232 ⟨[], []⟩).degree_) ∧
    (∃ k1, (KeyStore.new Scenario.build 232 ⟨[], []⟩).Set Scenario.build
          ⟨232, 1, 3, 1, 2 ^ 256 - 1, [0, 464, 0], [⟨5, 0, 37⟩, ⟨2 ^ 255, 37, 40⟩]⟩
        = .ok (k1, none) ∧
      k1.Get Scenario.build
          (⟨232, 1, 3, 1, 2 ^ 256 - 1, [0, 464, 0], [⟨5, 0, 37⟩, ⟨2 ^ 255, 37, 40⟩]⟩ : Node).id
        = .ok (k1, some ⟨232, 1, 3, 1, 2 ^ 256 - 1, [0, 464, 0],
            [⟨5, 0, 37⟩, ⟨2 ^ 255, 37, 40⟩]⟩, none)) ∧
    ∀ id, (KeyStore.new Scenario.build 232 ⟨[], []⟩).file_.data.length ≤ id →
      (KeyStore.new Scenario.build 232 ⟨[], []⟩).Get Scenario.build id
        = .ok (KeyStore.new Scenario.build 232 ⟨[], []⟩, none, some .key_not_found) :=
  have h1 : 3 * (Scenario.build.BITS / 8) + 32
      ≤ (KeyStore.new Scenario.build 232 ⟨[], []⟩).block_size_ := by decide
  have h2 : (KeyStore.new Scenario.build 232 ⟨[], []⟩).block_size_ < 2 ^ 32 := by decide
  have h3 : Node.Fits Scenario.build
      ⟨232, 1, 3, 1, 2 ^ 256 - 1, [0, 464, 0], [⟨5, 0, 37⟩, ⟨2 ^ 255, 37, 40⟩]⟩
      (KeyStore.new Scenario.build 232 ⟨[], []⟩).degree_ :=
    ⟨by decide, by decide, by decide, by decide, by decide, by decide, by decide, by decide⟩
  ⟨⟨h1, h2, h3⟩, node_survives_set_and_get Scenario.build (wholeLimbs_256 false) _ _ h1 h2 rfl
    rfl h3⟩

set_option maxRecDepth 100000 in
/-- C24 (counterexample). A key store with blocks of 232 bytes on an empty file. `Set`
writes a node with id 232, which leaves the file 464 bytes long with a hole in the bytes
`[0, 232)`. The block at id 0 was never written, yet `Get(0)` returns no error and a node
read from the zero bytes of the hole: level 0, first 0, last 0. -/
theorem get_of_hole_returns_zero_node :
    (do let (k, e1) ← (KeyStore.new Scenario.build 232 ⟨[], []⟩).Set Scenario.build
          ⟨232, 1, 3, 1, 2 ^ 256 - 1, [0, 464, 0], [⟨5, 0, 37⟩, ⟨2 ^ 255, 37, 40⟩]⟩
        let (_, node, e2) ← k.Get Scenario.build 0
        pure ([e1, e2], k.file_.data.length,
          node.map (fun m => [m.level, m.first, m.last])) :
          Except Thrown (List error_condition × Nat × Option (List Nat)))
      = .ok ([none, none], 464, some [0, 0, 0]) := by decide!

/-- C25 (amended). For a block size with `3 * (BITS / 8) + 32 <= blockSize < 2^32`,
`CalculateDegree` is `(blockSize - 2 * (BITS / 8) - 12) / (BITS / 8 + 20)` and at least 1,
the sum `4 + 2 * (BITS / 8) + (D - 1) * (BITS / 8 + 12) + 8 * D` is at most the block size,
and `Node::Write` of any node of that degree whose fields fit their types, into a
zero-filled block, returns without error, reports exactly that many bytes and keeps the
block at its size. -/
theorem CalculateDegree_fits_block (b : Build) (hb : b.WholeLimbs) (blockSize : Nat)
    (h1 : 3 * (b.BITS / 8) + 32 ≤ blockSize) (h2 : blockSize < 2 ^ 32) :
    Node.CalculateDegree b blockSize
      = (blockSize - 2 * (b.BITS / 8) - 12) / (b.BITS / 8 + 20) ∧
    1 ≤ Node.CalculateDegree b blockSize ∧
    4 + 2 * (b.BITS / 8) + (Node.CalculateDegree b blockSize - 1) * (b.BITS / 8 + 12)
      + 8 * Node.CalculateDegree b blockSize ≤ blockSize ∧
    ∀ n : Node, n.Fits b (Node.CalculateDegree b blockSize) →
      ∃ str, Node.Write b n (resize [] blockSize)
          = .ok (str, 4 + 2 * (b.BITS / 8)
              + (Node.CalculateDegree b blockSize - 1) * (b.BITS / 8 + 12)
              + 8 * Node.CalculateDegree b blockSize) ∧
        str.length = blockSize := by
  obtain ⟨hd1, hd2, hd3⟩ := CalculateDegree_bounds b blockSize h1 h2
  refine ⟨CalculateDegree_eq b blockSize (by omega) h2, hd1, hd3, ?_⟩
  intro n hn
  have hkl : n.keys.length = Node.CalculateDegree b blockSize - 1 := by
    have := hn.slots; omega
  have hcl : n.children.length = Node.CalculateDegree b blockSize := hn.children
  have htot : 4 + 2 * (b.BITS / 8) + n.keys.length * (b.BITS / 8 + 12) + n.children.length * 8
      ≤ blockSize := by
    rw [hkl, hcl]; omega
  have hw := Write_zeros b hb n _ hn blockSize htot
  rw [resize_nil, hw]
  refine ⟨leBytes 4 n.level ++ leBytes (b.BITS / 8) n.first ++ leBytes (b.BITS / 8) n.last ++
      n.keys.flatMap (fun kv => leBytes (b.BITS / 8) kv.key ++
        (leBytes 8 kv.offset ++ leBytes 4 kv.length)) ++
      n.children.flatMap (fun c => leBytes 8 c) ++
      List.replicate (blockSize - (4 + 2 * (b.BITS / 8) + n.keys.length * (b.BITS / 8 + 12)
        + n.children.length * 8)) 0, ?_, ?_⟩
  · rw [hkl, hcl, Nat.mul_comm (Node.CalculateDegree b blockSize) 8]
  · simp only [List.length_append, length_leBytes, length_slotBytes, length_childBytes,
      List.length_replicate]
    omega

theorem CalculateDegree_fits_block_witness :
    Node.CalculateDegree Scenario.build 4096 = 77 ∧
    Node.CalculateDegree Scenario.build 8192 = 156 ∧
    Node.CalculateDegree Scenario.build 4096
      = (4096 - 2 * (Scenario.build.BITS / 8) - 12) / (Scenario.build.BITS / 8 + 20) ∧
    1 ≤ Node.CalculateDegree Scenario.build 4096 ∧
    4 + 2 * (Scenario.build.BITS / 8)
      + (Node.CalculateDegree Scenario.build 4096 - 1) * (Scenario.build.BITS / 8 + 12)
      + 8 * Node.CalculateDegree Scenario.build 4096 ≤ 4096 ∧
    ∀ n : Node, n.Fits Scenario.build (Node.CalculateDegree Scenario.build 4096) →
      ∃ str, Node.Write Scenario.build n (resize [] 4096)
          = .ok (str, 4 + 2 * (Scenario.build.BITS / 8)
              + (Node.CalculateDegree Scenario.build 4096 - 1) * (Scenario.build.BITS / 8 + 12)
              + 8 * Node.CalculateDegree Scenario.build 4096) ∧
        str.length = 4096 :=
  ⟨by decide, by decide,
    CalculateDegree_fits_block Scenario.build (wholeLimbs_256 false) 4096 (by decide) (by decide)⟩

/-- C25 (counterexample). With 256-bit keys and a block size of 64 bytes the subtraction
`blockSize - 2 * 32 - 12` wraps in 32 bits: `CalculateDegree(64)` is 82595524, which is not
the quotient `(64 - 76) / 52` of the integers, and a node of that degree does not fit
the 64 bytes of the block. -/
theorem CalculateDegree_wraps_below_header :
    Node.CalculateDegree Scenario.build 64 = 82595524 ∧
    ((82595524 : Nat) : Int) ≠ ((64 : Int) - 2 * (256 / 8) - 12) / (256 / 8 + 20) ∧
    64 < 4 + 2 * (256 / 8) + (Node.CalculateDegree Scenario.build 64 - 1) * (256 / 8 + 12)
      + 8 * Node.CalculateDegree Scenario.build 64 := by decide

/-! ## `ValueStore::Each` on a log that fits one chunk -/

theorem assignFrom_at (w x rest : List Nat) (pos n : Nat) (hpos : pos = w.length)
    (hn : n = x.length) : assignFrom (w ++ x ++ rest) pos n = .ok x := by
  subst hpos hn
  unfold assignFrom
  rw [if_neg (by simp only [List.length_append]; omega)]
  rw [List.append_assoc, List.drop_left, List.take_left]

/-- The for-loop of `Each` on a chunk that holds whole records only: it calls `f` once per
record, in order, and advances the file position by their total length. -/
theorem eachRecords_whole {σ : Type} (b : Build) (hb : b.WholeLimbs)
    (f : List Nat → List Nat → σ → σ) (str : List Nat) (bytesRead : Nat) :
    ∀ (recs : List (List Nat × List Nat)) (pre pad : List Nat) (fuel fp : Nat) (s : σ),
      str = pre ++ recs.flatMap (fun r => Spec.record (r.2.length + 4 + r.1.length) r.1 r.2)
        ++ pad →
      bytesRead = (pre ++ recs.flatMap
        (fun r => Spec.record (r.2.length + 4 + r.1.length) r.1 r.2)).length →
      (∀ r ∈ recs, r.1.length = b.BITS / 8 ∧ r.2.length + 4 + r.1.length < 2 ^ 32) →
      bytesRead < 2 ^ 64 →
      fp + (recs.flatMap
        (fun r => Spec.record (r.2.length + 4 + r.1.length) r.1 r.2)).length < 2 ^ 64 →
      recs.length + 1 ≤ fuel →
      ValueStore.eachRecords b f str bytesRead fuel pre.length fp s
        = .ok (fp + (recs.flatMap
            (fun r => Spec.record (r.2.length + 4 + r.1.length) r.1 r.2)).length,
          recs.foldl (fun s r => f r.1 r.2 s) s) := by
  intro recs
  induction recs with
  | nil =>
    intro pre pad fuel fp s _ hbr _ _ _ hfuel
    obtain ⟨m, rfl⟩ : ∃ m, fuel = m + 1 := ⟨fuel - 1, by simp at hfuel; omega⟩
    unfold ValueStore.eachRecords
    simp only [List.flatMap_nil, List.append_nil] at hbr
    rw [if_neg (by omega)]
    rfl
  | cons r rest ih =>
    intro pre pad fuel fp s hstr hbr hrec hb64 hfp hfuel
    obtain ⟨m, rfl⟩ : ∃ m, fuel = m + 1 := ⟨fuel - 1, by simp at hfuel; omega⟩
    obtain ⟨hr1, hr2⟩ := hrec r (List.mem_cons_self _ _)
    have hlenrec : (Spec.record (r.2.length + 4 + r.1.length) r.1 r.2).length
        = r.2.length + 4 + r.1.length := by
      rw [length_record]; omega
    simp only [List.flatMap_cons, List.length_append, hlenrec] at hbr hfp
    unfold ValueStore.eachRecords
    rw [if_pos (by omega)]
    have hstr2 : str = pre ++ leBytes 4 (r.2.length + 4 + r.1.length) ++ (r.1 ++ (r.2 ++
        (rest.flatMap (fun r => Spec.record (r.2.length + 4 + r.1.length) r.1 r.2) ++ pad))) := by
      rw [hstr]
      simp only [List.flatMap_cons, Spec.record, List.append_assoc]
    have hread : string_read 4 str pre.length = .ok (r.2.length + 4 + r.1.length, 4) := by
      rw [hstr2]
      exact string_read_at 4 _ pre _ (by norm_num; omega)
    simp only [hread, bind, Except.bind]
    rw [if_neg (by omega)]
    have hkey : assignFrom str (pre.length + 4) (ValueStore.Bytes b) = .ok r.1 := by
      have hs3 : str = (pre ++ leBytes 4 (r.2.length + 4 + r.1.length)) ++ r.1 ++ (r.2 ++
          (rest.flatMap (fun r => Spec.record (r.2.length + 4 + r.1.length) r.1 r.2) ++ pad)) := by
        rw [hstr2]; simp only [List.append_assoc]
      rw [hs3]
      exact assignFrom_at _ _ _ _ _ (by simp only [List.length_append, length_leBytes])
        (by unfold ValueStore.Bytes; omega)
    have hvl : (r.2.length + 4 + r.1.length + 2 ^ 64 - ValueStore.value_offset b % 2 ^ 64) % 2 ^ 64
        = r.2.length := by
      unfold ValueStore.value_offset
      rw [MaxSize_eq b hb, ← hr1]
      omega
    have hval : assignFrom str (pre.length + 4 + ValueStore.Bytes b) r.2.length = .ok r.2 := by
      have hs3 : str = (pre ++ leBytes 4 (r.2.length + 4 + r.1.length) ++ r.1) ++ r.2 ++
          (rest.flatMap (fun r => Spec.record (r.2.length + 4 + r.1.length) r.1 r.2) ++ pad) := by
        rw [hstr2]; simp only [List.append_assoc]
      rw [hs3]
      exact assignFrom_at _ _ _ _ _
        (by simp only [List.length_append, length_leBytes]; unfold ValueStore.Bytes; omega) rfl
    simp only [hkey, hvl, hval]
    have hpos : (pre.length + 4 + ValueStore.Bytes b + r.2.length) % 2 ^ 64
        = (pre ++ Spec.record (r.2.length + 4 + r.1.length) r.1 r.2).length := by
      rw [List.length_append, hlenrec]
      unfold ValueStore.Bytes
      rw [← hr1, Nat.mod_eq_of_lt (by omega)]
      omega
    have hfp2 : (fp + (r.2.length + 4 + r.1.length)) % 2 ^ 64 = fp + (r.2.length + 4 + r.1.length) :=
      Nat.mod_eq_of_lt (by omega)
    rw [hpos, hfp2]
    have := ih (pre ++ Spec.record (r.2.length + 4 + r.1.length) r.1 r.2) pad m
      (fp + (r.2.length + 4 + r.1.length)) (f r.1 r.2 s)
      (by rw [hstr]; simp only [List.flatMap_cons, List.append_assoc])
      (by simp only [List.length_append, hlenrec]; omega)
      (fun x hx => hrec x (List.mem_cons_of_mem _ hx)) hb64 (by omega)
      (by simp only [List.length_cons] at hfuel; omega)
    rw [this]
    simp only [List.flatMap_cons, List.length_append, hlenrec, List.foldl_cons]
    congr 2
    omega

/-- On a value log of whole records that fits one chunk of 64 KiB, `Each` returns without
error after calling `f` once per record, in log order, with the key and the value of the
record. -/
theorem Each_one_chunk {σ : Type} (b : Build) (hb : b.WholeLimbs)
    (f : List Nat → List Nat → σ → σ) (s : σ) (recs : List (List Nat × List Nat))
    (hrec : ∀ r ∈ recs, r.1.length = b.BITS / 8 ∧ r.2.length + 4 + r.1.length < 2 ^ 32)
    (hfit : (recs.flatMap
      (fun r => Spec.record (r.2.length + 4 + r.1.length) r.1 r.2)).length ≤ 1024 * 64)
    (fuel : Nat) (hfuel : recs.length + 2 ≤ fuel) :
    ValueStore.Each b fuel
        ⟨⟨recs.flatMap (fun r => Spec.record (r.2.length + 4 + r.1.length) r.1 r.2), []⟩,
          (recs.flatMap
            (fun r => Spec.record (r.2.length + 4 + r.1.length) r.1 r.2)).length⟩ f s
      = .ok (⟨⟨recs.flatMap (fun r => Spec.record (r.2.length + 4 + r.1.length) r.1 r.2), []⟩,
          (recs.flatMap
            (fun r => Spec.record (r.2.length + 4 + r.1.length) r.1 r.2)).length⟩,
        recs.foldl (fun s r => f r.1 r.2 s) s, none) := by
  obtain ⟨m, rfl⟩ : ∃ m, fuel = m + 1 := ⟨fuel - 1, by omega⟩
  generalize hlog : recs.flatMap
    (fun r => Spec.record (r.2.length + 4 + r.1.length) r.1 r.2) = log at hfit
  unfold ValueStore.Each ValueStore.eachLoop
  have hgot : (log.drop 0).take (List.replicate (1024 * 64) 0).length = log := by
    rw [List.drop_zero, List.length_replicate, List.take_of_length_le hfit]
  simp only [RandomAccessFile.ReadAt, RandomAccessFile.syscall, hgot, Option.isSome_none,
    Bool.false_eq_true, if_false]
  have hrun := eachRecords_whole b hb f (log ++ List.drop log.length (List.replicate (1024 * 64) 0))
    log.length recs [] (List.drop log.length (List.replicate (1024 * 64) 0)) m 0 s
    (by rw [hlog]; rfl) (by rw [hlog]; rfl) hrec (by norm_num at hfit ⊢; omega)
    (by rw [hlog]; norm_num at hfit ⊢; omega) (by omega)
  rw [hlog] at hrun
  simp only [List.length_nil, zero_add] at hrun
  simp only [hrun, bind, Except.bind, lt_irrefl, if_false, pure, Except.pure]

/-! ## The placement loop of the overflow branch -/

/-- The two outcomes of `NearestStride` for a key above `start` and a stride that is not
zero: the slot index and the distance, or `std::overflow_error` when the quotient does not
fit 32 bits. -/
theorem NearestStride_cases (start stride value : Nat) (hv : start ≤ value) (hs : 0 < stride) :
    KeyUtil.NearestStride start stride value
        = .ok (if (value - start) / stride = 0 then stride - (value - start) % stride
               else (value - start) % stride, (value - start) / stride - 1) ∨
    KeyUtil.NearestStride start stride value = .error .overflow_error := by
  by_cases hq : (value - start) / stride < 2 ^ 32
  · exact Or.inl (NearestStride_eq start stride value hv hs hq)
  · right
    unfold KeyUtil.NearestStride KeyUtil.sub
    have hs0 : ¬ stride = 0 := by omega
    have hq2 : 4294967296 ≤ (value - start) / stride := by omega
    simp only [if_pos hv, hs0, if_false, bind, Except.bind, ge_iff_le, Nat.reducePow, hq2,
      if_true]
    rfl

/-- The loop of the overflow branch, for abstract slot and distance functions that agree
with `NearestStride`: after the loop every slot is empty and no key seen belongs to it, or
it holds the key seen that is nearest among the keys seen that belong to it. -/
theorem strideLoop_inv (F stride : Nat) (slot dist : Nat → Nat)
    (hN : ∀ v, F < v → KeyUtil.NearestStride F stride v = .ok (dist v, slot v) ∨
      KeyUtil.NearestStride F stride v = .error .overflow_error)
    (hmono : ∀ a c, F < a → a < c → slot a ≤ slot c)
    (hlt : ∀ v, F < v → dist v < stride) :
    ∀ (rest pre : List KeyValue) (n : Node) (index best : Nat) (n1 : Node),
      n.first = F →
      (pre ++ rest).Pairwise (fun a c => a.key < c.key) →
      (∀ kv ∈ pre ++ rest, F < kv.key) →
      (∀ i kv, n.keys.get? i = some kv →
        (kv.key = 0 ∧ ∀ c ∈ pre, slot c.key ≠ i) ∨
        (kv ∈ pre ∧ slot kv.key = i ∧ ∀ c ∈ pre, slot c.key = i → dist kv.key ≤ dist c.key)) →
      (∀ c ∈ pre, slot c.key ≤ index) →
      ((pre = [] ∧ index = 0 ∧ stride ≤ best) ∨
        (∃ kv, n.keys.get? index = some kv ∧ kv ∈ pre ∧ slot kv.key = index ∧
          dist kv.key = best)) →
      Delta.strideLoop stride rest n index best = .ok n1 →
      n1.keys.length = n.keys.length ∧
      (∀ c ∈ rest, KeyUtil.NearestStride F stride c.key = .ok (dist c.key, slot c.key)) ∧
      ∀ i kv, n1.keys.get? i = some kv →
        (kv.key = 0 ∧ ∀ c ∈ pre ++ rest, slot c.key ≠ i) ∨
        (kv ∈ pre ++ rest ∧ slot kv.key = i ∧
          ∀ c ∈ pre ++ rest, slot c.key = i → dist kv.key ≤ dist c.key) := by
  intro rest
  induction rest with
  | nil =>
    intro pre n index best n1 _ _ _ hS1 _ _ hrun
    simp only [Delta.strideLoop] at hrun
    injection hrun with hrun
    subst hrun
    refine ⟨rfl, fun c hc => absurd hc (List.not_mem_nil _), ?_⟩
    intro i kv hget
    rcases hS1 i kv hget with h | h
    · left; simpa using h
    · right; simpa using h
  | cons c rest ih =>
    intro pre n index best n1 hF hsorted hin hS1 hS2 hS3 hrun
    have hc : F < c.key := hin c (by simp)
    have hpc : ∀ p ∈ pre, p.key < c.key := by
      intro p hp
      exact (List.pairwise_append.mp hsorted).2.2 p hp c (List.mem_cons_self _ _)
    have hsorted2 : ((pre ++ [c]) ++ rest).Pairwise (fun a c => a.key < c.key) := by
      simpa using hsorted
    have hin2 : ∀ kv ∈ (pre ++ [c]) ++ rest, F < kv.key := by
      simpa using hin
    have hS2c : ∀ p ∈ pre ++ [c], slot p.key ≤ slot c.key := by
      intro p hp
      rcases List.mem_append.mp hp with hp | hp
      · exact hmono _ _ (hin p (List.mem_append_left _ hp)) (hpc p hp)
      · simp only [List.mem_singleton] at hp
        rw [hp]
    unfold Delta.strideLoop at hrun
    rw [hF] at hrun
    rcases hN c.key hc with hns | hns
    swap
    · rw [hns] at hrun
      exact absurd hrun (by simp [bind, Except.bind])
    rw [hns] at hrun
    simp only [bind, Except.bind] at hrun
    by_cases hplace : (slot c.key = index ∧ dist c.key < best) ∨ slot c.key ≠ index
    · rw [if_pos hplace] at hrun
      unfold Node.SetKeyValue at hrun
      by_cases hlen : slot c.key < n.keys.length
      swap
      · rw [if_neg hlen] at hrun
        exact absurd hrun (by simp)
      rw [if_pos hlen] at hrun
      simp only at hrun
      have hmin : ∀ p ∈ pre, slot p.key = slot c.key → dist c.key ≤ dist p.key := by
        intro p hp hps
        rcases hplace with ⟨hi, hb⟩ | hne
        · rcases hS3 with ⟨hnil, _, _⟩ | ⟨kv0, hk0, hk0m, hk0s, hk0d⟩
          · rw [hnil] at hp
            exact absurd hp (List.not_mem_nil _)
          · rcases hS1 index kv0 hk0 with ⟨_, hz⟩ | ⟨_, _, hm⟩
            · exact absurd hk0s (hz kv0 hk0m)
            · have := hm p hp (by rw [hps, hi])
              omega
        · rcases hS3 with ⟨hnil, _, _⟩ | ⟨kv0, _, hk0m, hk0s, _⟩
          · rw [hnil] at hp
            exact absurd hp (List.not_mem_nil _)
          · have h1 := hS2 p hp
            have h2 := hmono _ _ (hin kv0 (List.mem_append_left _ hk0m)) (hpc kv0 hk0m)
            omega
      have hS1n : ∀ i kv, ({ n with keys := n.keys.set (slot c.key) c } : Node).keys.get? i = some kv →
          (kv.key = 0 ∧ ∀ p ∈ pre ++ [c], slot p.key ≠ i) ∨
          (kv ∈ pre ++ [c] ∧ slot kv.key = i ∧
            ∀ p ∈ pre ++ [c], slot p.key = i → dist kv.key ≤ dist p.key) := by
        intro i kv hget
        simp only at hget
        by_cases hi : i = slot c.key
        · subst hi
          rw [List.get?_eq_getElem?, List.getElem?_set_self hlen] at hget
          injection hget with hget
          subst hget
          right
          refine ⟨by simp, rfl, ?_⟩
          intro p hp hps
          rcases List.mem_append.mp hp with hp | hp
          · exact hmin p hp hps
          · simp only [List.mem_singleton] at hp
            rw [hp]
        · rw [List.get?_eq_getElem?, List.getElem?_set_ne (fun h => hi h.symm),
            ← List.get?_eq_getElem?] at hget
          rcases hS1 i kv hget with ⟨hz, hno⟩ | ⟨hm, hs, hmn⟩
          · left
            refine ⟨hz, ?_⟩
            intro p hp
            rcases List.mem_append.mp hp with hp | hp
            · exact hno p hp
            · simp only [List.mem_singleton] at hp
              rw [hp]
              exact fun h => hi h.symm
          · right
            refine ⟨List.mem_append_left _ hm, hs, ?_⟩
            intro p hp hps
            rcases List.mem_append.mp hp with hp | hp
            · exact hmn p hp hps
            · simp only [List.mem_singleton] at hp
              rw [hp] at hps
              exact absurd hps.symm hi
      have hS3n : (pre ++ [c] = [] ∧ slot c.key = 0 ∧ stride ≤ dist c.key) ∨
          (∃ kv, ({ n with keys := n.keys.set (slot c.key) c } : Node).keys.get? (slot c.key)
              = some kv ∧ kv ∈ pre ++ [c] ∧ slot kv.key = slot c.key ∧
            dist kv.key = dist c.key) := by
        right
        refine ⟨c, ?_, by simp, rfl, rfl⟩
        simp only
        rw [List.get?_eq_getElem?, List.getElem?_set_self hlen]
      obtain ⟨hl1, hr1, hfin⟩ := ih (pre ++ [c]) { n with keys := n.keys.set (slot c.key) c }
        (slot c.key) (dist c.key) n1 hF hsorted2 hin2 hS1n hS2c hS3n hrun
      refine ⟨by rw [hl1]; simp, ?_, ?_⟩
      · intro x hx
        rcases List.mem_cons.mp hx with hx | hx
        · rw [hx]; exact hns
        · exact hr1 x hx
      · simpa using hfin
    · rw [if_neg hplace] at hrun
      have hsi : slot c.key = index := by
        by_contra h
        exact hplace (Or.inr h)
      have hnb : ¬ dist c.key < best := fun h => hplace (Or.inl ⟨hsi, h⟩)
      obtain ⟨kv0, hk0, hk0m, hk0s, hk0d⟩ : ∃ kv, n.keys.get? index = some kv ∧ kv ∈ pre ∧
          slot kv.key = index ∧ dist kv.key = best := by
        rcases hS3 with ⟨_, _, hb⟩ | h
        · have := hlt c.key hc
          omega
        · exact h
      have hS1n : ∀ i kv, n.keys.get? i = some kv →
          (kv.key = 0 ∧ ∀ p ∈ pre ++ [c], slot p.key ≠ i) ∨
          (kv ∈ pre ++ [c] ∧ slot kv.key = i ∧
            ∀ p ∈ pre ++ [c], slot p.key = i → dist kv.key ≤ dist p.key) := by
        intro i kv hget
        rcases hS1 i kv hget with ⟨hz, hno⟩ | ⟨hm, hs, hmn⟩
        · left
          refine ⟨hz, ?_⟩
          intro p hp
          rcases List.mem_append.mp hp with hp | hp
          · exact hno p hp
          · simp only [List.mem_singleton] at hp
            rw [hp, hsi]
            intro hii
            subst hii
            rw [hk0] at hget
            injection hget with hget
            rw [← hget] at hz
            have := hin kv0 (List.mem_append_left _ hk0m)
            omega
        · right
          refine ⟨List.mem_append_left _ hm, hs, ?_⟩
          intro p hp hps
          rcases List.mem_append.mp hp with hp | hp
          · exact hmn p hp hps
          · simp only [List.mem_singleton] at hp
            rw [hp] at hps ⊢
            have hii : i = index := by rw [← hps, hsi]
            subst hii
            rw [hk0] at hget
            injection hget with hget
            rw [← hget]
            omega
      have hS3n : (pre ++ [c] = [] ∧ slot c.key = 0 ∧ stride ≤ best) ∨
          (∃ kv, n.keys.get? (slot c.key) = some kv ∧ kv ∈ pre ++ [c] ∧
            slot kv.key = slot c.key ∧ dist kv.key = best) :=
        Or.inr ⟨kv0, by rw [hsi]; exact hk0, List.mem_append_left _ hk0m,
          by rw [hsi]; exact hk0s, hk0d⟩
      obtain ⟨hl1, hr1, hfin⟩ := ih (pre ++ [c]) n (slot c.key) best n1 hF hsorted2 hin2 hS1n
        hS2c hS3n hrun
      refine ⟨hl1, ?_, ?_⟩
      · intro x hx
        rcases List.mem_cons.mp hx with hx | hx
        · rw [hx]; exact hns
        · exact hr1 x hx
      · simpa using hfin

/-- The slots after the loop of the overflow branch: a slot is still empty and
`NearestStride` sends no key of the combined set to it, or it holds the key of the set that
is nearest among those that `NearestStride` sends to it. -/
theorem strideLoop_slots (stride best : Nat)
    (combined : List KeyValue) (n n1 : Node) (hs : 0 < stride) (hbest : stride ≤ best)
    (hsorted : combined.Pairwise (fun a c => a.key < c.key))
    (hin : ∀ kv ∈ combined, n.first < kv.key)
    (hclear : ∀ kv ∈ n.keys, kv.key = 0)
    (hrun : Delta.strideLoop stride combined n 0 best = .ok n1) :
    n1.keys.length = n.keys.length ∧
    ∀ i kv, n1.keys.get? i = some kv →
      (kv.key = 0 ∧
        ∀ c ∈ combined, ∀ d, KeyUtil.NearestStride n.first stride c.key ≠ .ok (d, i)) ∨
      (kv ∈ combined ∧ ∃ d, KeyUtil.NearestStride n.first stride kv.key = .ok (d, i) ∧
        (∀ c ∈ combined, ∀ d2,
          KeyUtil.NearestStride n.first stride c.key = .ok (d2, i) → d ≤ d2) ∧
        (i = 0 → KeyUtil.Distance kv.key (n.first + stride) = .ok d) ∧
        (0 < i → n.first + (i + 1) * stride ≤ kv.key ∧ kv.key < n.first + (i + 2) * stride ∧
          d = kv.key - (n.first + (i + 1) * stride))) := by
  have hN : ∀ v, n.first < v →
      KeyUtil.NearestStride n.first stride v
        = .ok ((fun v => if (v - n.first) / stride = 0 then stride - (v - n.first) % stride
                else (v - n.first) % stride) v, (fun v => (v - n.first) / stride - 1) v) ∨
      KeyUtil.NearestStride n.first stride v = .error .overflow_error :=
    fun v hv => NearestStride_cases n.first stride v (by omega) hs
  have hmono : ∀ a c, n.first < a → a < c →
      (fun v => (v - n.first) / stride - 1) a ≤ (fun v => (v - n.first) / stride - 1) c := by
    intro a c _ hac
    have : (a - n.first) / stride ≤ (c - n.first) / stride :=
      Nat.div_le_div_right (by omega)
    simp only
    omega
  have hlt : ∀ v, n.first < v →
      (fun v => if (v - n.first) / stride = 0 then stride - (v - n.first) % stride
        else (v - n.first) % stride) v < stride := by
    intro v hv
    simp only
    split
    · rename_i hq
      have h1 : v - n.first < stride := by
        by_contra hge
        have : 1 ≤ (v - n.first) / stride := (Nat.one_le_div_iff hs).mpr (by omega)
        omega
      have h2 : (v - n.first) % stride = v - n.first := Nat.mod_eq_of_lt h1
      omega
    · exact Nat.mod_lt _ hs
  obtain ⟨hlen, hall, hfin⟩ := strideLoop_inv n.first stride _ _ hN hmono hlt combined [] n 0
    best n1 rfl (by simpa using hsorted) (by simpa using hin)
    (fun i kv hget => Or.inl ⟨hclear kv (List.get?_mem hget),
      fun c hc => absurd hc (List.not_mem_nil _)⟩)
    (fun c hc => absurd hc (List.not_mem_nil _)) (Or.inl ⟨rfl, rfl, hbest⟩) hrun
  simp only [List.nil_append] at hfin
  refine ⟨hlen, ?_⟩
  intro i kv hget
  rcases hfin i kv hget with ⟨hz, hno⟩ | ⟨hm, hsl, hmin⟩
  · left
    refine ⟨hz, ?_⟩
    intro c hc d heq
    rw [hall c hc] at heq
    injection heq with heq
    injection heq with _ h2
    exact hno c hc h2
  · right
    have hsl2 : (kv.key - n.first) / stride - 1 = i := hsl
    refine ⟨hm, _, hall kv hm |>.trans (by rw [hsl]), ?_, ?_, ?_⟩
    · intro c hc d2 heq
      rw [hall c hc] at heq
      injection heq with heq
      injection heq with h1 h2
      rw [← h1]
      exact hmin c hc h2
    · intro hi0
      have hkv := hin kv hm
      have hdm := Nat.div_add_mod (kv.key - n.first) stride
      have hml := Nat.mod_lt (kv.key - n.first) hs
      unfold KeyUtil.Distance KeyUtil.sub
      by_cases hq : (kv.key - n.first) / stride = 0
      · rw [hq] at hdm
        simp only [hq, if_true]
        have hk : ¬ kv.key > n.first + stride := by omega
        rw [if_neg hk, if_pos (by omega)]
        congr 1
        omega
      · have hqp := Nat.pos_of_ne_zero hq
        have hq1 : (kv.key - n.first) / stride = 1 := by omega
        rw [hq1] at hdm
        simp only [hq1, one_ne_zero, if_false]
        by_cases hk : kv.key > n.first + stride
        · rw [if_pos hk, if_pos (by omega)]
          congr 1
          omega
        · rw [if_neg hk, if_pos (by omega)]
          congr 1
          omega
    · intro hi
      have hkv := hin kv hm
      have hdm := Nat.div_add_mod (kv.key - n.first) stride
      have hml := Nat.mod_lt (kv.key - n.first) hs
      have hq : (kv.key - n.first) / stride = i + 1 := by
        omega
      rw [hq] at hdm
      have e1 : (i + 2) * stride = stride * (i + 1) + stride := by ring
      have e2 : (i + 1) * stride = stride * (i + 1) := by ring
      simp only [hq, Nat.succ_ne_zero, if_false]
      rw [e1, e2]
      omega

theorem addSyntheticLoop_keeps (b : Build) (stride : Nat) :
    ∀ (ks : List KeyValue) (cursor count : Nat) (out : List KeyValue) (c : Nat),
      Node.addSyntheticLoop b stride ks cursor count = .ok (out, c) →
      ∀ i kv, out.get? i = some kv → kv.IsSynthetic = false →
        ks.get? i = some kv ∧ kv.key ≠ 0 := by
  intro ks
  induction ks with
  | nil =>
    intro cursor count out c h i kv hget _
    simp only [Node.addSyntheticLoop] at h
    injection h with h
    injection h with h1 _
    rw [← h1] at hget
    simp at hget
  | cons k rest ih =>
    intro cursor count out c h i kv hget hsyn
    unfold Node.addSyntheticLoop at h
    simp only [bind, Except.bind] at h
    cases hadd : KeyUtil.add b cursor stride with
    | error e => rw [hadd] at h; exact absurd h (by simp)
    | ok cursor1 =>
      rw [hadd] at h
      simp only at h
      cases hrest : Node.addSyntheticLoop b stride rest cursor1
          (if k.IsZero = true then count + 1 else count) with
      | error e => rw [hrest] at h; exact absurd h (by simp)
      | ok res =>
        obtain ⟨rest1, c1⟩ := res
        rw [hrest] at h
        simp only [pure, Except.pure] at h
        injection h with h
        injection h with h1 _
        rw [← h1] at hget
        cases i with
        | zero =>
          simp only [List.get?_cons_zero, Option.some.injEq] at hget
          by_cases hz : k.IsZero = true
          · rw [if_pos hz] at hget
            rw [← hget] at hsyn
            simp [KeyValue.IsSynthetic] at hsyn
          · rw [if_neg hz] at hget
            subst hget
            refine ⟨rfl, ?_⟩
            intro h0
            apply hz
            simp [KeyValue.IsZero, h0]
        | succ j =>
          simp only [List.get?_cons_succ] at hget ⊢
          exact ih _ _ _ _ hrest j kv hget hsyn

theorem assignLoop_keys (b : Build) (candidates : List KeyValue) :
    ∀ (ks : List KeyValue) (buf : Buffer) (offset ins : Nat) (existing out : List KeyValue)
      (r : Buffer × Nat × Nat × List KeyValue),
      Delta.assignLoop b candidates ks buf offset ins existing = .ok (out, r) →
      ∀ i kv, out.get? i = some kv → kv.IsSynthetic = false →
        ∃ kv0, ks.get? i = some kv0 ∧ kv0.key = kv.key ∧ kv0.IsSynthetic = false := by
  intro ks
  induction ks with
  | nil =>
    intro buf offset ins existing out r h i kv hget _
    simp only [Delta.assignLoop] at h
    injection h with h
    injection h with h1 _
    rw [← h1] at hget
    simp at hget
  | cons k rest ih =>
    intro buf offset ins existing out r h i kv hget hsyn
    unfold Delta.assignLoop at h
    by_cases hks : k.IsSynthetic = true
    · rw [if_pos hks] at h
      simp only [bind, Except.bind] at h
      cases hrest : Delta.assignLoop b candidates rest buf offset ins existing with
      | error e => rw [hrest] at h; exact absurd h (by simp)
      | ok res =>
        obtain ⟨rest1, r1⟩ := res
        rw [hrest] at h
        simp only [pure, Except.pure] at h
        injection h with h
        injection h with h1 _
        rw [← h1] at hget
        cases i with
        | zero =>
          simp only [List.get?_cons_zero, Option.some.injEq] at hget
          rw [← hget, hks] at hsyn
          exact absurd hsyn (by simp)
        | succ j =>
          simp only [List.get?_cons_succ] at hget ⊢
          exact ih _ _ _ _ _ _ hrest j kv hget hsyn
    · rw [if_neg hks] at h
      simp only [bind, Except.bind] at h
      by_cases hcand : setCount k candidates > 0
      · rw [if_pos hcand] at h
        cases hso : buf.SetOffset b k.key offset with
        | error e => rw [hso] at h; exact absurd h (by simp)
        | ok buf1 =>
          rw [hso] at h
          simp only [pure, Except.pure] at h
          cases hrest : Delta.assignLoop b candidates rest buf1
              ((offset + ({ k with offset := offset } : KeyValue).length) % 2 ^ 64) (ins + 1)
              (setErase { k with offset := offset } existing) with
          | error e => rw [hrest] at h; exact absurd h (by simp)
          | ok res =>
            obtain ⟨rest1, r1⟩ := res
            rw [hrest] at h
            simp only at h
            injection h with h
            injection h with h1 _
            rw [← h1] at hget
            cases i with
            | zero =>
              simp only [List.get?_cons_zero, Option.some.injEq] at hget
              refine ⟨k, rfl, by rw [← hget], by simpa using hks⟩
            | succ j =>
              simp only [List.get?_cons_succ] at hget ⊢
              exact ih _ _ _ _ _ _ hrest j kv hget hsyn
      · rw [if_neg hcand] at h
        simp only [pure, Except.pure] at h
        cases hrest : Delta.assignLoop b candidates rest buf offset ins (setErase k existing) with
        | error e => rw [hrest] at h; exact absurd h (by simp)
        | ok res =>
          obtain ⟨rest1, r1⟩ := res
          rw [hrest] at h
          simp only at h
          injection h with h
          injection h with h1 _
          rw [← h1] at hget
          cases i with
          | zero =>
            simp only [List.get?_cons_zero, Option.some.injEq] at hget
            refine ⟨k, rfl, by rw [← hget], by simpa using hks⟩
          | succ j =>
            simp only [List.get?_cons_succ] at hget ⊢
            exact ih _ _ _ _ _ _ hrest j kv hget hsyn

/-- C29 (amended). In the overflow branch of `AddKeys` the placement loop runs over the
combined set (ascending, every key above `first`) on the cleared node, with a stride that
is not zero and an initial `best` of at least the stride; then `AddSyntheticKeyValues` and
the loop that assigns offsets run. If all three return, every slot `i` that ends up with a
key that is not synthetic holds a key of the combined set that `NearestStride` sends to
`i`, and no key that `NearestStride` sends to `i` has a smaller distance. For slot 0 that
distance is the absolute distance to `first + stride`. For a slot `i > 0` the keys sent to
`i` are those in `[first + (i+1) * stride, first + (i+2) * stride)` and the distance is the
distance above `first + (i+1) * stride`: a key below the ideal position of the slot is
never measured against it. -/
theorem overflow_slot_holds_nearest_of_its_stride (b : Build) (stride best : Nat)
    (combined candidates existing : List KeyValue) (n n1 n2 : Node) (count : Nat)
    (buffer : Buffer) (offset ins : Nat) (ks : List KeyValue)
    (r : Buffer × Nat × Nat × List KeyValue) (hs : 0 < stride) (hbest : stride ≤ best)
    (hsorted : combined.Pairwise (fun a c => a.key < c.key))
    (hin : ∀ kv ∈ combined, n.first < kv.key)
    (hclear : ∀ kv ∈ n.keys, kv.key = 0)
    (hrun : Delta.strideLoop stride combined n 0 best = .ok n1)
    (hsyn : n1.AddSyntheticKeyValues b = .ok (n2, count))
    (hassign : Delta.assignLoop b candidates n2.keys buffer offset ins existing = .ok (ks, r)) :
    ∀ i kv, ks.get? i = some kv → kv.IsSynthetic = false →
      (∃ kv0 ∈ combined, kv0.key = kv.key) ∧
      ∃ d, KeyUtil.NearestStride n.first stride kv.key = .ok (d, i) ∧
        (∀ c ∈ combined, ∀ d2,
          KeyUtil.NearestStride n.first stride c.key = .ok (d2, i) → d ≤ d2) ∧
        (i = 0 → KeyUtil.Distance kv.key (n.first + stride) = .ok d) ∧
        (0 < i → n.first + (i + 1) * stride ≤ kv.key ∧ kv.key < n.first + (i + 2) * stride ∧
          d = kv.key - (n.first + (i + 1) * stride)) := by
  intro i kv hget hns
  obtain ⟨kv2, hget2, hkey2, hns2⟩ := assignLoop_keys b candidates _ _ _ _ _ _ _ hassign i kv
    hget hns
  have hget1 : n1.keys.get? i = some kv2 ∧ kv2.key ≠ 0 := by
    unfold Node.AddSyntheticKeyValues at hsyn
    simp only [bind, Except.bind] at hsyn
    cases h1 : n1.Stride with
    | error e => rw [h1] at hsyn; exact absurd hsyn (by simp)
    | ok st =>
      rw [h1] at hsyn
      simp only at hsyn
      cases h2 : KeyUtil.add b n1.first st with
      | error e => rw [h2] at hsyn; exact absurd hsyn (by simp)
      | ok cursor =>
        rw [h2] at hsyn
        simp only at hsyn
        cases h3 : Node.addSyntheticLoop b st n1.keys cursor 0 with
        | error e => rw [h3] at hsyn; exact absurd hsyn (by simp)
        | ok res =>
          obtain ⟨out, c⟩ := res
          rw [h3] at hsyn
          simp only [pure, Except.pure] at hsyn
          injection hsyn with hsyn
          injection hsyn with hn2 _
          rw [← hn2] at hget2
          exact addSyntheticLoop_keeps b st _ _ _ _ _ h3 i kv2 hget2 hns2
  rcases (strideLoop_slots stride best combined n n1 hs hbest hsorted hin hclear hrun).2 i kv2
    hget1.1 with ⟨hz, _⟩ | ⟨hm, d, hd1, hd2, hd3, hd4⟩
  · exact absurd hz hget1.2
  · rw [hkey2] at hd1 hd3 hd4
    exact ⟨⟨kv2, hm, hkey2⟩, d, hd1, hd2, hd3, hd4⟩

set_option maxRecDepth 100000 in
theorem overflow_slot_holds_nearest_of_its_stride_witness :
    (Delta.strideLoop 100 [⟨150, 0, 37⟩, ⟨299, 0, 37⟩, ⟨350, 0, 37⟩, ⟨450, 0, 37⟩]
        ⟨0, 0, 4, 100, 500, [0, 0, 0, 0], [⟨0, 0, 0⟩, ⟨0, 0, 0⟩, ⟨0, 0, 0⟩]⟩ 0
        (KeyUtil.Max Scenario.build)
      = .ok ⟨0, 0, 4, 100, 500, [0, 0, 0, 0], [⟨150, 0, 37⟩, ⟨350, 0, 37⟩, ⟨450, 0, 37⟩]⟩ ∧
    Node.AddSyntheticKeyValues Scenario.build
        ⟨0, 0, 4, 100, 500, [0, 0, 0, 0], [⟨150, 0, 37⟩, ⟨350, 0, 37⟩, ⟨450, 0, 37⟩]⟩
      = .ok (⟨0, 0, 4, 100, 500, [0, 0, 0, 0], [⟨150, 0, 37⟩, ⟨350, 0, 37⟩, ⟨450, 0, 37⟩]⟩, 0) ∧
    Delta.assignLoop Scenario.build [⟨150, 0, 37⟩, ⟨299, 0, 37⟩, ⟨350, 0, 37⟩, ⟨450, 0, 37⟩]
        [⟨150, 0, 37⟩, ⟨350, 0, 37⟩, ⟨450, 0, 37⟩]
        ⟨[(150, ⟨0, 37, [97], .Unprocessed⟩), (299, ⟨0, 37, [98], .Unprocessed⟩),
          (350, ⟨0, 37, [99], .Unprocessed⟩), (450, ⟨0, 37, [100], .Unprocessed⟩)]⟩ 0 0 []
      = .ok ([⟨150, 0, 37⟩, ⟨350, 37, 37⟩, ⟨450, 74, 37⟩],
        ⟨[(150, ⟨0, 37, [97], .NeedsCommitting⟩), (299, ⟨0, 37, [98], .Unprocessed⟩),
          (350, ⟨37, 37, [99], .NeedsCommitting⟩), (450, ⟨74, 37, [100], .NeedsCommitting⟩)]⟩, 111, 3, [])) ∧
    ∀ i kv, ([⟨150, 0, 37⟩, ⟨350, 37, 37⟩, ⟨450, 74, 37⟩] : List KeyValue).get? i = some kv →
      kv.IsSynthetic = false →
      (∃ kv0 ∈ ([⟨150, 0, 37⟩, ⟨299, 0, 37⟩, ⟨350, 0, 37⟩, ⟨450, 0, 37⟩] : List KeyValue),
        kv0.key = kv.key) ∧
      ∃ d, KeyUtil.NearestStride 100 100 kv.key = .ok (d, i) ∧
        (∀ c ∈ ([⟨150, 0, 37⟩, ⟨299, 0, 37⟩, ⟨350, 0, 37⟩, ⟨450, 0, 37⟩] : List KeyValue),
          ∀ d2, KeyUtil.NearestStride 100 100 c.key = .ok (d2, i) → d ≤ d2) ∧
        (i = 0 → KeyUtil.Distance kv.key (100 + 100) = .ok d) ∧
        (0 < i → 100 + (i + 1) * 100 ≤ kv.key ∧ kv.key < 100 + (i + 2) * 100 ∧
          d = kv.key - (100 + (i + 1) * 100)) :=
  have h1 : Delta.strideLoop 100 [⟨150, 0, 37⟩, ⟨299, 0, 37⟩, ⟨350, 0, 37⟩, ⟨450, 0, 37⟩]
      ⟨0, 0, 4, 100, 500, [0, 0, 0, 0], [⟨0, 0, 0⟩, ⟨0, 0, 0⟩, ⟨0, 0, 0⟩]⟩ 0
      (KeyUtil.Max Scenario.build)
    = .ok ⟨0, 0, 4, 100, 500, [0, 0, 0, 0], [⟨150, 0, 37⟩, ⟨350, 0, 37⟩, ⟨450, 0, 37⟩]⟩ := by
    rfl
  have h2 : Node.AddSyntheticKeyValues Scenario.build
      ⟨0, 0, 4, 100, 500, [0, 0, 0, 0], [⟨150, 0, 37⟩, ⟨350, 0, 37⟩, ⟨450, 0, 37⟩]⟩
    = .ok (⟨0, 0, 4, 100, 500, [0, 0, 0, 0], [⟨150, 0, 37⟩, ⟨350, 0, 37⟩, ⟨450, 0, 37⟩]⟩, 0) := by
    rfl
  have h3 : Delta.assignLoop Scenario.build [⟨150, 0, 37⟩, ⟨299, 0, 37⟩, ⟨350, 0, 37⟩, ⟨450, 0, 37⟩]
      (⟨0, 0, 4, 100, 500, [0, 0, 0, 0], [⟨150, 0, 37⟩, ⟨350, 0, 37⟩, ⟨450, 0, 37⟩]⟩ : Node).keys
      ⟨[(150, ⟨0, 37, [97], .Unprocessed⟩), (299, ⟨0, 37, [98], .Unprocessed⟩),
          (350, ⟨0, 37, [99], .Unprocessed⟩), (450, ⟨0, 37, [100], .Unprocessed⟩)]⟩ 0 0 []
    = .ok ([⟨150, 0, 37⟩, ⟨350, 37, 37⟩, ⟨450, 74, 37⟩],
      ⟨[(150, ⟨0, 37, [97], .NeedsCommitting⟩), (299, ⟨0, 37, [98], .Unprocessed⟩),
          (350, ⟨37, 37, [99], .NeedsCommitting⟩), (450, ⟨74, 37, [100], .NeedsCommitting⟩)]⟩, 111, 3, []) := by
    rfl
  ⟨⟨h1, h2, h3⟩, overflow_slot_holds_nearest_of_its_stride Scenario.build 100
    (KeyUtil.Max Scenario.build) _ _ [] ⟨0, 0, 4, 100, 500, [0, 0, 0, 0], [⟨0, 0, 0⟩, ⟨0, 0, 0⟩, ⟨0, 0, 0⟩]⟩
    _ _ 0 _ 0 0 _ _ (by decide) (by decide) (by decide) (by decide) (by decide) h1 h2 h3⟩

/-! ## The index and the residual of `KeyUtil::NearestStride` -/

/-- C31 (amended). For `start ≤ value`, a stride that is not zero and a quotient
`q = (value - start) / stride` that fits 32 bits, with `r = (value - start) % stride`:
`NearestStride` returns the index `q - 1` and the residual `r` when `q ≥ 1`, the index `0`
and the residual `stride - r` when `q = 0`; in both cases the residual is the distance
between `value` and `start + (index + 1) * stride`. -/
theorem NearestStride_returns_index_and_residual (start stride value : Nat)
    (hv : start ≤ value) (hs : 0 < stride) (hq : (value - start) / stride < 2 ^ 32) :
    ∃ index residual, KeyUtil.NearestStride start stride value = .ok (residual, index) ∧
      (1 ≤ (value - start) / stride →
        index = (value - start) / stride - 1 ∧ residual = (value - start) % stride) ∧
      ((value - start) / stride = 0 →
        index = 0 ∧ residual = stride - (value - start) % stride) ∧
      residual = Nat.dist value (start + (index + 1) * stride) := by
  refine ⟨_, _, NearestStride_eq start stride value hv hs hq, ?_, ?_, ?_⟩
  · intro h1
    rw [if_neg (Nat.pos_iff_ne_zero.mp h1)]
    exact ⟨rfl, rfl⟩
  · intro h0
    rw [if_pos h0, h0]
    exact ⟨rfl, rfl⟩
  · have hdm := Nat.div_add_mod (value - start) stride
    have hml := Nat.mod_lt (value - start) hs
    by_cases h0 : (value - start) / stride = 0
    · rw [if_pos h0, h0]
      rw [h0] at hdm
      simp only [Nat.mul_zero, Nat.zero_add] at hdm
      simp only [Nat.dist, Nat.zero_sub, Nat.zero_add, Nat.one_mul]
      omega
    · rw [if_neg h0]
      have e : (value - start) / stride - 1 + 1 = (value - start) / stride :=
        Nat.sub_add_cancel (Nat.pos_of_ne_zero h0)
      rw [e]
      have hmul : ((value - start) / stride) * stride = stride * ((value - start) / stride) :=
        Nat.mul_comm _ _
      simp only [Nat.dist]
      rw [hmul]
      omega

theorem NearestStride_returns_index_and_residual_witness :
    ∃ index residual, KeyUtil.NearestStride 0 ((2 ^ 256 - 1) / 15) 2 = .ok (residual, index) ∧
      (1 ≤ (2 - 0) / ((2 ^ 256 - 1) / 15) →
        index = (2 - 0) / ((2 ^ 256 - 1) / 15) - 1 ∧ residual = (2 - 0) % ((2 ^ 256 - 1) / 15)) ∧
      ((2 - 0) / ((2 ^ 256 - 1) / 15) = 0 →
        index = 0 ∧ residual = (2 ^ 256 - 1) / 15 - (2 - 0) % ((2 ^ 256 - 1) / 15)) ∧
      residual = Nat.dist 2 (0 + (index + 1) * ((2 ^ 256 - 1) / 15)) :=
  NearestStride_returns_index_and_residual 0 ((2 ^ 256 - 1) / 15) 2 (by norm_num) (by norm_num)
    (by norm_num)

/-- C31 (counterexample). With start 0, stride 1 and value `2^32` the quotient is `2^32`:
it does not fit the `std::uint32_t` index, the checked conversion throws
`std::overflow_error` and nothing is returned. -/
theorem NearestStride_throws_on_wide_quotient :
    KeyUtil.NearestStride 0 1 (2 ^ 32) = .error .overflow_error ∧
    (2 ^ 32 - 0) / 1 - 1 = 2 ^ 32 - 1 := by
  constructor
  · decide
  · norm_num

/-! ## `Node::IsSane` -/

theorem isSorted_iff (l : List KeyValue) :
    Node.isSorted l = true ↔ l.Pairwise (fun a c => a.key ≤ c.key) := by
  have hchain : Node.isSorted l = true ↔ l.Chain' (fun a c => a.key ≤ c.key) := by
    induction l with
    | nil => simp [Node.isSorted]
    | cons a t ih =>
      cases t with
      | nil => simp [Node.isSorted]
      | cons c rest =>
        simp only [Node.isSorted, Bool.and_eq_true, List.chain'_cons, ih, KeyValue.lt,
          Bool.not_eq_true', decide_eq_false_iff_not, Nat.not_lt]
  rw [hchain]
  haveI : IsTrans KeyValue (fun a c => a.key ≤ c.key) := ⟨fun _ _ _ h1 h2 => Nat.le_trans h1 h2⟩
  exact List.chain'_iff_pairwise

/-- What one round of the loop of `IsSane` tests at slot `i`. -/
theorem isSaneLoop_iff (n : Node) (l : List Nat)
    (hl : ∀ i ∈ l, 1 ≤ i ∧ i < n.keys.length) :
    ∃ r, n.isSaneLoop l = .ok r ∧
      (r = true ↔ ∀ i ∈ l, (n.keys.getD i KeyValue.zero).key ≠ 0 →
        (n.keys.getD i KeyValue.zero).key ≠ (n.keys.getD (i - 1) KeyValue.zero).key ∧
        n.first < (n.keys.getD i KeyValue.zero).key ∧
        (n.keys.getD i KeyValue.zero).key < n.last) := by
  induction l with
  | nil => exact ⟨true, rfl, by simp⟩
  | cons i rest ih =>
    obtain ⟨h1, h2⟩ := hl i (List.mem_cons_self _ _)
    obtain ⟨r, hr, hiff⟩ := ih (fun j hj => hl j (List.mem_cons_of_mem _ hj))
    unfold Node.isSaneLoop
    simp only [keysAt_eq n i h2, keysAt_eq n (i - 1) (by omega), bind, Except.bind, pure,
      Except.pure]
    by_cases hz : (n.keys.getD i KeyValue.zero).key = 0
    · have hZ : (n.keys.getD i KeyValue.zero).IsZero = true := by
        unfold KeyValue.IsZero; rw [hz]; rfl
      simp only [hZ, Bool.not_true, Bool.false_eq_true, if_false, Bool.false_and]
      refine ⟨r, hr, ?_⟩
      rw [hiff]
      constructor
      · intro h j hj
        rcases List.mem_cons.mp hj with e | e
        · subst e; intro hne; exact absurd hz hne
        · exact h j e
      · intro h j hj
        exact h j (List.mem_cons_of_mem _ hj)
    · have hZ : (n.keys.getD i KeyValue.zero).IsZero = false := by
        unfold KeyValue.IsZero; exact beq_false_of_ne hz
      simp only [hZ, Bool.not_false, if_true, Bool.true_and]
      by_cases hd : (n.keys.getD i KeyValue.zero).key = (n.keys.getD (i - 1) KeyValue.zero).key
      · have hE : KeyValue.eq (n.keys.getD i KeyValue.zero) (n.keys.getD (i - 1) KeyValue.zero)
            = true := by unfold KeyValue.eq; rw [hd]; exact beq_self_eq_true _
        simp only [hE, if_true]
        refine ⟨false, rfl, ?_⟩
        simp only [Bool.false_eq_true, false_iff]
        intro h
        exact (h i (List.mem_cons_self _ _) hz).1 hd
      · have hE : KeyValue.eq (n.keys.getD i KeyValue.zero) (n.keys.getD (i - 1) KeyValue.zero)
            = false := by unfold KeyValue.eq; exact beq_false_of_ne hd
        simp only [hE, Bool.false_eq_true, if_false]
        by_cases hb : n.first < (n.keys.getD i KeyValue.zero).key ∧
            (n.keys.getD i KeyValue.zero).key < n.last
        · have hB : (decide ((n.keys.getD i KeyValue.zero).key ≤ n.first) ||
              decide ((n.keys.getD i KeyValue.zero).key ≥ n.last)) = false := by
            simp only [Bool.or_eq_false_iff, decide_eq_false_iff_not, ge_iff_le]
            omega
          simp only [hB, Bool.false_eq_true, if_false]
          refine ⟨r, hr, ?_⟩
          rw [hiff]
          constructor
          · intro h j hj
            rcases List.mem_cons.mp hj with e | e
            · subst e; intro _; exact ⟨hd, hb⟩
            · exact h j e
          · intro h j hj
            exact h j (List.mem_cons_of_mem _ hj)
        · have hB : (decide ((n.keys.getD i KeyValue.zero).key ≤ n.first) ||
              decide ((n.keys.getD i KeyValue.zero).key ≥ n.last)) = true := by
            simp only [Bool.or_eq_true, decide_eq_true_eq, ge_iff_le]
            omega
          simp only [hB, if_true]
          refine ⟨false, rfl, ?_⟩
          simp only [Bool.false_eq_true, false_iff]
          intro h
          exact hb (h i (List.mem_cons_self _ _) hz).2

theorem mem_range_drop_one (m i : Nat) : i ∈ (List.range m).drop 1 ↔ 1 ≤ i ∧ i < m := by
  cases m with
  | zero => simp
  | succ k =>
    rw [List.range_succ_eq_map, List.drop_one, List.tail_cons, List.mem_map]
    constructor
    · rintro ⟨a, ha, rfl⟩
      exact ⟨by omega, by have := List.mem_range.mp ha; omega⟩
    · rintro ⟨h1, h2⟩
      exact ⟨i - 1, List.mem_range.mpr (by omega), by omega⟩

/-- The zero slots of a node with ascending slots are its leading slots. -/
theorem emptyKeyCount_pos_iff (n : Node) :
    0 < n.EmptyKeyCount ↔ ∃ s, n.keys.head? = some s ∧ s.key = 0 := by
  unfold Node.EmptyKeyCount Node.NonZeroBegin
  cases h : n.keys with
  | nil => simp
  | cons x rest =>
    by_cases hx : x.key = 0
    · have : KeyValue.IsZero x = true := by simp [KeyValue.IsZero, hx]
      simp [List.takeWhile_cons, this, hx]
    · have : KeyValue.IsZero x = false := by simp [KeyValue.IsZero, hx]
      simp [List.takeWhile_cons, this, hx]

/-- What `IsSane` tests, on a node with one child id more than slots: the bounds are
ordered, the slots ascend, every slot but the first that is not zero differs from its
predecessor and lies strictly between the bounds, and when the first slot is zero all child
ids are zero. The bounds of the first slot are not tested. -/
theorem IsSane_iff (n : Node) (hshape : n.children.length = n.keys.length + 1)
    (hD : n.children.length < 2 ^ 64) :
    ∃ r, n.IsSane = .ok r ∧
      (r = true ↔
        n.first < n.last ∧ n.keys.Pairwise (fun a c => a.key ≤ c.key) ∧
        (∀ i, 1 ≤ i → i < n.keys.length → (n.keys.getD i KeyValue.zero).key ≠ 0 →
          (n.keys.getD i KeyValue.zero).key ≠ (n.keys.getD (i - 1) KeyValue.zero).key ∧
          n.first < (n.keys.getD i KeyValue.zero).key ∧
          (n.keys.getD i KeyValue.zero).key < n.last) ∧
        ((∃ s, n.keys.head? = some s ∧ s.key = 0) → ∀ c ∈ n.children, c = EmptyChild)) := by
  have hbound : (n.Degree + (2 ^ 64 - 1)) % 2 ^ 64 = n.keys.length := by
    unfold Node.Degree
    rw [hshape] at hD ⊢
    omega
  obtain ⟨r, hr, hiff⟩ := isSaneLoop_iff n ((List.range n.keys.length).drop 1)
    (fun i hi => (mem_range_drop_one _ i).mp hi)
  have hloop : (r = true ↔ ∀ i, 1 ≤ i → i < n.keys.length →
      (n.keys.getD i KeyValue.zero).key ≠ 0 →
        (n.keys.getD i KeyValue.zero).key ≠ (n.keys.getD (i - 1) KeyValue.zero).key ∧
        n.first < (n.keys.getD i KeyValue.zero).key ∧
        (n.keys.getD i KeyValue.zero).key < n.last) := by
    rw [hiff]
    constructor
    · intro h i h1 h2; exact h i ((mem_range_drop_one _ i).mpr ⟨h1, h2⟩)
    · intro h i hi
      obtain ⟨h1, h2⟩ := (mem_range_drop_one _ i).mp hi
      exact h i h1 h2
  have hleaf : (n.EmptyChildCount != n.Degree) = false ↔ ∀ c ∈ n.children, c = EmptyChild := by
    unfold Node.EmptyChildCount Node.Degree
    simp only [bne_eq_false_iff_eq, List.count_eq_length]
    constructor
    · intro h c hc; exact (h c hc).symm
    · intro h c hc; exact (h c hc).symm
  unfold Node.IsSane
  rw [hbound]
  simp only [hr, bind, Except.bind, pure, Except.pure, ge_iff_le]
  by_cases hfl : n.last ≤ n.first
  · rw [if_pos hfl]
    refine ⟨false, rfl, ?_⟩
    simp only [Bool.false_eq_true, false_iff]
    intro h; omega
  · rw [if_neg hfl]
    by_cases hs : Node.isSorted n.keys = true
    · simp only [hs, Bool.not_true, Bool.false_eq_true, if_false]
      have hs2 := (isSorted_iff _).mp hs
      cases r with
      | false =>
        simp only [Bool.not_false, if_true]
        refine ⟨false, rfl, ?_⟩
        simp only [Bool.false_eq_true, false_iff]
        intro h
        exact absurd (hloop.mpr h.2.2.1) (by simp)
      | true =>
        simp only [Bool.not_true, Bool.false_eq_true, if_false]
        have hall := hloop.mp rfl
        by_cases he : 0 < n.EmptyKeyCount
        · have he2 : decide (n.EmptyKeyCount > 0) = true := by simp [he]
          cases hc : (n.EmptyChildCount != n.Degree) with
          | false =>
            simp only [he2, hc, Bool.and_false, Bool.false_eq_true, if_false]
            refine ⟨true, rfl, ?_⟩
            simp only [true_iff]
            exact ⟨by omega, hs2, hall, fun _ => hleaf.mp hc⟩
          | true =>
            simp only [he2, hc, Bool.and_true, if_true]
            refine ⟨false, rfl, ?_⟩
            simp only [Bool.false_eq_true, false_iff]
            intro h
            have := hleaf.mpr (h.2.2.2 ((emptyKeyCount_pos_iff n).mp he))
            rw [hc] at this
            exact absurd this (by simp)
        · have he2 : decide (n.EmptyKeyCount > 0) = false := by simp [he]
          simp only [he2, Bool.false_and, Bool.false_eq_true, if_false]
          refine ⟨true, rfl, ?_⟩
          simp only [true_iff]
          refine ⟨by omega, hs2, hall, ?_⟩
          intro hz
          exact absurd ((emptyKeyCount_pos_iff n).mpr hz) he
    · have hs1 : Node.isSorted n.keys = false := by simpa using hs
      simp only [hs1, Bool.not_false, if_true]
      refine ⟨false, rfl, ?_⟩
      simp only [Bool.false_eq_true, false_iff]
      intro h
      exact hs ((isSorted_iff _).mpr h.2.1)

/-! ## `Node::AddSyntheticKeyValues` -/

theorem addSyntheticLoop_spec (b : Build) (stride : Nat) :
    ∀ (ks : List KeyValue) (cursor count : Nat),
      cursor + ks.length * stride ≤ KeyUtil.Max b →
      ∃ out, Node.addSyntheticLoop b stride ks cursor count
          = .ok (out, count + ks.countP KeyValue.IsZero) ∧
        out.length = ks.length ∧
        ∀ i, i < ks.length → out.get? i = some
          (if (ks.getD i KeyValue.zero).IsZero then ⟨cursor + i * stride, SyntheticValue, 0⟩
           else ks.getD i KeyValue.zero) := by
  intro ks
  induction ks with
  | nil =>
    intro cursor count _
    exact ⟨[], rfl, rfl, fun i hi => absurd hi (by simp)⟩
  | cons k rest ih =>
    intro cursor count hmax
    have hlen : (k :: rest).length = rest.length + 1 := rfl
    rw [hlen, Nat.add_mul, Nat.one_mul] at hmax
    have hadd : KeyUtil.add b cursor stride = .ok (cursor + stride) := by
      unfold KeyUtil.add
      rw [if_pos (by omega)]
    obtain ⟨out, hout, hl, hget⟩ := ih (cursor + stride)
      (if k.IsZero then count + 1 else count) (by omega)
    refine ⟨(if k.IsZero then ⟨cursor, SyntheticValue, 0⟩ else k) :: out, ?_, ?_, ?_⟩
    · unfold Node.addSyntheticLoop
      simp only [hadd, hout, bind, Except.bind, pure, Except.pure]
      congr 2
      cases hk : k.IsZero
      · simp [List.countP_cons, hk]
      · simp [List.countP_cons, hk]; omega
    · simp [hl]
    · intro i hi
      cases i with
      | zero => simp
      | succ j =>
        have hj : j < rest.length := by simpa using hi
        have := hget j hj
        simp only [List.get?_cons_succ, List.getD_cons_succ]
        rw [this]
        have e : cursor + stride + j * stride = cursor + (j + 1) * stride := by
          rw [Nat.add_mul, Nat.one_mul]; omega
        rw [e]

/-- What `AddSyntheticKeyValues` returns on a node with one child id more than slots and
ordered bounds: no checked operation throws. -/
theorem AddSyntheticKeyValues_spec (b : Build) (n : Node)
    (hshape : n.children.length = n.keys.length + 1) (hD : n.children.length < 2 ^ 32)
    (hfl : n.first ≤ n.last) (hmax : n.last ≤ KeyUtil.Max b) :
    ∃ ks, n.AddSyntheticKeyValues b
        = .ok ({ n with keys := ks }, n.keys.countP KeyValue.IsZero) ∧
      ks.length = n.keys.length ∧
      ∀ i, i < n.keys.length → ks.get? i = some
        (if (n.keys.getD i KeyValue.zero).IsZero
         then ⟨n.first + (i + 1) * ((n.last - n.first) / n.children.length), SyntheticValue, 0⟩
         else n.keys.getD i KeyValue.zero) := by
  have hDpos : 0 < n.children.length := by omega
  have hstride : n.Stride = .ok ((n.last - n.first) / n.children.length) := by
    unfold Node.Stride KeyUtil.Stride KeyUtil.sub KeyUtil.div Node.Degree
    rw [Nat.mod_eq_of_lt hD]
    simp only [if_pos hfl, bind, Except.bind]
    rw [if_neg (by omega)]
  have hmul : n.children.length * ((n.last - n.first) / n.children.length) ≤ n.last - n.first :=
    Nat.mul_div_le _ _
  generalize (n.last - n.first) / n.children.length = st at hstride hmul ⊢
  rw [hshape, Nat.add_mul, Nat.one_mul] at hmul
  have hadd : KeyUtil.add b n.first st = .ok (n.first + st) := by
    unfold KeyUtil.add
    rw [if_pos (by omega)]
  obtain ⟨out, hout, hl, hget⟩ := addSyntheticLoop_spec b st n.keys (n.first + st) 0 (by omega)
  refine ⟨out, ?_, hl, ?_⟩
  · unfold Node.AddSyntheticKeyValues
    simp only [hstride, hadd, hout, bind, Except.bind, pure, Except.pure, Nat.zero_add]
  · intro i hi
    rw [hget i hi]
    have e : n.first + st + i * st = n.first + (i + 1) * st := by
      rw [Nat.add_mul, Nat.one_mul]; omega
    rw [e]

theorem getD_of_get? (l : List KeyValue) (i : Nat) (kv : KeyValue) (h : l.get? i = some kv) :
    l.getD i KeyValue.zero = kv := by
  rw [List.getD_eq_getElem?_getD, ← List.get?_eq_getElem?, h]
  rfl

/-- A node whose slots are all synthetic keys at the stride positions, with a stride that
is not zero, has no empty slot and passes `IsSane`. -/
theorem IsSane_of_stride_slots (n : Node) (st : Nat)
    (hshape : n.children.length = n.keys.length + 1) (hD : n.children.length < 2 ^ 64)
    (hst : 0 < st) (hfit : n.children.length * st ≤ n.last - n.first)
    (hkeys : ∀ i, i < n.keys.length →
      (n.keys.getD i KeyValue.zero).key = n.first + (i + 1) * st) :
    (∀ s ∈ n.keys, s.key ≠ 0) ∧ n.EmptyKeyCount = 0 ∧ n.IsSane = .ok true := by
  have hnz : ∀ s ∈ n.keys, s.key ≠ 0 := by
    intro s hs
    obtain ⟨i, hi, rfl⟩ := List.getElem_of_mem hs
    have := hkeys i hi
    rw [List.getD_eq_getElem _ _ hi] at this
    rw [this]
    have : 0 < (i + 1) * st := Nat.mul_pos (by omega) hst
    omega
  have hlast : n.keys.length * st + st ≤ n.last - n.first := by
    rw [hshape, Nat.add_mul, Nat.one_mul] at hfit
    exact hfit
  have hfl : n.first < n.last := by
    have : 0 ≤ n.keys.length * st := Nat.zero_le _
    omega
  have hmono : ∀ i j, i ≤ j → i * st ≤ j * st := fun i j h => Nat.mul_le_mul_right st h
  have hek : n.EmptyKeyCount = 0 := by
    by_contra hne
    obtain ⟨s, hs, hz⟩ := (emptyKeyCount_pos_iff n).mp (Nat.pos_of_ne_zero hne)
    exact hnz s (List.mem_of_mem_head? hs) hz
  refine ⟨hnz, hek, ?_⟩
  obtain ⟨r, hr, hiff⟩ := IsSane_iff n hshape hD
  have : r = true := by
    rw [hiff]
    refine ⟨hfl, ?_, ?_, ?_⟩
    · rw [List.pairwise_iff_getElem]
      intro i j hi hj hij
      have h1 := hkeys i hi
      have h2 := hkeys j hj
      rw [List.getD_eq_getElem _ _ hi] at h1
      rw [List.getD_eq_getElem _ _ hj] at h2
      rw [h1, h2]
      have := hmono (i + 1) (j + 1) (by omega)
      omega
    · intro i h1 h2 _
      have e1 := hkeys i h2
      have e0 := hkeys (i - 1) (by omega)
      rw [e1, e0]
      have hi1 : i - 1 + 1 = i := by omega
      rw [hi1]
      have a1 : (i + 1) * st = i * st + st := by rw [Nat.add_mul, Nat.one_mul]
      have a2 := hmono (i + 1) n.keys.length (by omega)
      have a3 : 0 < (i + 1) * st := Nat.mul_pos (by omega) hst
      omega
    · rintro ⟨s, hs, hz⟩
      exact absurd hz (hnz s (List.mem_of_mem_head? hs))
  rw [hr, this]

theorem Node.new_fresh (id level degree first last : Nat) (n : Node)
    (h : Node.new id level degree first last = .ok n) :
    first < last ∧ n.first = first ∧ n.last = last ∧ n.children = List.replicate degree EmptyChild ∧
      ∀ s ∈ n.keys, s = KeyValue.zero := by
  unfold Node.new at h
  split at h
  · exact absurd h (by simp)
  · rename_i hfl
    injection h with h
    have h1 : first = n.first := congrArg Node.first h
    have h2 : last = n.last := congrArg Node.last h
    have h3 : List.replicate degree EmptyChild = n.children := congrArg Node.children h
    have h4 := congrArg Node.keys h
    dsimp only at h4
    generalize (degree + (2 ^ 32 - 1)) % 2 ^ 32 = c at h4
    refine ⟨by omega, h1.symm, h2.symm, h3.symm, ?_⟩
    intro s hs
    rw [← h4] at hs
    exact (List.mem_replicate.mp hs).2

/-- C36. On a node with one child id more than slots (fewer than `2^32` children), ordered
bounds and an upper bound that is a key, `AddSyntheticKeyValues` returns: no checked
operation overflows. With `stride = (last - first) / D` it leaves the node as it was but
for the slots, replaces each zero slot at position `i` by the slot
`(first + (i + 1) * stride, SyntheticValue, 0)`, leaves every other slot as it was, and
returns the number of zero slots. Applied to a node fresh from the constructor, with a
stride that is not zero, the result has no zero slot and passes `IsSane`. -/
theorem AddSyntheticKeyValues_fills_zero_slots (b : Build) (n : Node)
    (hshape : n.children.length = n.keys.length + 1) (hD : n.children.length < 2 ^ 32)
    (hfl : n.first ≤ n.last) (hmax : n.last ≤ KeyUtil.Max b) :
    (∃ m, n.AddSyntheticKeyValues b = .ok (m, n.keys.countP KeyValue.IsZero) ∧
      n.SameFrame m ∧ m.keys.length = n.keys.length ∧
      ∀ i, i < n.keys.length → m.keys.get? i = some
        (if (n.keys.getD i KeyValue.zero).IsZero
         then ⟨n.first + (i + 1) * ((n.last - n.first) / n.children.length), SyntheticValue, 0⟩
         else n.keys.getD i KeyValue.zero)) ∧
    (∀ id level, Node.new id level n.children.length n.first n.last = .ok n →
      0 < (n.last - n.first) / n.children.length →
      ∃ m, n.AddSyntheticKeyValues b = .ok (m, n.children.length - 1) ∧
        (∀ s ∈ m.keys, s.key ≠ 0) ∧ m.EmptyKeyCount = 0 ∧ m.IsSane = .ok true) := by
  obtain ⟨ks, hrun, hlen, hget⟩ := AddSyntheticKeyValues_spec b n hshape hD hfl hmax
  refine ⟨⟨_, hrun, SameFrame.keys n ks, hlen, hget⟩, ?_⟩
  intro id level hnew hst
  have hk := (Node.new_fresh _ _ _ _ _ _ hnew).2.2.2.2
  have hzero : ∀ i, i < n.keys.length → (n.keys.getD i KeyValue.zero).IsZero = true := by
    intro i hi
    rw [List.getD_eq_getElem _ _ hi]
    rw [hk _ (List.getElem_mem _)]
    rfl
  have hcount : n.keys.countP KeyValue.IsZero = n.children.length - 1 := by
    have hall : ∀ s ∈ n.keys, KeyValue.IsZero s = true := by
      intro s hs
      rw [hk s hs]
      rfl
    rw [List.countP_eq_length.mpr hall, hshape]
    omega
  rw [hcount] at hrun
  refine ⟨_, hrun, ?_⟩
  apply IsSane_of_stride_slots { n with keys := ks } ((n.last - n.first) / n.children.length)
  · show n.children.length = ks.length + 1
    rw [hlen]; exact hshape
  · show n.children.length < 2 ^ 64
    omega
  · exact hst
  · exact Nat.mul_div_le _ _
  · intro i hi
    have hi2 : i < n.keys.length := by rw [← hlen]; exact hi
    have := hget i hi2
    rw [hzero i hi2, if_pos rfl] at this
    show (ks.getD i KeyValue.zero).key = _
    rw [getD_of_get? ks i _ this]

theorem AddSyntheticKeyValues_fills_zero_slots_witness :
    (∃ m, Node.AddSyntheticKeyValues Scenario.build
          ⟨0, 10, 16, 1, 2 ^ 256 - 1, List.replicate 16 0, List.replicate 15 KeyValue.zero⟩
        = .ok (m, (List.replicate 15 KeyValue.zero).countP KeyValue.IsZero) ∧
      Node.SameFrame
        ⟨0, 10, 16, 1, 2 ^ 256 - 1, List.replicate 16 0, List.replicate 15 KeyValue.zero⟩ m ∧
      m.keys.length = (List.replicate 15 KeyValue.zero).length ∧
      ∀ i, i < (List.replicate 15 KeyValue.zero).length → m.keys.get? i = some
        (if ((List.replicate 15 KeyValue.zero).getD i KeyValue.zero).IsZero
         then ⟨1 + (i + 1) * ((2 ^ 256 - 1 - 1) / (List.replicate 16 0).length), SyntheticValue, 0⟩
         else (List.replicate 15 KeyValue.zero).getD i KeyValue.zero)) ∧
    (∀ id level, Node.new id level (List.replicate 16 0).length 1 (2 ^ 256 - 1)
        = .ok ⟨0, 10, 16, 1, 2 ^ 256 - 1, List.replicate 16 0, List.replicate 15 KeyValue.zero⟩ →
      0 < (2 ^ 256 - 1 - 1) / (List.replicate 16 0).length →
      ∃ m, Node.AddSyntheticKeyValues Scenario.build
            ⟨0, 10, 16, 1, 2 ^ 256 - 1, List.replicate 16 0, List.replicate 15 KeyValue.zero⟩
          = .ok (m, (List.replicate 16 0).length - 1) ∧
        (∀ s ∈ m.keys, s.key ≠ 0) ∧ m.EmptyKeyCount = 0 ∧ m.IsSane = .ok true) :=
  AddSyntheticKeyValues_fills_zero_slots Scenario.build
    ⟨0, 10, 16, 1, 2 ^ 256 - 1, List.replicate 16 0, List.replicate 15 KeyValue.zero⟩
    (by decide) (by decide) (by decide) (by decide)

/-- C38 (what the code tests, and the failing input). On a node with one child id more than
slots, `IsSane` returns true exactly when: `first < last`; the slots ascend by key; every
slot at a position `i ≥ 1` whose key is not zero differs in key from its predecessor and
lies strictly between `first` and `last`; and all child ids are zero when the first slot is
zero. So `IsSane` returns true on every node that satisfies the five node invariants. The
converse fails: the loop starts at position 1, the bounds of slot 0 are never tested. The
node with bounds 10 and 20, three zero child ids and the slots 5 and 15 passes `IsSane`,
and its slot 0 holds the key 5, which is not zero and not greater than `first`. -/
theorem IsSane_skips_bounds_of_first_slot :
    (∀ n : Node, n.children.length = n.keys.length + 1 → n.children.length < 2 ^ 64 →
      ∃ r, n.IsSane = .ok r ∧
        (r = true ↔
          n.first < n.last ∧ n.keys.Pairwise (fun a c => a.key ≤ c.key) ∧
          (∀ i, 1 ≤ i → i < n.keys.length → (n.keys.getD i KeyValue.zero).key ≠ 0 →
            (n.keys.getD i KeyValue.zero).key ≠ (n.keys.getD (i - 1) KeyValue.zero).key ∧
            n.first < (n.keys.getD i KeyValue.zero).key ∧
            (n.keys.getD i KeyValue.zero).key < n.last) ∧
          ((∃ s, n.keys.head? = some s ∧ s.key = 0) → ∀ c ∈ n.children, c = EmptyChild))) ∧
    (∀ n : Node, n.children.length < 2 ^ 64 → n.Invariant → n.IsSane = .ok true) ∧
    (Node.IsSane ⟨0, 0, 3, 10, 20, [0, 0, 0], [⟨5, 0, 37⟩, ⟨15, 37, 37⟩]⟩ = .ok true ∧
      ¬ Node.Invariant ⟨0, 0, 3, 10, 20, [0, 0, 0], [⟨5, 0, 37⟩, ⟨15, 37, 37⟩]⟩ ∧
      ∃ s ∈ (⟨0, 0, 3, 10, 20, [0, 0, 0], [⟨5, 0, 37⟩, ⟨15, 37, 37⟩]⟩ : Node).keys,
        s.key ≠ 0 ∧ ¬ (10 < s.key ∧ s.key < 20)) := by
  refine ⟨fun n hs hD => IsSane_iff n hs hD, ?_, by decide, ?_, ⟨5, 0, 37⟩, by decide, by decide⟩
  · intro n hD hinv
    obtain ⟨r, hr, hiff⟩ := IsSane_iff n hinv.shape hD
    have : r = true := by
      rw [hiff]
      refine ⟨hinv.bounds, hinv.sorted, ?_, ?_⟩
      · intro i h1 h2 hnz
        have hm := getD_mem n.keys i h2
        refine ⟨?_, hinv.inside _ hm hnz⟩
        have hu := hinv.unique
        rw [List.pairwise_iff_getElem] at hu
        have := hu (i - 1) i (by omega) h2 (by omega)
        rw [List.getD_eq_getElem _ _ h2, List.getD_eq_getElem _ _ (show i - 1 < n.keys.length by omega)]
        rw [List.getD_eq_getElem _ _ h2] at hnz
        exact fun h => this hnz h.symm
      · rintro ⟨s, hs, hz⟩
        exact hinv.leaf ⟨s, List.mem_of_mem_head? hs, hz⟩
    rw [hr, this]
  · intro hinv
    have := hinv.inside ⟨5, 0, 37⟩ (by decide) (by decide)
    exact absurd this.1 (by decide)

/-! ## The intervals that `Node::EachChild` visits -/

theorem eachChildLoop_record (n : Node) (hshape : n.children.length = n.keys.length + 1)
    (hslots : 1 ≤ n.keys.length) :
    ∀ (l : List Nat) (s : List (Nat × Nat × Nat × Nat)), (∀ i ∈ l, i < n.children.length) →
      Node.eachChildLoop n Node.recordChild l s
        = .ok (s ++ (l.filter n.visits).map
            (fun i => (i, n.lo i, n.hi i, n.children.getD i EmptyChild)), none) := by
  intro l
  induction l with
  | nil => intro s _; simp [Node.eachChildLoop]
  | cons i rest ih =>
    intro s hl
    have hi := hl i (List.mem_cons_self _ _)
    unfold Node.eachChildLoop
    rw [eachChildStep_eq n _ hshape hslots i hi]
    by_cases hv : n.visits i = true
    · rw [if_pos hv]
      simp only [Node.recordChild, bind, Except.bind, Option.isSome_none, Bool.false_eq_true,
        if_false]
      rw [ih _ (fun j hj => hl j (List.mem_cons_of_mem _ hj))]
      simp [List.filter_cons, hv]
    · rw [if_neg hv]
      simp only [bind, Except.bind, Option.isSome_none, Bool.false_eq_true, if_false]
      rw [ih _ (fun j hj => hl j (List.mem_cons_of_mem _ hj))]
      simp [List.filter_cons, hv]

/-- Among ascending slots none of which holds the key `k`, there is a position `i` such
that the slot before it (if any) is below `k` and the slot at it (if any) is above `k`. -/
theorem exists_gap (l : List KeyValue) (k : Nat) (hne : ∀ s ∈ l, s.key ≠ k) :
    ∃ i, i ≤ l.length ∧ (0 < i → (l.getD (i - 1) KeyValue.zero).key < k) ∧
      (i < l.length → k < (l.getD i KeyValue.zero).key) := by
  induction l with
  | nil => exact ⟨0, Nat.le_refl _, fun h => absurd h (by omega), fun h => absurd h (by simp)⟩
  | cons x rest ih =>
    have hx := hne x (List.mem_cons_self _ _)
    by_cases hk : k < x.key
    · exact ⟨0, Nat.zero_le _, fun h => absurd h (by omega), fun _ => by simpa using hk⟩
    · obtain ⟨i, hi, hlo, hhi⟩ := ih (fun s hs => hne s (List.mem_cons_of_mem _ hs))
      refine ⟨i + 1, by simp; omega, ?_, ?_⟩
      · intro _
        cases i with
        | zero => simp; omega
        | succ j =>
          have := hlo (by omega)
          simpa using this
      · intro h
        have h2 : i < rest.length := by simpa using h
        have := hhi h2
        simpa using this

/-- C37. On a node with at least one slot and one child id more than slots, `EachChild`
calls the callback for exactly the child indices whose bounding slots are not zero, in
ascending order, with the interval `(lo_i, hi_i)` and the child id of the index; it visits
no interval with a zero bounding slot. On a node without a zero slot that satisfies the
node invariants it visits all indices `0 .. D - 1`, with `lo_0 = first`,
`hi_(D-1) = last` and `hi_i = lo_(i+1) = keys[i].key`; and every key strictly between
`first` and `last` that is not the key of a slot lies strictly inside exactly one of the
intervals. -/
theorem EachChild_visits_child_intervals (n : Node)
    (hshape : n.children.length = n.keys.length + 1) (hslots : 1 ≤ n.keys.length) :
    n.EachChild Node.recordChild []
      = .ok (((List.range n.children.length).filter n.visits).map
          (fun i => (i, n.lo i, n.hi i, n.children.getD i EmptyChild)), none) ∧
    (∀ i, i < n.children.length → n.visits i = true →
      (0 < i → (n.keys.getD (i - 1) KeyValue.zero).key ≠ 0) ∧
      (i < n.children.length - 1 → (n.keys.getD i KeyValue.zero).key ≠ 0)) ∧
    (n.Invariant → (∀ s ∈ n.keys, s.key ≠ 0) →
      n.EachChild Node.recordChild []
        = .ok ((List.range n.children.length).map
            (fun i => (i, n.lo i, n.hi i, n.children.getD i EmptyChild)), none) ∧
      n.lo 0 = n.first ∧ n.hi (n.children.length - 1) = n.last ∧
      (∀ i, i + 1 < n.children.length →
        n.hi i = n.lo (i + 1) ∧ n.hi i = (n.keys.getD i KeyValue.zero).key) ∧
      ∀ k, n.first < k → k < n.last → (∀ s ∈ n.keys, s.key ≠ k) →
        ∃ i, (i < n.children.length ∧ n.lo i < k ∧ k < n.hi i) ∧
          ∀ j, j < n.children.length ∧ n.lo j < k ∧ k < n.hi j → j = i) := by
  have hrun : n.EachChild Node.recordChild []
      = .ok (((List.range n.children.length).filter n.visits).map
          (fun i => (i, n.lo i, n.hi i, n.children.getD i EmptyChild)), none) := by
    unfold Node.EachChild Node.Degree
    rw [eachChildLoop_record n hshape hslots _ [] (fun i hi => List.mem_range.mp hi)]
    rfl
  refine ⟨hrun, ?_, ?_⟩
  · intro i hi hv
    unfold Node.visits at hv
    have hz : ∀ j, (n.keys.getD j KeyValue.zero).IsZero = false →
        (n.keys.getD j KeyValue.zero).key ≠ 0 := by
      intro j hj
      unfold KeyValue.IsZero at hj
      exact ne_of_beq_false hj
    by_cases h0 : i = 0
    · subst h0
      rw [if_pos rfl] at hv
      refine ⟨fun h => absurd h (by omega), fun _ => hz 0 (by simpa using hv)⟩
    · rw [if_neg h0] at hv
      by_cases hl : i = n.children.length - 1
      · rw [if_pos hl] at hv
        exact ⟨fun _ => hz _ (by simpa using hv), fun h => absurd h (by omega)⟩
      · rw [if_neg hl] at hv
        simp only [Bool.and_eq_true, Bool.not_eq_true'] at hv
        exact ⟨fun _ => hz _ hv.1, fun _ => hz _ hv.2⟩
  · intro hinv hfull
    have hall : (List.range n.children.length).filter n.visits = List.range n.children.length := by
      rw [List.filter_eq_self]
      intro i hi
      exact visits_of_full n hinv hfull i (List.mem_range.mp hi)
    refine ⟨by rw [hrun, hall], ?_, ?_, ?_, ?_⟩
    · simp [Node.lo]
    · simp [Node.hi]
    · intro i hi
      unfold Node.hi Node.lo
      rw [if_neg (by omega), if_neg (by omega)]
      exact ⟨by simp, rfl⟩
    · intro k hk1 hk2 hne
      obtain ⟨i, hi, hlo, hhi⟩ := exists_gap n.keys k hne
      have hin : i < n.children.length ∧ n.lo i < k ∧ k < n.hi i := by
        refine ⟨by omega, ?_, ?_⟩
        · unfold Node.lo
          by_cases h0 : i = 0
          · rw [if_pos h0]; exact hk1
          · rw [if_neg h0]; exact hlo (by omega)
        · unfold Node.hi
          by_cases hl : i = n.children.length - 1
          · rw [if_pos hl]; exact hk2
          · rw [if_neg hl]; exact hhi (by omega)
      refine ⟨i, hin, ?_⟩
      rintro j ⟨hj, hj2⟩
      exact interval_unique n hinv k j i hj hin.1 hj2 hin.2

theorem EachChild_visits_child_intervals_witness :
    Node.EachChild ⟨0, 0, 4, 100, 500, [0, 0, 0, 0], [⟨0, 0, 0⟩, ⟨350, 0, 37⟩, ⟨450, 74, 37⟩]⟩
        Node.recordChild [] = .ok ([(2, 350, 450, 0), (3, 450, 500, 0)], none) :=
  (EachChild_visits_child_intervals
    ⟨0, 0, 4, 100, 500, [0, 0, 0, 0], [⟨0, 0, 0⟩, ⟨350, 0, 37⟩, ⟨450, 74, 37⟩]⟩
    (by decide) (by decide)).1

/-! ## The sets of `Delta::AddKeys` -/

theorem any_key_iff (l : List KeyValue) (k : Nat) :
    l.any (fun x => x.key == k) = true ↔ ∃ x ∈ l, x.key = k := by
  simp [List.any_eq_true]

theorem set_intersection_eq_filter (xs : List KeyValue) :
    ∀ ys : List KeyValue, xs.Pairwise (fun a c => a.key < c.key) →
      ys.Pairwise (fun a c => a.key < c.key) →
      set_intersection xs ys = xs.filter (fun x => ys.any (fun y => y.key == x.key)) := by
  induction xs with
  | nil => intro ys _ _; rfl
  | cons x rest ih =>
    intro ys hx hy
    rw [List.pairwise_cons] at hx
    unfold set_intersection
    -- the part of `ys` that is dropped lies below `x`
    have hsplit : ys = ys.takeWhile (fun y => KeyValue.lt y x)
        ++ ys.dropWhile (fun y => KeyValue.lt y x) := (List.takeWhile_append_dropWhile _ _).symm
    have hbelow : ∀ y ∈ ys.takeWhile (fun y => KeyValue.lt y x), y.key < x.key := by
      intro y hy2
      have := List.mem_takeWhile_imp hy2
      simpa [KeyValue.lt] using this
    have hdsorted : (ys.dropWhile (fun y => KeyValue.lt y x)).Pairwise
        (fun a c => a.key < c.key) := hy.sublist (List.dropWhile_sublist _)
    -- membership among `ys` of a key not below `x` is membership in the rest
    have hany : ∀ (k : Nat), x.key ≤ k →
        (ys.any (fun y => y.key == k) = (ys.dropWhile (fun y => KeyValue.lt y x)).any
          (fun y => y.key == k)) := by
      intro k hk
      rw [Bool.eq_iff_iff, any_key_iff, any_key_iff]
      constructor
      · rintro ⟨y, hy2, hyk⟩
        rw [hsplit] at hy2
        rcases List.mem_append.mp hy2 with h | h
        · have := hbelow y h; omega
        · exact ⟨y, h, hyk⟩
      · rintro ⟨y, hy2, hyk⟩
        exact ⟨y, (List.dropWhile_sublist _).subset hy2, hyk⟩
    cases hd : ys.dropWhile (fun y => KeyValue.lt y x) with
    | nil =>
      simp only
      rw [hd] at hany
      symm
      rw [List.filter_eq_nil_iff]
      intro z hz
      have hzk : x.key ≤ z.key := by
        rcases List.mem_cons.mp hz with h | h
        · rw [h]
        · exact Nat.le_of_lt (hx.1 z h)
      rw [hany z.key hzk]
      simp
    | cons y yrest =>
      simp only
      rw [hd] at hany hdsorted
      have hyx : ¬ y.key < x.key := by
        have := List.head_dropWhile_not (fun y => KeyValue.lt y x) ys
        rw [hd] at this
        have h2 := this (by simp)
        simpa [KeyValue.lt] using h2
      rw [List.pairwise_cons] at hdsorted
      by_cases hlt : x.key < y.key
      · have : KeyValue.lt x y = true := by simp [KeyValue.lt, hlt]
        rw [if_pos this, ih (y :: yrest) hx.2 (List.pairwise_cons.mpr hdsorted)]
        have hxn : (ys.any (fun y => y.key == x.key)) = false := by
          rw [hany x.key (Nat.le_refl _)]
          rw [Bool.eq_false_iff]
          intro h
          rw [any_key_iff] at h
          obtain ⟨w, hw, hwk⟩ := h
          rcases List.mem_cons.mp hw with e | e
          · rw [e] at hwk; omega
          · have := hdsorted.1 w e; omega
        rw [List.filter_cons, hxn]
        simp only [Bool.false_eq_true, if_false]
        apply List.filter_congr
        intro z hz
        rw [hany z.key (Nat.le_of_lt (hx.1 z hz))]
      · have hxy : x.key = y.key := by omega
        have : ¬ (KeyValue.lt x y = true) := by simp [KeyValue.lt, hlt]
        rw [if_neg this, ih yrest hx.2 hdsorted.2]
        have hxn : (ys.any (fun y => y.key == x.key)) = true := by
          rw [hany x.key (Nat.le_refl _), any_key_iff]
          exact ⟨y, List.mem_cons_self _ _, hxy.symm⟩
        rw [List.filter_cons, hxn]
        simp only [if_true]
        congr 1
        apply List.filter_congr
        intro z hz
        have hzx := hx.1 z hz
        rw [hany z.key (Nat.le_of_lt hzx)]
        rw [Bool.eq_iff_iff, any_key_iff, any_key_iff]
        constructor
        · rintro ⟨w, hw, hwk⟩; exact ⟨w, List.mem_cons_of_mem _ hw, hwk⟩
        · rintro ⟨w, hw, hwk⟩
          rcases List.mem_cons.mp hw with e | e
          · rw [e] at hwk; omega
          · exact ⟨w, e, hwk⟩

theorem dedupe_fold (dupes : List KeyValue) :
    ∀ (buffer : Buffer) (cands : List KeyValue),
      dupes.foldl (fun (acc : Buffer × List KeyValue) kv =>
          (acc.1.RemoveDuplicate kv.key, setErase kv acc.2)) (buffer, cands)
        = (⟨buffer.buf_.filter (fun e => !dupes.any (fun x => x.key == e.1))⟩,
           cands.filter (fun c => !dupes.any (fun x => x.key == c.key))) := by
  induction dupes with
  | nil => intro buffer cands; simp
  | cons x rest ih =>
    intro buffer cands
    rw [List.foldl_cons, ih]
    simp only [Buffer.RemoveDuplicate, setErase, List.filter_filter, List.any_cons]
    congr 1
    · congr 1
      apply List.filter_congr
      intro e _
      by_cases h1 : x.key = e.1
      · simp [bne, h1]
      · have b1 : (e.1 == x.key) = false := beq_false_of_ne (fun h => h1 h.symm)
        have b2 : (x.key == e.1) = false := beq_false_of_ne h1
        simp only [bne, b1, b2, Bool.not_false, Bool.and_true, Bool.false_or]
    · apply List.filter_congr
      intro c _
      by_cases h1 : x.key = c.key
      · simp [bne, h1]
      · have b1 : (c.key == x.key) = false := beq_false_of_ne (fun h => h1 h.symm)
        have b2 : (x.key == c.key) = false := beq_false_of_ne h1
        simp only [bne, b1, b2, Bool.not_false, Bool.and_true, Bool.false_or]

theorem mem_pendingIn (buf : Buffer) (f l : Nat) (st : ValueState) (x : KeyValue) :
    x ∈ buf.pendingIn f l st ↔
      ∃ e ∈ buf.buf_, f < e.1 ∧ e.1 < l ∧ e.2.status = st ∧ x = ⟨e.1, e.2.offset, e.2.length⟩ := by
  unfold Buffer.pendingIn
  simp only [List.mem_map, List.mem_filter, Bool.and_eq_true, decide_eq_true_eq, beq_iff_eq]
  constructor
  · rintro ⟨e, ⟨⟨he, h1, h2⟩, h3⟩, rfl⟩
    exact ⟨e, he, h1, h2, h3, rfl⟩
  · rintro ⟨e, he, h1, h2, h3, rfl⟩
    exact ⟨e, ⟨⟨he, h1, h2⟩, h3⟩, rfl⟩

theorem pendingIn_sorted (buf : Buffer) (hord : buf.Ordered) (f l : Nat) (st : ValueState) :
    (buf.pendingIn f l st).Pairwise (fun a c => a.key < c.key) := by
  unfold Buffer.pendingIn
  rw [List.pairwise_map]
  exact (List.Pairwise.filter _ (List.Pairwise.filter _ hord))

theorem GetCandidates_pending (buf : Buffer) (hord : buf.Ordered) (f l : Nat) (hfl : f < l) :
    buf.GetCandidates f l [] []
      = .ok (buf.pendingIn f l .Unprocessed, buf.pendingIn f l .Evicted) :=
  GetCandidates_eq buf hord f l hfl

theorem existing_sorted (d : Delta) : d.existing.Pairwise (fun a c => a.key < c.key) :=
  foldl_setInsert_sorted _ [] List.Pairwise.nil

/-- The loop of `AddKeys` that removes the duplicates. -/
theorem dedupe_eq (d : Delta) (buffer : Buffer) (hord : buffer.Ordered) :
    (set_intersection (buffer.pendingIn d.current_.first d.current_.last .Unprocessed)
        d.existing).foldl
      (fun (acc : Buffer × List KeyValue) kv => (acc.1.RemoveDuplicate kv.key, setErase kv acc.2))
      (buffer, buffer.pendingIn d.current_.first d.current_.last .Unprocessed)
    = (d.deduped buffer, d.candidates buffer) := by
  rw [set_intersection_eq_filter _ _ (pendingIn_sorted buffer hord _ _ _) (existing_sorted d),
    dedupe_fold]
  have hdup : ∀ k, (List.filter (fun x => d.existing.any (fun y => y.key == x.key))
      (buffer.pendingIn d.current_.first d.current_.last .Unprocessed)).any
        (fun x => x.key == k) = true ↔
      (∃ x ∈ buffer.pendingIn d.current_.first d.current_.last .Unprocessed, x.key = k) ∧
        d.existing.any (fun y => y.key == k) = true := by
    intro k
    rw [any_key_iff]
    constructor
    · rintro ⟨x, hx, hxk⟩
      rw [List.mem_filter] at hx
      exact ⟨⟨x, hx.1, hxk⟩, hxk ▸ hx.2⟩
    · rintro ⟨⟨x, hx, hxk⟩, hex⟩
      exact ⟨x, List.mem_filter.mpr ⟨hx, hxk ▸ hex⟩, hxk⟩
  unfold Delta.deduped Delta.candidates
  congr 1
  · congr 1
    apply List.filter_congr
    intro e he
    congr 1
    rw [Bool.eq_iff_iff, hdup]
    simp only [Bool.and_eq_true, decide_eq_true_eq, beq_iff_eq]
    constructor
    · rintro ⟨⟨x, hx, hxk⟩, hex⟩
      rw [mem_pendingIn] at hx
      obtain ⟨e2, he2, h1, h2, h3, rfl⟩ := hx
      have : e2 = e := ordered_unique _ hord e2 e he2 he hxk
      subst this
      exact ⟨⟨h3, h1, h2⟩, hex⟩
    · rintro ⟨⟨h3, h1, h2⟩, hex⟩
      exact ⟨⟨⟨e.1, e.2.offset, e.2.length⟩, (mem_pendingIn _ _ _ _ _).mpr
        ⟨e, he, h1, h2, h3, rfl⟩, rfl⟩, hex⟩
  · apply List.filter_congr
    intro c hc
    congr 1
    rw [Bool.eq_iff_iff, hdup]
    constructor
    · rintro ⟨_, hex⟩; exact hex
    · intro hex; exact ⟨⟨c, hc, rfl⟩, hex⟩

/-- The four ways `AddKeys` returns: nothing pending in the range; nothing left to place
or no empty slot; the branch that does not overflow; the overflow branch. -/
theorem AddKeys_cases (b : Build) (d d1 : Delta) (buffer buffer1 : Buffer) (offset offset1 : Nat)
    (hord : buffer.Ordered) (hfl : d.current_.first < d.current_.last)
    (h : d.AddKeys b buffer offset = .ok (d1, buffer1, offset1)) :
    ((buffer.pendingIn d.current_.first d.current_.last .Unprocessed).length
        + (d.evictions buffer).length = 0 ∧
      d1 = d ∧ buffer1 = buffer ∧ offset1 = offset) ∨
    ((((d.candidates buffer).length = 0 ∧ (d.evictions buffer).length = 0) ∨
        d.current_.EmptyKeyCount = 0) ∧
      d1 = { d with existing_ := d.existing.length } ∧ buffer1 = d.deduped buffer ∧
      offset1 = offset) ∨
    (¬ (((d.candidates buffer).length = 0 ∧ (d.evictions buffer).length = 0) ∨
        d.current_.EmptyKeyCount = 0) ∧
      d.existing.length + (d.candidates buffer).length + (d.evictions buffer).length
        ≤ d.current_.keys.length ∧
      ∃ ks1 ks2 placed ins,
        copyAt d.current_.keys 0 (d.candidates buffer) = .ok ks1 ∧
        copyAt ks1 (d.candidates buffer).length (d.evictions buffer) = .ok ks2 ∧
        Delta.placeLoop b (ks2.take (d.candidates buffer).length) (d.deduped buffer) offset
          (d.candidates buffer).length = .ok (placed, buffer1, offset1, ins) ∧
        d1.current_ = { d.current_ with
          keys := sortKeys (placed ++ ks2.drop (d.candidates buffer).length) } ∧
        d1.previous_ = d.Flip.previous_ ∧ d1.insertions_ = ins ∧
        d1.evictions_ = d.evictions_ ∧ d1.synthetics_ = d.synthetics_ ∧
        d1.existing_ = d.existing.length ∧ d1.children_ = d.children_) ∨
    (¬ (((d.candidates buffer).length = 0 ∧ (d.evictions buffer).length = 0) ∨
        d.current_.EmptyKeyCount = 0) ∧
      ¬ d.existing.length + (d.candidates buffer).length + (d.evictions buffer).length
        ≤ d.current_.keys.length ∧
      ∃ stride cur1 cur2 synthetics ks bufA ins existing1 ev,
        d.current_.Clear.Stride = .ok stride ∧
        Delta.strideLoop stride
          (d.existing.foldl (fun acc kv => setInsert kv acc)
            ((d.evictions buffer).foldl (fun acc kv => setInsert kv acc) (d.candidates buffer)))
          d.current_.Clear 0 (KeyUtil.Max b) = .ok cur1 ∧
        cur1.AddSyntheticKeyValues b = .ok (cur2, synthetics) ∧
        Delta.assignLoop b (d.candidates buffer) cur2.keys (d.deduped buffer) offset
          d.insertions_ d.existing = .ok (ks, bufA, offset1, ins, existing1) ∧
        Delta.evictLoop b existing1 bufA d.evictions_ = .ok (buffer1, ev) ∧
        d1.current_ = { cur2 with keys := ks } ∧
        d1.previous_ = d.Flip.previous_ ∧ d1.insertions_ = ins ∧
        d1.evictions_ = ev ∧ d1.synthetics_ = synthetics ∧
        d1.existing_ = d.existing.length ∧ d1.children_ = d.children_) := by
  unfold Delta.AddKeys at h
  rw [GetCandidates_pending buffer hord _ _ hfl] at h
  simp only [bind, Except.bind, pure, Except.pure] at h
  have hdd := dedupe_eq d buffer hord
  unfold Delta.existing at hdd
  rw [hdd] at h
  simp only at h
  have hcur : ∀ x, ({ d with existing_ := x } : Delta).Flip.current_ = d.current_ :=
    fun x => Flip_current { d with existing_ := x }
  have hP : ∀ x, ({ d with existing_ := x } : Delta).Flip.previous_ = d.Flip.previous_ :=
    fun x => Flip_previous_existing d x
  have hflip : ∀ x, ({ d with existing_ := x } : Delta).Flip.evictions_ = d.evictions_ ∧
      ({ d with existing_ := x } : Delta).Flip.synthetics_ = d.synthetics_ ∧
      ({ d with existing_ := x } : Delta).Flip.children_ = d.children_ ∧
      ({ d with existing_ := x } : Delta).Flip.existing_ = x ∧
      ({ d with existing_ := x } : Delta).Flip.insertions_ = d.insertions_ := by
    intro x
    unfold Delta.Flip
    split <;> exact ⟨rfl, rfl, rfl, rfl, rfl⟩
  split at h
  · rename_i hc
    injection h with h
    injection h with h1 h2
    injection h2 with h2 h3
    exact Or.inl ⟨hc, h1.symm, h2.symm, h3.symm⟩
  · split at h
    · rename_i hc
      injection h with h
      injection h with h1 h2
      injection h2 with h2 h3
      exact Or.inr (Or.inl ⟨hc, h1.symm, h2.symm, h3.symm⟩)
    · rename_i hc
      split at h
      · rename_i hfit
        refine Or.inr (Or.inr (Or.inl ⟨hc, hfit, ?_⟩))
        split at h
        · exact absurd h (by simp)
        · rename_i ks1 hk1
          split at h
          · exact absurd h (by simp)
          · rename_i ks2 hk2
            split at h
            · exact absurd h (by simp)
            · rename_i r hpl
              obtain ⟨placed, bufP, offP, ins⟩ := r
              injection h with h
              injection h with h1 h2
              injection h2 with h2 h3
              simp only [hcur] at hk1 hk2 hpl
              refine ⟨ks1, ks2, placed, ins, hk1, hk2, ?_, ?_, ?_, ?_, ?_, ?_, ?_, ?_⟩
              · rw [← h2, ← h3]; exact hpl
              · rw [← h1]; simp only [hcur]
              · rw [← h1]; exact hP _
              · rw [← h1]
              · rw [← h1]; exact (hflip _).1
              · rw [← h1]; exact (hflip _).2.1
              · rw [← h1]; exact (hflip _).2.2.2.1
              · rw [← h1]; exact (hflip _).2.2.1
      · rename_i hfit
        refine Or.inr (Or.inr (Or.inr ⟨hc, hfit, ?_⟩))
        split at h
        · exact absurd h (by simp)
        · rename_i stride hst
          split at h
          · exact absurd h (by simp)
          · rename_i cur1 hrun
            split at h
            · exact absurd h (by simp)
            · rename_i r2 hsyn
              obtain ⟨cur2, synthetics⟩ := r2
              split at h
              · exact absurd h (by simp)
              · rename_i r3 has
                obtain ⟨ks, bufA, offA, ins, existing1⟩ := r3
                split at h
                · exact absurd h (by simp)
                · rename_i r4 hev
                  obtain ⟨bufE, ev⟩ := r4
                  injection h with h
                  injection h with h1 h2
                  injection h2 with h2 h3
                  simp only [hcur, (hflip _).1, (hflip _).2.2.2.2] at hst hrun hsyn has hev
                  refine ⟨stride, cur1, cur2, synthetics, ks, bufA, ins, existing1, ev, hst, hrun,
                    hsyn, ?_, ?_, ?_, ?_, ?_, ?_, ?_, ?_, ?_⟩
                  · rw [← h3]; exact has
                  · rw [← h2]; exact hev
                  · rw [← h1]
                  · rw [← h1]; exact hP _
                  · rw [← h1]
                  · rw [← h1]
                  · rw [← h1]
                  · rw [← h1]; exact (hflip _).2.2.2.1
                  · rw [← h1]; exact (hflip _).2.2.1

/-! ## The loop that assigns offsets -/

theorem SetOffset_inv (b : Build) (buf buf1 : Buffer) (k offset : Nat)
    (h : buf.SetOffset b k offset = .ok buf1) :
    ∃ v, (k, v) ∈ buf.buf_ ∧ buf1 = buf.modify k ⟨offset, v.length, v.value, .NeedsCommitting⟩ := by
  unfold Buffer.SetOffset at h
  cases hf : buf.find k with
  | none =>
    rw [hf] at h
    simp only [bind, Except.bind] at h
    split at h <;> exact absurd h (by simp)
  | some it =>
    rw [hf] at h
    simp only [pure, Except.pure] at h
    injection h with h
    unfold Buffer.find at hf
    have hk : it.1 = k := by
      have := List.find?_some hf
      simpa using this
    refine ⟨it.2, ?_, h.symm⟩
    rw [← hk]
    exact List.mem_of_find?_eq_some hf

theorem SetOffset_ok (b : Build) (buf : Buffer) (hord : buf.Ordered) (k offset : Nat) (v : Value)
    (hmem : (k, v) ∈ buf.buf_) :
    buf.SetOffset b k offset
      = .ok (buf.modify k ⟨offset, v.length, v.value, .NeedsCommitting⟩) := by
  have hfind : buf.find k = some (k, v) := find_of_mem buf hord (k, v) hmem
  simp only [Buffer.SetOffset, hfind, pure, Except.pure]

/-- What one `SetOffset` does to the entries of an ordered buffer. -/
theorem SetOffset_effect (b : Build) (buf buf1 : Buffer) (hord : buf.Ordered) (k offset : Nat)
    (h : buf.SetOffset b k offset = .ok buf1) :
    buf1.Ordered ∧ buf1.buf_.map Prod.fst = buf.buf_.map Prod.fst ∧
    (∃ v, (k, v) ∈ buf.buf_ ∧ (k, ⟨offset, v.length, v.value, .NeedsCommitting⟩) ∈ buf1.buf_) ∧
    (∀ e, e.1 ≠ k → (e ∈ buf1.buf_ ↔ e ∈ buf.buf_)) := by
  obtain ⟨v, hv, rfl⟩ := SetOffset_inv b buf buf1 k offset h
  refine ⟨modify_ordered buf k _ hord, modify_map_fst buf k _, ⟨v, hv, ?_⟩, ?_⟩
  · rw [mem_modify]
    exact Or.inl ⟨rfl, rfl, (k, v), hv, rfl⟩
  · intro e hne
    rw [mem_modify]
    constructor
    · rintro (⟨hk, _⟩ | ⟨_, he⟩)
      · exact absurd hk hne
      · exact he
    · intro he
      exact Or.inr ⟨hne, he⟩

theorem mem_keys_of_mem (buf : Buffer) (k : Nat) (v : Value) (h : (k, v) ∈ buf.buf_) :
    k ∈ buf.buf_.map Prod.fst :=
  List.mem_map.mpr ⟨(k, v), h, rfl⟩

/-- The loop of the branch that does not overflow, when it returns: every slot gets the
running offset, which then advances by the length of the slot; the entry of its key in the
buffer gets that offset and the state NeedsCommitting; no other entry changes. -/
theorem placeLoop_inv (b : Build) :
    ∀ (l : List KeyValue) (buf : Buffer) (offset ins : Nat) (placed : List KeyValue)
      (buf1 : Buffer) (offset1 ins1 : Nat),
      buf.Ordered → l.Pairwise (fun a c => a.key ≠ c.key) →
      Delta.placeLoop b l buf offset ins = .ok (placed, buf1, offset1, ins1) →
      placed.map (fun p => p.key) = l.map (fun p => p.key) ∧
      placed.map (fun p => p.length) = l.map (fun p => p.length) ∧
      ins1 = ins + l.length ∧ Spec.Consecutive offset placed offset1 ∧
      buf1.Ordered ∧ buf1.buf_.map Prod.fst = buf.buf_.map Prod.fst ∧
      (∀ p ∈ placed, ∃ v, (p.key, v) ∈ buf.buf_ ∧
        (p.key, ⟨p.offset, v.length, v.value, .NeedsCommitting⟩) ∈ buf1.buf_) ∧
      (∀ e, (∀ p ∈ placed, p.key ≠ e.1) → (e ∈ buf1.buf_ ↔ e ∈ buf.buf_)) := by
  intro l
  induction l with
  | nil =>
    intro buf offset ins placed buf1 offset1 ins1 hord _ h
    simp only [Delta.placeLoop] at h
    injection h with h
    injection h with h1 h2
    injection h2 with h2 h3
    injection h3 with h3 h4
    subst h1 h2 h3 h4
    exact ⟨rfl, rfl, rfl, rfl, hord, rfl, fun p hp => absurd hp (by simp), fun e _ => Iff.rfl⟩
  | cons it rest ih =>
    intro buf offset ins placed buf1 offset1 ins1 hord hnd h
    rw [List.pairwise_cons] at hnd
    unfold Delta.placeLoop at h
    simp only [bind, Except.bind] at h
    cases hset : buf.SetOffset b it.key offset with
    | error e => rw [hset] at h; exact absurd h (by simp)
    | ok bufS =>
      rw [hset] at h
      simp only at h
      cases hrec : Delta.placeLoop b rest bufS ((offset + it.length) % 2 ^ 64) (ins + 1) with
      | error e => rw [hrec] at h; exact absurd h (by simp)
      | ok r =>
        obtain ⟨placedR, bufR, offR, insR⟩ := r
        rw [hrec] at h
        simp only [pure, Except.pure] at h
        injection h with h
        injection h with h1 h2
        injection h2 with h2 h3
        injection h3 with h3 h4
        subst h1 h2 h3 h4
        obtain ⟨sord, skeys, ⟨v, hv, hv1⟩, sother⟩ := SetOffset_effect b buf bufS hord _ _ hset
        obtain ⟨ik, il, ii, ic, iord, ikeys, iplaced, iother⟩ :=
          ih bufS _ _ placedR bufR offR insR sord hnd.2 hrec
        have hkeyR : ∀ p ∈ placedR, p.key ≠ it.key := by
          intro p hp
          have : p.key ∈ placedR.map (fun p => p.key) := List.mem_map.mpr ⟨p, hp, rfl⟩
          rw [ik] at this
          obtain ⟨q, hq, hqk⟩ := List.mem_map.mp this
          rw [← hqk]
          exact fun e => hnd.1 q hq e.symm
        refine ⟨?_, ?_, ?_, ⟨rfl, ic⟩, iord, by rw [ikeys, skeys], ?_, ?_⟩
        · simp only [List.map_cons, ik]
        · simp only [List.map_cons, il]
        · simp only [List.length_cons]; omega
        · intro p hp
          rcases List.mem_cons.mp hp with e | e
          · subst e
            refine ⟨v, hv, ?_⟩
            exact (iother (it.key, ⟨offset, v.length, v.value, .NeedsCommitting⟩)
              (fun p hp => hkeyR p hp)).mpr hv1
          · obtain ⟨w, hw, hw1⟩ := iplaced p e
            exact ⟨w, (sother (p.key, w) (hkeyR p e)).mp hw, hw1⟩
        · intro e he
          have h1 : e.1 ≠ it.key := fun h => he _ (List.mem_cons_self _ _) h.symm
          rw [iother e (fun p hp => he p (List.mem_cons_of_mem _ hp)), sother e h1]

/-- The loop of the branch that does not overflow returns when the buffer holds an entry
for the key of every slot. -/
theorem placeLoop_total (b : Build) :
    ∀ (l : List KeyValue) (buf : Buffer) (offset ins : Nat),
      buf.Ordered → (∀ kv ∈ l, kv.key ∈ buf.buf_.map Prod.fst) →
      ∃ r, Delta.placeLoop b l buf offset ins = .ok r := by
  intro l
  induction l with
  | nil => intro buf offset ins _ _; exact ⟨_, rfl⟩
  | cons it rest ih =>
    intro buf offset ins hord hmem
    obtain ⟨e, he, hek⟩ := List.mem_map.mp (hmem it (List.mem_cons_self _ _))
    have he2 : (it.key, e.2) ∈ buf.buf_ := by rw [← hek]; exact he
    have hset := SetOffset_ok b buf hord it.key offset e.2 he2
    obtain ⟨r, hr⟩ := ih (buf.modify it.key ⟨offset, e.2.length, e.2.value, .NeedsCommitting⟩)
      ((offset + it.length) % 2 ^ 64) (ins + 1) (modify_ordered buf _ _ hord)
      (fun kv hkv => by rw [modify_map_fst]; exact hmem kv (List.mem_cons_of_mem _ hkv))
    obtain ⟨p, bf, o, i⟩ := r
    refine ⟨({ it with offset := offset } :: p, bf, o, i), ?_⟩
    unfold Delta.placeLoop
    simp only [hset, hr, bind, Except.bind, pure, Except.pure]

/-! ## Consecutive offsets without wrap-around -/

theorem consecutive_sum (l : List KeyValue) :
    ∀ (o o1 : Nat), o + (l.map (fun p => p.length)).sum < 2 ^ 64 → Spec.Consecutive o l o1 →
      o1 = o + (l.map (fun p => p.length)).sum ∧
      (∀ p ∈ l, o ≤ p.offset ∧ p.offset + p.length ≤ o1) ∧
      l.Pairwise (fun a c => a.offset + a.length ≤ c.offset) ∧
      (∀ x, o ≤ x → x < o1 → ∃ p ∈ l, p.offset ≤ x ∧ x < p.offset + p.length) := by
  induction l with
  | nil =>
    intro o o1 _ h
    simp only [Spec.Consecutive] at h
    subst h
    exact ⟨by simp, fun p hp => absurd hp (by simp), List.Pairwise.nil,
      fun x h1 h2 => absurd h2 (by omega)⟩
  | cons kv rest ih =>
    intro o o1 hw h
    simp only [List.map_cons, List.sum_cons] at hw
    obtain ⟨h0, hrest⟩ := h
    rw [Nat.mod_eq_of_lt (by omega)] at hrest
    obtain ⟨hs, hb, hp, ht⟩ := ih (o + kv.length) o1 (by omega) hrest
    refine ⟨by simp only [List.map_cons, List.sum_cons]; omega, ?_, ?_, ?_⟩
    · intro p hpm
      rcases List.mem_cons.mp hpm with e | e
      · subst e; omega
      · have := hb p e; omega
    · rw [List.pairwise_cons]
      refine ⟨?_, hp⟩
      intro p hpm
      have := hb p hpm
      omega
    · intro x h1 h2
      by_cases hx : x < o + kv.length
      · exact ⟨kv, List.mem_cons_self _ _, by omega, by omega⟩
      · obtain ⟨p, hpm, hp1, hp2⟩ := ht x (by omega) h2
        exact ⟨p, List.mem_cons_of_mem _ hpm, hp1, hp2⟩

/-! ## `Delta::AddKeys`: the ways it returns -/

theorem GetCandidates_delta (d : Delta) (buffer : Buffer) (hord : buffer.Ordered)
    (hfl : d.current_.first < d.current_.last) :
    buffer.GetCandidates d.current_.first d.current_.last [] []
      = .ok (buffer.pendingIn d.current_.first d.current_.last .Unprocessed,
          d.evictions buffer) :=
  GetCandidates_pending buffer hord _ _ hfl

theorem existing_def (d : Delta) :
    List.foldl (fun acc kv => setInsert kv acc) []
      (List.drop d.current_.NonZeroBegin d.current_.keys) = d.existing := rfl

theorem AddKeys_idle (b : Build) (d : Delta) (buffer : Buffer) (offset : Nat)
    (hord : buffer.Ordered) (hfl : d.current_.first < d.current_.last)
    (hA : (buffer.pendingIn d.current_.first d.current_.last .Unprocessed).length
        + (d.evictions buffer).length = 0) :
    d.AddKeys b buffer offset = .ok (d, buffer, offset) := by
  unfold Delta.AddKeys
  rw [GetCandidates_delta d buffer hord hfl]
  simp only [bind, Except.bind, pure, Except.pure]
  rw [if_pos hA]

theorem AddKeys_nothing (b : Build) (d : Delta) (buffer : Buffer) (offset : Nat)
    (hord : buffer.Ordered) (hfl : d.current_.first < d.current_.last)
    (hA : ¬ (buffer.pendingIn d.current_.first d.current_.last .Unprocessed).length
        + (d.evictions buffer).length = 0)
    (hB : ((d.candidates buffer).length = 0 ∧ (d.evictions buffer).length = 0) ∨
        d.current_.EmptyKeyCount = 0) :
    d.AddKeys b buffer offset
      = .ok ({ d with existing_ := d.existing.length }, d.deduped buffer, offset) := by
  unfold Delta.AddKeys
  rw [GetCandidates_delta d buffer hord hfl]
  simp only [bind, Except.bind, pure, Except.pure, existing_def]
  rw [if_neg hA, dedupe_eq d buffer hord]
  simp only
  rw [if_pos hB]

theorem candidates_length_le (d : Delta) (buffer : Buffer) :
    (d.candidates buffer).length
      ≤ (buffer.pendingIn d.current_.first d.current_.last .Unprocessed).length :=
  List.length_filter_le _ _

theorem copyAt_ok (dst : List KeyValue) (pos : Nat) (src : List KeyValue)
    (h : pos + src.length ≤ dst.length) :
    copyAt dst pos src = .ok (dst.take pos ++ src ++ dst.drop (pos + src.length)) := by
  unfold copyAt
  rw [if_pos h]

theorem deduped_ordered (d : Delta) (buffer : Buffer) (hord : buffer.Ordered) :
    (d.deduped buffer).Ordered :=
  List.Pairwise.filter _ hord

theorem mem_deduped (d : Delta) (buffer : Buffer) (e : Nat × Value) :
    e ∈ (d.deduped buffer).buf_ ↔ e ∈ buffer.buf_ ∧
      ¬ (e.2.status = .Unprocessed ∧ (d.current_.first < e.1 ∧ e.1 < d.current_.last) ∧
        ∃ x ∈ d.existing, x.key = e.1) := by
  unfold Delta.deduped
  simp only [List.mem_filter, Bool.not_eq_true', Bool.and_eq_false_iff, Bool.and_eq_true,
    beq_iff_eq, decide_eq_true_eq]
  constructor
  · rintro ⟨he, hn⟩
    refine ⟨he, ?_⟩
    rintro ⟨h1, h2, h3⟩
    rcases hn with (hn | hn) | hn
    · rw [h1] at hn; simp at hn
    · simp [h2.1, h2.2] at hn
    · rw [Bool.eq_false_iff] at hn
      exact hn ((any_key_iff _ _).mpr h3)
  · rintro ⟨he, hn⟩
    refine ⟨he, ?_⟩
    by_cases h1 : e.2.status = .Unprocessed
    · by_cases h2 : d.current_.first < e.1 ∧ e.1 < d.current_.last
      · right
        rw [Bool.eq_false_iff]
        intro h3
        exact hn ⟨h1, h2, (any_key_iff _ _).mp h3⟩
      · left; right
        simp only [Bool.and_eq_false_iff, decide_eq_false_iff_not]
        by_cases h3 : d.current_.first < e.1
        · right; exact fun h4 => h2 ⟨h3, h4⟩
        · left; exact h3
    · left; left
      exact beq_false_of_ne h1

/-- Every candidate that is left after the duplicates are removed is an Unprocessed entry
of the buffer strictly inside the range whose key is not in `existing`; the buffer keeps
it when the duplicates are removed. -/
theorem mem_candidates (d : Delta) (buffer : Buffer) (c : KeyValue) :
    c ∈ d.candidates buffer ↔
      ∃ v, (c.key, v) ∈ buffer.buf_ ∧ v.status = .Unprocessed ∧
        d.current_.first < c.key ∧ c.key < d.current_.last ∧
        (∀ x ∈ d.existing, x.key ≠ c.key) ∧ c = ⟨c.key, v.offset, v.length⟩ := by
  unfold Delta.candidates
  rw [List.mem_filter, mem_pendingIn]
  simp only [Bool.not_eq_true']
  constructor
  · rintro ⟨⟨e, he, h1, h2, h3, rfl⟩, hn⟩
    refine ⟨e.2, he, h3, h1, h2, ?_, rfl⟩
    intro x hx hxk
    rw [Bool.eq_false_iff] at hn
    exact hn ((any_key_iff _ _).mpr ⟨x, hx, hxk⟩)
  · rintro ⟨v, hv, h3, h1, h2, hn, hc⟩
    refine ⟨⟨(c.key, v), hv, h1, h2, h3, hc⟩, ?_⟩
    rw [Bool.eq_false_iff]
    intro h
    obtain ⟨x, hx, hxk⟩ := (any_key_iff _ _).mp h
    exact hn x hx hxk

theorem candidates_in_deduped (d : Delta) (buffer : Buffer) (c : KeyValue)
    (hc : c ∈ d.candidates buffer) : c.key ∈ (d.deduped buffer).buf_.map Prod.fst := by
  obtain ⟨v, hv, _, _, _, hn, _⟩ := (mem_candidates d buffer c).mp hc
  refine List.mem_map.mpr ⟨(c.key, v), ?_, rfl⟩
  rw [mem_deduped]
  refine ⟨hv, ?_⟩
  rintro ⟨_, _, x, hx, hxk⟩
  exact hn x hx hxk

theorem candidates_sorted (d : Delta) (buffer : Buffer) (hord : buffer.Ordered) :
    (d.candidates buffer).Pairwise (fun a c => a.key < c.key) :=
  List.Pairwise.filter _ (pendingIn_sorted buffer hord _ _ _)

theorem sorted_distinct (l : List KeyValue) (h : l.Pairwise (fun a c => a.key < c.key)) :
    l.Pairwise (fun a c => a.key ≠ c.key) :=
  h.imp (fun hlt => Nat.ne_of_lt hlt)

/-- The branch of `AddKeys` that does not overflow returns. -/
theorem AddKeys_fill (b : Build) (d : Delta) (buffer : Buffer) (offset : Nat)
    (hord : buffer.Ordered) (hfl : d.current_.first < d.current_.last)
    (hB : ¬ (((d.candidates buffer).length = 0 ∧ (d.evictions buffer).length = 0) ∨
        d.current_.EmptyKeyCount = 0))
    (hfit : d.existing.length + (d.candidates buffer).length + (d.evictions buffer).length
        ≤ d.current_.keys.length) :
    ∃ d1 buffer1 offset1 placed,
      d.AddKeys b buffer offset = .ok (d1, buffer1, offset1) ∧
      Delta.placeLoop b (d.candidates buffer) (d.deduped buffer) offset
        (d.candidates buffer).length = .ok (placed, buffer1, offset1, d1.insertions_) ∧
      d1.current_ = { d.current_ with
        keys := sortKeys (placed ++ (d.evictions buffer ++ d.current_.keys.drop
          ((d.candidates buffer).length + (d.evictions buffer).length))) } ∧
      d1.previous_ = d.Flip.previous_ ∧
      d1.evictions_ = d.evictions_ ∧ d1.synthetics_ = d.synthetics_ ∧
      d1.existing_ = d.existing.length ∧ d1.children_ = d.children_ := by
  have hA : ¬ (buffer.pendingIn d.current_.first d.current_.last .Unprocessed).length
      + (d.evictions buffer).length = 0 := by
    intro h
    apply hB
    left
    have := candidates_length_le d buffer
    omega
  have hc1 := copyAt_ok d.current_.keys 0 (d.candidates buffer) (by omega)
  have hlen1 : (List.take 0 d.current_.keys ++ d.candidates buffer
      ++ List.drop (0 + (d.candidates buffer).length) d.current_.keys).length
      = d.current_.keys.length := by
    simp only [List.take_zero, List.nil_append, List.length_append, List.length_drop]
    omega
  have hc2 := copyAt_ok (List.take 0 d.current_.keys ++ d.candidates buffer
      ++ List.drop (0 + (d.candidates buffer).length) d.current_.keys)
      (d.candidates buffer).length (d.evictions buffer) (by rw [hlen1]; omega)
  obtain ⟨r, hr⟩ := placeLoop_total b (d.candidates buffer) (d.deduped buffer) offset
    (d.candidates buffer).length (deduped_ordered d buffer hord)
    (fun kv hkv => candidates_in_deduped d buffer kv hkv)
  obtain ⟨placed, bufP, offP, ins⟩ := r
  have htake : (List.take (d.candidates buffer).length
      (List.take 0 d.current_.keys ++ d.candidates buffer
        ++ List.drop (0 + (d.candidates buffer).length) d.current_.keys)
      ++ d.evictions buffer
      ++ List.drop ((d.candidates buffer).length + (d.evictions buffer).length)
        (List.take 0 d.current_.keys ++ d.candidates buffer
          ++ List.drop (0 + (d.candidates buffer).length) d.current_.keys))
      = d.candidates buffer ++ (d.evictions buffer ++ d.current_.keys.drop
          ((d.candidates buffer).length + (d.evictions buffer).length)) := by
    simp only [List.take_zero, List.nil_append, Nat.zero_add, List.take_left', List.append_assoc]
    congr 2
    rw [List.drop_append_eq_append_drop, List.drop_of_length_le (by omega)]
    simp only [List.nil_append, List.drop_drop]
    congr 1
    omega
  have hrun : ∃ r, d.AddKeys b buffer offset = .ok r := by
    unfold Delta.AddKeys
    rw [GetCandidates_delta d buffer hord hfl]
    simp only [bind, Except.bind, pure, Except.pure, existing_def]
    rw [if_neg hA, dedupe_eq d buffer hord]
    simp only
    have hfit2 : d.existing.length + (d.candidates buffer).length + (d.evictions buffer).length
        ≤ d.current_.MaxKeys := hfit
    rw [if_neg hB, if_pos hfit2]
    simp only [Flip_current, hc1, hc2, htake, List.take_left', hr]
    exact ⟨_, rfl⟩
  obtain ⟨⟨d1, buffer1, offset1⟩, hrun⟩ := hrun
  rcases AddKeys_cases b d d1 buffer buffer1 offset offset1 hord hfl hrun with
    ⟨h0, _⟩ | ⟨h0, _⟩ | ⟨_, _, ks1, ks2, placed2, ins2, e1, e2, e3, f1, f2, f3, f4, f5, f6, f7⟩ |
    ⟨_, h0, _⟩
  · exact absurd h0 hA
  · exact absurd h0 hB
  · rw [hc1] at e1
    injection e1 with e1
    subst e1
    rw [hc2] at e2
    injection e2 with e2
    subst e2
    rw [htake, List.take_left] at e3
    rw [htake, List.drop_left] at f1
    rw [← f3] at e3
    exact ⟨d1, buffer1, offset1, placed2, hrun, e3, f1, f2, f4, f5, f6, f7⟩
  · exact absurd hfit h0

/-! ## `std::sort` on the slots -/

theorem sortInsert_perm (kv : KeyValue) (l : List KeyValue) : (sortInsert kv l).Perm (kv :: l) := by
  induction l with
  | nil => exact List.Perm.refl _
  | cons x rest ih =>
    unfold sortInsert
    split
    · exact List.Perm.refl _
    · exact ((List.Perm.cons x ih).trans (List.Perm.swap kv x rest))

theorem sortInsert_sorted (kv : KeyValue) (l : List KeyValue)
    (h : l.Pairwise (fun a c => a.key ≤ c.key)) :
    (sortInsert kv l).Pairwise (fun a c => a.key ≤ c.key) := by
  induction l with
  | nil => simp [sortInsert]
  | cons x rest ih =>
    have h' := h
    rw [List.pairwise_cons] at h
    unfold sortInsert
    by_cases hlt : KeyValue.lt kv x = true
    · rw [if_pos hlt, List.pairwise_cons]
      have hk : kv.key < x.key := by simpa [KeyValue.lt] using hlt
      refine ⟨?_, h'⟩
      intro y hy
      rcases List.mem_cons.mp hy with e | e
      · rw [e]; omega
      · have := h.1 y e; omega
    · rw [if_neg hlt, List.pairwise_cons]
      have hk : x.key ≤ kv.key := by simpa [KeyValue.lt] using hlt
      refine ⟨?_, ih h.2⟩
      intro y hy
      rcases List.mem_cons.mp ((sortInsert_perm kv rest).subset hy) with e | e
      · rw [e]; exact hk
      · exact h.1 y e

theorem sortKeys_foldl (l : List KeyValue) :
    ∀ acc : List KeyValue, acc.Pairwise (fun a c => a.key ≤ c.key) →
      (l.foldl (fun acc kv => sortInsert kv acc) acc).Perm (acc ++ l) ∧
      (l.foldl (fun acc kv => sortInsert kv acc) acc).Pairwise (fun a c => a.key ≤ c.key) := by
  induction l with
  | nil => intro acc h; simpa using h
  | cons x rest ih =>
    intro acc h
    obtain ⟨hp, hs⟩ := ih (sortInsert x acc) (sortInsert_sorted x acc h)
    refine ⟨hp.trans ?_, hs⟩
    have h1 : (sortInsert x acc ++ rest).Perm ((x :: acc) ++ rest) :=
      List.Perm.append_right rest (sortInsert_perm x acc)
    refine h1.trans ?_
    simp only [List.cons_append]
    exact (List.perm_middle).symm

theorem sortKeys_perm (l : List KeyValue) : (sortKeys l).Perm l := by
  have := (sortKeys_foldl l [] List.Pairwise.nil).1
  simpa [sortKeys] using this

theorem sortKeys_sorted (l : List KeyValue) : (sortKeys l).Pairwise (fun a c => a.key ≤ c.key) :=
  (sortKeys_foldl l [] List.Pairwise.nil).2

/-! ## The set `existing` of a node with ascending slots -/

theorem foldl_setInsert_sorted_eq (l : List KeyValue) :
    ∀ acc : List KeyValue, (acc ++ l).Pairwise (fun a c => a.key < c.key) →
      l.foldl (fun acc kv => setInsert kv acc) acc = acc ++ l := by
  induction l with
  | nil => intro acc _; simp
  | cons x rest ih =>
    intro acc h
    have hx : ∀ y ∈ acc, y.key < x.key := by
      intro y hy
      rw [List.pairwise_append] at h
      exact h.2.2 y hy x (List.mem_cons_self _ _)
    rw [List.foldl_cons, setInsert_append x acc hx, ih]
    · simp
    · simpa using h

theorem existing_of_sorted (d : Delta)
    (h : (d.current_.keys.drop d.current_.NonZeroBegin).Pairwise (fun a c => a.key < c.key)) :
    d.existing = d.current_.keys.drop d.current_.NonZeroBegin := by
  unfold Delta.existing
  rw [foldl_setInsert_sorted_eq _ [] (by simpa using h)]
  rfl

theorem existing_keys (d : Delta) (k : Nat) :
    (∃ x ∈ d.existing, x.key = k) ↔
      ∃ s ∈ d.current_.keys.drop d.current_.NonZeroBegin, s.key = k := by
  unfold Delta.existing
  rw [foldl_setInsert_keys]
  simp

theorem nonZeroBegin_zero (n : Node) (h : ∀ s ∈ n.keys, s.key ≠ 0) : n.NonZeroBegin = 0 := by
  unfold Node.NonZeroBegin
  cases hk : n.keys with
  | nil => rfl
  | cons x rest =>
    have hx := h x (by rw [hk]; exact List.mem_cons_self _ _)
    have : KeyValue.IsZero x = false := by
      unfold KeyValue.IsZero; exact beq_false_of_ne hx
    simp [List.takeWhile_cons, this]

/-- C35. Let the buffer be ordered by key and the bounds of the node be ordered. If the
node has no empty slot, or the buffer holds no Unprocessed or Evicted entry with a key
strictly between the bounds of the node, `AddKeys` returns the offset it was given, leaves
the node of the delta (every slot and child id) and its `previous_` pointer as they were,
so the delta is dirty only if it was before, and removes from the buffer exactly the
Unprocessed entries strictly inside the range whose key is the key of a slot: every other
entry stays as it was. -/
theorem AddKeys_leaves_full_or_idle_node (b : Build) (d : Delta) (buffer : Buffer) (offset : Nat)
    (hord : buffer.Ordered) (hfl : d.current_.first < d.current_.last)
    (hcase : (∀ s ∈ d.current_.keys, s.key ≠ 0) ∨
      (∀ e ∈ buffer.buf_, d.current_.first < e.1 → e.1 < d.current_.last →
        e.2.pending = false)) :
    ∃ d1 buffer1, d.AddKeys b buffer offset = .ok (d1, buffer1, offset) ∧
      d1.current_ = d.current_ ∧ d1.previous_ = d.previous_ ∧ d1.Dirty = d.Dirty ∧
      buffer1.buf_ = buffer.buf_.filter (fun e => !(e.2.status == .Unprocessed &&
        (decide (d.current_.first < e.1) && decide (e.1 < d.current_.last)) &&
        d.current_.keys.any (fun s => s.key == e.1))) ∧
      ∀ e ∈ buffer.buf_, e ∈ buffer1.buf_ ∨
        (e.2.status = .Unprocessed ∧ d.current_.first < e.1 ∧ e.1 < d.current_.last ∧
          ∃ s ∈ d.current_.keys, s.key = e.1) := by
  have hfilter : ∀ (l : List (Nat × Value)) (p : Nat × Value → Bool),
      (∀ e ∈ l, e ∈ l.filter (fun e => !p e) ∨ p e = true) := by
    intro l p e he
    by_cases hp : p e = true
    · exact Or.inr hp
    · left
      rw [List.mem_filter]
      exact ⟨he, by simpa using hp⟩
  have hsplit : ∀ e : Nat × Value, (e.2.status == .Unprocessed &&
        (decide (d.current_.first < e.1) && decide (e.1 < d.current_.last)) &&
        d.current_.keys.any (fun s => s.key == e.1)) = true →
      e.2.status = .Unprocessed ∧ d.current_.first < e.1 ∧ e.1 < d.current_.last ∧
          ∃ s ∈ d.current_.keys, s.key = e.1 := by
    intro e h
    simp only [Bool.and_eq_true, beq_iff_eq, decide_eq_true_eq] at h
    exact ⟨h.1.1, h.1.2.1, h.1.2.2, (any_key_iff _ _).mp h.2⟩
  by_cases hA : (buffer.pendingIn d.current_.first d.current_.last .Unprocessed).length
      + (d.evictions buffer).length = 0
  · -- nothing pending in the range
    refine ⟨d, buffer, AddKeys_idle b d buffer offset hord hfl hA, rfl, rfl, rfl, ?_, ?_⟩
    · symm
      rw [List.filter_eq_self]
      intro e he
      by_contra hne
      have hne2 := hsplit e (by simpa using hne)
      have hmem : (⟨e.1, e.2.offset, e.2.length⟩ : KeyValue)
          ∈ buffer.pendingIn d.current_.first d.current_.last .Unprocessed :=
        (mem_pendingIn _ _ _ _ _).mpr ⟨e, he, hne2.2.1, hne2.2.2.1, hne2.1, rfl⟩
      have : (buffer.pendingIn d.current_.first d.current_.last .Unprocessed).length = 0 := by
        omega
      rw [List.length_eq_zero] at this
      rw [this] at hmem
      exact absurd hmem (by simp)
    · intro e he
      exact Or.inl he
  · -- something is pending: the node has no empty slot
    have hfull : ∀ s ∈ d.current_.keys, s.key ≠ 0 := by
      rcases hcase with h | h
      · exact h
      · exfalso
        apply hA
        have h1 : buffer.pendingIn d.current_.first d.current_.last .Unprocessed = [] := by
          rw [List.eq_nil_iff_forall_not_mem]
          intro x hx
          obtain ⟨e, he, h1, h2, h3, _⟩ := (mem_pendingIn _ _ _ _ _).mp hx
          have := h e he h1 h2
          simp [Value.pending, h3] at this
        have h2 : d.evictions buffer = [] := by
          unfold Delta.evictions
          rw [List.eq_nil_iff_forall_not_mem]
          intro x hx
          obtain ⟨e, he, h1, h2, h3, _⟩ := (mem_pendingIn _ _ _ _ _).mp hx
          have := h e he h1 h2
          simp [Value.pending, h3] at this
        rw [h1, h2]
        rfl
    have hnz := nonZeroBegin_zero d.current_ hfull
    have hB : ((d.candidates buffer).length = 0 ∧ (d.evictions buffer).length = 0) ∨
        d.current_.EmptyKeyCount = 0 := Or.inr hnz
    have hany : ∀ k, d.existing.any (fun x => x.key == k)
        = d.current_.keys.any (fun s => s.key == k) := by
      intro k
      rw [Bool.eq_iff_iff, any_key_iff, any_key_iff, existing_keys, hnz, List.drop_zero]
    have hbuf : (d.deduped buffer).buf_ = buffer.buf_.filter (fun e =>
        !(e.2.status == .Unprocessed &&
        (decide (d.current_.first < e.1) && decide (e.1 < d.current_.last)) &&
        d.current_.keys.any (fun s => s.key == e.1))) := by
      unfold Delta.deduped
      apply List.filter_congr
      intro e _
      rw [hany]
    refine ⟨_, _, AddKeys_nothing b d buffer offset hord hfl hA hB, rfl, rfl, rfl, hbuf, ?_⟩
    intro e he
    rw [hbuf]
    rcases hfilter buffer.buf_ _ e he with h | h
    · exact Or.inl h
    · exact Or.inr (hsplit e h)

/-! ## The branch of `AddKeys` that does not overflow -/

theorem take_nonZeroBegin_zero (n : Node) : ∀ z ∈ n.keys.take n.NonZeroBegin, z.key = 0 := by
  intro z hz
  unfold Node.NonZeroBegin at hz
  rw [take_length_takeWhile] at hz
  have := List.mem_takeWhile_imp hz
  simpa [KeyValue.IsZero] using this

theorem nonZeroBegin_le (n : Node) : n.NonZeroBegin ≤ n.keys.length := by
  unfold Node.NonZeroBegin
  exact (List.takeWhile_sublist _).length_le

/-- No entry of the buffer that `placeLoop` returns is in the state Evicted unless it was
there before. -/
theorem placed_not_evicted (buf buf1 : Buffer) (placed : List KeyValue) (hord1 : buf1.Ordered)
    (h1 : ∀ p ∈ placed, ∃ v, (p.key, v) ∈ buf.buf_ ∧
      (p.key, ⟨p.offset, v.length, v.value, .NeedsCommitting⟩) ∈ buf1.buf_)
    (h2 : ∀ e, (∀ p ∈ placed, p.key ≠ e.1) → (e ∈ buf1.buf_ ↔ e ∈ buf.buf_)) :
    ∀ e ∈ buf1.buf_, e ∈ buf.buf_ ∨
      (e.2.status = .NeedsCommitting ∧ ∃ p ∈ placed, p.key = e.1 ∧ e.2.offset = p.offset) := by
  intro e he
  by_cases hk : ∀ p ∈ placed, p.key ≠ e.1
  · exact Or.inl ((h2 e hk).mp he)
  · right
    push_neg at hk
    obtain ⟨p, hp, hpk⟩ := hk
    obtain ⟨v, _, hv⟩ := h1 p hp
    have := ordered_unique _ hord1 e _ he hv hpk.symm
    rw [this]
    exact ⟨rfl, p, hp, rfl, rfl⟩

/-- C33. Let the buffer be ordered by key, the bounds of the node be ordered and the slots
from the first non-zero slot on ascend strictly (so `existing` is that run of slots). If
`|existing| + |candidates| + |evictions|` is at most the number of slots — equality
included — and the node has an empty slot, `AddKeys` returns and: no synthetic key is
added and nothing is evicted (the counters and the Evicted entries of the buffer are as
before); the node keeps everything but its slots; the new slots are a rearrangement of the
candidates (with the offsets assigned), the evictions, the existing slots and the zero
slots that are left, in ascending order of key, so the zero slots come first and every
existing slot is still there. -/
theorem AddKeys_fills_empty_slots (b : Build) (d : Delta) (buffer : Buffer) (offset : Nat)
    (hord : buffer.Ordered) (hfl : d.current_.first < d.current_.last)
    (hsorted : (d.current_.keys.drop d.current_.NonZeroBegin).Pairwise
      (fun a c => a.key < c.key))
    (hempty : d.current_.EmptyKeyCount ≠ 0)
    (hfit : d.existing.length + (d.candidates buffer).length + (d.evictions buffer).length
      ≤ d.current_.keys.length) :
    d.existing = d.current_.keys.drop d.current_.NonZeroBegin ∧
    ∃ d1 buffer1 offset1 placed,
      d.AddKeys b buffer offset = .ok (d1, buffer1, offset1) ∧
      d1.synthetics_ = d.synthetics_ ∧ d1.evictions_ = d.evictions_ ∧
      d.current_.SameFrame d1.current_ ∧
      (∀ e ∈ buffer1.buf_, e.2.status = .Evicted → e ∈ buffer.buf_) ∧
      placed.map (fun p => p.key) = (d.candidates buffer).map (fun p => p.key) ∧
      placed.map (fun p => p.length) = (d.candidates buffer).map (fun p => p.length) ∧
      d1.current_.keys.Perm
        ((d.current_.keys.take d.current_.NonZeroBegin).drop
            ((d.candidates buffer).length + (d.evictions buffer).length)
          ++ (placed ++ (d.evictions buffer ++ d.existing))) ∧
      d1.current_.keys.Pairwise (fun a c => a.key ≤ c.key) ∧
      (∀ z ∈ d.current_.keys.take d.current_.NonZeroBegin, z.key = 0) ∧
      (∀ s ∈ d.existing, s ∈ d1.current_.keys) := by
  have hex := existing_of_sorted d hsorted
  refine ⟨hex, ?_⟩
  have hnzb := nonZeroBegin_le d.current_
  have hexl : d.existing.length = d.current_.keys.length - d.current_.NonZeroBegin := by
    rw [hex, List.length_drop]
  have hce : (d.candidates buffer).length + (d.evictions buffer).length
      ≤ d.current_.NonZeroBegin := by omega
  have hdrop : d.current_.keys.drop ((d.candidates buffer).length + (d.evictions buffer).length)
      = (d.current_.keys.take d.current_.NonZeroBegin).drop
          ((d.candidates buffer).length + (d.evictions buffer).length) ++ d.existing := by
    rw [hex]
    conv_lhs => rw [← List.take_append_drop d.current_.NonZeroBegin d.current_.keys]
    rw [List.drop_append_of_le_length]
    rw [List.length_take]
    omega
  have hzeros := take_nonZeroBegin_zero d.current_
  have hsortedAll : d.current_.keys.Pairwise (fun a c => a.key ≤ c.key) := by
    rw [← List.take_append_drop d.current_.NonZeroBegin d.current_.keys, List.pairwise_append]
    refine ⟨?_, hsorted.imp (fun h => Nat.le_of_lt h), ?_⟩
    · rw [List.pairwise_iff_forall_sublist]
      intro a c hac
      have := hzeros a (hac.subset (List.mem_cons_self _ _))
      omega
    · intro a ha c _
      have := hzeros a ha
      omega
  by_cases hB : ((d.candidates buffer).length = 0 ∧ (d.evictions buffer).length = 0) ∨
      d.current_.EmptyKeyCount = 0
  · -- nothing to place
    have hc0 : (d.candidates buffer).length = 0 ∧ (d.evictions buffer).length = 0 := by
      rcases hB with h | h
      · exact h
      · exact absurd h hempty
    have hcn := List.length_eq_zero.mp hc0.1
    have hen := List.length_eq_zero.mp hc0.2
    have hperm : d.current_.keys.Perm
        ((d.current_.keys.take d.current_.NonZeroBegin).drop
            ((d.candidates buffer).length + (d.evictions buffer).length)
          ++ (([] : List KeyValue) ++ (d.evictions buffer ++ d.existing))) := by
      rw [hc0.1, hc0.2, hen, hex]
      simp
    have hmem : ∀ s ∈ d.existing, s ∈ d.current_.keys := by
      intro s hs
      rw [hex] at hs
      exact List.mem_of_mem_drop hs
    by_cases hA : (buffer.pendingIn d.current_.first d.current_.last .Unprocessed).length
        + (d.evictions buffer).length = 0
    · refine ⟨d, buffer, offset, [], AddKeys_idle b d buffer offset hord hfl hA, rfl, rfl,
        SameFrame.refl _, fun e _ _ => by assumption, by rw [hcn], by rw [hcn],
        hperm, hsortedAll, hzeros, hmem⟩
    · refine ⟨_, _, offset, [], AddKeys_nothing b d buffer offset hord hfl hA hB, rfl, rfl,
        SameFrame.refl _, ?_, by rw [hcn], by rw [hcn], hperm, hsortedAll, hzeros,
        hmem⟩
      intro e he _
      exact ((mem_deduped d buffer e).mp he).1
  · obtain ⟨d1, buffer1, offset1, placed, hrun, hpl, hcur, _, hev, hsyn, _, _⟩ :=
      AddKeys_fill b d buffer offset hord hfl hB hfit
    obtain ⟨pk, plen, _, _, pord, _, pplaced, pother⟩ :=
      placeLoop_inv b _ _ _ _ _ _ _ _ (deduped_ordered d buffer hord)
        (sorted_distinct _ (candidates_sorted d buffer hord)) hpl
    have hperm : d1.current_.keys.Perm
        ((d.current_.keys.take d.current_.NonZeroBegin).drop
            ((d.candidates buffer).length + (d.evictions buffer).length)
          ++ (placed ++ (d.evictions buffer ++ d.existing))) := by
      rw [hcur]
      show (sortKeys _).Perm _
      refine (sortKeys_perm _).trans ?_
      rw [hdrop]
      have e1 : placed ++ (d.evictions buffer ++
          (List.drop ((d.candidates buffer).length + (d.evictions buffer).length)
            (List.take d.current_.NonZeroBegin d.current_.keys) ++ d.existing))
          = (placed ++ d.evictions buffer) ++
          (List.drop ((d.candidates buffer).length + (d.evictions buffer).length)
            (List.take d.current_.NonZeroBegin d.current_.keys) ++ d.existing) := by
        simp
      have e2 : List.drop ((d.candidates buffer).length + (d.evictions buffer).length)
            (List.take d.current_.NonZeroBegin d.current_.keys)
          ++ (placed ++ (d.evictions buffer ++ d.existing))
          = List.drop ((d.candidates buffer).length + (d.evictions buffer).length)
            (List.take d.current_.NonZeroBegin d.current_.keys)
          ++ ((placed ++ d.evictions buffer) ++ d.existing) := by
        simp
      rw [e1, e2, ← List.append_assoc, ← List.append_assoc]
      exact List.Perm.append_right _ List.perm_append_comm
    refine ⟨d1, buffer1, offset1, placed, hrun, hsyn, hev, ?_, ?_, pk, plen, hperm, ?_, hzeros,
      ?_⟩
    · rw [hcur]; exact SameFrame.keys _ _
    · intro e he hst
      rcases placed_not_evicted _ _ placed pord pplaced pother e he with h | ⟨h, _⟩
      · exact ((mem_deduped d buffer e).mp h).1
      · rw [hst] at h; exact absurd h (by simp)
    · rw [hcur]; exact sortKeys_sorted _
    · intro s hs
      exact hperm.symm.subset (List.mem_append_right _ (List.mem_append_right _
        (List.mem_append_right _ hs)))

/-! ## The loops of the overflow branch that assign offsets and evict -/

/-- The loop of the overflow branch over the rebuilt slots, when it returns. The slots that
are not synthetic and hold the key of a candidate get the running offset, in slot order;
the entries of their keys in the buffer get that offset and the state NeedsCommitting; no
other slot and no other entry changes; `existing` loses the keys of the slots that are not
synthetic. -/
theorem assignLoop_inv (b : Build) (candidates : List KeyValue) :
    ∀ (ks : List KeyValue) (buf : Buffer) (offset ins : Nat) (existing out : List KeyValue)
      (buf1 : Buffer) (offset1 ins1 : Nat) (existing1 : List KeyValue),
      buf.Ordered →
      (ks.filter (fun kv => !kv.IsSynthetic && decide (setCount kv candidates > 0))).Pairwise
        (fun a c => a.key ≠ c.key) →
      Delta.assignLoop b candidates ks buf offset ins existing
        = .ok (out, buf1, offset1, ins1, existing1) →
      ∃ placed : List KeyValue,
        placed.Sublist out ∧
        placed.map (fun p => p.key)
          = (ks.filter (fun kv => !kv.IsSynthetic && decide (setCount kv candidates > 0))).map
              (fun p => p.key) ∧
        placed.map (fun p => p.length)
          = (ks.filter (fun kv => !kv.IsSynthetic && decide (setCount kv candidates > 0))).map
              (fun p => p.length) ∧
        out.map (fun p => p.key) = ks.map (fun p => p.key) ∧
        (∀ s ∈ out, s ∈ placed ∨
          (s ∈ ks ∧ (s.IsSynthetic = true ∨ setCount s candidates = 0))) ∧
        (∀ s ∈ ks, (s.IsSynthetic = true ∨ setCount s candidates = 0) → s ∈ out) ∧
        ins1 = ins + placed.length ∧ Spec.Consecutive offset placed offset1 ∧
        buf1.Ordered ∧ buf1.buf_.map Prod.fst = buf.buf_.map Prod.fst ∧
        (∀ p ∈ placed, ∃ v, (p.key, v) ∈ buf.buf_ ∧
          (p.key, ⟨p.offset, v.length, v.value, .NeedsCommitting⟩) ∈ buf1.buf_) ∧
        (∀ e, (∀ p ∈ placed, p.key ≠ e.1) → (e ∈ buf1.buf_ ↔ e ∈ buf.buf_)) ∧
        existing1 = existing.filter
          (fun x => !ks.any (fun kv => !kv.IsSynthetic && kv.key == x.key)) := by
  intro ks
  induction ks with
  | nil =>
    intro buf offset ins existing out buf1 offset1 ins1 existing1 hord _ h
    simp only [Delta.assignLoop] at h
    injection h with h
    injection h with h1 h2
    injection h2 with h2 h3
    injection h3 with h3 h4
    injection h4 with h4 h5
    subst h1 h2 h3 h4 h5
    exact ⟨[], List.Sublist.refl _, rfl, rfl, rfl, fun s hs => absurd hs (by simp),
      fun s hs => absurd hs (by simp), rfl, rfl, hord, rfl, fun p hp => absurd hp (by simp),
      fun e _ => Iff.rfl, by simp⟩
  | cons kv rest ih =>
    intro buf offset ins existing out buf1 offset1 ins1 existing1 hord hnd h
    unfold Delta.assignLoop at h
    by_cases hsyn : kv.IsSynthetic = true
    · -- a synthetic slot is skipped
      rw [if_pos hsyn] at h
      simp only [bind, Except.bind] at h
      cases hrec : Delta.assignLoop b candidates rest buf offset ins existing with
      | error e => rw [hrec] at h; exact absurd h (by simp)
      | ok r =>
        obtain ⟨outR, bufR, offR, insR, exR⟩ := r
        rw [hrec] at h
        simp only [pure, Except.pure] at h
        injection h with h
        injection h with h1 h2
        injection h2 with h2 h3
        injection h3 with h3 h4
        injection h4 with h4 h5
        subst h1 h2 h3 h4 h5
        have hf : (kv :: rest).filter
            (fun kv => !kv.IsSynthetic && decide (setCount kv candidates > 0))
            = rest.filter (fun kv => !kv.IsSynthetic && decide (setCount kv candidates > 0)) := by
          rw [List.filter_cons]
          simp [hsyn]
        rw [hf] at hnd
        obtain ⟨placed, i1, i2, i3, i4, i5, i6, i7, i8, i9, i10, i11, i12, i13⟩ :=
          ih buf offset ins existing outR bufR offR insR exR hord hnd hrec
        refine ⟨placed, List.Sublist.cons _ i1, by rw [hf]; exact i2, by rw [hf]; exact i3,
          by simp only [List.map_cons, i4], ?_, ?_, i7, i8, i9, i10, i11, i12, ?_⟩
        · intro s hs
          rcases List.mem_cons.mp hs with e | e
          · exact Or.inr ⟨e ▸ List.mem_cons_self _ _, Or.inl (e ▸ hsyn)⟩
          · rcases i5 s e with h1 | h1
            · exact Or.inl h1
            · exact Or.inr ⟨List.mem_cons_of_mem _ h1.1, h1.2⟩
        · intro s hs hc
          rcases List.mem_cons.mp hs with e | e
          · exact e ▸ List.mem_cons_self _ _
          · exact List.mem_cons_of_mem _ (i6 s e hc)
        · rw [i13]
          apply List.filter_congr
          intro x _
          simp [List.any_cons, hsyn]
    · have hsynF : kv.IsSynthetic = false := by simpa using hsyn
      rw [if_neg hsyn] at h
      by_cases hcand : setCount kv candidates > 0
      · -- a slot that holds a candidate
        rw [if_pos hcand] at h
        simp only [bind, Except.bind, pure, Except.pure] at h
        cases hset : buf.SetOffset b kv.key offset with
        | error e => rw [hset] at h; exact absurd h (by simp)
        | ok bufS =>
          rw [hset] at h
          simp only at h
          cases hrec : Delta.assignLoop b candidates rest bufS ((offset + kv.length) % 2 ^ 64)
              (ins + 1) (setErase { kv with offset := offset } existing) with
          | error e => rw [hrec] at h; exact absurd h (by simp)
          | ok r =>
            obtain ⟨outR, bufR, offR, insR, exR⟩ := r
            rw [hrec] at h
            simp only at h
            injection h with h
            injection h with h1 h2
            injection h2 with h2 h3
            injection h3 with h3 h4
            injection h4 with h4 h5
            subst h1 h2 h3 h4 h5
            have hf : (kv :: rest).filter
                (fun kv => !kv.IsSynthetic && decide (setCount kv candidates > 0))
                = kv :: rest.filter
                  (fun kv => !kv.IsSynthetic && decide (setCount kv candidates > 0)) := by
              rw [List.filter_cons]
              simp [hsynF, hcand]
            rw [hf, List.pairwise_cons] at hnd
            obtain ⟨sord, skeys, ⟨v, hv, hv1⟩, sother⟩ :=
              SetOffset_effect b buf bufS hord _ _ hset
            obtain ⟨placed, i1, i2, i3, i4, i5, i6, i7, i8, i9, i10, i11, i12, i13⟩ :=
              ih bufS _ _ _ outR bufR offR insR exR sord hnd.2 hrec
            have hkeyR : ∀ p ∈ placed, p.key ≠ kv.key := by
              intro p hp
              have : p.key ∈ placed.map (fun p => p.key) := List.mem_map.mpr ⟨p, hp, rfl⟩
              rw [i2] at this
              obtain ⟨q, hq, hqk⟩ := List.mem_map.mp this
              rw [← hqk]
              exact fun e => hnd.1 q hq e.symm
            refine ⟨{ kv with offset := offset } :: placed, List.Sublist.cons₂ _ i1,
              by rw [hf]; simp only [List.map_cons, i2],
              by rw [hf]; simp only [List.map_cons, i3],
              by simp only [List.map_cons, i4], ?_, ?_, ?_, ⟨rfl, i8⟩, i9,
              by rw [i10, skeys], ?_, ?_, ?_⟩
            · intro s hs
              rcases List.mem_cons.mp hs with e | e
              · exact Or.inl (e ▸ List.mem_cons_self _ _)
              · rcases i5 s e with h1 | h1
                · exact Or.inl (List.mem_cons_of_mem _ h1)
                · exact Or.inr ⟨List.mem_cons_of_mem _ h1.1, h1.2⟩
            · intro s hs hc
              rcases List.mem_cons.mp hs with e | e
              · subst e
                rcases hc with hc | hc
                · rw [hc] at hsynF; exact absurd hsynF (by simp)
                · omega
              · exact List.mem_cons_of_mem _ (i6 s e hc)
            · simp only [List.length_cons]; omega
            · intro p hp
              rcases List.mem_cons.mp hp with e | e
              · subst e
                refine ⟨v, hv, ?_⟩
                exact (i12 (kv.key, ⟨offset, v.length, v.value, .NeedsCommitting⟩)
                  (fun p hp => hkeyR p hp)).mpr hv1
              · obtain ⟨w, hw, hw1⟩ := i11 p e
                exact ⟨w, (sother (p.key, w) (hkeyR p e)).mp hw, hw1⟩
            · intro e he
              have h1 : e.1 ≠ kv.key := fun h => he _ (List.mem_cons_self _ _) h.symm
              rw [i12 e (fun p hp => he p (List.mem_cons_of_mem _ hp)), sother e h1]
            · rw [i13]
              unfold setErase
              rw [List.filter_filter]
              apply List.filter_congr
              intro x _
              simp only [List.any_cons, hsynF, Bool.not_false, Bool.true_and, Bool.not_or, bne]
              by_cases hx : x.key = kv.key
              · simp [hx]
              · have b1 : (x.key == kv.key) = false := beq_false_of_ne hx
                have b2 : (kv.key == x.key) = false := beq_false_of_ne (fun h => hx h.symm)
                simp [b1, b2]
      · -- a slot that holds no candidate
        rw [if_neg hcand] at h
        simp only [bind, Except.bind, pure, Except.pure] at h
        cases hrec : Delta.assignLoop b candidates rest buf offset ins (setErase kv existing) with
        | error e => rw [hrec] at h; exact absurd h (by simp)
        | ok r =>
          obtain ⟨outR, bufR, offR, insR, exR⟩ := r
          rw [hrec] at h
          simp only at h
          injection h with h
          injection h with h1 h2
          injection h2 with h2 h3
          injection h3 with h3 h4
          injection h4 with h4 h5
          subst h1 h2 h3 h4 h5
          have hf : (kv :: rest).filter
              (fun kv => !kv.IsSynthetic && decide (setCount kv candidates > 0))
              = rest.filter
                (fun kv => !kv.IsSynthetic && decide (setCount kv candidates > 0)) := by
            rw [List.filter_cons]
            simp [hsynF, hcand]
          rw [hf] at hnd
          obtain ⟨placed, i1, i2, i3, i4, i5, i6, i7, i8, i9, i10, i11, i12, i13⟩ :=
            ih buf offset ins _ outR bufR offR insR exR hord hnd hrec
          refine ⟨placed, List.Sublist.cons _ i1, by rw [hf]; exact i2, by rw [hf]; exact i3,
            by simp only [List.map_cons, i4], ?_, ?_, i7, i8, i9, i10, i11, i12, ?_⟩
          · intro s hs
            rcases List.mem_cons.mp hs with e | e
            · exact Or.inr ⟨e ▸ List.mem_cons_self _ _, Or.inr (by rw [e]; omega)⟩
            · rcases i5 s e with h1 | h1
              · exact Or.inl h1
              · exact Or.inr ⟨List.mem_cons_of_mem _ h1.1, h1.2⟩
          · intro s hs hc
            rcases List.mem_cons.mp hs with e | e
            · exact e ▸ List.mem_cons_self _ _
            · exact List.mem_cons_of_mem _ (i6 s e hc)
          · rw [i13]
            unfold setErase
            rw [List.filter_filter]
            apply List.filter_congr
            intro x _
            simp only [List.any_cons, hsynF, Bool.not_false, Bool.true_and, Bool.not_or, bne]
            by_cases hx : x.key = kv.key
            · simp [hx]
            · have b1 : (x.key == kv.key) = false := beq_false_of_ne hx
              have b2 : (kv.key == x.key) = false := beq_false_of_ne (fun h => hx h.symm)
              simp [b1, b2]

/-- The loop of the overflow branch over what is left of `existing`, when it returns and
no key it evicts is in the buffer: the buffer gains one Evicted entry with the offset and
the length of each member that is not synthetic, and nothing else changes. -/
theorem evictLoop_inv (b : Build) :
    ∀ (ex : List KeyValue) (buf : Buffer) (ev : Nat) (buf1 : Buffer) (ev1 : Nat),
      buf.Ordered →
      (∀ x ∈ ex, x.IsSynthetic = false → ∀ e ∈ buf.buf_, e.1 ≠ x.key) →
      ex.Pairwise (fun a c => a.key ≠ c.key) →
      Delta.evictLoop b ex buf ev = .ok (buf1, ev1) →
      buf1.Ordered ∧ ev1 = ev + ex.countP (fun x => !x.IsSynthetic) ∧
      ∀ e, e ∈ buf1.buf_ ↔ (e ∈ buf.buf_ ∨ ∃ x ∈ ex, x.IsSynthetic = false ∧
        e = (x.key, ⟨x.offset, x.length, Buffer.emptyBufferValue, .Evicted⟩)) := by
  intro ex
  induction ex with
  | nil =>
    intro buf ev buf1 ev1 hord _ _ h
    simp only [Delta.evictLoop] at h
    injection h with h
    injection h with h1 h2
    subst h1 h2
    exact ⟨hord, by simp, fun e => by simp⟩
  | cons kv rest ih =>
    intro buf ev buf1 ev1 hord hfree hnd h
    rw [List.pairwise_cons] at hnd
    unfold Delta.evictLoop at h
    by_cases hsyn : kv.IsSynthetic = true
    · rw [if_pos hsyn] at h
      obtain ⟨i1, i2, i3⟩ := ih buf ev buf1 ev1 hord
        (fun x hx => hfree x (List.mem_cons_of_mem _ hx)) hnd.2 h
      refine ⟨i1, ?_, ?_⟩
      · rw [i2, List.countP_cons]
        simp [hsyn]
      · intro e
        rw [i3 e]
        constructor
        · rintro (h1 | ⟨x, hx, hx1, hx2⟩)
          · exact Or.inl h1
          · exact Or.inr ⟨x, List.mem_cons_of_mem _ hx, hx1, hx2⟩
        · rintro (h1 | ⟨x, hx, hx1, hx2⟩)
          · exact Or.inl h1
          · rcases List.mem_cons.mp hx with e1 | e1
            · rw [e1, hsyn] at hx1; exact absurd hx1 (by simp)
            · exact Or.inr ⟨x, e1, hx1, hx2⟩
    · have hsynF : kv.IsSynthetic = false := by simpa using hsyn
      rw [if_neg hsyn] at h
      have hnone : buf.find kv.key = none :=
        (find_none_iff buf kv.key).mpr (hfree kv (List.mem_cons_self _ _) hsynF)
      have hadd : buf.AddEvictee b kv.key kv.offset kv.length
          = .ok (⟨Buffer.leftInsert (kv.key, ⟨kv.offset, kv.length, Buffer.emptyBufferValue,
              .Evicted⟩) buf.buf_⟩,
            (Buffer.leftInsert (kv.key, ⟨kv.offset, kv.length, Buffer.emptyBufferValue,
              .Evicted⟩) buf.buf_).length) := by
        unfold Buffer.AddEvictee cassert
        rw [hnone]
        simp [bind, Except.bind, pure, Except.pure]
      rw [hadd] at h
      simp only [bind, Except.bind] at h
      have hmem := mem_leftInsert (kv.key, ⟨kv.offset, kv.length, Buffer.emptyBufferValue,
        .Evicted⟩) buf.buf_ (hfree kv (List.mem_cons_self _ _) hsynF)
      obtain ⟨i1, i2, i3⟩ := ih _ _ buf1 ev1
        (ordered_leftInsert _ _ hord)
        (by
          intro x hx hxs e he
          rcases (hmem e).mp he with e1 | e1
          · rw [e1]
            exact hnd.1 x hx
          · exact hfree x (List.mem_cons_of_mem _ hx) hxs e e1)
        hnd.2 h
      refine ⟨i1, ?_, ?_⟩
      · rw [i2, List.countP_cons]
        simp [hsynF]
        omega
      · intro e
        rw [i3 e, hmem e]
        constructor
        · rintro ((h1 | h1) | ⟨x, hx, hx1, hx2⟩)
          · exact Or.inr ⟨kv, List.mem_cons_self _ _, hsynF, h1⟩
          · exact Or.inl h1
          · exact Or.inr ⟨x, List.mem_cons_of_mem _ hx, hx1, hx2⟩
        · rintro (h1 | ⟨x, hx, hx1, hx2⟩)
          · exact Or.inl (Or.inr h1)
          · rcases List.mem_cons.mp hx with e1 | e1
            · rw [e1] at hx2; exact Or.inl (Or.inl hx2)
            · exact Or.inr ⟨x, e1, hx1, hx2⟩

/-- A member of the set after an insertion is the inserted element, with no element of
its key in the set before, or a member of the set before. -/
theorem mem_setInsert (kv : KeyValue) (acc : List KeyValue) (y : KeyValue)
    (h : y ∈ setInsert kv acc) : y ∈ acc ∨ (y = kv ∧ ∀ a ∈ acc, a.key ≠ kv.key) ∨
      (y = kv ∧ ¬ acc.Pairwise (fun a d => a.key < d.key)) := by
  induction acc with
  | nil =>
    simp only [setInsert, List.mem_singleton] at h
    exact Or.inr (Or.inl ⟨h, fun a ha => absurd ha (by simp)⟩)
  | cons x rest ih =>
    unfold setInsert at h
    by_cases hlt : kv.key < x.key
    · rw [if_pos hlt] at h
      rcases List.mem_cons.mp h with e | e
      · by_cases hs : (x :: rest).Pairwise (fun a d => a.key < d.key)
        · refine Or.inr (Or.inl ⟨e, ?_⟩)
          intro a ha
          rw [List.pairwise_cons] at hs
          rcases List.mem_cons.mp ha with e1 | e1
          · rw [e1]; omega
          · have := hs.1 a e1; omega
        · exact Or.inr (Or.inr ⟨e, hs⟩)
      · exact Or.inl e
    · rw [if_neg hlt] at h
      by_cases heq : kv.key = x.key
      · rw [if_pos heq] at h; exact Or.inl h
      · rw [if_neg heq] at h
        rcases List.mem_cons.mp h with e | e
        · exact Or.inl (e ▸ List.mem_cons_self _ _)
        · rcases ih e with h1 | ⟨h1, h2⟩ | ⟨h1, h2⟩
          · exact Or.inl (List.mem_cons_of_mem _ h1)
          · refine Or.inr (Or.inl ⟨h1, ?_⟩)
            intro a ha
            rcases List.mem_cons.mp ha with e1 | e1
            · rw [e1]; exact fun h => heq h.symm
            · exact h2 a e1
          · refine Or.inr (Or.inr ⟨h1, ?_⟩)
            intro hp
            exact h2 (List.Pairwise.of_cons hp)

/-- A member of the set after a run of insertions into a sorted set is a member of the set
before, or one of the inserted elements with no element of its key in the set before. -/
theorem mem_foldl_setInsert (l : List KeyValue) :
    ∀ (acc : List KeyValue) (y : KeyValue), acc.Pairwise (fun a d => a.key < d.key) →
      y ∈ l.foldl (fun acc kv => setInsert kv acc) acc →
      y ∈ acc ∨ (y ∈ l ∧ ∀ a ∈ acc, a.key ≠ y.key) := by
  induction l with
  | nil => intro acc y _ h; exact Or.inl h
  | cons kv rest ih =>
    intro acc y hs h
    simp only [List.foldl_cons] at h
    rcases ih (setInsert kv acc) y (setInsert_sorted kv acc hs) h with h1 | ⟨h1, h2⟩
    · rcases mem_setInsert kv acc y h1 with h3 | ⟨h3, h4⟩ | ⟨_, h4⟩
      · exact Or.inl h3
      · exact Or.inr ⟨h3 ▸ List.mem_cons_self _ _, by rw [h3]; exact h4⟩
      · exact absurd hs h4
    · refine Or.inr ⟨List.mem_cons_of_mem _ h1, ?_⟩
      intro a ha hk
      obtain ⟨z, hz, hzk⟩ := (setInsert_keys kv acc a.key).mpr (Or.inr ⟨a, ha, rfl⟩)
      exact h2 z hz (hzk.trans hk)

/-- The loop of `AddSyntheticKeyValues`, when it returns: a slot of the result is the slot
it was, not zero, or the synthetic slot of its stride position, where the slot was zero. -/
theorem addSyntheticLoop_shape (b : Build) (stride : Nat) :
    ∀ (ks : List KeyValue) (cursor count : Nat) (out : List KeyValue) (c : Nat),
      Node.addSyntheticLoop b stride ks cursor count = .ok (out, c) →
      ∀ i kv, out.get? i = some kv →
        (ks.get? i = some kv ∧ kv.key ≠ 0) ∨
        (∃ z, ks.get? i = some z ∧ z.key = 0 ∧
          kv = ⟨cursor + i * stride, SyntheticValue, 0⟩) := by
  intro ks
  induction ks with
  | nil =>
    intro cursor count out c h i kv hi
    simp only [Node.addSyntheticLoop] at h
    injection h with h
    injection h with h1 h2
    subst h1
    simp at hi
  | cons k rest ih =>
    intro cursor count out c h i kv hi
    unfold Node.addSyntheticLoop at h
    simp only [bind, Except.bind] at h
    cases hadd : KeyUtil.add b cursor stride with
    | error e => rw [hadd] at h; exact absurd h (by simp)
    | ok cursor1 =>
      rw [hadd] at h
      simp only at h
      have hc1 : cursor1 = cursor + stride := by
        unfold KeyUtil.add at hadd
        split at hadd
        · injection hadd with hadd; exact hadd.symm
        · exact absurd hadd (by simp)
      cases hrec : Node.addSyntheticLoop b stride rest cursor1
          (if k.IsZero then count + 1 else count) with
      | error e => rw [hrec] at h; exact absurd h (by simp)
      | ok r =>
        obtain ⟨rest1, c1⟩ := r
        rw [hrec] at h
        simp only [pure, Except.pure] at h
        injection h with h
        injection h with h1 h2
        subst h1
        cases i with
        | zero =>
          simp only [List.get?_cons_zero, Option.some.injEq] at hi
          by_cases hz : k.IsZero = true
          · rw [if_pos hz] at hi
            right
            refine ⟨k, rfl, ?_, by rw [← hi]; simp⟩
            simpa [KeyValue.IsZero] using hz
          · rw [if_neg hz] at hi
            left
            subst hi
            refine ⟨rfl, ?_⟩
            simpa [KeyValue.IsZero] using hz
        | succ j =>
          simp only [List.get?_cons_succ] at hi ⊢
          rcases ih cursor1 _ rest1 c1 hrec j kv hi with h1 | ⟨z, h1, h2, h3⟩
          · exact Or.inl h1
          · refine Or.inr ⟨z, h1, h2, ?_⟩
            rw [h3, hc1]
            congr 1
            rw [Nat.add_mul, Nat.one_mul]
            omega

/-! ## The slots that the overflow branch rebuilds -/

/-- The placement loop returns only when `NearestStride` returns for every key. -/
theorem strideLoop_defined (stride F : Nat) :
    ∀ (l : List KeyValue) (n : Node) (index best : Nat) (n1 : Node), n.first = F →
      Delta.strideLoop stride l n index best = .ok n1 →
      ∀ c ∈ l, ∃ r, KeyUtil.NearestStride F stride c.key = .ok r := by
  intro l
  induction l with
  | nil => intro n index best n1 _ _ c hc; exact absurd hc (by simp)
  | cons kv rest ih =>
    intro n index best n1 hF h c hc
    simp only [Delta.strideLoop, bind, Except.bind] at h
    rw [hF] at h
    cases hn : KeyUtil.NearestStride F stride kv.key with
    | error e => rw [hn] at h; exact absurd h (by simp)
    | ok r =>
      obtain ⟨distance, nearest⟩ := r
      rw [hn] at h
      simp only at h
      rcases List.mem_cons.mp hc with e | e
      · rw [e]; exact ⟨_, hn⟩
      · split at h
        · cases hs : n.SetKeyValue nearest kv with
          | error e => rw [hs] at h; exact absurd h (by simp)
          | ok n2 =>
            rw [hs] at h
            have hf : n2.first = F := by
              rw [← hF]; exact (SetKeyValue_frame n n2 _ _ hs).2.2.2.1
            exact ih n2 _ _ n1 hf h c e
        · exact ih n _ _ n1 hF h c e

/-- The placement loop over a set that is not empty returns only with a stride that is
not zero. -/
theorem strideLoop_stride_pos (stride : Nat) (kv : KeyValue) (rest : List KeyValue) (n n1 : Node)
    (index best : Nat) (h : Delta.strideLoop stride (kv :: rest) n index best = .ok n1) :
    0 < stride := by
  obtain ⟨r, hr⟩ := strideLoop_defined stride n.first (kv :: rest) n index best n1 rfl h kv
    (List.mem_cons_self _ _)
  by_contra h0
  have h1 : stride = 0 := by omega
  subst h1
  unfold KeyUtil.NearestStride KeyUtil.sub at hr
  split at hr <;> simp [bind, Except.bind, throw, throwThe, MonadExceptOf.throw] at hr

/-- A filtered list is pairwise related when the elements it keeps are, by position. -/
theorem pairwise_filter_of_get {α : Type} (R : α → α → Prop) (p : α → Bool) :
    ∀ (l : List α),
      (∀ i j a c, i < j → l.get? i = some a → l.get? j = some c → p a = true → p c = true →
        R a c) →
      (l.filter p).Pairwise R := by
  intro l
  induction l with
  | nil => intro _; exact List.Pairwise.nil
  | cons x rest ih =>
    intro h
    have hrest : (rest.filter p).Pairwise R :=
      ih (fun i j a c hij ha hc => h (i + 1) (j + 1) a c (by omega)
        (by simpa using ha) (by simpa using hc))
    rw [List.filter_cons]
    by_cases hp : p x = true
    · rw [if_pos hp]
      refine List.Pairwise.cons ?_ hrest
      intro c hc
      obtain ⟨hc1, hc2⟩ := List.mem_filter.mp hc
      obtain ⟨j, hj⟩ := List.mem_iff_get?.mp hc1
      exact h 0 (j + 1) x c (by omega) rfl (by simpa using hj) hp hc2
    · rw [if_neg hp]
      exact hrest

/-- The lengths of slots with distinct keys taken from a list sum to at most the lengths of
the list. -/
theorem sum_length_le (L M : List KeyValue) (hnd : L.Pairwise (fun a c => a.key ≠ c.key))
    (hsub : ∀ x ∈ L, x ∈ M) :
    (L.map (fun p => p.length)).sum ≤ (M.map (fun p => p.length)).sum := by
  have hn : L.Nodup := hnd.imp (fun h e => h (by rw [e]))
  obtain ⟨l1, hperm, hsl⟩ := List.subperm_of_subset hn hsub
  have h1 : (l1.map (fun p => p.length)).sum = (L.map (fun p => p.length)).sum :=
    (hperm.map _).sum_eq
  rw [← h1]
  exact List.Sublist.sum_le_sum (hsl.map _) (fun a _ => Nat.zero_le a)

/-- Slots whose keys and lengths are, position by position, those of a list have each the
key and the length of a member of the list. -/
theorem mem_of_maps : ∀ (placed l : List KeyValue),
    placed.map (fun p => p.key) = l.map (fun p => p.key) →
    placed.map (fun p => p.length) = l.map (fun p => p.length) →
    ∀ p ∈ placed, ∃ c ∈ l, c.key = p.key ∧ c.length = p.length := by
  intro placed
  induction placed with
  | nil => intro l _ _ p hp; exact absurd hp (by simp)
  | cons x rest ih =>
    intro l hk hl p hp
    cases l with
    | nil => simp at hk
    | cons y l1 =>
      simp only [List.map_cons, List.cons.injEq] at hk hl
      rcases List.mem_cons.mp hp with e | e
      · exact ⟨y, List.mem_cons_self _ _, by rw [e]; exact hk.1.symm, by rw [e]; exact hl.1.symm⟩
      · obtain ⟨c, hc, hc1⟩ := ih l1 hk.2 hl.2 p e
        exact ⟨c, List.mem_cons_of_mem _ hc, hc1⟩

/-- The slots after the placement loop and `AddSyntheticKeyValues` of the overflow branch,
when both return: slot `i` holds a key of the combined set that `NearestStride` sends to
`i`, or the synthetic key of its stride position, which is the key of no member of the
combined set. -/
theorem overflow_slots (b : Build) (stride : Nat) (combined : List KeyValue)
    (n cur1 cur2 : Node) (synthetics : Nat) (hne : combined ≠ [])
    (hsorted : combined.Pairwise (fun a c => a.key < c.key))
    (hin : ∀ kv ∈ combined, n.first < kv.key)
    (hclear : ∀ kv ∈ n.keys, kv.key = 0)
    (hstride : n.Stride = .ok stride)
    (hrun : Delta.strideLoop stride combined n 0 (KeyUtil.Max b) = .ok cur1)
    (hsyn : cur1.AddSyntheticKeyValues b = .ok (cur2, synthetics)) :
    n.SameFrame cur2 ∧
    ∀ i kv, cur2.keys.get? i = some kv →
      (kv ∈ combined ∧ kv.key ≠ 0 ∧
        ∃ dd, KeyUtil.NearestStride n.first stride kv.key = .ok (dd, i)) ∨
      (kv = ⟨n.first + (i + 1) * stride, SyntheticValue, 0⟩ ∧
        ∀ c ∈ combined, c.key ≠ n.first + (i + 1) * stride) := by
  have hs : 0 < stride := by
    cases combined with
    | nil => exact absurd rfl hne
    | cons kv rest => exact strideLoop_stride_pos stride kv rest n cur1 0 _ hrun
  have hfr1 := strideLoop_frame stride combined n cur1 0 _ hrun
  have hfr2 := AddSyntheticKeyValues_frame b cur1 cur2 synthetics hsyn
  refine ⟨SameFrame.trans hfr1 hfr2, ?_⟩
  have hst1 : cur1.Stride = .ok stride := by
    rw [← hstride]
    unfold Node.Stride Node.Degree
    rw [hfr1.2.2.2.1, hfr1.2.2.2.2.1, hfr1.2.2.2.2.2]
  have hdef := strideLoop_defined stride n.first combined n 0 _ cur1 rfl hrun
  unfold Node.AddSyntheticKeyValues at hsyn
  rw [hst1] at hsyn
  simp only [bind, Except.bind] at hsyn
  cases h2 : KeyUtil.add b cur1.first stride with
  | error e => rw [h2] at hsyn; exact absurd hsyn (by simp)
  | ok cursor =>
    rw [h2] at hsyn
    simp only at hsyn
    have hcur : cursor = n.first + stride ∧ stride ≤ KeyUtil.Max b := by
      unfold KeyUtil.add at h2
      split at h2
      · injection h2 with h2
        rw [hfr1.2.2.2.1] at h2
        rename_i hle
        exact ⟨h2.symm, by omega⟩
      · exact absurd h2 (by simp)
    cases h3 : Node.addSyntheticLoop b stride cur1.keys cursor 0 with
    | error e => rw [h3] at hsyn; exact absurd hsyn (by simp)
    | ok res =>
      obtain ⟨out, c⟩ := res
      rw [h3] at hsyn
      simp only [pure, Except.pure] at hsyn
      injection hsyn with hsyn
      injection hsyn with hn2 _
      have hslots := (strideLoop_slots stride (KeyUtil.Max b) combined n cur1 hs hcur.2
        hsorted hin hclear hrun).2
      intro i kv hget
      rw [← hn2] at hget
      rcases addSyntheticLoop_shape b stride _ _ _ _ _ h3 i kv hget with ⟨h4, h5⟩ | ⟨z, h4, h5, h6⟩
      · rcases hslots i kv h4 with ⟨hz, _⟩ | ⟨hm, dd, hd, _⟩
        · exact absurd hz h5
        · exact Or.inl ⟨hm, h5, dd, hd⟩
      · right
        rw [hcur.1] at h6
        have hkey : n.first + stride + i * stride = n.first + (i + 1) * stride := by
          rw [Nat.add_mul, Nat.one_mul]; omega
        rw [hkey] at h6
        refine ⟨h6, ?_⟩
        intro c1 hc1 hck
        rcases hslots i z h4 with ⟨_, hno⟩ | ⟨hm, _⟩
        · obtain ⟨r, hr⟩ := hdef c1 hc1
          rcases NearestStride_cases n.first stride c1.key (by rw [hck]; omega) hs with h7 | h7
          · have hq : (c1.key - n.first) / stride = i + 1 := by
              rw [hck, Nat.add_sub_cancel_left, Nat.mul_div_cancel _ hs]
            rw [hq] at h7
            exact hno c1 hc1 _ h7
          · rw [h7] at hr; exact absurd hr (by simp)
        · have := hin z hm
          omega

/-- Two members of a set with the same key are the same member. -/
theorem sorted_key_unique (l : List KeyValue) (hs : l.Pairwise (fun a c => a.key < c.key))
    (a c : KeyValue) (ha : a ∈ l) (hc : c ∈ l) (hk : a.key = c.key) : a = c := by
  induction l with
  | nil => exact absurd ha (by simp)
  | cons x rest ih =>
    rw [List.pairwise_cons] at hs
    rcases List.mem_cons.mp ha with e1 | e1 <;> rcases List.mem_cons.mp hc with e2 | e2
    · rw [e1, e2]
    · have := hs.1 c e2; rw [← e1] at this; omega
    · have := hs.1 a e1; rw [← e2] at this; omega
    · exact ih hs.2 e1 e2

theorem mem_existing (d : Delta) (x : KeyValue) (hx : x ∈ d.existing) :
    x ∈ d.current_.keys.drop d.current_.NonZeroBegin := by
  unfold Delta.existing at hx
  rcases mem_foldl_setInsert _ [] x List.Pairwise.nil hx with h | ⟨h, _⟩
  · exact absurd h (by simp)
  · exact h

theorem combined_sorted (d : Delta) (buffer : Buffer) (hord : buffer.Ordered) :
    (d.combined buffer).Pairwise (fun a c => a.key < c.key) :=
  foldl_setInsert_sorted _ _ (foldl_setInsert_sorted _ _ (candidates_sorted d buffer hord))

/-- A member of `combined` is a candidate, or an eviction with the key of no candidate, or
a member of `existing` with the key of no candidate and no eviction. -/
theorem mem_combined (d : Delta) (buffer : Buffer) (hord : buffer.Ordered) (kv : KeyValue)
    (h : kv ∈ d.combined buffer) :
    kv ∈ d.candidates buffer ∨
    (kv ∈ d.evictions buffer ∧ ∀ c ∈ d.candidates buffer, c.key ≠ kv.key) ∨
    (kv ∈ d.existing ∧ (∀ c ∈ d.candidates buffer, c.key ≠ kv.key) ∧
      ∀ e ∈ d.evictions buffer, e.key ≠ kv.key) := by
  unfold Delta.combined at h
  rcases mem_foldl_setInsert _ _ kv
    (foldl_setInsert_sorted _ _ (candidates_sorted d buffer hord)) h with h1 | ⟨h1, h2⟩
  · rcases mem_foldl_setInsert _ _ kv (candidates_sorted d buffer hord) h1 with h3 | ⟨h3, h4⟩
    · exact Or.inl h3
    · exact Or.inr (Or.inl ⟨h3, h4⟩)
  · refine Or.inr (Or.inr ⟨h1, ?_, ?_⟩)
    · intro c hc hk
      obtain ⟨y, hy, hyk⟩ := (foldl_setInsert_keys (d.evictions buffer) (d.candidates buffer)
        kv.key).mpr (Or.inr ⟨c, hc, hk⟩)
      exact h2 y hy hyk
    · intro e he hk
      obtain ⟨y, hy, hyk⟩ := (foldl_setInsert_keys (d.evictions buffer) (d.candidates buffer)
        kv.key).mpr (Or.inl ⟨e, he, hk⟩)
      exact h2 y hy hyk

/-- The keys of `combined` are the keys of the candidates, the evictions and `existing`. -/
theorem combined_keys (d : Delta) (buffer : Buffer) (k : Nat) :
    (∃ y ∈ d.combined buffer, y.key = k) ↔
      ((∃ y ∈ d.existing, y.key = k) ∨ (∃ y ∈ d.evictions buffer, y.key = k) ∨
        ∃ y ∈ d.candidates buffer, y.key = k) := by
  unfold Delta.combined
  rw [foldl_setInsert_keys, foldl_setInsert_keys]

theorem combined_above (d : Delta) (buffer : Buffer) (hord : buffer.Ordered)
    (hin : ∀ x ∈ d.existing, d.current_.first < x.key) :
    ∀ kv ∈ d.combined buffer, d.current_.first < kv.key := by
  intro kv hkv
  rcases mem_combined d buffer hord kv hkv with h | ⟨h, _⟩ | ⟨h, _⟩
  · obtain ⟨v, _, _, h1, _⟩ := (mem_candidates d buffer kv).mp h
    exact h1
  · obtain ⟨e, _, h1, _, _, h2⟩ := (mem_pendingIn buffer _ _ _ kv).mp h
    rw [h2]; exact h1
  · exact hin kv h

theorem existing_length_le (d : Delta) :
    d.existing.length ≤ d.current_.keys.length := by
  have h1 : ∀ (l acc : List KeyValue),
      (l.foldl (fun acc kv => setInsert kv acc) acc).length ≤ acc.length + l.length := by
    intro l
    induction l with
    | nil => intro acc; simp
    | cons x rest ih =>
      intro acc
      simp only [List.foldl_cons, List.length_cons]
      have h2 : (setInsert x acc).length ≤ acc.length + 1 := by
        induction acc with
        | nil => simp [setInsert]
        | cons y r ih2 =>
          unfold setInsert
          split
          · simp
          · split
            · simp
            · simp only [List.length_cons]; omega
      have := ih (setInsert x acc)
      omega
  have := h1 (d.current_.keys.drop d.current_.NonZeroBegin) []
  unfold Delta.existing
  simp only [List.length_nil, List.length_drop] at this
  omega

/-- The slots of the overflow branch before the offsets are assigned. -/
theorem overflow_cur2 (b : Build) (d : Delta) (buffer : Buffer) (hord : buffer.Ordered)
    (hin : ∀ x ∈ d.existing, d.current_.first < x.key)
    (hover : ¬ d.existing.length + (d.candidates buffer).length + (d.evictions buffer).length
        ≤ d.current_.keys.length)
    (stride : Nat) (cur1 cur2 : Node) (synthetics : Nat)
    (hstride : d.current_.Clear.Stride = .ok stride)
    (hrun : Delta.strideLoop stride (d.combined buffer) d.current_.Clear 0 (KeyUtil.Max b)
      = .ok cur1)
    (hsyn : cur1.AddSyntheticKeyValues b = .ok (cur2, synthetics)) :
    d.current_.SameFrame cur2 ∧
    ∀ i kv, cur2.keys.get? i = some kv →
      (kv ∈ d.combined buffer ∧ kv.key ≠ 0 ∧
        ∃ dd, KeyUtil.NearestStride d.current_.first stride kv.key = .ok (dd, i)) ∨
      (kv = ⟨d.current_.first + (i + 1) * stride, SyntheticValue, 0⟩ ∧
        ∀ c ∈ d.combined buffer, c.key ≠ d.current_.first + (i + 1) * stride) := by
  have hne : d.combined buffer ≠ [] := by
    intro hnil
    have hk := combined_keys d buffer
    rw [hnil] at hk
    have hle := existing_length_le d
    have h3 : d.existing = [] ∨ d.existing ≠ [] := by
      by_cases h : d.existing = []
      · exact Or.inl h
      · exact Or.inr h
    have hnone : ∀ (l : List KeyValue), (∀ k, ¬ ∃ y ∈ l, y.key = k) → l.length = 0 := by
      intro l hl
      cases l with
      | nil => rfl
      | cons y r => exact absurd ⟨y, List.mem_cons_self _ _, rfl⟩ (hl y.key)
    have e1 := hnone d.existing (fun k hk1 => by
      have := (hk k).mpr (Or.inl hk1)
      simp at this)
    have e2 := hnone (d.evictions buffer) (fun k hk1 => by
      have := (hk k).mpr (Or.inr (Or.inl hk1))
      simp at this)
    have e3 := hnone (d.candidates buffer) (fun k hk1 => by
      have := (hk k).mpr (Or.inr (Or.inr hk1))
      simp at this)
    omega
  have hclear : ∀ kv ∈ d.current_.Clear.keys, kv.key = 0 := by
    intro kv hkv
    unfold Node.Clear at hkv
    rw [List.eq_of_mem_replicate hkv]
  have h := overflow_slots b stride (d.combined buffer) d.current_.Clear cur1 cur2 synthetics
    hne (combined_sorted d buffer hord) (combined_above d buffer hord hin) hclear hstride hrun
    hsyn
  exact ⟨SameFrame.trans (SameFrame.keys d.current_ _) h.1, h.2⟩

/-- In the overflow branch a slot with the key of a member of `existing` is that member,
when no Evicted entry of the buffer has that key. -/
theorem overflow_slot_of_existing (d : Delta) (buffer : Buffer) (hord : buffer.Ordered)
    (stride : Nat) (ks : List KeyValue)
    (hslots : ∀ i kv, ks.get? i = some kv →
      (kv ∈ d.combined buffer ∧ kv.key ≠ 0 ∧
        ∃ dd, KeyUtil.NearestStride d.current_.first stride kv.key = .ok (dd, i)) ∨
      (kv = ⟨d.current_.first + (i + 1) * stride, SyntheticValue, 0⟩ ∧
        ∀ c ∈ d.combined buffer, c.key ≠ d.current_.first + (i + 1) * stride))
    (x : KeyValue) (hx : x ∈ d.existing)
    (hfree : ∀ v, (x.key, v) ∈ buffer.buf_ → v.status = .Unprocessed)
    (kv : KeyValue) (hkv : kv ∈ ks) (hk : kv.key = x.key) : kv = x := by
  obtain ⟨i, hi⟩ := List.mem_iff_get?.mp hkv
  rcases hslots i kv hi with ⟨hm, _, _⟩ | ⟨he, hno⟩
  · rcases mem_combined d buffer hord kv hm with h | ⟨h, _⟩ | ⟨h, _⟩
    · obtain ⟨_, _, _, _, _, h1, _⟩ := (mem_candidates d buffer kv).mp h
      exact absurd hk.symm (h1 x hx)
    · obtain ⟨e, he, _, _, h1, h2⟩ := (mem_pendingIn buffer _ _ _ kv).mp h
      have hke : e.1 = x.key := by rw [← hk, h2]
      have := hfree e.2 (by rw [← hke]; exact he)
      rw [h1] at this
      exact absurd this (by simp)
    · exact sorted_key_unique _ (existing_sorted d) kv x h hx hk
  · obtain ⟨y, hy, hyk⟩ := (combined_keys d buffer x.key).mpr (Or.inl ⟨x, hx, rfl⟩)
    have := hno y hy
    rw [hyk, ← hk, he] at this
    exact absurd rfl this

/-- The loop of the overflow branch that assigns the offsets, on the slots the branch has
rebuilt: the slots it assigns are candidates, each once. -/
theorem overflow_assign (b : Build) (d : Delta) (buffer : Buffer) (hord : buffer.Ordered)
    (stride : Nat) (cur2 : Node)
    (hslots : ∀ i kv, cur2.keys.get? i = some kv →
      (kv ∈ d.combined buffer ∧ kv.key ≠ 0 ∧
        ∃ dd, KeyUtil.NearestStride d.current_.first stride kv.key = .ok (dd, i)) ∨
      (kv = ⟨d.current_.first + (i + 1) * stride, SyntheticValue, 0⟩ ∧
        ∀ c ∈ d.combined buffer, c.key ≠ d.current_.first + (i + 1) * stride))
    (ks : List KeyValue) (bufA : Buffer) (offset offset1 ins0 ins : Nat)
    (existing1 : List KeyValue)
    (hassign : Delta.assignLoop b (d.candidates buffer) cur2.keys (d.deduped buffer) offset
      ins0 d.existing = .ok (ks, bufA, offset1, ins, existing1)) :
    ∃ placed : List KeyValue,
      placed.Sublist ks ∧
      (∀ p ∈ placed, ∃ c ∈ d.candidates buffer, c.key = p.key ∧ c.length = p.length) ∧
      (placed.map (fun p => p.length)).sum
        ≤ ((d.candidates buffer).map (fun p => p.length)).sum ∧
      ks.map (fun p => p.key) = cur2.keys.map (fun p => p.key) ∧
      (∀ s ∈ ks, s ∈ placed ∨
        (s ∈ cur2.keys ∧ (s.IsSynthetic = true ∨ setCount s (d.candidates buffer) = 0))) ∧
      ins = ins0 + placed.length ∧ Spec.Consecutive offset placed offset1 ∧
      bufA.Ordered ∧ bufA.buf_.map Prod.fst = (d.deduped buffer).buf_.map Prod.fst ∧
      (∀ p ∈ placed, ∃ v, (p.key, v) ∈ (d.deduped buffer).buf_ ∧
        (p.key, ⟨p.offset, v.length, v.value, .NeedsCommitting⟩) ∈ bufA.buf_) ∧
      (∀ e, (∀ p ∈ placed, p.key ≠ e.1) → (e ∈ bufA.buf_ ↔ e ∈ (d.deduped buffer).buf_)) ∧
      existing1 = d.existing.filter
        (fun x => !cur2.keys.any (fun kv => !kv.IsSynthetic && kv.key == x.key)) := by
  have hsynth : ∀ (k : Nat), (⟨k, SyntheticValue, 0⟩ : KeyValue).IsSynthetic = true := by
    intro k; simp [KeyValue.IsSynthetic]
  have hnd : (cur2.keys.filter
      (fun kv => !kv.IsSynthetic && decide (setCount kv (d.candidates buffer) > 0))).Pairwise
      (fun a c => a.key ≠ c.key) := by
    apply pairwise_filter_of_get
    intro i j a c hij ha hc hpa hpc hk
    simp only [Bool.and_eq_true, Bool.not_eq_true', decide_eq_true_eq] at hpa hpc
    rcases hslots i a ha with ⟨_, _, da, hda⟩ | ⟨he, _⟩
    · rcases hslots j c hc with ⟨_, _, dc, hdc⟩ | ⟨he, _⟩
      · rw [hk, hdc] at hda
        injection hda with hda
        injection hda with _ hda
        omega
      · rw [he, hsynth] at hpc; exact absurd hpc.1 (by simp)
    · rw [he, hsynth] at hpa; exact absurd hpa.1 (by simp)
  have hsub : ∀ x ∈ cur2.keys.filter
      (fun kv => !kv.IsSynthetic && decide (setCount kv (d.candidates buffer) > 0)),
      x ∈ d.candidates buffer := by
    intro x hx
    obtain ⟨hx1, hx2⟩ := List.mem_filter.mp hx
    simp only [Bool.and_eq_true, Bool.not_eq_true', decide_eq_true_eq] at hx2
    obtain ⟨i, hi⟩ := List.mem_iff_get?.mp hx1
    have hc : ∃ c ∈ d.candidates buffer, c.key = x.key := by
      have := hx2.2
      unfold setCount at this
      obtain ⟨c, hc, hck⟩ := List.countP_pos_iff.mp this
      exact ⟨c, hc, by simpa using hck⟩
    obtain ⟨c, hc, hck⟩ := hc
    rcases hslots i x hi with ⟨hm, _, _⟩ | ⟨he, _⟩
    · rcases mem_combined d buffer hord x hm with h | ⟨_, h⟩ | ⟨_, h, _⟩
      · exact h
      · exact absurd hck (h c hc)
      · exact absurd hck (h c hc)
    · rw [he, hsynth] at hx2; exact absurd hx2.1 (by simp)
  obtain ⟨placed, i1, i2, i3, i4, i5, _, i7, i8, i9, i10, i11, i12, i13⟩ :=
    assignLoop_inv b (d.candidates buffer) cur2.keys (d.deduped buffer) offset ins0 d.existing
      ks bufA offset1 ins existing1 (deduped_ordered d buffer hord) hnd hassign
  refine ⟨placed, i1, ?_, ?_, i4, i5, i7, i8, i9, i10, i11, i12, i13⟩
  · intro p hp
    obtain ⟨f, hf, hfk⟩ := mem_of_maps placed _ i2 i3 p hp
    exact ⟨f, hsub f hf, hfk⟩
  · rw [i3]
    exact sum_length_le _ _ hnd hsub

/-- After the offsets are assigned the buffer holds, beside what it held, only entries in
the state NeedsCommitting with the key and the offset of a slot that was assigned. -/
theorem placed_entries (d : Delta) (buffer bufA : Buffer) (placed : List KeyValue)
    (hordA : bufA.Ordered)
    (h1 : ∀ p ∈ placed, ∃ v, (p.key, v) ∈ (d.deduped buffer).buf_ ∧
      (p.key, ⟨p.offset, v.length, v.value, .NeedsCommitting⟩) ∈ bufA.buf_)
    (h2 : ∀ e, (∀ p ∈ placed, p.key ≠ e.1) → (e ∈ bufA.buf_ ↔ e ∈ (d.deduped buffer).buf_)) :
    ∀ e ∈ bufA.buf_, e ∈ buffer.buf_ ∨
      (e.2.status = .NeedsCommitting ∧ ∃ p ∈ placed, p.key = e.1 ∧ e.2.offset = p.offset) := by
  intro e he
  rcases placed_not_evicted (d.deduped buffer) bufA placed hordA h1 h2 e he with h | h
  · exact Or.inl ((mem_deduped d buffer e).mp h).1
  · exact Or.inr h

/-- The evictions of `AddKeys` in the overflow branch: the node has an empty slot and `existing`, the
candidates and the evictions together exceed its slots. Every member of `existing` lies
strictly inside the range of the node, the buffer is in key order, and an entry of the
buffer with the key of a member of `existing` that is not synthetic is Unprocessed (the
precondition that `AddEvictee` asserts). When `AddKeys` returns: every member of `existing`
that is not synthetic and whose key is the key of no slot of the rebuilt node has an entry
in the buffer with its key, its offset and its length, no value bytes and the state
Evicted; every entry of the buffer was there before, or is the entry of a slot that was
just assigned an offset, or is such an evictee, whose key is the key of no slot, synthetic
or not, of the rebuilt node; the evictions counter grows by the number of evictees; and an
evictee is not ready for writing, so `Write` does not append it to the value log. -/
theorem overflow_evictions (b : Build) (d d1 : Delta) (buffer buffer1 : Buffer)
    (offset offset1 : Nat) (hord : buffer.Ordered)
    (hinside : ∀ x ∈ d.existing, d.current_.first < x.key ∧ x.key < d.current_.last)
    (hfree : ∀ x ∈ d.existing, x.IsSynthetic = false →
      ∀ v, (x.key, v) ∈ buffer.buf_ → v.status = .Unprocessed)
    (hempty : d.current_.EmptyKeyCount ≠ 0)
    (hover : d.current_.keys.length
      < d.existing.length + (d.candidates buffer).length + (d.evictions buffer).length)
    (h : d.AddKeys b buffer offset = .ok (d1, buffer1, offset1)) :
    (∀ x ∈ d.existing, x.IsSynthetic = false → (∀ s ∈ d1.current_.keys, s.key ≠ x.key) →
      (x.key, (⟨x.offset, x.length, Buffer.emptyBufferValue, .Evicted⟩ : Value))
        ∈ buffer1.buf_) ∧
    (∀ e ∈ buffer1.buf_, e ∈ buffer.buf_ ∨
      (e.2.status = .NeedsCommitting ∧
        ∃ p ∈ d1.current_.keys, p.key = e.1 ∧ e.2.offset = p.offset) ∨
      (∃ x ∈ d.existing, x.IsSynthetic = false ∧ (∀ s ∈ d1.current_.keys, s.key ≠ x.key) ∧
        e = (x.key, ⟨x.offset, x.length, Buffer.emptyBufferValue, .Evicted⟩) ∧
        e.2.ReadyForWriting = false)) ∧
    d1.evictions_ = d.evictions_ + d.existing.countP
      (fun x => !x.IsSynthetic && !d1.current_.keys.any (fun s => s.key == x.key)) ∧
    d.current_.SameFrame d1.current_ := by
  have hfl : d.current_.first < d.current_.last := by
    cases hx : d.existing with
    | cons x r =>
      have := hinside x (by rw [hx]; exact List.mem_cons_self _ _)
      omega
    | nil =>
      cases hc : d.candidates buffer with
      | cons c r =>
        obtain ⟨_, _, _, h1, h2, _⟩ := (mem_candidates d buffer c).mp
          (by rw [hc]; exact List.mem_cons_self _ _)
        omega
      | nil =>
        cases he : d.evictions buffer with
        | cons e r =>
          obtain ⟨_, _, h1, h2, _⟩ := (mem_pendingIn buffer _ _ _ e).mp
            (by
              have : e ∈ d.evictions buffer := by rw [he]; exact List.mem_cons_self _ _
              exact this)
          omega
        | nil =>
          rw [hx, hc, he] at hover
          simp at hover
  have hle := existing_length_le d
  rcases AddKeys_cases b d d1 buffer buffer1 offset offset1 hord hfl h with
    ⟨h0, _⟩ | ⟨h0, _⟩ | ⟨_, h0, _⟩ |
    ⟨_, hov, stride, cur1, cur2, synthetics, ks, bufA, ins, existing1, ev, hstride, hrun, hsyn,
      hassign, hevict, hcur, _, _, hev, _, _, _⟩
  · have := candidates_length_le d buffer
    omega
  · rcases h0 with h0 | h0
    · omega
    · exact absurd h0 hempty
  · omega
  have hrun1 : Delta.strideLoop stride (d.combined buffer) d.current_.Clear 0 (KeyUtil.Max b)
      = .ok cur1 := hrun
  obtain ⟨hframe, hslots⟩ := overflow_cur2 b d buffer hord (fun x hx => (hinside x hx).1) hov
    stride cur1 cur2 synthetics hstride hrun1 hsyn
  obtain ⟨placed, p1, _, _, p4, _, _, _, p9, p10, p11, p12, p13⟩ :=
    overflow_assign b d buffer hord stride cur2 hslots ks bufA offset offset1 d.insertions_ ins
      existing1 hassign
  have hkeys : d1.current_.keys = ks := by rw [hcur]
  -- the keys of the slots are the same before and after the offsets are assigned
  have hsame : ∀ k, (∃ s ∈ ks, s.key = k) ↔ ∃ kv ∈ cur2.keys, kv.key = k := by
    intro k
    have e1 : (∃ s ∈ ks, s.key = k) ↔ k ∈ ks.map (fun p => p.key) := by
      rw [List.mem_map]
    have e2 : (∃ s ∈ cur2.keys, s.key = k) ↔ k ∈ cur2.keys.map (fun p => p.key) := by
      rw [List.mem_map]
    rw [e1, e2, p4]
  -- a member of existing is erased exactly when a slot holds its key
  have herased : ∀ x ∈ d.existing, x.IsSynthetic = false →
      (cur2.keys.any (fun kv => !kv.IsSynthetic && kv.key == x.key) = true ↔
        ∃ s ∈ ks, s.key = x.key) := by
    intro x hx hxs
    rw [hsame, List.any_eq_true]
    constructor
    · rintro ⟨kv, hkv, hk⟩
      simp only [Bool.and_eq_true, beq_iff_eq] at hk
      exact ⟨kv, hkv, hk.2⟩
    · rintro ⟨kv, hkv, hk⟩
      have := overflow_slot_of_existing d buffer hord stride cur2.keys hslots x hx
        (hfree x hx hxs) kv hkv hk
      refine ⟨kv, hkv, ?_⟩
      rw [this, hxs]
      simp
  have hmem1 : ∀ x, x ∈ existing1 ↔ x ∈ d.existing ∧
      cur2.keys.any (fun kv => !kv.IsSynthetic && kv.key == x.key) = false := by
    intro x
    rw [p13, List.mem_filter]
    simp
  have hnd1 : existing1.Pairwise (fun a c => a.key ≠ c.key) := by
    rw [p13]
    exact List.Pairwise.filter _ (sorted_distinct _ (existing_sorted d))
  have hfreeA : ∀ x ∈ existing1, x.IsSynthetic = false → ∀ e ∈ bufA.buf_, e.1 ≠ x.key := by
    intro x hx hxs e he hk
    have hxe := ((hmem1 x).mp hx).1
    have h1 : e.1 ∈ bufA.buf_.map Prod.fst := List.mem_map.mpr ⟨e, he, rfl⟩
    rw [p10] at h1
    obtain ⟨e1, he1, hk1⟩ := List.mem_map.mp h1
    obtain ⟨hb, hnot⟩ := (mem_deduped d buffer e1).mp he1
    have hk2 : e1.1 = x.key := hk1.trans hk
    apply hnot
    refine ⟨hfree x hxe hxs e1.2 (by rw [← hk2]; exact hb), ?_, ⟨x, hxe, hk2.symm⟩⟩
    rw [hk2]
    exact hinside x hxe
  obtain ⟨_, v2, v3⟩ := evictLoop_inv b existing1 bufA d.evictions_ buffer1 ev p9 hfreeA hnd1
    hevict
  refine ⟨?_, ?_, ?_, ?_⟩
  · intro x hx hxs hno
    rw [hkeys] at hno
    apply (v3 _).mpr
    right
    refine ⟨x, (hmem1 x).mpr ⟨hx, ?_⟩, hxs, rfl⟩
    by_contra hany
    have hany1 : cur2.keys.any (fun kv => !kv.IsSynthetic && kv.key == x.key) = true := by
      simpa using hany
    obtain ⟨s, hs, hsk⟩ := (herased x hx hxs).mp hany1
    exact hno s hs hsk
  · intro e he
    rcases (v3 e).mp he with h1 | ⟨x, hx, hxs, hxe⟩
    · rcases placed_entries d buffer bufA placed p9 p11 p12 e h1 with h2 | ⟨h2, p, hp, h3⟩
      · exact Or.inl h2
      · exact Or.inr (Or.inl ⟨h2, p, by rw [hkeys]; exact p1.subset hp, h3⟩)
    · obtain ⟨hx1, hx2⟩ := (hmem1 x).mp hx
      refine Or.inr (Or.inr ⟨x, hx1, hxs, ?_, hxe, by rw [hxe]; rfl⟩)
      intro s hs hsk
      rw [hkeys] at hs
      have := (herased x hx1 hxs).mpr ⟨s, hs, hsk⟩
      rw [hx2] at this
      exact absurd this (by simp)
  · rw [hev, v2, p13, List.countP_filter, hkeys]
    congr 1
    apply List.countP_congr
    intro x hx
    by_cases hxs : x.IsSynthetic = true
    · simp [hxs]
    · have hxs1 : x.IsSynthetic = false := by simpa using hxs
      have h1 := herased x hx hxs1
      have h2 : (ks.any (fun s => s.key == x.key) = true) ↔ ∃ s ∈ ks, s.key = x.key := by
        rw [List.any_eq_true]
        simp
      have h3 : cur2.keys.any (fun kv => !kv.IsSynthetic && kv.key == x.key)
          = ks.any (fun s => s.key == x.key) := by
        rw [Bool.eq_iff_iff, h1, h2]
      simp only [hxs1, Bool.not_false, Bool.true_and, h3]
  · rw [hcur]
    exact SameFrame.trans hframe (SameFrame.keys cur2 ks)

/-! ## The offsets that `AddKeys` assigns -/

theorem mem_leftInsert_of_mem (e : Nat × Value) (l : List (Nat × Value)) (y : Nat × Value)
    (h : y ∈ l) : y ∈ Buffer.leftInsert e l := by
  induction l with
  | nil => exact absurd h (by simp)
  | cons x rest ih =>
    unfold Buffer.leftInsert
    split
    · exact List.mem_cons_of_mem _ h
    · split
      · exact h
      · rcases List.mem_cons.mp h with h1 | h1
        · exact h1 ▸ List.mem_cons_self _ _
        · exact List.mem_cons_of_mem _ (ih h1)

/-- The loop that evicts, when it returns, keeps every entry of the buffer and adds only
entries in the state Evicted. -/
theorem evictLoop_keeps (b : Build) :
    ∀ (ex : List KeyValue) (buf : Buffer) (ev : Nat) (buf1 : Buffer) (ev1 : Nat),
      Delta.evictLoop b ex buf ev = .ok (buf1, ev1) →
      (∀ e ∈ buf.buf_, e ∈ buf1.buf_) ∧
      (∀ e ∈ buf1.buf_, e ∈ buf.buf_ ∨ e.2.status = .Evicted) := by
  intro ex
  induction ex with
  | nil =>
    intro buf ev buf1 ev1 h
    simp only [Delta.evictLoop] at h
    injection h with h
    injection h with h1 h2
    subst h1
    exact ⟨fun e he => he, fun e he => Or.inl he⟩
  | cons kv rest ih =>
    intro buf ev buf1 ev1 h
    unfold Delta.evictLoop at h
    split at h
    · exact ih buf ev buf1 ev1 h
    · simp only [bind, Except.bind] at h
      cases hadd : buf.AddEvictee b kv.key kv.offset kv.length with
      | error e => rw [hadd] at h; exact absurd h (by simp)
      | ok r =>
        obtain ⟨bufE, n⟩ := r
        rw [hadd] at h
        simp only at h
        have hE : bufE.buf_ = Buffer.leftInsert
            (kv.key, ⟨kv.offset, kv.length, Buffer.emptyBufferValue, .Evicted⟩) buf.buf_ := by
          unfold Buffer.AddEvictee at hadd
          simp only [bind, Except.bind, pure, Except.pure] at hadd
          split at hadd
          · exact absurd hadd (by simp)
          · injection hadd with hadd
            injection hadd with hadd _
            rw [← hadd]
        obtain ⟨i1, i2⟩ := ih bufE (ev + 1) buf1 ev1 h
        refine ⟨fun e he => i1 e (by rw [hE]; exact mem_leftInsert_of_mem _ _ _ he), ?_⟩
        intro e he
        rcases i2 e he with h1 | h1
        · rw [hE] at h1
          rcases mem_leftInsert_imp _ _ _ h1 with h2 | h2
          · right; rw [h2]
          · exact Or.inl h2
        · exact Or.inr h1

/-- Offsets that are assigned consecutively from `o` to slots of positive length, without
a wrap of the 64-bit offset, are distinct and tile `[o, o1)`. -/
theorem consecutive_tiles (placed : List KeyValue) (o o1 : Nat)
    (hw : o + (placed.map (fun p => p.length)).sum < 2 ^ 64)
    (hpos : ∀ p ∈ placed, 0 < p.length) (hc : Spec.Consecutive o placed o1) :
    o1 = o + (placed.map (fun p => p.length)).sum ∧
    (∀ p ∈ placed, o ≤ p.offset ∧ p.offset + p.length ≤ o1) ∧
    placed.Pairwise (fun a c => a.offset + a.length ≤ c.offset ∧ a.offset ≠ c.offset) ∧
    (∀ x, o ≤ x → x < o1 → ∃ p ∈ placed, p.offset ≤ x ∧ x < p.offset + p.length) := by
  obtain ⟨h1, h2, h3, h4⟩ := consecutive_sum placed o o1 hw hc
  refine ⟨h1, h2, ?_, h4⟩
  apply List.Pairwise.imp_of_mem _ h3
  intro a c ha _ hac
  have := hpos a ha
  exact ⟨hac, by omega⟩

/-- The conclusion about the offsets, from what each branch of `AddKeys` gives. -/
theorem offsets_final (d : Delta) (buffer bufA buffer1 : Buffer) (hord : buffer.Ordered)
    (keys1 placed : List KeyValue) (offset offset1 : Nat)
    (hwrap : offset + ((d.candidates buffer).map (fun c => c.length)).sum < 2 ^ 64)
    (hpos : ∀ c ∈ d.candidates buffer, 0 < c.length)
    (hA : ∀ p ∈ placed, p ∈ keys1)
    (hA1 : ∀ p ∈ placed, ∃ c ∈ d.candidates buffer, c.key = p.key ∧ c.length = p.length)
    (hB : (placed.map (fun p => p.length)).sum
      ≤ ((d.candidates buffer).map (fun p => p.length)).sum)
    (hC : Spec.Consecutive offset placed offset1)
    (hD1 : bufA.Ordered)
    (hD2 : ∀ p ∈ placed, ∃ v, (p.key, v) ∈ (d.deduped buffer).buf_ ∧
      (p.key, ⟨p.offset, v.length, v.value, .NeedsCommitting⟩) ∈ bufA.buf_)
    (hD3 : ∀ e, (∀ p ∈ placed, p.key ≠ e.1) → (e ∈ bufA.buf_ ↔ e ∈ (d.deduped buffer).buf_))
    (hE1 : ∀ e ∈ bufA.buf_, e ∈ buffer1.buf_)
    (hE2 : ∀ e ∈ buffer1.buf_, e ∈ bufA.buf_ ∨ e.2.status = .Evicted)
    (hG : ∀ s ∈ keys1, s ∈ placed ∨ s ∈ d.evictions buffer ∨ s ∈ d.current_.keys ∨
      s.IsSynthetic = true) :
    ∃ placed : List KeyValue,
      (∀ p ∈ placed, p ∈ keys1 ∧
        ∃ c ∈ d.candidates buffer, c.key = p.key ∧ c.length = p.length) ∧
      offset1 = offset + (placed.map (fun p => p.length)).sum ∧
      (∀ p ∈ placed, offset ≤ p.offset ∧ p.offset + p.length ≤ offset1) ∧
      placed.Pairwise (fun a c => a.offset + a.length ≤ c.offset ∧ a.offset ≠ c.offset) ∧
      (∀ x, offset ≤ x → x < offset1 →
        ∃ p ∈ placed, p.offset ≤ x ∧ x < p.offset + p.length) ∧
      (∀ p ∈ placed, ∃ v, (p.key, v) ∈ buffer.buf_ ∧ v.status = .Unprocessed ∧
        (p.key, ⟨p.offset, v.length, v.value, .NeedsCommitting⟩) ∈ buffer1.buf_) ∧
      (∀ e ∈ buffer1.buf_, e.2.status = .NeedsCommitting →
        e ∈ buffer.buf_ ∨ ∃ p ∈ placed, p.key = e.1 ∧ e.2.offset = p.offset) ∧
      (∀ e ∈ buffer.buf_, e.2.status = .Evicted → e ∈ buffer1.buf_) ∧
      (∀ s ∈ keys1, s ∈ placed ∨ s ∈ d.evictions buffer ∨ s ∈ d.current_.keys ∨
        s.IsSynthetic = true) := by
  have hpos1 : ∀ p ∈ placed, 0 < p.length := by
    intro p hp
    obtain ⟨c, hc, _, hcl⟩ := hA1 p hp
    rw [← hcl]; exact hpos c hc
  obtain ⟨t1, t2, t3, t4⟩ := consecutive_tiles placed offset offset1 (by omega) hpos1 hC
  refine ⟨placed, fun p hp => ⟨hA p hp, hA1 p hp⟩, t1, t2, t3, t4, ?_, ?_, ?_, hG⟩
  · intro p hp
    obtain ⟨v, hv, hv1⟩ := hD2 p hp
    obtain ⟨c, hc, hck, _⟩ := hA1 p hp
    obtain ⟨w, hw, hws, _⟩ := (mem_candidates d buffer c).mp hc
    have hvb := ((mem_deduped d buffer _).mp hv).1
    have := ordered_unique _ hord (p.key, v) (c.key, w) hvb hw hck.symm
    injection this with _ hvw
    exact ⟨v, hvb, by rw [hvw]; exact hws, hE1 _ hv1⟩
  · intro e he hs
    rcases hE2 e he with h1 | h1
    · rcases placed_entries d buffer bufA placed hD1 hD2 hD3 e h1 with h2 | ⟨_, h2⟩
      · exact Or.inl h2
      · exact Or.inr h2
    · rw [hs] at h1; exact absurd h1 (by simp)
  · intro e he hs
    apply hE1
    apply (hD3 e ?_).mpr
    · apply (mem_deduped d buffer e).mpr
      refine ⟨he, ?_⟩
      rintro ⟨h1, _⟩
      rw [hs] at h1; exact absurd h1 (by simp)
    · intro p hp hk
      obtain ⟨c, hc, hck, _⟩ := hA1 p hp
      obtain ⟨w, hw, hws, _⟩ := (mem_candidates d buffer c).mp hc
      have := ordered_unique _ hord e (c.key, w) he hw (by rw [hck, hk])
      rw [this] at hs
      simp only at hs
      rw [hws] at hs
      exact absurd hs (by simp)

/-- The offsets that `AddKeys` assigns. Let the buffer be in key order, the bounds of the
node be ordered, every member of
`existing` lie above the lower bound, the candidates have positive lengths, and the
offset plus the lengths of the candidates stay below `2 ^ 64`. When `AddKeys` returns,
there is a list `placed` of slots of the new node, each with the key and the length of a
candidate, such that: the returned offset is the offset plus the sum of their lengths;
every one of their offsets is at least the offset; their intervals
`[offset, offset + length)` follow one another without overlap, so the offsets are
pairwise distinct, and every position from the offset up to the returned offset is in one
of them; each has an Unprocessed entry in the buffer before, and after the entry of its key
has its offset and the state NeedsCommitting; no other entry becomes NeedsCommitting; every
Evicted entry of the buffer is still there unchanged; and every slot of the new node is
one of `placed`, or an eviction with the offset and length it had in the buffer, or a
slot of the node before, or synthetic. -/
theorem AddKeys_offsets (b : Build) (d d1 : Delta)
    (buffer buffer1 : Buffer) (offset offset1 : Nat) (hord : buffer.Ordered)
    (hfl : d.current_.first < d.current_.last)
    (hinside : ∀ x ∈ d.existing, d.current_.first < x.key)
    (hwrap : offset + ((d.candidates buffer).map (fun c => c.length)).sum < 2 ^ 64)
    (hpos : ∀ c ∈ d.candidates buffer, 0 < c.length)
    (h : d.AddKeys b buffer offset = .ok (d1, buffer1, offset1)) :
    ∃ placed : List KeyValue,
      (∀ p ∈ placed, p ∈ d1.current_.keys ∧
        ∃ c ∈ d.candidates buffer, c.key = p.key ∧ c.length = p.length) ∧
      offset1 = offset + (placed.map (fun p => p.length)).sum ∧
      (∀ p ∈ placed, offset ≤ p.offset ∧ p.offset + p.length ≤ offset1) ∧
      placed.Pairwise (fun a c => a.offset + a.length ≤ c.offset ∧ a.offset ≠ c.offset) ∧
      (∀ x, offset ≤ x → x < offset1 →
        ∃ p ∈ placed, p.offset ≤ x ∧ x < p.offset + p.length) ∧
      (∀ p ∈ placed, ∃ v, (p.key, v) ∈ buffer.buf_ ∧ v.status = .Unprocessed ∧
        (p.key, ⟨p.offset, v.length, v.value, .NeedsCommitting⟩) ∈ buffer1.buf_) ∧
      (∀ e ∈ buffer1.buf_, e.2.status = .NeedsCommitting →
        e ∈ buffer.buf_ ∨ ∃ p ∈ placed, p.key = e.1 ∧ e.2.offset = p.offset) ∧
      (∀ e ∈ buffer.buf_, e.2.status = .Evicted → e ∈ buffer1.buf_) ∧
      (∀ s ∈ d1.current_.keys, s ∈ placed ∨ s ∈ d.evictions buffer ∨ s ∈ d.current_.keys ∨
        s.IsSynthetic = true) := by
  rcases AddKeys_cases b d d1 buffer buffer1 offset offset1 hord hfl h with
    ⟨_, h1, h2, h3⟩ | ⟨_, h1, h2, h3⟩ | ⟨hB, hfit, _⟩ |
    ⟨_, hov, stride, cur1, cur2, synthetics, ks, bufA, ins, existing1, ev, hstride, hrun, hsyn,
      hassign, hevict, hcur, _⟩
  · -- nothing is pending in the range
    subst h1 h2 h3
    exact ⟨[], fun p hp => absurd hp (by simp), by simp, fun p hp => absurd hp (by simp),
      List.Pairwise.nil, fun x h1 h2 => absurd h2 (by omega), fun p hp => absurd hp (by simp),
      fun e he _ => Or.inl he, fun e he _ => he, fun s hs => Or.inr (Or.inr (Or.inl hs))⟩
  · -- nothing to place
    have hk : d1.current_ = d.current_ := by rw [h1]
    rw [hk, h2, h3]
    exact offsets_final d buffer (d.deduped buffer) (d.deduped buffer) hord d.current_.keys []
      offset offset hwrap hpos (fun p hp => absurd hp (by simp))
      (fun p hp => absurd hp (by simp)) (by simp) rfl (deduped_ordered d buffer hord)
      (fun p hp => absurd hp (by simp)) (fun e _ => Iff.rfl) (fun e he => he)
      (fun e he => Or.inl he) (fun s hs => Or.inr (Or.inr (Or.inl hs)))
  · -- the branch that does not overflow
    obtain ⟨d2, buffer2, offset2, placed, hrun, hplace, hcur, _⟩ :=
      AddKeys_fill b d buffer offset hord hfl hB hfit
    rw [h] at hrun
    injection hrun with hrun
    injection hrun with e1 e2
    injection e2 with e2 e3
    subst e1 e2 e3
    obtain ⟨p1, p2, _, p4, p5, _, p7, p8⟩ := placeLoop_inv b (d.candidates buffer)
      (d.deduped buffer) offset _ placed buffer1 offset1 _ (deduped_ordered d buffer hord)
      (sorted_distinct _ (candidates_sorted d buffer hord)) hplace
    have hmem : ∀ s, s ∈ d1.current_.keys ↔ s ∈ placed ++ (d.evictions buffer ++
        d.current_.keys.drop ((d.candidates buffer).length + (d.evictions buffer).length)) := by
      intro s
      rw [hcur]
      exact (sortKeys_perm _).mem_iff
    refine offsets_final d buffer buffer1 buffer1 hord d1.current_.keys placed offset offset1
      hwrap hpos ?_ (mem_of_maps placed _ p1 p2) (by rw [p2]) p4 p5 p7 p8 (fun e he => he)
      (fun e he => Or.inl he) ?_
    · intro p hp
      exact (hmem p).mpr (List.mem_append_left _ hp)
    · intro s hs
      rcases List.mem_append.mp ((hmem s).mp hs) with h1 | h1
      · exact Or.inl h1
      · rcases List.mem_append.mp h1 with h2 | h2
        · exact Or.inr (Or.inl h2)
        · exact Or.inr (Or.inr (Or.inl (List.mem_of_mem_drop h2)))
  · -- the overflow branch
    have hrun1 : Delta.strideLoop stride (d.combined buffer) d.current_.Clear 0
        (KeyUtil.Max b) = .ok cur1 := hrun
    obtain ⟨_, hslots⟩ := overflow_cur2 b d buffer hord hinside hov stride cur1 cur2
      synthetics hstride hrun1 hsyn
    obtain ⟨placed, p1, p2, p3, _, p5, _, p7, p9, _, p11, p12, _⟩ :=
      overflow_assign b d buffer hord stride cur2 hslots ks bufA offset offset1 d.insertions_
        ins existing1 hassign
    obtain ⟨v1, v2⟩ := evictLoop_keeps b existing1 bufA d.evictions_ buffer1 ev hevict
    have hkeys : d1.current_.keys = ks := by rw [hcur]
    rw [hkeys]
    refine offsets_final d buffer bufA buffer1 hord ks placed offset offset1 hwrap hpos
      (fun p hp => p1.subset hp) p2 p3 p7 p9 p11 p12 v1 v2 ?_
    intro s hs
    rcases p5 s hs with h1 | ⟨h1, h2⟩
    · exact Or.inl h1
    · rcases h2 with h2 | h2
      · exact Or.inr (Or.inr (Or.inr h2))
      · obtain ⟨i, hi⟩ := List.mem_iff_get?.mp h1
        rcases hslots i s hi with ⟨hm, _, _⟩ | ⟨he, _⟩
        · rcases mem_combined d buffer hord s hm with h3 | ⟨h3, _⟩ | ⟨h3, _⟩
          · exfalso
            unfold setCount at h2
            have : 0 < List.countP (fun x => x.key == s.key) (d.candidates buffer) :=
              List.countP_pos_iff.mpr ⟨s, h3, beq_self_eq_true _⟩
            omega
          · exact Or.inr (Or.inl h3)
          · exact Or.inr (Or.inr (Or.inl (List.mem_of_mem_drop (mem_existing d s h3))))
        · right; right; right
          rw [he]
          simp [KeyValue.IsSynthetic]

/-! ## The insertions counter of the branch that does not overflow -/

/-- C39 (the code). Let the buffer be in key order, the bounds of the node be ordered, the
node have an empty slot and fewer than `2 ^ 63` slots, something be pending, and
`existing`, the candidates and the evictions fit the slots. `AddKeys` takes the branch that
does not overflow and returns; it places every candidate, and its insertions counter is
twice the number of the candidates it placed: the branch first sets the counter to the
number of candidates and then increments it once for each. With no evictions counted
before, `Insertions()` is twice that number, and so is `TotalInsertions()` of a journal
that holds this delta alone. -/
theorem AddKeys_counts_insertions_twice (b : Build) (d : Delta) (buffer : Buffer)
    (offset : Nat) (hord : buffer.Ordered) (hfl : d.current_.first < d.current_.last)
    (hempty : d.current_.EmptyKeyCount ≠ 0)
    (hwork : (d.candidates buffer).length + (d.evictions buffer).length ≠ 0)
    (hfit : d.existing.length + (d.candidates buffer).length + (d.evictions buffer).length
      ≤ d.current_.keys.length)
    (hD : d.current_.keys.length < 2 ^ 63) (hev : d.evictions_ = 0) :
    ∃ d1 buffer1 offset1 placed,
      d.AddKeys b buffer offset = .ok (d1, buffer1, offset1) ∧
      Delta.placeLoop b (d.candidates buffer) (d.deduped buffer) offset
        (d.candidates buffer).length = .ok (placed, buffer1, offset1, d1.insertions_) ∧
      placed.map (fun p => p.key) = (d.candidates buffer).map (fun p => p.key) ∧
      (∀ p ∈ placed, p ∈ d1.current_.keys) ∧
      d1.insertions_ = 2 * placed.length ∧ d1.evictions_ = 0 ∧
      d1.Insertions = 2 * placed.length ∧
      ∀ (j : Journal) (level : Nat), j.deltas_ = [(level, d1)] →
        j.TotalInsertions = 2 * placed.length := by
  have hB : ¬ (((d.candidates buffer).length = 0 ∧ (d.evictions buffer).length = 0) ∨
      d.current_.EmptyKeyCount = 0) := by
    rintro (⟨h1, h2⟩ | h1)
    · omega
    · exact hempty h1
  obtain ⟨d1, buffer1, offset1, placed, hrun, hplace, hcur, _, hev1, _⟩ :=
    AddKeys_fill b d buffer offset hord hfl hB hfit
  obtain ⟨p1, _, p3, _⟩ := placeLoop_inv b (d.candidates buffer) (d.deduped buffer) offset _
    placed buffer1 offset1 _ (deduped_ordered d buffer hord)
    (sorted_distinct _ (candidates_sorted d buffer hord)) hplace
  have hlen : placed.length = (d.candidates buffer).length := by
    have := congrArg List.length p1
    simpa using this
  have hins : d1.insertions_ = 2 * placed.length := by rw [p3, hlen]; omega
  have hI : d1.Insertions = 2 * placed.length := by
    unfold Delta.Insertions
    rw [hev1, hev, hins]
    have : 2 * placed.length < 2 ^ 64 := by omega
    omega
  refine ⟨d1, buffer1, offset1, placed, hrun, hplace, p1, ?_, hins, by rw [hev1, hev], hI, ?_⟩
  · intro p hp
    rw [hcur]
    exact (sortKeys_perm _).mem_iff.mpr (List.mem_append_left _ hp)
  · intro j level hj
    unfold Journal.TotalInsertions
    rw [hj]
    simp only [List.foldl_cons, List.foldl_nil, Nat.zero_add, hI]
    omega

set_option maxRecDepth 100000 in
theorem AddKeys_counts_insertions_twice_witness :
    (do let (d1, _, _) ← (Delta.new Scenario.sparse).AddKeys Scenario.build Scenario.mixed 1000
        pure (d1.Insertions, d1.current_.keys) : Except Thrown (Nat × List KeyValue))
      = .ok (2, [⟨150, 1000, 37⟩, ⟨320, 42, 37⟩, ⟨450, 7, 38⟩]) ∧
    (Delta.new Scenario.sparse).candidates Scenario.mixed = [⟨150, 0, 37⟩] ∧
    ∃ d1 buffer1 offset1 placed,
      (Delta.new Scenario.sparse).AddKeys Scenario.build Scenario.mixed 1000
        = .ok (d1, buffer1, offset1) ∧
      Delta.placeLoop Scenario.build ((Delta.new Scenario.sparse).candidates Scenario.mixed)
        ((Delta.new Scenario.sparse).deduped Scenario.mixed) 1000
        ((Delta.new Scenario.sparse).candidates Scenario.mixed).length
        = .ok (placed, buffer1, offset1, d1.insertions_) ∧
      placed.map (fun p => p.key)
        = ((Delta.new Scenario.sparse).candidates Scenario.mixed).map (fun p => p.key) ∧
      (∀ p ∈ placed, p ∈ d1.current_.keys) ∧
      d1.insertions_ = 2 * placed.length ∧ d1.evictions_ = 0 ∧
      d1.Insertions = 2 * placed.length ∧
      ∀ (j : Journal) (level : Nat), j.deltas_ = [(level, d1)] →
        j.TotalInsertions = 2 * placed.length :=
  ⟨by decide, by decide,
    AddKeys_counts_insertions_twice Scenario.build (Delta.new Scenario.sparse) Scenario.mixed
      1000 (by simp [Buffer.Ordered, Scenario.mixed]) (by decide) (by decide) (by decide)
      (by decide) (by decide) rfl⟩

set_option maxRecDepth 100000 in
theorem AddKeys_fills_empty_slots_witness :
    (do let (d1, buffer1, offset1) ←
          (Delta.new Scenario.sparse).AddKeys Scenario.build Scenario.mixed 1000
        pure (d1.current_.keys, d1.synthetics_, d1.evictions_, buffer1, offset1) :
          Except Thrown (List KeyValue × Nat × Nat × Buffer × Nat))
      = .ok ([⟨150, 1000, 37⟩, ⟨320, 42, 37⟩, ⟨450, 7, 38⟩], 0, 0,
          ⟨[(150, ⟨1000, 37, [97], .NeedsCommitting⟩), (450, ⟨7, 38, [], .Evicted⟩)]⟩, 1037) ∧
    (Delta.new Scenario.sparse).existing.length
      + ((Delta.new Scenario.sparse).candidates Scenario.mixed).length
      + ((Delta.new Scenario.sparse).evictions Scenario.mixed).length
      = (Delta.new Scenario.sparse).current_.keys.length ∧
    (Delta.new Scenario.sparse).existing
      = (Delta.new Scenario.sparse).current_.keys.drop
          (Delta.new Scenario.sparse).current_.NonZeroBegin ∧
    ∃ d1 buffer1 offset1 placed,
      (Delta.new Scenario.sparse).AddKeys Scenario.build Scenario.mixed 1000
        = .ok (d1, buffer1, offset1) ∧
      d1.synthetics_ = (Delta.new Scenario.sparse).synthetics_ ∧
      d1.evictions_ = (Delta.new Scenario.sparse).evictions_ ∧
      (Delta.new Scenario.sparse).current_.SameFrame d1.current_ ∧
      (∀ e ∈ buffer1.buf_, e.2.status = .Evicted → e ∈ Scenario.mixed.buf_) ∧
      placed.map (fun p => p.key)
        = ((Delta.new Scenario.sparse).candidates Scenario.mixed).map (fun p => p.key) ∧
      placed.map (fun p => p.length)
        = ((Delta.new Scenario.sparse).candidates Scenario.mixed).map (fun p => p.length) ∧
      d1.current_.keys.Perm
        (((Delta.new Scenario.sparse).current_.keys.take
              (Delta.new Scenario.sparse).current_.NonZeroBegin).drop
            (((Delta.new Scenario.sparse).candidates Scenario.mixed).length
              + ((Delta.new Scenario.sparse).evictions Scenario.mixed).length)
          ++ (placed ++ ((Delta.new Scenario.sparse).evictions Scenario.mixed
            ++ (Delta.new Scenario.sparse).existing))) ∧
      d1.current_.keys.Pairwise (fun a c => a.key ≤ c.key) ∧
      (∀ z ∈ (Delta.new Scenario.sparse).current_.keys.take
        (Delta.new Scenario.sparse).current_.NonZeroBegin, z.key = 0) ∧
      (∀ s ∈ (Delta.new Scenario.sparse).existing, s ∈ d1.current_.keys) :=
  ⟨by decide, by decide,
    AddKeys_fills_empty_slots Scenario.build (Delta.new Scenario.sparse) Scenario.mixed 1000
      (by simp [Buffer.Ordered, Scenario.mixed]) (by decide) (by decide) (by decide)
      (by decide)⟩

set_option maxRecDepth 100000 in
theorem AddKeys_leaves_full_or_idle_node_witness :
    (Delta.new Scenario.packed).AddKeys Scenario.build Scenario.mixed 1000
      = .ok ({ Delta.new Scenario.packed with existing_ := 3 },
          ⟨[(450, ⟨7, 38, [], .Evicted⟩)]⟩, 1000) ∧
    ∃ d1 buffer1,
      (Delta.new Scenario.packed).AddKeys Scenario.build Scenario.mixed 1000
        = .ok (d1, buffer1, 1000) ∧
      d1.current_ = (Delta.new Scenario.packed).current_ ∧
      d1.previous_ = (Delta.new Scenario.packed).previous_ ∧
      d1.Dirty = (Delta.new Scenario.packed).Dirty ∧
      buffer1.buf_ = Scenario.mixed.buf_.filter (fun e => !(e.2.status == .Unprocessed &&
        (decide ((Delta.new Scenario.packed).current_.first < e.1) &&
          decide (e.1 < (Delta.new Scenario.packed).current_.last)) &&
        (Delta.new Scenario.packed).current_.keys.any (fun s => s.key == e.1))) ∧
      ∀ e ∈ Scenario.mixed.buf_, e ∈ buffer1.buf_ ∨
        (e.2.status = .Unprocessed ∧ (Delta.new Scenario.packed).current_.first < e.1 ∧
          e.1 < (Delta.new Scenario.packed).current_.last ∧
          ∃ s ∈ (Delta.new Scenario.packed).current_.keys, s.key = e.1) :=
  ⟨by decide,
    AddKeys_leaves_full_or_idle_node Scenario.build (Delta.new Scenario.packed) Scenario.mixed
      1000 (by simp [Buffer.Ordered, Scenario.mixed]) (by decide) (Or.inl (by decide))⟩

/-! ## The nodes of a well-formed tree -/

theorem wellFormed_pos (b : Build) (store : KeyStore) (d : Nat) (n : Node)
    (h : Tree.WellFormed b store d n) : 1 ≤ d := by
  cases d with
  | zero => exact absurd h (by simp [Tree.WellFormed])
  | succ d => omega

theorem member_self (b : Build) (store : KeyStore) (d : Nat) (n : Node) (hd : 1 ≤ d) :
    Tree.Member b store d n n := by
  cases d with
  | zero => omega
  | succ d => exact Or.inl rfl

theorem member_mono (b : Build) (store : KeyStore) (d : Nat) :
    ∀ (n m : Node), Tree.Member b store d n m → Tree.Member b store (d + 1) n m := by
  induction d with
  | zero => intro n m h; exact absurd h (by simp [Tree.Member])
  | succ d ih =>
    intro n m h
    rcases h with h | ⟨i, cid, c, hc, hne, hget, hm⟩
    · exact Or.inl h
    · exact Or.inr ⟨i, cid, c, hc, hne, hget, ih c m hm⟩

theorem member_wellFormed (b : Build) (store : KeyStore) (d : Nat) :
    ∀ (n m : Node), Tree.WellFormed b store d n → Tree.Member b store d n m →
      ∃ d1, d1 ≤ d ∧ Tree.WellFormed b store d1 m := by
  induction d with
  | zero => intro n m h; exact absurd h (by simp [Tree.WellFormed])
  | succ d ih =>
    intro n m hwf hm
    rcases hm with h | ⟨i, cid, c, hc, hne, hget, hm⟩
    · exact ⟨d + 1, le_refl _, h ▸ hwf⟩
    · obtain ⟨c1, hget1, _, _, hwfc⟩ := hwf.2 i cid hc hne
      have := store_get_inj hget hget1
      subst this
      obtain ⟨d1, hd1, h1⟩ := ih c m hwfc hm
      exact ⟨d1, by omega, h1⟩

/-- A well-formed tree of depth `d` has no node below depth `d`. -/
theorem member_of_wellFormed (b : Build) (store : KeyStore) (d : Nat) :
    ∀ (n m : Node) (d1 : Nat), Tree.WellFormed b store d n → Tree.Member b store d1 n m →
      Tree.Member b store d n m := by
  induction d with
  | zero => intro n m d1 h; exact absurd h (by simp [Tree.WellFormed])
  | succ d ih =>
    intro n m d1 hwf hm
    cases d1 with
    | zero => exact absurd hm (by simp [Tree.Member])
    | succ d1 =>
      rcases hm with h | ⟨i, cid, c, hc, hne, hget, hm⟩
      · exact Or.inl h
      · obtain ⟨c1, hget1, _, _, hwfc⟩ := hwf.2 i cid hc hne
        have := store_get_inj hget hget1
        subst this
        exact Or.inr ⟨i, cid, c, hc, hne, hget, ih c m d1 hwfc hm⟩

theorem member_trans (b : Build) (store : KeyStore) (d : Nat) :
    ∀ (r n m : Node) (d1 : Nat), Tree.WellFormed b store d r → Tree.Member b store d r n →
      Tree.Member b store d1 n m → Tree.Member b store d r m := by
  induction d with
  | zero => intro r n m d1 h; exact absurd h (by simp [Tree.WellFormed])
  | succ d ih =>
    intro r n m d1 hwf hn hm
    rcases hn with h | ⟨i, cid, c, hc, hne, hget, hn⟩
    · subst h
      exact member_of_wellFormed b store (d + 1) n m d1 hwf hm
    · obtain ⟨c1, hget1, _, _, hwfc⟩ := hwf.2 i cid hc hne
      have := store_get_inj hget hget1
      subst this
      exact Or.inr ⟨i, cid, c, hc, hne, hget, ih c n m d1 hwfc hn hm⟩

theorem member_holds (b : Build) (store : KeyStore) (d : Nat) :
    ∀ (n m : Node) (kv : KeyValue), Tree.Member b store d n m → kv ∈ m.keys →
      Tree.Holds b store d n kv.key := by
  induction d with
  | zero => intro n m kv h; exact absurd h (by simp [Tree.Member])
  | succ d ih =>
    intro n m kv hm hkv
    rcases hm with h | ⟨i, cid, c, hc, hne, hget, hm⟩
    · subst h
      exact Or.inl ⟨kv, hkv, rfl⟩
    · exact Or.inr ⟨i, cid, c, hc, hne, hget, ih c m kv hm hkv⟩

/-- The range of a node of a well-formed tree lies inside the range of the root. -/
theorem member_range (b : Build) (store : KeyStore) (d : Nat) :
    ∀ (n m : Node), Tree.WellFormed b store d n → Tree.Member b store d n m →
      n.first ≤ m.first ∧ m.last ≤ n.last := by
  induction d with
  | zero => intro n m h; exact absurd h (by simp [Tree.WellFormed])
  | succ d ih =>
    intro n m hwf hm
    rcases hm with h | ⟨i, cid, c, hc, hne, hget, hm⟩
    · subst h; exact ⟨le_refl _, le_refl _⟩
    · obtain ⟨c1, hget1, hf, hl, hwfc⟩ := hwf.2 i cid hc hne
      have := store_get_inj hget hget1
      subst this
      have h1 := ih c m hwfc hm
      have hi := (get_some_of_getD _ _ _ hc).2
      have hb := interval_inside n hwf.1 (full_of_child n hwf.1 i cid hc hne) i hi
      rw [hf, hl] at h1
      omega

/-- No key of a slot lies strictly inside a child interval of its node. -/
theorem slot_outside_intervals (n : Node) (hinv : n.Invariant) (s : KeyValue)
    (hs : s ∈ n.keys) (i : Nat) (hi : i < n.children.length) :
    ¬ (n.lo i < s.key ∧ s.key < n.hi i) := by
  obtain ⟨j, hj, hget⟩ := List.getElem_of_mem hs
  have hsj : n.keys.getD j KeyValue.zero = s := by
    rw [List.getD_eq_getElem?_getD, List.getElem?_eq_getElem hj, hget]
    rfl
  have hshape := hinv.shape
  rintro ⟨h1, h2⟩
  by_cases hji : j < i
  · unfold Node.lo at h1
    rw [if_neg (by omega)] at h1
    have := sorted_getD_le n.keys hinv.sorted j (i - 1) (by omega) (by omega)
    rw [hsj] at this
    omega
  · unfold Node.hi at h2
    rw [if_neg (by omega)] at h2
    have := sorted_getD_le n.keys hinv.sorted i j (by omega) hj
    rw [hsj] at this
    omega

/-- Two slots of one node with the same non-zero key are the same slot. -/
theorem slot_unique (n : Node) (hinv : n.Invariant) (s1 s2 : KeyValue) (h1 : s1 ∈ n.keys)
    (h2 : s2 ∈ n.keys) (hk : s1.key = s2.key) (hz : s1.key ≠ 0) : s1 = s2 := by
  have hu := hinv.unique
  generalize n.keys = l at h1 h2 hu
  induction l with
  | nil => exact absurd h1 (by simp)
  | cons x rest ih =>
    rw [List.pairwise_cons] at hu
    rcases List.mem_cons.mp h1 with e1 | e1 <;> rcases List.mem_cons.mp h2 with e2 | e2
    · rw [e1, e2]
    · exact absurd (e1 ▸ hk) (hu.1 s2 e2 (hk ▸ hz))
    · exact absurd (e2 ▸ hk.symm) (hu.1 s1 e1 hz)
    · exact ih e1 e2 hu.2

/-- In a well-formed tree a non-zero key occupies at most one slot. -/
theorem member_slot_unique (b : Build) (store : KeyStore) (k : Nat) (hk : k ≠ 0) (d : Nat) :
    ∀ (r m1 m2 : Node) (kv1 kv2 : KeyValue), Tree.WellFormed b store d r →
      Tree.Member b store d r m1 → kv1 ∈ m1.keys → kv1.key = k →
      Tree.Member b store d r m2 → kv2 ∈ m2.keys → kv2.key = k → kv1 = kv2 := by
  induction d with
  | zero => intro r m1 m2 kv1 kv2 h; exact absurd h (by simp [Tree.WellFormed])
  | succ d ih =>
    intro r m1 m2 kv1 kv2 hwf hm1 hkv1 hk1 hm2 hkv2 hk2
    have hinside : ∀ i cid c m kv, r.children.get? i = some cid → cid ≠ EmptyChild →
        store.Get b cid = .ok (store, some c, none) → Tree.Member b store d c m →
        kv ∈ m.keys → kv.key = k →
        i < r.children.length ∧ r.lo i < k ∧ k < r.hi i ∧ Tree.WellFormed b store d c := by
      intro i cid c m kv hc hne hget hm hkv hkk
      obtain ⟨c1, hget1, hf, hl, hwfc⟩ := hwf.2 i cid hc hne
      have := store_get_inj hget hget1
      subst this
      have hh := member_holds b store d c m kv hm hkv
      rw [hkk] at hh
      have hin := Holds_inside b store d c k hk hwfc hh
      rw [hf, hl] at hin
      exact ⟨(get_some_of_getD _ _ _ hc).2, hin.1, hin.2, hwfc⟩
    rcases hm1 with h1 | ⟨i, cid, c, hc, hne, hget, hm1⟩
    · subst h1
      rcases hm2 with h2 | ⟨j, cid2, c2, hc2, hne2, hget2, hm2⟩
      · subst h2
        exact slot_unique m2 hwf.1 kv1 kv2 hkv1 hkv2 (hk1.trans hk2.symm) (hk1 ▸ hk)
      · obtain ⟨hj, h3, h4, _⟩ := hinside j cid2 c2 m2 kv2 hc2 hne2 hget2 hm2 hkv2 hk2
        exact absurd ⟨hk1 ▸ h3, hk1 ▸ h4⟩ (slot_outside_intervals m1 hwf.1 kv1 hkv1 j hj)
    · obtain ⟨hi, h3, h4, hwfc⟩ := hinside i cid c m1 kv1 hc hne hget hm1 hkv1 hk1
      rcases hm2 with h2 | ⟨j, cid2, c2, hc2, hne2, hget2, hm2⟩
      · subst h2
        exact absurd ⟨hk2 ▸ h3, hk2 ▸ h4⟩ (slot_outside_intervals m2 hwf.1 kv2 hkv2 i hi)
      · obtain ⟨hj, h5, h6, _⟩ := hinside j cid2 c2 m2 kv2 hc2 hne2 hget2 hm2 hkv2 hk2
        have hij := interval_unique r hwf.1 k i j hi hj ⟨h3, h4⟩ ⟨h5, h6⟩
        subst hij
        rw [hc] at hc2
        injection hc2 with hc2
        subst hc2
        have := store_get_inj hget hget2
        subst this
        exact ih c m1 m2 kv1 kv2 hwfc hm1 hkv1 hk1 hm2 hkv2 hk2

/-- In a well-formed tree the slot of a non-zero key that lies strictly inside the range of
a node is in the tree below that node. -/
theorem member_below (b : Build) (store : KeyStore) (k : Nat) (hk : k ≠ 0) (d : Nat) :
    ∀ (r n m : Node) (kv : KeyValue), Tree.WellFormed b store d r →
      Tree.Member b store d r n → n.first < k → k < n.last →
      Tree.Member b store d r m → kv ∈ m.keys → kv.key = k → Tree.Member b store d n m := by
  induction d with
  | zero => intro r n m kv h; exact absurd h (by simp [Tree.WellFormed])
  | succ d ih =>
    intro r n m kv hwf hn hf hl hm hkv hkk
    rcases hn with h | ⟨i, cid, c, hc, hne, hget, hn⟩
    · subst h; exact hm
    · obtain ⟨c1, hget1, hcf, hcl, hwfc⟩ := hwf.2 i cid hc hne
      have := store_get_inj hget hget1
      subst this
      have hr := member_range b store d c n hwfc hn
      have hi := (get_some_of_getD _ _ _ hc).2
      have hki : r.lo i < k ∧ k < r.hi i := by
        rw [← hcf, ← hcl]; omega
      rcases hm with h2 | ⟨j, cid2, c2, hc2, hne2, hget2, hm2⟩
      · subst h2
        exact absurd (hkk ▸ hki) (slot_outside_intervals m hwf.1 kv hkv i hi)
      · obtain ⟨c3, hget3, hcf2, hcl2, hwfc2⟩ := hwf.2 j cid2 hc2 hne2
        have := store_get_inj hget2 hget3
        subst this
        have hh := member_holds b store d c2 m kv hm2 hkv
        rw [hkk] at hh
        have hin := Holds_inside b store d c2 k hk hwfc2 hh
        rw [hcf2, hcl2] at hin
        have hj := (get_some_of_getD _ _ _ hc2).2
        have hij := interval_unique r hwf.1 k i j hi hj hki hin
        subst hij
        rw [hc] at hc2
        injection hc2 with hc2
        subst hc2
        have := store_get_inj hget hget2
        subst this
        exact member_mono b store d n m (ih c n m kv hwfc hn hf hl hm2 hkv hkk)

/-! ## The descent of `Tree::get` and the slot it returns -/

/-- The descent of `get` from a node of a well-formed tree, for a non-zero key, with a
cache that takes every node of the tree: it returns, leaves the store as it was, and
returns either no error and a slot with the key of a node of the tree below, or
`key_not_found` and the slot it started with, when no node below holds the key. -/
theorem get_descent_member (b : Build) (store : KeyStore) (k : Nat) (hk : k ≠ 0)
    (M : Node → Prop) (C : NodeCache → Prop)
    (hadd : ∀ c node, C c → M node → ∃ c1, c.Add b node = .ok c1 ∧ C c1)
    (hM : ∀ n, M n → ∀ i cid c, n.children.get? i = some cid → cid ≠ EmptyChild →
      store.Get b cid = .ok (store, some c, none) → M c)
    (depth : Nat) :
    ∀ (fuel : Nat) (t : Tree) (n : Node), depth ≤ fuel → t.store_ = store → C t.cache_ →
      M n → Tree.WellFormed b store depth n →
      ∃ t1 kv err, Tree.get b fuel t n k = .ok (t1, kv, err) ∧ t1.store_ = store ∧
        C t1.cache_ ∧
        ((err = none ∧ kv.key = k ∧ ∃ m, Tree.Member b store depth n m ∧ kv ∈ m.keys) ∨
         (err = some .key_not_found ∧ kv = KeyValue.zero ∧
           ¬ Tree.Holds b store depth n k)) := by
  induction depth with
  | zero => intro fuel t n _ _ _ _ hwf; exact absurd hwf (by simp [Tree.WellFormed])
  | succ d ih =>
    intro fuel t n hfuel hst hq hMn hwf
    obtain ⟨fuel', rfl⟩ : ∃ f, fuel = f + 1 := ⟨fuel - 1, by omega⟩
    obtain ⟨hinv, hchild⟩ := hwf
    rw [Tree.get]
    cases hfind : n.Find k with
    | some kv =>
      obtain ⟨hmem, hkey⟩ := find_some_slot n k kv hfind
      exact ⟨t, kv, none, rfl, hst, hq, Or.inl ⟨rfl, hkey, n, Or.inl rfl, hmem⟩⟩
    | none =>
      have hnoslot := find_none_slot n k hfind
      simp only
      have hholds : ∀ i cid c, n.children.get? i = some cid → cid ≠ EmptyChild →
          store.Get b cid = .ok (store, some c, none) → Tree.Holds b store d c k →
          i < n.children.length ∧ n.visits i = true ∧ n.lo i < k ∧ k < n.hi i := by
        intro i cid c hc hne hget hh
        obtain ⟨c', hget', hf, hl, hwfc⟩ := hchild i cid hc hne
        have hcc := store_get_inj hget hget'
        subst hcc
        have hin := Holds_inside b store d c k hk hwfc hh
        have hi := (get_some_of_getD _ _ _ hc).2
        refine ⟨hi, visits_of_full n hinv (full_of_child n hinv i cid hc hne) i hi, ?_, ?_⟩
        · rw [← hf]; exact hin.1
        · rw [← hl]; exact hin.2
      have hstep_miss : ∀ i, i < n.children.length →
          ¬ (n.visits i = true ∧ n.lo i < k ∧ k < n.hi i) →
          ∀ s, Node.eachChildStep n
            (Tree.getChild b (fun t child => Tree.get b fuel' t child k) k) i s
              = .ok (s, none) := by
        intro i hi hnm s
        rw [eachChildStep_eq n _ hinv.shape hinv.slots i hi]
        by_cases hv : n.visits i = true
        · rw [if_pos hv]
          exact getChild_miss b _ k i _ _ _ s (fun h => hnm ⟨hv, h⟩)
        · rw [if_neg hv]
      unfold Node.EachChild Node.Degree
      by_cases hex : ∃ m, m < n.children.length ∧ n.visits m = true ∧ n.lo m < k ∧ k < n.hi m
      · obtain ⟨m, hm, hvm, hkm⟩ := hex
        obtain ⟨l1, l2, hsplit, hl1, hl2⟩ := range_split n.children.length m hm
        have hskip : ∀ i, i < n.children.length ∧ i ≠ m → ∀ s, Node.eachChildStep n
            (Tree.getChild b (fun t child => Tree.get b fuel' t child k) k) i s
              = .ok (s, none) := by
          intro i hi s
          apply hstep_miss i hi.1
          intro hmatch
          exact hi.2 (interval_unique n hinv k i m hi.1 hm hmatch.2 hkm)
        have honly : ∀ i cid c, n.children.get? i = some cid → cid ≠ EmptyChild →
            store.Get b cid = .ok (store, some c, none) → Tree.Holds b store d c k →
            i = m := by
          intro i cid c hc hne hget hh
          obtain ⟨hi, _, hki⟩ := hholds i cid c hc hne hget hh
          exact interval_unique n hinv k i m hi hm hki hkm
        rw [hsplit]
        by_cases hcid : n.children.getD m EmptyChild = EmptyChild
        · have hm_step : Node.eachChildStep n
              (Tree.getChild b (fun t child => Tree.get b fuel' t child k) k) m
              (t, KeyValue.zero, false)
                = .ok ((t, KeyValue.zero, false), some .key_not_found) := by
            rw [eachChildStep_eq n _ hinv.shape hinv.slots m hm, if_pos hvm, hcid]
            exact getChild_empty b _ k m _ _ _ hkm
          rw [eachChildLoop_at n _ l1 l2 m _ _ _ (fun i hi => hskip i (hl1 i hi))
            (fun i hi => hskip i (hl2 i hi)) hm_step]
          refine ⟨t, KeyValue.zero, some .key_not_found, rfl, hst, hq, Or.inr ⟨rfl, rfl, ?_⟩⟩
          rintro (⟨s, hs, hsk⟩ | ⟨i, cid, c, hc, hne, hget, hh⟩)
          · exact hnoslot s hs hsk
          · have := honly i cid c hc hne hget hh
            subst this
            exact hne ((get_some_of_getD _ _ _ hc).1 ▸ hcid)
        · have hc := get_of_getD n.children m hm
          obtain ⟨c, hget, hf, hl, hwfc⟩ := hchild m _ hc hcid
          have hMc := hM n hMn m _ c hc hcid hget
          obtain ⟨cache1, hadd1, hq1⟩ := hadd t.cache_ c hq hMc
          obtain ⟨t2, kv, err, hrec, hst2, hq2, hres⟩ :=
            ih fuel' { store_ := store, cache_ := cache1 } c (by omega) rfl hq1 hMc hwfc
          have hm_step : Node.eachChildStep n
              (Tree.getChild b (fun t child => Tree.get b fuel' t child k) k) m
              (t, KeyValue.zero, false) = .ok ((t2, kv, true), err) := by
            rw [eachChildStep_eq n _ hinv.shape hinv.slots m hm, if_pos hvm]
            exact getChild_descend b _ k m _ _ _ _ hkm hcid store c cache1 t2 kv err
              (by rw [hst]; exact hget) hadd1 hrec
          rw [eachChildLoop_at n _ l1 l2 m _ _ _ (fun i hi => hskip i (hl1 i hi))
            (fun i hi => hskip i (hl2 i hi)) hm_step]
          refine ⟨t2, kv, err, ?_, hst2, hq2, ?_⟩
          · simp [bind, Except.bind, pure, Except.pure]
          · rcases hres with ⟨he, hkv, m1, hm1, hkm1⟩ | ⟨he, hkz, hnh⟩
            · exact Or.inl ⟨he, hkv, m1, Or.inr ⟨m, _, c, hc, hcid, hget, hm1⟩, hkm1⟩
            · refine Or.inr ⟨he, hkz, ?_⟩
              rintro (⟨s, hs, hsk⟩ | ⟨i, cid, c', hc', hne, hget', hh⟩)
              · exact hnoslot s hs hsk
              · have := honly i cid c' hc' hne hget' hh
                subst this
                rw [hc] at hc'
                injection hc' with hc'
                subst hc'
                have := store_get_inj hget hget'
                subst this
                exact hnh hh
      · rw [eachChildLoop_skip n _ _ _ (fun i hi => hstep_miss i (List.mem_range.mp hi)
          (fun h => hex ⟨i, List.mem_range.mp hi, h⟩) _)]
        refine ⟨t, KeyValue.zero, some .key_not_found, rfl, hst, hq, Or.inr ⟨rfl, rfl, ?_⟩⟩
        rintro (⟨s, hs, hsk⟩ | ⟨i, cid, c, hc, hne, hget, hh⟩)
        · exact hnoslot s hs hsk
        · obtain ⟨hi, hv, hki⟩ := hholds i cid c hc hne hget hh
          exact hex ⟨i, hi, hv, hki⟩

/-- The descent of `get` for the all-zero key never leaves the node: the result is the
first zero slot of the node, or `key_not_found`, whatever the cache holds. -/
theorem get_zero (b : Build) (fuel : Nat) (t : Tree) (n : Node) (hinv : n.Invariant) :
    Tree.get b (fuel + 1) t n 0
      = .ok (t, (n.Find 0).getD KeyValue.zero,
          if (n.Find 0).isSome then none else some .key_not_found) := by
  rw [Tree.get]
  cases hfind : n.Find 0 with
  | some kv => rfl
  | none =>
    simp only
    unfold Node.EachChild Node.Degree
    rw [eachChildLoop_skip n _ _ _ (fun i hi => by
      rw [eachChildStep_eq n _ hinv.shape hinv.slots i (List.mem_range.mp hi)]
      split
      · exact getChild_miss b _ 0 i _ _ _ _ (fun h => absurd h.1 (by omega))
      · rfl)]
    rfl

/-! ## `Tree::Get` against the descent from the root -/

/-- C40 (amended). Let the store return the root at the root id, the tree below the root
be well formed (node invariants, children stored with the bounds of their child interval)
with a depth the fuel reaches, and let every entry of the cache be a node of that tree.
Let the asserts of the cache not fail: they are compiled out, or the cache is switched off,
or the cache satisfies its invariant and two nodes of the tree have the same id exactly
when they have the same level and first key. Then `Tree::Get`, which starts at the node
that `NodeCache::Get` returns or at the root on a miss, and `get` started at the root both
return, with the same slot and the same error, and leave the store as it was. -/
theorem Get_agrees_with_root_descent (b : Build) (t : Tree) (root : Node)
    (k depth fuel : Nat) (hfuel : depth ≤ fuel)
    (hroot : t.store_.Get b Tree.rootId = .ok (t.store_, some root, none))
    (hwf : Tree.WellFormed b t.store_ depth root)
    (hreach : ∀ e ∈ t.cache_.nodes_, Tree.Member b t.store_ depth root e.2)
    (hassert : t.cache_.Quiet b ∨ (t.cache_.Inv ∧
      ∀ n1 n2, Tree.Member b t.store_ depth root n1 → Tree.Member b t.store_ depth root n2 →
        (n1.id = n2.id ↔ n1.level = n2.level ∧ n1.first = n2.first))) :
    ∃ t1 t2 slot err, Tree.Get b fuel t k = .ok (t1, slot, err) ∧
      Tree.get b fuel t root k = .ok (t2, slot, err) ∧
      t1.store_ = t.store_ ∧ t2.store_ = t.store_ ∧
      (err = none ∨ err = some .key_not_found) := by
  have hd := wellFormed_pos b t.store_ depth root hwf
  have hinv : root.Invariant := by
    cases depth with
    | zero => omega
    | succ d => exact hwf.1
  obtain ⟨fuel1, rfl⟩ : ∃ f, fuel = f + 1 := ⟨fuel - 1, by omega⟩
  by_cases hk : k = 0
  · -- the all-zero key: the cache misses and neither descent leaves the root
    subst hk
    rcases Get_shape t.cache_ 0 with ⟨c1, hget, _⟩ | ⟨it, _, _, h1, _⟩
    · refine ⟨{ store_ := t.store_, cache_ := c1 }, t, _, _, ?_,
        get_zero b fuel1 t root hinv, rfl, rfl, ?_⟩
      · unfold Tree.Get
        simp only [hget, bind, Except.bind, hroot]
        exact get_zero b fuel1 _ root hinv
      · cases root.Find 0 <;> simp
    · omega
  -- the nodes of the tree and the caches that take them
  have hself : Tree.Member b t.store_ depth root root := member_self b t.store_ depth root hd
  have hM : ∀ n, Tree.Member b t.store_ depth root n → ∀ i cid c,
      n.children.get? i = some cid → cid ≠ EmptyChild →
      t.store_.Get b cid = .ok (t.store_, some c, none) →
      Tree.Member b t.store_ depth root c := by
    intro n hn i cid c hc hne hget
    exact member_trans b t.store_ depth root n c 2 hwf hn
      (Or.inr ⟨i, cid, c, hc, hne, hget, Or.inl rfl⟩)
  have hadd : ∀ (c : NodeCache) (node : Node),
      (c.Quiet b ∨ (c.Inv ∧ (∀ e ∈ c.nodes_, Tree.Member b t.store_ depth root e.2) ∧
        ∀ n1 n2, Tree.Member b t.store_ depth root n1 →
          Tree.Member b t.store_ depth root n2 →
          (n1.id = n2.id ↔ n1.level = n2.level ∧ n1.first = n2.first))) →
      Tree.Member b t.store_ depth root node →
      ∃ c1, c.Add b node = .ok c1 ∧
        (c1.Quiet b ∨ (c1.Inv ∧ (∀ e ∈ c1.nodes_, Tree.Member b t.store_ depth root e.2) ∧
          ∀ n1 n2, Tree.Member b t.store_ depth root n1 →
            Tree.Member b t.store_ depth root n2 →
            (n1.id = n2.id ↔ n1.level = n2.level ∧ n1.first = n2.first))) := by
    intro c node hC hnode
    have hquiet : c.Quiet b → ∃ c1, c.Add b node = .ok c1 ∧
        (c1.Quiet b ∨ (c1.Inv ∧ (∀ e ∈ c1.nodes_, Tree.Member b t.store_ depth root e.2) ∧
          ∀ n1 n2, Tree.Member b t.store_ depth root n1 →
            Tree.Member b t.store_ depth root n2 →
            (n1.id = n2.id ↔ n1.level = n2.level ∧ n1.first = n2.first))) := by
      intro hq
      obtain ⟨c1, h1, h2⟩ := NodeCache.Add_quiet b c node hq
      exact ⟨c1, h1, Or.inl h2⟩
    rcases hC with hq | ⟨hc, hin, hids⟩
    · exact hquiet hq
    · by_cases hm : c.maxSize_ = 0
      · exact hquiet (Or.inr hm)
      · have hadm : ∀ e ∈ c.nodes_,
            (e.2.id = node.id ↔ e.1 = ⟨node.level, node.first⟩) := by
          intro e he
          rw [hc.keyed e he, hids e.2 node (hin e he) hnode]
          constructor
          · rintro ⟨h1, h2⟩
            rw [h1, h2]
          · intro h
            injection h with h1 h2
            exact ⟨h1, h2⟩
        obtain ⟨c1, h1, hc1, _, hmem, _⟩ := Add_step b c node hc hm hadm
        refine ⟨c1, h1, Or.inr ⟨hc1, ?_, hids⟩⟩
        intro e he
        rcases hmem e he with h2 | h2
        · exact hin e h2
        · rw [h2]; exact hnode
  have hC0 : t.cache_.Quiet b ∨ (t.cache_.Inv ∧
      (∀ e ∈ t.cache_.nodes_, Tree.Member b t.store_ depth root e.2) ∧
      ∀ n1 n2, Tree.Member b t.store_ depth root n1 →
        Tree.Member b t.store_ depth root n2 →
        (n1.id = n2.id ↔ n1.level = n2.level ∧ n1.first = n2.first)) := by
    rcases hassert with h | ⟨h1, h2⟩
    · exact Or.inl h
    · exact Or.inr ⟨h1, hreach, h2⟩
  -- the descent from the root
  obtain ⟨t2, kv2, err2, hrun2, hst2, _, hres2⟩ :=
    get_descent_member b t.store_ k hk _ _ hadd hM depth (fuel1 + 1) t root hfuel rfl hC0
      hself hwf
  -- the cache after `NodeCache::Get`
  have hCget : ∀ c1 r, t.cache_.Get k = .ok (c1, r) →
      (c1.Quiet b ∨ (c1.Inv ∧ (∀ e ∈ c1.nodes_, Tree.Member b t.store_ depth root e.2) ∧
        ∀ n1 n2, Tree.Member b t.store_ depth root n1 →
          Tree.Member b t.store_ depth root n2 →
          (n1.id = n2.id ↔ n1.level = n2.level ∧ n1.first = n2.first))) := by
    intro c1 r hget
    rcases hC0 with hq | ⟨hc, hin, hids⟩
    · left
      have hmax : c1.maxSize_ = t.cache_.maxSize_ := by
        rcases Get_shape t.cache_ k with ⟨c2, h2, _, _, h3⟩ | ⟨it, _, h2, _⟩
        · rw [hget] at h2
          injection h2 with h2
          injection h2 with h2 _
          rw [h2]; exact h3
        · rw [hget] at h2
          injection h2 with h2
          injection h2 with h2 _
          rw [h2]
      unfold NodeCache.Quiet at hq ⊢
      rw [hmax]
      exact hq
    · right
      obtain ⟨c2, r2, h2, hc2, _, hsub⟩ := Get_step t.cache_ k hc
      rw [hget] at h2
      injection h2 with h2
      injection h2 with h2 _
      rw [h2]
      exact ⟨hc2, fun e he => hin e (hsub e he), hids⟩
  have hcombine : ∀ (kv1 : KeyValue) (err1 : error_condition),
      ((err1 = none ∧ kv1.key = k ∧
          ∃ m, Tree.Member b t.store_ depth root m ∧ kv1 ∈ m.keys) ∨
        (err1 = some .key_not_found ∧ kv1 = KeyValue.zero ∧
          ∀ m kv, Tree.Member b t.store_ depth root m → kv ∈ m.keys → kv.key ≠ k)) →
      kv1 = kv2 ∧ err1 = err2 ∧ (err2 = none ∨ err2 = some .key_not_found) := by
    intro kv1 err1 hres1
    rcases hres1 with ⟨he1, hk1, m1, hm1, hkv1⟩ | ⟨he1, hz1, hno1⟩
    · rcases hres2 with ⟨he2, hk2, m2, hm2, hkv2⟩ | ⟨he2, _, hnh2⟩
      · exact ⟨member_slot_unique b t.store_ k hk depth root m1 m2 kv1 kv2 hwf hm1 hkv1 hk1
          hm2 hkv2 hk2, by rw [he1, he2], Or.inl he2⟩
      · exact absurd (hk1 ▸ member_holds b t.store_ depth root m1 kv1 hm1 hkv1) hnh2
    · rcases hres2 with ⟨he2, hk2, m2, hm2, hkv2⟩ | ⟨he2, hz2, _⟩
      · exact absurd hk2 (hno1 m2 kv2 hm2 hkv2)
      · exact ⟨by rw [hz1, hz2], by rw [he1, he2], Or.inr he2⟩
  have hnoholds : ∀ (d1 : Nat) (n : Node), ¬ Tree.Holds b t.store_ d1 n k →
      ∀ m kv, Tree.Member b t.store_ d1 n m → kv ∈ m.keys → kv.key ≠ k := by
    intro d1 n hnh m kv hm hkv hkk
    exact hnh (hkk ▸ member_holds b t.store_ d1 n m kv hm hkv)
  rcases Get_shape t.cache_ k with ⟨c1, hget, _⟩ | ⟨it, hit, hget, hlo, hhi⟩
  · -- a miss: the descent starts at the root
    obtain ⟨t1, kv1, err1, hrun1, hst1, _, hres1⟩ :=
      get_descent_member b t.store_ k hk _ _ hadd hM depth (fuel1 + 1)
        { store_ := t.store_, cache_ := c1 } root hfuel rfl (hCget c1 none hget) hself hwf
    have hres : (err1 = none ∧ kv1.key = k ∧
          ∃ m, Tree.Member b t.store_ depth root m ∧ kv1 ∈ m.keys) ∨
        (err1 = some .key_not_found ∧ kv1 = KeyValue.zero ∧
          ∀ m kv, Tree.Member b t.store_ depth root m → kv ∈ m.keys → kv.key ≠ k) := by
      rcases hres1 with h | ⟨h1, h2, h3⟩
      · exact Or.inl h
      · exact Or.inr ⟨h1, h2, hnoholds depth root h3⟩
    obtain ⟨e1, e2, e3⟩ := hcombine kv1 err1 hres
    refine ⟨t1, t2, kv2, err2, ?_, hrun2, hst1, hst2, e3⟩
    unfold Tree.Get
    simp only [hget, bind, Except.bind, hroot]
    rw [hrun1, e1, e2]
  · -- a hit: the descent starts at the cached node
    have hN := hreach it hit
    obtain ⟨d1, hd1, hwfN⟩ := member_wellFormed b t.store_ depth root it.2 hwf hN
    obtain ⟨c1, hget1⟩ : ∃ c1, t.cache_.Get k = .ok (c1, some it.2) := ⟨_, hget⟩
    obtain ⟨t1, kv1, err1, hrun1, hst1, _, hres1⟩ :=
      get_descent_member b t.store_ k hk _ _ hadd hM d1 (fuel1 + 1)
        { store_ := t.store_, cache_ := c1 } it.2 (by omega) rfl (hCget c1 _ hget1) hN hwfN
    have hres : (err1 = none ∧ kv1.key = k ∧
          ∃ m, Tree.Member b t.store_ depth root m ∧ kv1 ∈ m.keys) ∨
        (err1 = some .key_not_found ∧ kv1 = KeyValue.zero ∧
          ∀ m kv, Tree.Member b t.store_ depth root m → kv ∈ m.keys → kv.key ≠ k) := by
      rcases hres1 with ⟨h1, h2, m, hm, hkv⟩ | ⟨h1, h2, h3⟩
      · exact Or.inl ⟨h1, h2, m, member_trans b t.store_ depth root it.2 m d1 hwf hN hm, hkv⟩
      · refine Or.inr ⟨h1, h2, ?_⟩
        intro m kv hm hkv hkk
        have hbelow := member_below b t.store_ k hk depth root it.2 m kv hwf hN hlo hhi hm hkv
          hkk
        have := member_of_wellFormed b t.store_ d1 it.2 m depth hwfN hbelow
        exact hnoholds d1 it.2 h3 m kv this hkv hkk
    obtain ⟨e1, e2, e3⟩ := hcombine kv1 err1 hres
    refine ⟨t1, t2, kv2, err2, ?_, hrun2, hst1, hst2, e3⟩
    unfold Tree.Get
    simp only [hget1, bind, Except.bind]
    rw [hrun1, e1, e2]

/-! ## `Tree::Get` on the concrete store -/

set_option maxRecDepth 100000 in
theorem scenario_root_get :
    Scenario.store.Get Scenario.build Tree.rootId
      = .ok (Scenario.store, some (Scenario.node 0), none) := by
  decide!

set_option maxRecDepth 100000 in
theorem scenario_cache :
    (Scenario.state Scenario.afterFlush).tree_.cache_
      = { maxSize_ := 262144, hits_ := 0, misses_ := 0, inserts_ := 2, updates_ := 1,
          nodes_ := [(⟨1, 1⟩, ⟨232, 1, 3, 1, 1 + (2 ^ 256 - 2) / 3, [0, 0, 0],
              [⟨0, 0, 0⟩, ⟨2 ^ 256 / 255 * 65, 0, 37⟩]⟩),
            (⟨0, 1⟩, ⟨0, 0, 3, 1, 2 ^ 256 - 1, [232, 0, 0],
              [⟨1 + (2 ^ 256 - 2) / 3, 2 ^ 64 - 1, 0⟩,
                ⟨1 + 2 * ((2 ^ 256 - 2) / 3), 2 ^ 64 - 1, 0⟩]⟩)],
          index_ := [(0, ⟨0, 1⟩), (232, ⟨1, 1⟩)] } := by
  decide!

set_option maxRecDepth 100000 in
theorem scenario_members (n : Node)
    (h : Tree.Member Scenario.build Scenario.store 2 (Scenario.node 0) n) :
    n = Scenario.node 0 ∨ n = Scenario.node 232 := by
  rcases h with h | ⟨i, cid, c, hc, hne, hget, hm⟩
  · exact Or.inl h
  · right
    have hch : (Scenario.node 0).children = [232, 0, 0] := by rw [scenario_root]
    rw [hch] at hc
    have hcid : cid = 232 := by
      rcases i with _ | _ | _ | i
      · simp at hc; exact hc.symm
      · simp at hc; exact absurd hc.symm hne
      · simp at hc; exact absurd hc.symm hne
      · simp at hc
    subst hcid
    have hcc := store_get_inj hget scenario_store_get
    subst hcc
    rcases hm with h1 | ⟨_, _, _, _, _, _, h2⟩
    · exact h1
    · exact absurd h2 (by simp [Tree.Member])

theorem scenario_member_child :
    Tree.Member Scenario.build Scenario.store 2 (Scenario.node 0) (Scenario.node 232) :=
  Or.inr ⟨0, 232, Scenario.node 232, by rw [scenario_root]; rfl, by decide,
    scenario_store_get, Or.inl rfl⟩

theorem scenario_cache_inv : (Scenario.state Scenario.afterFlush).tree_.cache_.Inv := by
  rw [scenario_cache]
  exact { size := by decide, keys := by decide, ids := by decide, keyed := by decide,
          index := by decide }

set_option maxRecDepth 100000 in
theorem scenario_cache_members :
    ∀ e ∈ (Scenario.state Scenario.afterFlush).tree_.cache_.nodes_,
      Tree.Member Scenario.build Scenario.store 2 (Scenario.node 0) e.2 := by
  have hchild := scenario_member_child
  rw [scenario_child] at hchild
  have hself : Tree.Member Scenario.build Scenario.store 2 (Scenario.node 0)
      ⟨0, 0, 3, 1, 2 ^ 256 - 1, [232, 0, 0],
        [⟨1 + (2 ^ 256 - 2) / 3, 2 ^ 64 - 1, 0⟩,
          ⟨1 + 2 * ((2 ^ 256 - 2) / 3), 2 ^ 64 - 1, 0⟩]⟩ := Or.inl scenario_root.symm
  rw [scenario_cache]
  intro e he
  rcases List.mem_cons.mp he with h | he
  · rw [h]; exact hchild
  · rcases List.mem_cons.mp he with h | he
    · rw [h]; exact hself
    · exact absurd he (List.not_mem_nil _)

set_option maxRecDepth 100000 in
theorem scenario_ids_agree :
    ∀ n1 n2, Tree.Member Scenario.build Scenario.store 2 (Scenario.node 0) n1 →
      Tree.Member Scenario.build Scenario.store 2 (Scenario.node 0) n2 →
      (n1.id = n2.id ↔ n1.level = n2.level ∧ n1.first = n2.first) := by
  intro n1 n2 h1 h2
  rcases scenario_members n1 h1 with e1 | e1 <;> rcases scenario_members n2 h2 with e2 | e2 <;>
    rw [e1, e2] <;> simp only [scenario_root, scenario_child] <;> decide

set_option maxRecDepth 100000 in
theorem Get_agrees_with_root_descent_witness :
    Tree.WellFormed Scenario.build Scenario.store 2 (Scenario.node 0) ∧
    (∀ e ∈ (Scenario.state Scenario.afterFlush).tree_.cache_.nodes_,
      Tree.Member Scenario.build Scenario.store 2 (Scenario.node 0) e.2) ∧
    (Scenario.state Scenario.afterFlush).tree_.cache_.Inv ∧
    ∃ t1 t2 slot err,
      Tree.Get Scenario.build 8 (Scenario.state Scenario.afterFlush).tree_
        (2 ^ 256 / 255 * 65) = .ok (t1, slot, err) ∧
      Tree.get Scenario.build 8 (Scenario.state Scenario.afterFlush).tree_ (Scenario.node 0)
        (2 ^ 256 / 255 * 65) = .ok (t2, slot, err) ∧
      t1.store_ = (Scenario.state Scenario.afterFlush).tree_.store_ ∧
      t2.store_ = (Scenario.state Scenario.afterFlush).tree_.store_ ∧
      (err = none ∨ err = some .key_not_found) :=
  ⟨scenario_wellFormed, scenario_cache_members, scenario_cache_inv,
    Get_agrees_with_root_descent Scenario.build (Scenario.state Scenario.afterFlush).tree_
      (Scenario.node 0) (2 ^ 256 / 255 * 65) 2 8 (by decide) scenario_root_get
      scenario_wellFormed scenario_cache_members
      (Or.inr ⟨scenario_cache_inv, scenario_ids_agree⟩)⟩

set_option maxRecDepth 100000 in
/-- C40 (counterexample), on a store of degree 3 opened and cleared, after `Put(k, "a")`
with `k` the key of 32 bytes `0x41` and one flush in which the write of the root fails
(`EIO`) after the new child, block 232, was written and cached. The root read from the
store is a leaf with two synthetic slots that satisfies the node invariants, and every
entry of the cache is identical to the node the store holds under its id. `Tree::Get(k)`
hits the cached child and returns its slot with no error; `get` started at the root
returns `key_not_found`. The cached child is persisted, but no node names it. -/
theorem Get_returns_slot_of_unreachable_cached_node :
    (do let (db, e3) ← Scenario.afterRootFault
        let t := db.tree_
        let (store, root, e4) ← t.store_.Get Scenario.build Tree.rootId
        let (_, slot1, e5) ← Tree.Get Scenario.build 8 t (2 ^ 256 / 255 * 65)
        let (_, slot2, e6) ← (match root with
          | some r => Tree.get Scenario.build 8 t r (2 ^ 256 / 255 * 65)
          | none => throw .no_root)
        pure ([e3, e4, e5, e6],
          (store == t.store_) &&
            (root == some ⟨0, 0, 3, 1, 2 ^ 256 - 1, [0, 0, 0],
              [⟨1 + (2 ^ 256 - 2) / 3, 2 ^ 64 - 1, 0⟩,
                ⟨1 + 2 * ((2 ^ 256 - 2) / 3), 2 ^ 64 - 1, 0⟩]⟩) &&
            t.cache_.nodes_.all (fun e =>
              match t.store_.Get Scenario.build e.2.id with
              | .ok (s, some n, none) => s == t.store_ && n == e.2
              | _ => false),
          t.cache_.nodes_.map (fun e => (e.2.id, e.2.level)), [slot1, slot2]) :
          Except Thrown (List error_condition × Bool × List (Nat × Nat) × List KeyValue))
      = .ok ([some (.os 5), none, none, some .key_not_found], true, [(0, 0), (232, 1)],
          [⟨2 ^ 256 / 255 * 65, 0, 37⟩, ⟨0, 0, 0⟩]) ∧
    (∀ store, Tree.WellFormed Scenario.build store 1
      ⟨0, 0, 3, 1, 2 ^ 256 - 1, [0, 0, 0],
        [⟨1 + (2 ^ 256 - 2) / 3, 2 ^ 64 - 1, 0⟩,
          ⟨1 + 2 * ((2 ^ 256 - 2) / 3), 2 ^ 64 - 1, 0⟩]⟩) :=
  ⟨by decide!, fun store => wellFormed_leaf _ store 0 _
    { shape := by decide, slots := by decide, sorted := by decide, unique := by decide,
      bounds := by decide, inside := by decide, leaf := by decide } (by decide)⟩

/-! ## The overflow branch of `AddKeys` returns -/

/-- The placement loop returns when the stride is not zero and `NearestStride` sends every
key to a slot of the node. -/
theorem strideLoop_total (stride F L : Nat) (hs : 0 < stride) (hL : 1 ≤ L) :
    ∀ (l : List KeyValue) (n : Node) (index best : Nat), n.first = F → n.keys.length = L →
      (∀ kv ∈ l, F ≤ kv.key ∧ (kv.key - F) / stride ≤ L ∧ (kv.key - F) / stride < 2 ^ 32) →
      ∃ n1, Delta.strideLoop stride l n index best = .ok n1 := by
  intro l
  induction l with
  | nil => intro n index best _ _ _; exact ⟨n, rfl⟩
  | cons kv rest ih =>
    intro n index best hF hlen hall
    obtain ⟨h1, h2, h3⟩ := hall kv (List.mem_cons_self _ _)
    obtain ⟨dist, hn⟩ : ∃ dist, KeyUtil.NearestStride F stride kv.key
        = .ok (dist, (kv.key - F) / stride - 1) := ⟨_, NearestStride_eq F stride kv.key h1 hs h3⟩
    have hidx : (kv.key - F) / stride - 1 < n.keys.length := by omega
    have hset : n.SetKeyValue ((kv.key - F) / stride - 1) kv
        = .ok { n with keys := n.keys.set ((kv.key - F) / stride - 1) kv } := by
      unfold Node.SetKeyValue
      rw [if_pos hidx]
    simp only [Delta.strideLoop, bind, Except.bind]
    rw [hF, hn]
    simp only
    by_cases hcond : ((kv.key - F) / stride - 1 = index ∧ dist < best) ∨
        (kv.key - F) / stride - 1 ≠ index
    · rw [if_pos hcond, hset]
      exact ih _ _ _ hF (by simp [hlen]) (fun x hx => hall x (List.mem_cons_of_mem _ hx))
    · rw [if_neg hcond]
      exact ih _ _ _ hF hlen (fun x hx => hall x (List.mem_cons_of_mem _ hx))

/-- The loop that assigns the offsets returns when the buffer holds every key of a
candidate. -/
theorem assignLoop_total (b : Build) (candidates : List KeyValue) :
    ∀ (ks : List KeyValue) (buf : Buffer) (offset ins : Nat) (existing : List KeyValue),
      buf.Ordered →
      (∀ kv ∈ ks, setCount kv candidates > 0 → kv.key ∈ buf.buf_.map Prod.fst) →
      ∃ r, Delta.assignLoop b candidates ks buf offset ins existing = .ok r := by
  intro ks
  induction ks with
  | nil => intro buf offset ins existing _ _; exact ⟨_, rfl⟩
  | cons kv rest ih =>
    intro buf offset ins existing hord hmem
    unfold Delta.assignLoop
    by_cases hsyn : kv.IsSynthetic = true
    · rw [if_pos hsyn]
      obtain ⟨r, hr⟩ := ih buf offset ins existing hord
        (fun x hx => hmem x (List.mem_cons_of_mem _ hx))
      simp only [bind, Except.bind, hr, pure, Except.pure]
      exact ⟨_, rfl⟩
    · rw [if_neg hsyn]
      by_cases hc : setCount kv candidates > 0
      · rw [if_pos hc]
        obtain ⟨e, he, hek⟩ := List.mem_map.mp (hmem kv (List.mem_cons_self _ _) hc)
        have he2 : (kv.key, e.2) ∈ buf.buf_ := by rw [← hek]; exact he
        have hset := SetOffset_ok b buf hord kv.key offset e.2 he2
        obtain ⟨sord, skeys, _, _⟩ := SetOffset_effect b buf _ hord _ _ hset
        obtain ⟨r, hr⟩ := ih (buf.modify kv.key ⟨offset, e.2.length, e.2.value, .NeedsCommitting⟩)
          ((offset + kv.length) % 2 ^ 64) (ins + 1)
          (setErase { kv with offset := offset } existing) sord
          (fun x hx hxc => by
            rw [skeys]; exact hmem x (List.mem_cons_of_mem _ hx) hxc)
        simp only [bind, Except.bind, hset, pure, Except.pure, hr]
        exact ⟨_, rfl⟩
      · rw [if_neg hc]
        obtain ⟨r, hr⟩ := ih buf offset ins (setErase kv existing) hord
          (fun x hx => hmem x (List.mem_cons_of_mem _ hx))
        simp only [bind, Except.bind, pure, Except.pure, hr]
        exact ⟨_, rfl⟩

/-- The loop that evicts returns when no key it evicts is in the buffer. -/
theorem evictLoop_total (b : Build) :
    ∀ (ex : List KeyValue) (buf : Buffer) (ev : Nat),
      (∀ x ∈ ex, x.IsSynthetic = false → ∀ e ∈ buf.buf_, e.1 ≠ x.key) →
      ex.Pairwise (fun a c => a.key ≠ c.key) →
      ∃ r, Delta.evictLoop b ex buf ev = .ok r := by
  intro ex
  induction ex with
  | nil => intro buf ev _ _; exact ⟨_, rfl⟩
  | cons kv rest ih =>
    intro buf ev hfree hnd
    rw [List.pairwise_cons] at hnd
    unfold Delta.evictLoop
    by_cases hsyn : kv.IsSynthetic = true
    · rw [if_pos hsyn]
      exact ih buf ev (fun x hx => hfree x (List.mem_cons_of_mem _ hx)) hnd.2
    · have hsynF : kv.IsSynthetic = false := by simpa using hsyn
      rw [if_neg hsyn]
      have hnone : buf.find kv.key = none :=
        (find_none_iff buf kv.key).mpr (hfree kv (List.mem_cons_self _ _) hsynF)
      have hadd : buf.AddEvictee b kv.key kv.offset kv.length
          = .ok (⟨Buffer.leftInsert (kv.key, ⟨kv.offset, kv.length, Buffer.emptyBufferValue,
              .Evicted⟩) buf.buf_⟩,
            (Buffer.leftInsert (kv.key, ⟨kv.offset, kv.length, Buffer.emptyBufferValue,
              .Evicted⟩) buf.buf_).length) := by
        unfold Buffer.AddEvictee cassert
        rw [hnone]
        simp [bind, Except.bind, pure, Except.pure]
      rw [hadd]
      simp only [bind, Except.bind]
      have hmem := mem_leftInsert (kv.key, ⟨kv.offset, kv.length, Buffer.emptyBufferValue,
        .Evicted⟩) buf.buf_ (hfree kv (List.mem_cons_self _ _) hsynF)
      apply ih _ _ _ hnd.2
      intro x hx hxs e he
      rcases (hmem e).mp he with e1 | e1
      · rw [e1]
        exact hnd.1 x hx
      · exact hfree x (List.mem_cons_of_mem _ hx) hxs e e1

/-- What the loop that evicts needs, after the offsets are assigned: the members left in
`existing` have distinct keys, and none that is not synthetic has its key in the buffer. -/
theorem overflow_evict_ready (d : Delta) (buffer bufA : Buffer) (ks : List KeyValue)
    (existing1 : List KeyValue)
    (hinside : ∀ x ∈ d.existing, d.current_.first < x.key ∧ x.key < d.current_.last)
    (hfree : ∀ x ∈ d.existing, x.IsSynthetic = false →
      ∀ v, (x.key, v) ∈ buffer.buf_ → v.status = .Unprocessed)
    (hkeys : bufA.buf_.map Prod.fst = (d.deduped buffer).buf_.map Prod.fst)
    (hex : existing1 = d.existing.filter
      (fun x => !ks.any (fun kv => !kv.IsSynthetic && kv.key == x.key))) :
    existing1.Pairwise (fun a c => a.key ≠ c.key) ∧
    ∀ x ∈ existing1, x.IsSynthetic = false → ∀ e ∈ bufA.buf_, e.1 ≠ x.key := by
  constructor
  · rw [hex]
    exact List.Pairwise.filter _ (sorted_distinct _ (existing_sorted d))
  · intro x hx hxs e he hk
    have hxe : x ∈ d.existing := by
      rw [hex] at hx
      exact (List.mem_filter.mp hx).1
    have h1 : e.1 ∈ bufA.buf_.map Prod.fst := List.mem_map.mpr ⟨e, he, rfl⟩
    rw [hkeys] at h1
    obtain ⟨e1, he1, hk1⟩ := List.mem_map.mp h1
    obtain ⟨hb, hnot⟩ := (mem_deduped d buffer e1).mp he1
    have hk2 : e1.1 = x.key := hk1.trans hk
    apply hnot
    refine ⟨hfree x hxe hxs e1.2 (by rw [← hk2]; exact hb), ?_, ⟨x, hxe, hk2.symm⟩⟩
    rw [hk2]
    exact hinside x hxe

/-- The overflow branch of `AddKeys` returns when the node has one child id more than
slots, fewer than `2^32` children, an upper bound that is a key and a stride that is not
zero, and every key of the combined set lies below `first + D * stride`, so that
`NearestStride` sends it to a slot of the node. -/
theorem AddKeys_overflow_returns (b : Build) (d : Delta) (buffer : Buffer) (offset : Nat)
    (hord : buffer.Ordered)
    (hinside : ∀ x ∈ d.existing, d.current_.first < x.key ∧ x.key < d.current_.last)
    (hfree : ∀ x ∈ d.existing, x.IsSynthetic = false →
      ∀ v, (x.key, v) ∈ buffer.buf_ → v.status = .Unprocessed)
    (hempty : d.current_.EmptyKeyCount ≠ 0)
    (hover : d.current_.keys.length
      < d.existing.length + (d.candidates buffer).length + (d.evictions buffer).length)
    (hshape : d.current_.children.length = d.current_.keys.length + 1)
    (hD : d.current_.children.length < 2 ^ 32)
    (hmax : d.current_.last ≤ KeyUtil.Max b)
    (hstride : d.current_.children.length ≤ d.current_.last - d.current_.first)
    (htop : ∀ kv ∈ d.combined buffer, kv.key < d.current_.first +
      d.current_.children.length *
        ((d.current_.last - d.current_.first) / d.current_.children.length)) :
    ∃ d1 buffer1 offset1, d.AddKeys b buffer offset = .ok (d1, buffer1, offset1) := by
  have hfl : d.current_.first < d.current_.last := by omega
  have hL : 1 ≤ d.current_.keys.length := by
    have := nonZeroBegin_le d.current_
    unfold Node.EmptyKeyCount at hempty
    omega
  have hDpos : 0 < d.current_.children.length := by omega
  have hs : 0 < (d.current_.last - d.current_.first) / d.current_.children.length :=
    Nat.div_pos hstride hDpos
  have hStride : d.current_.Clear.Stride
      = .ok ((d.current_.last - d.current_.first) / d.current_.children.length) := by
    unfold Node.Stride KeyUtil.Stride KeyUtil.sub KeyUtil.div Node.Degree Node.Clear
    simp only
    rw [Nat.mod_eq_of_lt hD]
    simp only [if_pos (Nat.le_of_lt hfl), bind, Except.bind]
    rw [if_neg (by omega)]
  have hmul := Nat.mul_div_le (d.current_.last - d.current_.first) d.current_.children.length
  generalize hst : (d.current_.last - d.current_.first) / d.current_.children.length = st
    at hs hStride htop hmul
  have hin := combined_above d buffer hord (fun x hx => (hinside x hx).1)
  have hstle : st ≤ d.current_.last - d.current_.first :=
    Nat.le_trans (Nat.le_mul_of_pos_left st hDpos) hmul
  obtain ⟨cur1, hrun⟩ := strideLoop_total st d.current_.first d.current_.keys.length hs hL
    (d.combined buffer) d.current_.Clear 0 (KeyUtil.Max b) rfl
    (by unfold Node.Clear; simp only [List.length_replicate])
    (fun kv hkv => by
      have h1 := hin kv hkv
      have h2 := htop kv hkv
      have h3 : (kv.key - d.current_.first) / st < d.current_.children.length := by
        rw [Nat.div_lt_iff_lt_mul hs]
        omega
      exact ⟨by omega, by omega, by omega⟩)
  have hclear : ∀ kv ∈ d.current_.Clear.keys, kv.key = 0 := by
    intro kv hkv
    unfold Node.Clear at hkv
    rw [List.eq_of_mem_replicate hkv]
  have hfr1 := strideLoop_frame st (d.combined buffer) d.current_.Clear cur1 0 _ hrun
  have hlen1 := (strideLoop_slots st (KeyUtil.Max b) (d.combined buffer) d.current_.Clear cur1 hs
    (by omega) (combined_sorted d buffer hord) hin hclear hrun).1
  have hlenC : d.current_.Clear.keys.length = d.current_.keys.length := by
    unfold Node.Clear; simp only [List.length_replicate]
  obtain ⟨ks2, hsyn, _, _⟩ := AddSyntheticKeyValues_spec b cur1
    (by rw [hfr1.2.2.2.2.2, hlen1, hlenC]; exact hshape)
    (by rw [hfr1.2.2.2.2.2]; exact hD)
    (by rw [hfr1.2.2.2.1, hfr1.2.2.2.2.1]; exact Nat.le_of_lt hfl)
    (by rw [hfr1.2.2.2.2.1]; exact hmax)
  have hov : ¬ d.existing.length + (d.candidates buffer).length + (d.evictions buffer).length
      ≤ d.current_.keys.length := by omega
  obtain ⟨_, hslots⟩ := overflow_cur2 b d buffer hord (fun x hx => (hinside x hx).1) hov
    st cur1 _ _ hStride hrun hsyn
  obtain ⟨r, hassign⟩ := assignLoop_total b (d.candidates buffer) ks2 (d.deduped buffer) offset
    d.insertions_ d.existing (deduped_ordered d buffer hord)
    (fun kv _ hc => by
      unfold setCount at hc
      obtain ⟨c, hc1, hc2⟩ := List.countP_pos_iff.mp hc
      have := candidates_in_deduped d buffer c hc1
      have hk : c.key = kv.key := by simpa using hc2
      rw [← hk]; exact this)
  obtain ⟨ks, bufA, offset1, ins, existing1⟩ := r
  obtain ⟨placed, _, _, _, _, _, _, _, p9, p10, _, _, p13⟩ :=
    overflow_assign b d buffer hord st { cur1 with keys := ks2 } hslots ks bufA offset offset1
      d.insertions_ ins existing1 hassign
  obtain ⟨hnd1, hfreeA⟩ := overflow_evict_ready d buffer bufA ks2 existing1 hinside hfree p10 p13
  obtain ⟨r2, hevict⟩ := evictLoop_total b existing1 bufA d.evictions_ hfreeA hnd1
  obtain ⟨buffer1, ev⟩ := r2
  have hA : ¬ (buffer.pendingIn d.current_.first d.current_.last .Unprocessed).length
      + (d.evictions buffer).length = 0 := by
    intro h
    have := candidates_length_le d buffer
    have := existing_length_le d
    omega
  have hB : ¬ (((d.candidates buffer).length = 0 ∧ (d.evictions buffer).length = 0) ∨
      d.current_.EmptyKeyCount = 0) := by
    rintro (⟨h1, h2⟩ | h1)
    · have := existing_length_le d
      omega
    · exact hempty h1
  have hflip : ∀ x, ({ d with existing_ := x } : Delta).Flip.evictions_ = d.evictions_ ∧
      ({ d with existing_ := x } : Delta).Flip.insertions_ = d.insertions_ := by
    intro x
    unfold Delta.Flip
    split <;> exact ⟨rfl, rfl⟩
  have hrunC : Delta.strideLoop st
      (d.existing.foldl (fun acc kv => setInsert kv acc)
        ((d.evictions buffer).foldl (fun acc kv => setInsert kv acc) (d.candidates buffer)))
      d.current_.Clear 0 (KeyUtil.Max b) = .ok cur1 := hrun
  have hassign2 : Delta.assignLoop b (d.candidates buffer) ks2 (d.deduped buffer) offset
      d.insertions_ d.existing = .ok (ks, bufA, offset1, ins, existing1) := hassign
  have hres : ∃ r, d.AddKeys b buffer offset = .ok r := by
    unfold Delta.AddKeys
    rw [GetCandidates_delta d buffer hord hfl]
    simp only [bind, Except.bind, pure, Except.pure, existing_def]
    rw [if_neg hA, dedupe_eq d buffer hord]
    simp only
    have hfit2 : ¬ d.existing.length + (d.candidates buffer).length
        + (d.evictions buffer).length ≤ d.current_.MaxKeys := hov
    rw [if_neg hB, if_neg hfit2]
    simp only [Flip_current, hStride, hrunC, hsyn, (hflip _).1, (hflip _).2, hassign2, hevict]
    exact ⟨_, rfl⟩
  obtain ⟨⟨d1, buffer2, offset2⟩, hres⟩ := hres
  exact ⟨d1, buffer2, offset2, hres⟩

/-- `AddKeys` returns in the branches that do not overflow, and in the overflow branch
under the conditions of `AddKeys_overflow_returns`. -/
theorem AddKeys_returns (b : Build) (d : Delta) (buffer : Buffer) (offset : Nat)
    (hord : buffer.Ordered) (hfl : d.current_.first < d.current_.last)
    (hinside : ∀ x ∈ d.existing, d.current_.first < x.key)
    (hcase : d.existing.length + (d.candidates buffer).length + (d.evictions buffer).length
        ≤ d.current_.keys.length ∨ d.current_.EmptyKeyCount = 0 ∨
      ((∀ x ∈ d.existing, x.key < d.current_.last) ∧
        (∀ x ∈ d.existing, x.IsSynthetic = false →
          ∀ v, (x.key, v) ∈ buffer.buf_ → v.status = .Unprocessed) ∧
        d.current_.children.length = d.current_.keys.length + 1 ∧
        d.current_.children.length < 2 ^ 32 ∧ d.current_.last ≤ KeyUtil.Max b ∧
        d.current_.children.length ≤ d.current_.last - d.current_.first ∧
        ∀ kv ∈ d.combined buffer, kv.key < d.current_.first +
          d.current_.children.length *
            ((d.current_.last - d.current_.first) / d.current_.children.length))) :
    ∃ d1 buffer1 offset1, d.AddKeys b buffer offset = .ok (d1, buffer1, offset1) := by
  by_cases hA : (buffer.pendingIn d.current_.first d.current_.last .Unprocessed).length
      + (d.evictions buffer).length = 0
  · exact ⟨_, _, _, AddKeys_idle b d buffer offset hord hfl hA⟩
  by_cases hB : ((d.candidates buffer).length = 0 ∧ (d.evictions buffer).length = 0) ∨
      d.current_.EmptyKeyCount = 0
  · exact ⟨_, _, _, AddKeys_nothing b d buffer offset hord hfl hA hB⟩
  by_cases hfit : d.existing.length + (d.candidates buffer).length
      + (d.evictions buffer).length ≤ d.current_.keys.length
  · obtain ⟨d1, buffer1, offset1, _, h, _⟩ := AddKeys_fill b d buffer offset hord hfl hB hfit
    exact ⟨d1, buffer1, offset1, h⟩
  rcases hcase with h | h | ⟨h1, h2, h3, h4, h5, h6, h7⟩
  · exact absurd h hfit
  · exact absurd (Or.inr h) hB
  · exact AddKeys_overflow_returns b d buffer offset hord
      (fun x hx => ⟨hinside x hx, h1 x hx⟩) h2 (fun h => hB (Or.inr h)) (by omega) h3 h4 h5 h6 h7

/-- C32. `AddKeys` in the overflow branch: the node has an empty slot and `existing`, the
candidates and the evictions together exceed its slots. Every member of `existing` lies
strictly inside the range of the node, the buffer is in key order, and an entry of the
buffer with the key of a member of `existing` that is not synthetic is Unprocessed (the
precondition that `AddEvictee` asserts). `AddKeys` returns when the node has one child id
more than slots, fewer than `2^32` children, an upper bound that is a key and a stride that
is not zero, and every key of the combined set lies below `first + D * stride`. Whenever it
returns: every member of `existing` that is not synthetic and whose key is the key of no
slot of the rebuilt node has an entry in the buffer with its key, its offset and its
length, no value bytes and the state Evicted; every entry of the buffer was there before,
or is the entry of a slot that was just assigned an offset, or is such an evictee, whose
key is the key of no slot, synthetic or not, of the rebuilt node; the evictions counter
grows by the number of evictees; and an evictee is not ready for writing, so `Write` does
not append it to the value log. -/
theorem AddKeys_evicts_displaced_slots (b : Build) (d : Delta) (buffer : Buffer)
    (offset : Nat) (hord : buffer.Ordered)
    (hinside : ∀ x ∈ d.existing, d.current_.first < x.key ∧ x.key < d.current_.last)
    (hfree : ∀ x ∈ d.existing, x.IsSynthetic = false →
      ∀ v, (x.key, v) ∈ buffer.buf_ → v.status = .Unprocessed)
    (hempty : d.current_.EmptyKeyCount ≠ 0)
    (hover : d.current_.keys.length
      < d.existing.length + (d.candidates buffer).length + (d.evictions buffer).length) :
    (d.current_.children.length = d.current_.keys.length + 1 →
      d.current_.children.length < 2 ^ 32 → d.current_.last ≤ KeyUtil.Max b →
      d.current_.children.length ≤ d.current_.last - d.current_.first →
      (∀ kv ∈ d.combined buffer, kv.key < d.current_.first +
        d.current_.children.length *
          ((d.current_.last - d.current_.first) / d.current_.children.length)) →
      ∃ d1 buffer1 offset1, d.AddKeys b buffer offset = .ok (d1, buffer1, offset1)) ∧
    ∀ d1 buffer1 offset1, d.AddKeys b buffer offset = .ok (d1, buffer1, offset1) →
      (∀ x ∈ d.existing, x.IsSynthetic = false → (∀ s ∈ d1.current_.keys, s.key ≠ x.key) →
        (x.key, (⟨x.offset, x.length, Buffer.emptyBufferValue, .Evicted⟩ : Value))
          ∈ buffer1.buf_) ∧
      (∀ e ∈ buffer1.buf_, e ∈ buffer.buf_ ∨
        (e.2.status = .NeedsCommitting ∧
          ∃ p ∈ d1.current_.keys, p.key = e.1 ∧ e.2.offset = p.offset) ∨
        (∃ x ∈ d.existing, x.IsSynthetic = false ∧ (∀ s ∈ d1.current_.keys, s.key ≠ x.key) ∧
          e = (x.key, ⟨x.offset, x.length, Buffer.emptyBufferValue, .Evicted⟩) ∧
          e.2.ReadyForWriting = false)) ∧
      d1.evictions_ = d.evictions_ + d.existing.countP
        (fun x => !x.IsSynthetic && !d1.current_.keys.any (fun s => s.key == x.key)) ∧
      d.current_.SameFrame d1.current_ :=
  ⟨fun h1 h2 h3 h4 h5 =>
      AddKeys_overflow_returns b d buffer offset hord hinside hfree hempty hover h1 h2 h3 h4 h5,
    fun d1 buffer1 offset1 h =>
      overflow_evictions b d d1 buffer buffer1 offset offset1 hord hinside hfree
        hempty hover h⟩

set_option maxRecDepth 100000 in
theorem AddKeys_evicts_displaced_slots_witness :
    (∃ d1 buffer1 offset1,
      (Delta.new Scenario.crowded).AddKeys Scenario.build Scenario.arrivals 1000
        = .ok (d1, buffer1, offset1)) ∧
    ((Delta.new Scenario.crowded).AddKeys Scenario.build Scenario.arrivals 1000
      = .ok (Scenario.crowdedDelta, Scenario.arrivalsPlaced, 1075)) ∧
    (Delta.new Scenario.crowded).existing = [⟨310, 5, 37⟩, ⟨320, 42, 37⟩] ∧
    ((∀ x ∈ (Delta.new Scenario.crowded).existing, x.IsSynthetic = false →
      (∀ s ∈ Scenario.crowdedDelta.current_.keys, s.key ≠ x.key) →
      (x.key, (⟨x.offset, x.length, Buffer.emptyBufferValue, .Evicted⟩ : Value))
        ∈ Scenario.arrivalsPlaced.buf_) ∧
    (∀ e ∈ Scenario.arrivalsPlaced.buf_, e ∈ Scenario.arrivals.buf_ ∨
      (e.2.status = .NeedsCommitting ∧
        ∃ p ∈ Scenario.crowdedDelta.current_.keys, p.key = e.1 ∧ e.2.offset = p.offset) ∨
      (∃ x ∈ (Delta.new Scenario.crowded).existing, x.IsSynthetic = false ∧
        (∀ s ∈ Scenario.crowdedDelta.current_.keys, s.key ≠ x.key) ∧
        e = (x.key, ⟨x.offset, x.length, Buffer.emptyBufferValue, .Evicted⟩) ∧
        e.2.ReadyForWriting = false)) ∧
    Scenario.crowdedDelta.evictions_ = (Delta.new Scenario.crowded).evictions_ +
      (Delta.new Scenario.crowded).existing.countP
        (fun x => !x.IsSynthetic &&
          !Scenario.crowdedDelta.current_.keys.any (fun s => s.key == x.key)) ∧
    (Delta.new Scenario.crowded).current_.SameFrame Scenario.crowdedDelta.current_) :=
  have hfree : ∀ x ∈ (Delta.new Scenario.crowded).existing, x.IsSynthetic = false →
      ∀ v, (x.key, v) ∈ Scenario.arrivals.buf_ → v.status = .Unprocessed := by
    intro x _ _ v hv
    simp only [Scenario.arrivals, List.mem_cons, Prod.mk.injEq, List.mem_singleton,
      List.not_mem_nil, or_false] at hv
    rcases hv with ⟨_, h⟩ | ⟨_, h⟩ <;> rw [h]
  have hord : Scenario.arrivals.Ordered := by simp [Buffer.Ordered, Scenario.arrivals]
  ⟨(AddKeys_evicts_displaced_slots Scenario.build (Delta.new Scenario.crowded)
      Scenario.arrivals 1000 hord (by decide) hfree (by decide) (by decide)).1
      (by decide) (by decide) (by decide) (by decide) (by decide),
    by decide, by decide,
    (AddKeys_evicts_displaced_slots Scenario.build (Delta.new Scenario.crowded)
      Scenario.arrivals 1000 hord (by decide) hfree (by decide) (by decide)).2
      Scenario.crowdedDelta Scenario.arrivalsPlaced 1075 (by decide)⟩

/-- C34. Let the buffer be in key order, the bounds of the node be ordered, every member of
`existing` lie above the lower bound, the candidates have positive lengths, and the
offset plus the lengths of the candidates stay below `2 ^ 64`. `AddKeys` returns when
`existing`, the candidates and the evictions fit the slots, or the node has no empty slot,
or the conditions under which the overflow branch returns hold. Whenever it returns, there
is a list `placed` of slots of the new node, each with the key and the length of a
candidate, such that: the returned offset is the offset plus the sum of their lengths;
every one of their offsets is at least the offset; their intervals
`[offset, offset + length)` follow one another without overlap, so the offsets are
pairwise distinct, and every position from the offset up to the returned offset is in one
of them; each has an Unprocessed entry in the buffer before, and after the entry of its key
has its offset and the state NeedsCommitting; no other entry becomes NeedsCommitting; every
Evicted entry of the buffer is still there unchanged; and every slot of the new node is
one of `placed`, or an eviction with the offset and length it had in the buffer, or a
slot of the node before, or synthetic. -/
theorem AddKeys_assigns_consecutive_offsets (b : Build) (d : Delta) (buffer : Buffer)
    (offset : Nat) (hord : buffer.Ordered) (hfl : d.current_.first < d.current_.last)
    (hinside : ∀ x ∈ d.existing, d.current_.first < x.key)
    (hwrap : offset + ((d.candidates buffer).map (fun c => c.length)).sum < 2 ^ 64)
    (hpos : ∀ c ∈ d.candidates buffer, 0 < c.length) :
    ((d.existing.length + (d.candidates buffer).length + (d.evictions buffer).length
        ≤ d.current_.keys.length ∨ d.current_.EmptyKeyCount = 0 ∨
      ((∀ x ∈ d.existing, x.key < d.current_.last) ∧
        (∀ x ∈ d.existing, x.IsSynthetic = false →
          ∀ v, (x.key, v) ∈ buffer.buf_ → v.status = .Unprocessed) ∧
        d.current_.children.length = d.current_.keys.length + 1 ∧
        d.current_.children.length < 2 ^ 32 ∧ d.current_.last ≤ KeyUtil.Max b ∧
        d.current_.children.length ≤ d.current_.last - d.current_.first ∧
        ∀ kv ∈ d.combined buffer, kv.key < d.current_.first +
          d.current_.children.length *
            ((d.current_.last - d.current_.first) / d.current_.children.length))) →
      ∃ d1 buffer1 offset1, d.AddKeys b buffer offset = .ok (d1, buffer1, offset1)) ∧
    ∀ d1 buffer1 offset1, d.AddKeys b buffer offset = .ok (d1, buffer1, offset1) →
      ∃ placed : List KeyValue,
        (∀ p ∈ placed, p ∈ d1.current_.keys ∧
          ∃ c ∈ d.candidates buffer, c.key = p.key ∧ c.length = p.length) ∧
        offset1 = offset + (placed.map (fun p => p.length)).sum ∧
        (∀ p ∈ placed, offset ≤ p.offset ∧ p.offset + p.length ≤ offset1) ∧
        placed.Pairwise (fun a c => a.offset + a.length ≤ c.offset ∧ a.offset ≠ c.offset) ∧
        (∀ x, offset ≤ x → x < offset1 →
          ∃ p ∈ placed, p.offset ≤ x ∧ x < p.offset + p.length) ∧
        (∀ p ∈ placed, ∃ v, (p.key, v) ∈ buffer.buf_ ∧ v.status = .Unprocessed ∧
          (p.key, ⟨p.offset, v.length, v.value, .NeedsCommitting⟩) ∈ buffer1.buf_) ∧
        (∀ e ∈ buffer1.buf_, e.2.status = .NeedsCommitting →
          e ∈ buffer.buf_ ∨ ∃ p ∈ placed, p.key = e.1 ∧ e.2.offset = p.offset) ∧
        (∀ e ∈ buffer.buf_, e.2.status = .Evicted → e ∈ buffer1.buf_) ∧
        (∀ s ∈ d1.current_.keys, s ∈ placed ∨ s ∈ d.evictions buffer ∨
          s ∈ d.current_.keys ∨ s.IsSynthetic = true) :=
  ⟨fun hcase => AddKeys_returns b d buffer offset hord hfl hinside hcase,
    fun d1 buffer1 offset1 h =>
      AddKeys_offsets b d d1 buffer buffer1 offset offset1 hord hfl hinside
        hwrap hpos h⟩

set_option maxRecDepth 100000 in
theorem AddKeys_assigns_consecutive_offsets_witness :
    (∃ d1 buffer1 offset1,
      (Delta.new Scenario.crowded).AddKeys Scenario.build Scenario.arrivals 1000
        = .ok (d1, buffer1, offset1)) ∧
    ((Delta.new Scenario.crowded).AddKeys Scenario.build Scenario.arrivals 1000
      = .ok (Scenario.crowdedDelta, Scenario.arrivalsPlaced, 1075)) ∧
    (Delta.new Scenario.crowded).candidates Scenario.arrivals = [⟨150, 0, 37⟩, ⟨450, 0, 38⟩] ∧
    ∃ placed : List KeyValue,
      (∀ p ∈ placed, p ∈ Scenario.crowdedDelta.current_.keys ∧
        ∃ c ∈ (Delta.new Scenario.crowded).candidates Scenario.arrivals,
          c.key = p.key ∧ c.length = p.length) ∧
      1075 = 1000 + (placed.map (fun p => p.length)).sum ∧
      (∀ p ∈ placed, 1000 ≤ p.offset ∧ p.offset + p.length ≤ 1075) ∧
      placed.Pairwise (fun a c => a.offset + a.length ≤ c.offset ∧ a.offset ≠ c.offset) ∧
      (∀ x, 1000 ≤ x → x < 1075 →
        ∃ p ∈ placed, p.offset ≤ x ∧ x < p.offset + p.length) ∧
      (∀ p ∈ placed, ∃ v, (p.key, v) ∈ Scenario.arrivals.buf_ ∧ v.status = .Unprocessed ∧
        (p.key, ⟨p.offset, v.length, v.value, .NeedsCommitting⟩)
          ∈ Scenario.arrivalsPlaced.buf_) ∧
      (∀ e ∈ Scenario.arrivalsPlaced.buf_, e.2.status = .NeedsCommitting →
        e ∈ Scenario.arrivals.buf_ ∨ ∃ p ∈ placed, p.key = e.1 ∧ e.2.offset = p.offset) ∧
      (∀ e ∈ Scenario.arrivals.buf_, e.2.status = .Evicted →
        e ∈ Scenario.arrivalsPlaced.buf_) ∧
      (∀ s ∈ Scenario.crowdedDelta.current_.keys, s ∈ placed ∨
        s ∈ (Delta.new Scenario.crowded).evictions Scenario.arrivals ∨
        s ∈ (Delta.new Scenario.crowded).current_.keys ∨ s.IsSynthetic = true) :=
  have hfree : ∀ x ∈ (Delta.new Scenario.crowded).existing, x.IsSynthetic = false →
      ∀ v, (x.key, v) ∈ Scenario.arrivals.buf_ → v.status = .Unprocessed := by
    intro x _ _ v hv
    simp only [Scenario.arrivals, List.mem_cons, Prod.mk.injEq, List.mem_singleton,
      List.not_mem_nil, or_false] at hv
    rcases hv with ⟨_, h⟩ | ⟨_, h⟩ <;> rw [h]
  have hord : Scenario.arrivals.Ordered := by simp [Buffer.Ordered, Scenario.arrivals]
  ⟨(AddKeys_assigns_consecutive_offsets Scenario.build (Delta.new Scenario.crowded)
      Scenario.arrivals 1000 hord (by decide) (by decide) (by decide) (by decide)).1
      (Or.inr (Or.inr ⟨by decide, hfree, by decide, by decide, by decide, by decide,
        by decide⟩)),
    by decide, by decide,
    (AddKeys_assigns_consecutive_offsets Scenario.build (Delta.new Scenario.crowded)
      Scenario.arrivals 1000 hord (by decide) (by decide) (by decide) (by decide)).2
      Scenario.crowdedDelta Scenario.arrivalsPlaced 1075 (by decide)⟩

/-! ## The lower bound of the root -/

set_option maxRecDepth 100000 in
/-- C11 (the code at the failing input). The root has the bounds `1` and `2^BITS - 1`, and
what a flush takes from the buffer at the root are the entries with a key strictly between
the bounds: no candidate and no eviction has the key `1`, for every key width of at least
2 bits and every buffer in key order. On a store opened and cleared with 256-bit keys and
degree 3: `Put` accepts the key `1` and the key `2^256 - 2`; the flush completes without
error and places the key `2^256 - 2`, which `Tree::Get` then finds, but the key `1` is still
Unprocessed in the buffer and `Tree::Get(1)` returns `key_not_found`. A second flush changes
nothing. `DB::Get` still answers for the key `1` from the buffer, but once the store is
opened again on the same two files, `Get` of the key `1` returns `key_not_found` while the
key `2^256 - 2` is found: the value that `Put` accepted is lost. -/
theorem flush_never_takes_lower_bound_key (b : Build) (hB : 2 ≤ b.BITS) (buf : Buffer)
    (hord : buf.Ordered) :
    (Tree.firstRootKey b = .ok 1 ∧ Tree.lastRootKey b = 2 ^ b.BITS - 1 ∧
      ∃ candidates evictions,
        buf.GetCandidates 1 (2 ^ b.BITS - 1) [] [] = .ok (candidates, evictions) ∧
        ∀ kv ∈ candidates ++ evictions, 1 < kv.key) ∧
    (do let (db, _) ← Scenario.opened Scenario.build
        let (_, root, _) ← db.tree_.Root Scenario.build
        pure (root.map (fun r => (r.first, r.last))) : Except Thrown (Option (Nat × Nat)))
      = .ok (some (1, 2 ^ 256 - 1)) ∧
    (do let (db, _) ← Scenario.opened Scenario.build
        let (db, e1) ← DB.Put Scenario.build db Scenario.key1 [97]
        let (db, e2) ← DB.Put Scenario.build db Scenario.keyTop [98]
        let (db, e3) ← DB.flush Scenario.build 8 db
        let (t, kv1, g1) ← db.tree_.Get Scenario.build 8 1
        let (_, kv2, g2) ← t.Get Scenario.build 8 (2 ^ 256 - 2)
        pure ([e1, e2, e3, g1, g2], db.buffer_.buf_.map (fun e => (e.1, e.2.status)),
          kv1.key, kv2.key) :
          Except Thrown (List error_condition × List (Nat × ValueState) × Nat × Nat))
      = .ok ([none, none, none, some .key_not_found, none], [(1, .Unprocessed)], 0,
          2 ^ 256 - 2) ∧
    (do let (db, _) ← Scenario.opened Scenario.build
        let (db, _) ← DB.Put Scenario.build db Scenario.key1 [97]
        let (db, _) ← DB.Put Scenario.build db Scenario.keyTop [98]
        let (db, _) ← DB.flush Scenario.build 8 db
        let (db, e4) ← DB.flush Scenario.build 8 db
        let (db, g1, v1) ← DB.Get Scenario.build 8 db Scenario.key1 []
        let (db2, e5) ← Scenario.reopened Scenario.build db
        let (db2, g2, v2) ← DB.Get Scenario.build 8 db2 Scenario.key1 []
        let (_, g3, v3) ← DB.Get Scenario.build 8 db2 Scenario.keyTop []
        pure ([e4, g1, e5, g2, g3], db.buffer_.buf_.map (fun e => (e.1, e.2.status)),
          [v1, v2, v3]) :
          Except Thrown (List error_condition × List (Nat × ValueState) × List (List Nat)))
      = .ok ([none, none, none, some .key_not_found, none], [(1, .Unprocessed)],
          [[97], [], [98]]) := by
  have hpow : 4 ≤ 2 ^ b.BITS := by
    calc 4 = 2 ^ 2 := by norm_num
      _ ≤ 2 ^ b.BITS := Nat.pow_le_pow_right (by norm_num) hB
  refine ⟨⟨?_, rfl, ?_⟩, by decide!, by decide!, by decide!⟩
  · unfold Tree.firstRootKey KeyUtil.add KeyUtil.Min KeyUtil.Max
    rw [if_pos (by omega)]
  · refine ⟨_, _, GetCandidates_eq buf hord 1 (2 ^ b.BITS - 1) (by omega), ?_⟩
    intro kv hkv
    simp only [List.mem_append, List.mem_map, List.mem_filter, Bool.and_eq_true,
      decide_eq_true_eq] at hkv
    rcases hkv with ⟨e, ⟨⟨_, h1, _⟩, _⟩, rfl⟩ | ⟨e, ⟨⟨_, h1, _⟩, _⟩, rfl⟩ <;> exact h1

set_option maxRecDepth 100000 in
theorem flush_never_takes_lower_bound_key_witness :
    ∃ candidates evictions,
      (⟨[(1, ⟨0, 37, [97], .Unprocessed⟩), (2, ⟨0, 37, [98], .Unprocessed⟩),
          (2 ^ 256 - 2, ⟨0, 37, [99], .Unprocessed⟩)]⟩ : Buffer).GetCandidates
        1 (2 ^ Scenario.build.BITS - 1) [] [] = .ok (candidates, evictions) ∧
      ∀ kv ∈ candidates ++ evictions, 1 < kv.key :=
  (flush_never_takes_lower_bound_key Scenario.build (by decide)
    ⟨[(1, ⟨0, 37, [97], .Unprocessed⟩), (2, ⟨0, 37, [98], .Unprocessed⟩),
      (2 ^ 256 - 2, ⟨0, 37, [99], .Unprocessed⟩)]⟩
    (by simp [Buffer.Ordered])).1.2.2

/-! ## A child of the root created twice -/

set_option maxRecDepth 100000 in
/-- C23 (the code at the failing input). `Add` of a node whose level and first key are
those of a cached entry with another id: with asserts compiled in, the assert of `Add`
fails; with `NDEBUG`, `Add` replaces the stored node and leaves the index as it is, so the
index keeps the id of the node replaced and lacks the id of the node stored. The store
produces such a call: on a key file whose ninth system call fails, the first flush writes
and caches the new child of the root (id 232, level 1, first key 1) and fails to write the
root; after `Put` of a key of the same child interval, `Process` finds the root without
that child and creates it again under the id 464, and `Commit` calls `Add` for it. In the
build with asserts the flush does not return: the assert fails. In the build with `NDEBUG`
the flush completes; the cache then holds the nodes with the ids 464 and 0 while the index
holds the ids 0 and 232, `GetById(232)` returns the node with the id 464 and `GetById(464)`
returns nothing. -/
theorem Add_of_recreated_child_leaves_stale_index (b : Build) (c : NodeCache) (node : Node)
    (it : CacheKey × Node) (hm : c.maxSize_ ≠ 0)
    (hit : c.nodes_.find? (fun e => e.1 == ⟨node.level, node.first⟩) = some it)
    (hid : it.2.id ≠ node.id) :
    (b.NDEBUG = false → c.Add b node = .error .assertion) ∧
    (b.NDEBUG = true → c.Add b node = .ok { c with
        updates_ := c.updates_ + 1,
        nodes_ := c.nodes_.filter (fun e => e.1 != ⟨node.level, node.first⟩)
          ++ [(⟨node.level, node.first⟩, node)] }) ∧
    (do let (db, es) ← Scenario.beforeSecondChild Scenario.build
        let ((j, t), e5) ← (Journal.new db.buffer_ db.values_).Process Scenario.build 8 db.tree_
        pure (es ++ [e5],
          j.deltas_.reverse.map (fun e => [e.2.Current.id, e.2.Current.level, e.2.Current.first]),
          t.cache_.nodes_.map (fun e => [e.2.id, e.2.level, e.2.first])) :
          Except Thrown (List error_condition × List (List Nat) × List (List Nat)))
      = .ok ([none, none, none, some (.os 5), none, none], [[464, 1, 1], [0, 0, 1]],
          [[0, 0, 1], [232, 1, 1]]) ∧
    (do let (db, _) ← Scenario.beforeSecondChild Scenario.build
        let _ ← DB.flush Scenario.build 8 db
        pure () : Except Thrown Unit) = .error .assertion ∧
    (do let (db, _) ← Scenario.beforeSecondChild Scenario.release
        let (db, e5) ← DB.flush Scenario.release 8 db
        let g1 ← db.tree_.cache_.GetById 232
        let g2 ← db.tree_.cache_.GetById 464
        pure ([e5], db.tree_.cache_.nodes_.map (fun e => e.2.id),
          db.tree_.cache_.index_.map (fun e => e.1),
          [g1.map (fun n => n.id), g2.map (fun n => n.id)]) :
          Except Thrown (List error_condition × List Nat × List Nat × List (Option Nat)))
      = .ok ([none], [464, 0], [0, 232], [some 464, none]) := by
  refine ⟨?_, ?_, by decide!, by decide!, by decide!⟩
  · intro hb
    have hne : (it.2.id == node.id) = false := beq_false_of_ne hid
    unfold NodeCache.Add
    simp only [if_neg hm, hit, cassert, hb, hne, Bool.or_false, bind, Except.bind, pure,
      Except.pure, Bool.false_eq_true, if_false]
  · intro hb
    unfold NodeCache.Add
    simp only [if_neg hm, hit, cassert, hb, Bool.true_or, bind, Except.bind, pure, Except.pure,
      if_true, NodeCache.relocate]

theorem Add_of_recreated_child_leaves_stale_index_witness :
    (⟨2, 0, 0, 2, 0,
        [(⟨0, 1⟩, ⟨0, 0, 3, 1, 1000, [0, 0, 0], [⟨0, 0, 0⟩, ⟨0, 0, 0⟩]⟩),
          (⟨1, 1⟩, ⟨232, 1, 3, 1, 500, [0, 0, 0], [⟨0, 0, 0⟩, ⟨0, 0, 0⟩]⟩)],
        [(0, ⟨0, 1⟩), (232, ⟨1, 1⟩)]⟩ : NodeCache).Add Scenario.build
      ⟨464, 1, 3, 1, 500, [0, 0, 0], [⟨0, 0, 0⟩, ⟨7, 0, 37⟩]⟩ = .error .assertion ∧
    ((⟨2, 0, 0, 2, 0,
        [(⟨0, 1⟩, ⟨0, 0, 3, 1, 1000, [0, 0, 0], [⟨0, 0, 0⟩, ⟨0, 0, 0⟩]⟩),
          (⟨1, 1⟩, ⟨232, 1, 3, 1, 500, [0, 0, 0], [⟨0, 0, 0⟩, ⟨0, 0, 0⟩]⟩)],
        [(0, ⟨0, 1⟩), (232, ⟨1, 1⟩)]⟩ : NodeCache).Add Scenario.release
      ⟨464, 1, 3, 1, 500, [0, 0, 0], [⟨0, 0, 0⟩, ⟨7, 0, 37⟩]⟩).map
        (fun c => (c.nodes_.map (fun e => e.2.id), c.index_.map (fun e => e.1)))
      = .ok ([0, 464], [0, 232]) :=
  ⟨(Add_of_recreated_child_leaves_stale_index Scenario.build _ _ (⟨1, 1⟩, ⟨232, 1, 3, 1, 500, [0, 0, 0], [⟨0, 0, 0⟩, ⟨0, 0, 0⟩]⟩)
      (by decide) (by decide) (by decide)).1 rfl,
   by
    rw [(Add_of_recreated_child_leaves_stale_index Scenario.release _ _ (⟨1, 1⟩, ⟨232, 1, 3, 1, 500, [0, 0, 0], [⟨0, 0, 0⟩, ⟨0, 0, 0⟩]⟩)
      (by decide) (by decide) (by decide)).2.1 rfl]
    decide⟩

/-! ## The blocks of the key file -/

theorem leBytes_zero (n : Nat) : leBytes n 0 = List.replicate n 0 := by
  induction n with
  | zero => rfl
  | succ m ih => simp only [leBytes, Nat.zero_mod, Nat.zero_div, ih, List.replicate_succ]

theorem Sized_degree_bounds (b : Build) (k : KeyStore) (hk : k.Sized b) :
    1 ≤ k.degree_ ∧ k.degree_ < 2 ^ 32 ∧
    4 + 2 * (b.BITS / 8) + (k.degree_ - 1) * (b.BITS / 8 + 12) + 8 * k.degree_ ≤ k.block_size_ := by
  have := CalculateDegree_bounds b k.block_size_ hk.low hk.high
  rw [← hk.degree] at this
  exact this


/-- The prototype that `Get` reads into. -/
theorem Node.new_proto (id deg : Nat) (h1 : 1 ≤ deg) (h2 : deg < 2 ^ 32) :
    Node.new id 0 deg 0 1 = .ok ⟨id, 0, deg, 0, 1, List.replicate deg EmptyChild,
      List.replicate (deg - 1) KeyValue.zero⟩ := by
  unfold Node.new
  rw [if_neg (by omega)]
  have : (deg + (2 ^ 32 - 1)) % 2 ^ 32 = deg - 1 := by omega
  rw [this]

/-- The block at `id` in terms of the slice of the file. -/
theorem block_eq (b : Build) (k : KeyStore) (hk : k.Sized b) (id : Nat) :
    k.block b id =
      if id % k.block_size_ = 0 ∧ id + k.block_size_ ≤ k.file_.data.length then
        match Node.Read b ⟨id, 0, k.degree_, 0, 1, List.replicate k.degree_ EmptyChild,
            List.replicate (k.degree_ - 1) KeyValue.zero⟩
            ((k.file_.data.drop id).take k.block_size_) with
        | .ok (n, _) => if n.first < n.last then some n else none
        | .error _ => none
      else none := by
  obtain ⟨hd1, hd2, hd3⟩ := Sized_degree_bounds b k hk
  have hbs := hk.low
  unfold KeyStore.block KeyStore.Get
  simp only [resize_nil, Node.new_proto id k.degree_ hd1 hd2, bind, Except.bind,
    RandomAccessFile.ReadAt, RandomAccessFile.syscall, List.length_replicate,
    Option.isSome_none, Bool.false_eq_true, if_false, pure, Except.pure, List.length_take,
    List.length_drop, List.drop_replicate]
  by_cases ha : id % k.block_size_ = 0
  · by_cases hl : id + k.block_size_ ≤ k.file_.data.length
    · have h1 : min k.block_size_ (k.file_.data.length - id) = k.block_size_ := by omega
      have h2 : ¬ k.block_size_ = 0 := by omega
      simp only [ha, hl, h1, h2, and_self, if_true, if_false, bne_self_eq_false,
        Bool.false_eq_true, Nat.sub_self, List.replicate_zero, List.append_nil]
      cases Node.Read b _ (List.take k.block_size_ (List.drop id k.file_.data)) with
      | error e => rfl
      | ok r => rfl
    · simp only [ha, hl, and_false, if_true, if_false]
      by_cases h0 : min k.block_size_ (k.file_.data.length - id) = 0
      · simp only [h0, if_true]
      · have h3 : (min k.block_size_ (k.file_.data.length - id) != k.block_size_) = true := by
          simp only [bne_iff_ne, ne_eq]; omega
        simp only [h0, if_false, h3, if_true]
  · simp only [ha, false_and, if_false]

theorem slice_append_left {α : Type} (l1 l2 : List α) (i n : Nat) (h : i + n ≤ l1.length) :
    ((l1 ++ l2).drop i).take n = (l1.drop i).take n := by
  rw [List.drop_append_of_le_length (by omega)]
  rw [List.take_append_of_le_length (by rw [List.length_drop]; omega)]

theorem slice_append_right {α : Type} (l1 l2 : List α) (i n : Nat) (h : l1.length ≤ i) :
    ((l1 ++ l2).drop i).take n = (l2.drop (i - l1.length)).take n := by
  rw [List.drop_append_eq_append_drop, List.drop_eq_nil_of_le h, List.nil_append]

theorem flatMap_zero_slots (m k : Nat) :
    (List.replicate k KeyValue.zero).flatMap (fun kv => leBytes m kv.key ++
      (leBytes 8 kv.offset ++ leBytes 4 kv.length)) = List.replicate (k * (m + 12)) 0 := by
  induction k with
  | zero => simp
  | succ j ih =>
    rw [List.replicate_succ, List.flatMap_cons, ih]
    show leBytes m 0 ++ (leBytes 8 0 ++ leBytes 4 0) ++ _ = _
    rw [leBytes_zero, leBytes_zero, leBytes_zero, ← List.replicate_add, ← List.replicate_add,
      ← List.replicate_add]
    congr 1
    ring

theorem flatMap_zero_children (k : Nat) :
    (List.replicate k EmptyChild).flatMap (fun c => leBytes 8 c) = List.replicate (k * 8) 0 := by
  induction k with
  | zero => simp
  | succ j ih =>
    rw [List.replicate_succ, List.flatMap_cons, ih]
    show leBytes 8 0 ++ _ = _
    rw [leBytes_zero, ← List.replicate_add]
    congr 1
    ring

/-- A block of zero bytes reads as a node with both bounds zero. -/
theorem Read_zeros (b : Build) (k : KeyStore) (hk : k.Sized b) (id : Nat) :
    ∃ n r, Node.Read b ⟨id, 0, k.degree_, 0, 1, List.replicate k.degree_ EmptyChild,
        List.replicate (k.degree_ - 1) KeyValue.zero⟩ (List.replicate k.block_size_ 0)
      = .ok (n, r) ∧ n.first = 0 ∧ n.last = 0 := by
  obtain ⟨hd1, hd2, hd3⟩ := Sized_degree_bounds b k hk
  have hfit : Node.Fits b ⟨id, 0, k.degree_, 0, 0, List.replicate k.degree_ EmptyChild,
      List.replicate (k.degree_ - 1) KeyValue.zero⟩ k.degree_ := by
    refine ⟨rfl, by simp, by simp; omega, by simp, by simp, by simp, ?_, ?_⟩
    · intro kv hkv
      rw [List.eq_of_mem_replicate hkv]
      simp [KeyValue.zero, EmptyValue]
    · intro c hc
      rw [List.eq_of_mem_replicate hc]
      simp [EmptyChild]
  have hr := Read_block b hk.whole _ ⟨id, 0, k.degree_, 0, 1, List.replicate k.degree_ EmptyChild,
      List.replicate (k.degree_ - 1) KeyValue.zero⟩ k.degree_ hfit rfl rfl
    (List.replicate (k.block_size_ - (4 + 2 * (b.BITS / 8)
      + (k.degree_ - 1) * (b.BITS / 8 + 12) + k.degree_ * 8)) 0)
  simp only [leBytes_zero, flatMap_zero_slots, flatMap_zero_children, ← List.replicate_add,
    List.length_replicate] at hr
  have hlen : 4 + b.BITS / 8 + b.BITS / 8 + (k.degree_ - 1) * (b.BITS / 8 + 12) + k.degree_ * 8 +
      (k.block_size_ - (4 + 2 * (b.BITS / 8) + (k.degree_ - 1) * (b.BITS / 8 + 12)
        + k.degree_ * 8)) = k.block_size_ := by omega
  rw [hlen] at hr
  exact ⟨_, _, hr, rfl, rfl⟩

/-- The block that `Set` writes for a node whose fields fit their types, and what `Get`
reads from it. -/
theorem Write_Read (b : Build) (k : KeyStore) (hk : k.Sized b) (n : Node)
    (hn : n.Fits b k.degree_) :
    ∃ S w, Node.Write b n (List.replicate k.block_size_ 0) = .ok (S, w) ∧
      S.length = k.block_size_ ∧
      ∃ r, Node.Read b ⟨n.id, 0, k.degree_, 0, 1, List.replicate k.degree_ EmptyChild,
          List.replicate (k.degree_ - 1) KeyValue.zero⟩ S = .ok (n, r) := by
  obtain ⟨hd1, hd2, hd3⟩ := Sized_degree_bounds b k hk
  have hkl : n.keys.length = k.degree_ - 1 := by have := hn.slots; omega
  have hcl : n.children.length = k.degree_ := hn.children
  have htot : 4 + 2 * (b.BITS / 8) + n.keys.length * (b.BITS / 8 + 12) + n.children.length * 8
      ≤ k.block_size_ := by
    rw [hkl, hcl]; omega
  have hw := Write_zeros b hk.whole n k.degree_ hn k.block_size_ htot
  refine ⟨_, _, hw, ?_, ?_⟩
  · simp only [List.length_append, length_leBytes, length_slotBytes, length_childBytes,
      List.length_replicate]
    omega
  · have hread := Read_block b hk.whole n ⟨n.id, 0, k.degree_, 0, 1,
        List.replicate k.degree_ EmptyChild, List.replicate (k.degree_ - 1) KeyValue.zero⟩
      k.degree_ hn
      (by simp only [List.length_replicate]; exact hkl.symm)
      (by simp only [List.length_replicate]; exact hcl.symm)
      (List.replicate (k.block_size_ - (4 + 2 * (b.BITS / 8)
        + n.keys.length * (b.BITS / 8 + 12) + n.children.length * 8)) 0)
    refine ⟨4 + b.BITS / 8 + b.BITS / 8 + n.keys.length * (b.BITS / 8 + 12)
      + n.children.length * 8, ?_⟩
    rw [hread]
    have hnd := hn.degree
    cases n
    simp only at hnd
    subst hnd
    rfl

/-! ## `KeyStore::Set` and the blocks of the key file -/

theorem Sized_congr (b : Build) (k k1 : KeyStore) (hk : k.Sized b)
    (h1 : k1.block_size_ = k.block_size_) (h2 : k1.degree_ = k.degree_) : k1.Sized b :=
  ⟨hk.whole, by rw [h1]; exact hk.low, by rw [h1]; exact hk.high, by rw [h1, h2]; exact hk.degree⟩

/-- The block at an id depends on the block size, the degree and the bytes of the file. -/
theorem block_congr (b : Build) (k k1 : KeyStore) (hk : k.Sized b)
    (h1 : k1.block_size_ = k.block_size_) (h2 : k1.degree_ = k.degree_)
    (h3 : k1.file_.data = k.file_.data) (id : Nat) : k1.block b id = k.block b id := by
  rw [block_eq b k hk, block_eq b k1 (Sized_congr b k k1 hk h1 h2), h1, h2, h3]

/-- What `Set` does to the key store, for a node whose fields fit their types: a failed
write leaves the bytes of the file as they are; a write that succeeds puts the block of
the node at the id of the node. -/
theorem Set_cases (b : Build) (k k1 : KeyStore) (hk : k.Sized b) (n : Node)
    (hn : n.Fits b k.degree_) (e : error_condition) (h : k.Set b n = .ok (k1, e)) :
    k1.block_size_ = k.block_size_ ∧ k1.degree_ = k.degree_ ∧ k1.size_ = k.size_ ∧
    ((e ≠ none ∧ k1.file_.data = k.file_.data) ∨
     (e = none ∧ ∃ S r, S.length = k.block_size_ ∧
        Node.Read b ⟨n.id, 0, k.degree_, 0, 1, List.replicate k.degree_ EmptyChild,
          List.replicate (k.degree_ - 1) KeyValue.zero⟩ S = .ok (n, r) ∧
        k1.file_.data = (resize k.file_.data n.id).take n.id ++ S
          ++ k.file_.data.drop (n.id + k.block_size_))) := by
  obtain ⟨S, w, hw, hlen, r, hread⟩ := Write_Read b k hk n hn
  unfold KeyStore.Set at h
  simp only [resize_nil, hw, bind, Except.bind, RandomAccessFile.WriteAt,
    RandomAccessFile.syscall, pure, Except.pure] at h
  cases hf : k.file_.faults with
  | nil =>
    rw [hf] at h
    simp only [Option.isSome_none, Bool.false_eq_true, if_false, hlen, bne_self_eq_false] at h
    injection h with h
    injection h with h1 h2
    rw [← h1, ← h2]
    exact ⟨rfl, rfl, rfl, Or.inr ⟨rfl, S, r, hlen, hread, rfl⟩⟩
  | cons x rest =>
    rw [hf] at h
    cases x with
    | none =>
      simp only [Option.isSome_none, Bool.false_eq_true, if_false, hlen, bne_self_eq_false] at h
      injection h with h
      injection h with h1 h2
      rw [← h1, ← h2]
      exact ⟨rfl, rfl, rfl, Or.inr ⟨rfl, S, r, hlen, hread, rfl⟩⟩
    | some x =>
      simp only [Option.isSome_some, if_true] at h
      injection h with h
      injection h with h1 h2
      rw [← h1, ← h2]
      exact ⟨rfl, rfl, rfl, Or.inl ⟨by simp, rfl⟩⟩

theorem aligned_apart (bs a c : Nat) (ha : a % bs = 0) (hc : c % bs = 0) (hne : a ≠ c) :
    a + bs ≤ c ∨ c + bs ≤ a := by
  by_cases h0 : bs = 0
  · subst h0
    simp only [Nat.mod_zero] at ha hc
    omega
  · obtain ⟨x, rfl⟩ := Nat.dvd_of_mod_eq_zero ha
    obtain ⟨y, rfl⟩ := Nat.dvd_of_mod_eq_zero hc
    have hxy : x ≠ y := fun h => hne (by rw [h])
    rcases Nat.lt_or_gt_of_ne hxy with h | h
    · left
      calc bs * x + bs = bs * (x + 1) := by ring
        _ ≤ bs * y := Nat.mul_le_mul_left _ h
    · right
      calc bs * y + bs = bs * (y + 1) := by ring
        _ ≤ bs * x := Nat.mul_le_mul_left _ h

theorem aligned_beyond (bs len c : Nat) (hl : len % bs = 0) (hc : c % bs = 0)
    (h : ¬ c + bs ≤ len) : len ≤ c := by
  by_cases hlc : len = c
  · omega
  · rcases aligned_apart bs len c hl hc hlc with h1 | h1 <;> omega

/-- The bytes of the file after a block is written at `id`. -/
theorem written_length (data S : List Nat) (id bs : Nat) (hS : S.length = bs) :
    ((resize data id).take id ++ S ++ data.drop (id + bs)).length
      = max data.length (id + bs) := by
  simp only [List.length_append, List.length_take, length_resize, hS, List.length_drop,
    Nat.min_self]
  omega

theorem written_slice_self (data S : List Nat) (id bs : Nat) (hS : S.length = bs) :
    (((resize data id).take id ++ S ++ data.drop (id + bs)).drop id).take bs = S := by
  have hP : ((resize data id).take id).length = id := by
    rw [List.length_take, length_resize]; omega
  rw [List.append_assoc, List.drop_left' hP, List.take_left' hS]

theorem written_slice_above (data S : List Nat) (id bs c : Nat) (hS : S.length = bs)
    (h : id + bs ≤ c) :
    (((resize data id).take id ++ S ++ data.drop (id + bs)).drop c).take bs
      = (data.drop c).take bs := by
  have hP : ((resize data id).take id ++ S).length = id + bs := by
    rw [List.length_append, List.length_take, length_resize, hS]; omega
  rw [slice_append_right _ _ _ _ (by omega), hP, List.drop_drop]
  congr 2
  omega

theorem take_resize (data : List Nat) (id : Nat) :
    (resize data id).take id = data.take id ++ List.replicate (id - data.length) 0 := by
  rw [List.take_of_length_le (by rw [length_resize])]
  rfl

theorem written_slice_below (data S : List Nat) (id bs c : Nat)
    (h : c + bs ≤ id) (hl : c + bs ≤ data.length) :
    (((resize data id).take id ++ S ++ data.drop (id + bs)).drop c).take bs
      = (data.drop c).take bs := by
  rw [take_resize, List.append_assoc, List.append_assoc,
    slice_append_left _ _ _ _ (by rw [List.length_take]; omega)]
  rw [List.drop_take, List.take_take]
  congr 1
  omega

theorem written_slice_hole (data S : List Nat) (id bs c : Nat)
    (h : c + bs ≤ id) (hl : data.length ≤ c) :
    (((resize data id).take id ++ S ++ data.drop (id + bs)).drop c).take bs
      = List.replicate bs 0 := by
  rw [take_resize, List.append_assoc, List.append_assoc,
    slice_append_right _ _ _ _ (by rw [List.length_take]; omega),
    slice_append_left _ _ _ _ (by rw [List.length_replicate, List.length_take]; omega)]
  rw [List.drop_replicate, List.take_replicate]
  congr 1
  rw [List.length_take]
  omega

/-- What a successful `Set` of a node leaves in the blocks of the file: the node at its
id, and every other block as it was. -/
theorem blocks_written (b : Build) (k k1 : KeyStore) (hk : k.Sized b) (n : Node) (S : List Nat)
    (r : Nat) (hS : S.length = k.block_size_)
    (hread : Node.Read b ⟨n.id, 0, k.degree_, 0, 1, List.replicate k.degree_ EmptyChild,
      List.replicate (k.degree_ - 1) KeyValue.zero⟩ S = .ok (n, r))
    (h1 : k1.block_size_ = k.block_size_) (h2 : k1.degree_ = k.degree_)
    (h3 : k1.file_.data = (resize k.file_.data n.id).take n.id ++ S
      ++ k.file_.data.drop (n.id + k.block_size_))
    (hid : n.id % k.block_size_ = 0) (hfl : n.first < n.last)
    (hlen : k.file_.data.length % k.block_size_ = 0) :
    k1.block b n.id = some n ∧ (∀ id, id ≠ n.id → k1.block b id = k.block b id) ∧
      k1.file_.data.length % k.block_size_ = 0 := by
  have hk1 := Sized_congr b k k1 hk h1 h2
  have hbs : 0 < k.block_size_ := by have := hk.low; omega
  have hl1 : k1.file_.data.length = max k.file_.data.length (n.id + k.block_size_) := by
    rw [h3]; exact written_length _ _ _ _ hS
  refine ⟨?_, ?_, ?_⟩
  · rw [block_eq b k1 hk1, h1, h2, if_pos ⟨hid, by rw [hl1]; omega⟩, h3,
      written_slice_self _ _ _ _ hS, hread]
    simp only [hfl, if_true]
  · intro id hne
    rw [block_eq b k1 hk1, block_eq b k hk, h1, h2]
    by_cases ha : id % k.block_size_ = 0
    · rcases aligned_apart _ _ _ ha hid hne with hlow | hhigh
      · -- the block lies before the one written
        by_cases hin : id + k.block_size_ ≤ k.file_.data.length
        · rw [if_pos ⟨ha, by rw [hl1]; omega⟩, if_pos ⟨ha, hin⟩, h3,
            written_slice_below _ _ _ _ _ hlow hin]
        · have hbeyond := aligned_beyond _ _ _ hlen ha hin
          rw [if_pos ⟨ha, by rw [hl1]; omega⟩, if_neg (by omega), h3,
            written_slice_hole _ _ _ _ _ hlow hbeyond]
          obtain ⟨z, rz, hz, hz1, hz2⟩ := Read_zeros b k hk id
          rw [hz]
          simp only [hz1, hz2, lt_irrefl, if_false]
      · -- the block lies behind the one written
        rw [h3, written_slice_above _ _ _ _ _ hS hhigh]
        by_cases hin : id + k.block_size_ ≤ k.file_.data.length
        · rw [if_pos ⟨ha, by rw [← h3, hl1]; omega⟩, if_pos ⟨ha, hin⟩]
        · rw [if_neg (by rw [← h3, hl1]; omega), if_neg (by omega)]
    · rw [if_neg (by omega), if_neg (by omega)]
  · rw [hl1]
    by_cases hm : k.file_.data.length ≤ n.id + k.block_size_
    · rw [Nat.max_eq_right hm, Nat.add_mod, hid, Nat.mod_self]
      simp
    · rw [Nat.max_eq_left (by omega)]; exact hlen

/-- `Set` of a linked node whose fields fit their types keeps the key file intact, at
whatever point it returns: a failed write changes no byte; a write that succeeds adds the
node to the persisted nodes and removes none. -/
theorem Set_intact (b : Build) (k k1 : KeyStore) (hk : k.Sized b) (n : Node)
    (hn : n.Fits b k.degree_) (e : error_condition) (h : k.Set b n = .ok (k1, e))
    (hint : k.Intact b) (hlink : k.Linked b n) :
    k1.block_size_ = k.block_size_ ∧ k1.degree_ = k.degree_ ∧ k1.size_ = k.size_ ∧
    k1.Intact b ∧ (∀ id, k.Persisted b id → k1.Persisted b id) ∧
    (e = none → k1.block b n.id = some n) := by
  obtain ⟨h1, h2, h3, hcase⟩ := Set_cases b k k1 hk n hn e h
  obtain ⟨hid, hfl, hch⟩ := hlink
  obtain ⟨hlen, hclosed⟩ := hint
  refine ⟨h1, h2, h3, ?_⟩
  rcases hcase with ⟨he, hdata⟩ | ⟨he, S, r, hS, hread, hdata⟩
  · have hb : ∀ id, k1.block b id = k.block b id := block_congr b k k1 hk h1 h2 hdata
    refine ⟨⟨by rw [hdata, h1]; exact hlen, ?_⟩, ?_, fun h0 => absurd h0 he⟩
    · intro id m hm cid hc hnz
      unfold KeyStore.Persisted
      rw [hb] at hm ⊢
      exact hclosed id m hm cid hc hnz
    · intro id hp
      unfold KeyStore.Persisted at hp ⊢
      rw [hb]; exact hp
  · obtain ⟨hself, hother, hlen1⟩ := blocks_written b k k1 hk n S r hS hread h1 h2 hdata hid hfl
      hlen
    have hmono : ∀ id, k.Persisted b id → k1.Persisted b id := by
      intro id hp
      unfold KeyStore.Persisted at hp ⊢
      by_cases hi : id = n.id
      · rw [hi, hself]; rfl
      · rw [hother id hi]; exact hp
    refine ⟨⟨by rw [h1]; exact hlen1, ?_⟩, hmono, fun _ => hself⟩
    intro id m hm cid hc hnz
    by_cases hi : id = n.id
    · rw [hi, hself] at hm
      injection hm with hm
      rw [← hm] at hc
      exact hmono cid (hch cid hc hnz)
    · rw [hother id hi] at hm
      exact hmono cid (hclosed id m hm cid hc hnz)

/-! ## The nodes that `Journal::process` reads and creates -/

theorem childrenAt_mem (n : Node) (i c : Nat) (h : n.childrenAt i = .ok c) : c ∈ n.children := by
  unfold Node.childrenAt at h
  split at h
  · rename_i c1 hc
    injection h with h
    rw [← h]
    exact List.get?_mem hc
  · exact absurd h (by simp)

/-- One round of `EachChild` keeps an invariant that the callback keeps for the child ids
of the node. -/
theorem eachChildStep_mem {σ : Type} (n : Node)
    (f : Nat → Nat → Nat → Nat → σ → Except Thrown (σ × error_condition)) (P : σ → Prop)
    (hf : ∀ i first last cid s s', cid ∈ n.children → P s →
      f i first last cid s = .ok (s', none) → P s')
    (i : Nat) (s s' : σ) (hs : P s) (h : Node.eachChildStep n f i s = .ok (s', none)) : P s' := by
  have hskip : (Except.ok (s, none) : Except Thrown (σ × error_condition)) = .ok (s', none) →
      P s' := by
    intro h0
    injection h0 with h0; injection h0 with h1 _; rw [← h1]; exact hs
  have hcall : ∀ first last, (do let c ← n.childrenAt i; f i first last c s) = .ok (s', none) →
      P s' := by
    intro first last h0
    simp only [bind, Except.bind] at h0
    cases hc : n.childrenAt i with
    | error e => rw [hc] at h0; exact absurd h0 (by simp)
    | ok c =>
      rw [hc] at h0
      exact hf _ _ _ _ _ _ (childrenAt_mem n i c hc) hs h0
  unfold Node.eachChildStep at h
  simp only [bind, Except.bind, pure, Except.pure] at h hcall
  split at h
  · cases hk : n.keysAt i with
    | error e => rw [hk] at h; exact absurd h (by simp)
    | ok k0 =>
      rw [hk] at h
      simp only at h
      split at h
      · exact hcall _ _ h
      · exact hskip h
  · split at h
    · cases hk : n.keysAt (i - 1) with
      | error e => rw [hk] at h; exact absurd h (by simp)
      | ok k0 =>
        rw [hk] at h
        simp only at h
        split at h
        · exact hcall _ _ h
        · exact hskip h
    · cases hk : n.keysAt (i - 1) with
      | error e => rw [hk] at h; exact absurd h (by simp)
      | ok k0 =>
        rw [hk] at h
        simp only at h
        split at h
        · cases hk1 : n.keysAt i with
          | error e => rw [hk1] at h; exact absurd h (by simp)
          | ok k1 =>
            rw [hk1] at h
            simp only at h
            split at h
            · exact hcall _ _ h
            · exact hskip h
        · exact hskip h

theorem eachChildLoop_mem {σ : Type} (n : Node)
    (f : Nat → Nat → Nat → Nat → σ → Except Thrown (σ × error_condition)) (P : σ → Prop)
    (hf : ∀ i first last cid s s', cid ∈ n.children → P s →
      f i first last cid s = .ok (s', none) → P s') :
    ∀ (l : List Nat) (s s' : σ), P s → Node.eachChildLoop n f l s = .ok (s', none) → P s' := by
  intro l
  induction l with
  | nil =>
    intro s s' hs h
    simp only [Node.eachChildLoop] at h
    injection h with h; injection h with h1 _; rw [← h1]; exact hs
  | cons i rest ih =>
    intro s s' hs h
    simp only [Node.eachChildLoop, bind, Except.bind, pure, Except.pure] at h
    cases hstep : Node.eachChildStep n f i s with
    | error e => rw [hstep] at h; exact absurd h (by simp)
    | ok r =>
      obtain ⟨s1, err⟩ := r
      rw [hstep] at h
      simp only at h
      cases err with
      | some e =>
        simp at h
      | none =>
        simp only [Option.isSome_none, Bool.false_eq_true, if_false] at h
        exact ih s1 s' (eachChildStep_mem n f P hf i s s1 hs hstep) h

/-- `Node::Read` keeps the id of the node it reads into. -/
theorem Read_id (b : Build) (proto n : Node) (str : List Nat) (r : Nat)
    (h : Node.Read b proto str = .ok (n, r)) : n.id = proto.id := by
  unfold Node.Read at h
  simp only [bind, Except.bind, pure, Except.pure] at h
  split at h
  · exact absurd h (by simp)
  · split at h
    · exact absurd h (by simp)
    · split at h
      · exact absurd h (by simp)
      · split at h
        · exact absurd h (by simp)
        · split at h
          · exact absurd h (by simp)
          · injection h with h
            injection h with h1 _
            rw [← h1]

/-- A persisted node has the id of its block, which is a block position, and ordered
bounds. -/
theorem block_some (b : Build) (k : KeyStore) (hk : k.Sized b) (id : Nat) (n : Node)
    (h : k.block b id = some n) : id % k.block_size_ = 0 ∧ n.id = id ∧ n.first < n.last := by
  rw [block_eq b k hk] at h
  split at h
  · rename_i hc
    split at h
    · rename_i m r hm
      split at h
      · rename_i hfl
        injection h with h
        rw [← h]
        exact ⟨hc.1, Read_id b _ _ _ _ hm, hfl⟩
      · exact absurd h (by simp)
    · exact absurd h (by simp)
  · exact absurd h (by simp)

theorem ReadAt_cases (f : RandomAccessFile) (pos : Nat) (str : List Nat) :
    (∃ f1 e, f.ReadAt pos str = (f1, (0, some e), str) ∧ f1.data = f.data) ∨
    (∃ f1, f.ReadAt pos str = (f1, (((f.data.drop pos).take str.length).length, none),
        (f.data.drop pos).take str.length
          ++ str.drop ((f.data.drop pos).take str.length).length) ∧ f1.data = f.data) := by
  unfold RandomAccessFile.ReadAt RandomAccessFile.syscall
  cases hf : f.faults with
  | nil => exact Or.inr ⟨_, rfl, rfl⟩
  | cons x rest =>
    cases x with
    | none => exact Or.inr ⟨_, rfl, rfl⟩
    | some e => exact Or.inl ⟨_, _, rfl, rfl⟩

/-- `Get` changes no byte of the file, and a node it returns without error from a block
that holds a node is that node. -/
theorem Get_block (b : Build) (k k1 : KeyStore) (hk : k.Sized b) (id : Nat)
    (r : Option Node × error_condition) (h : k.Get b id = .ok (k1, r)) :
    k.Agrees k1 ∧ k1.size_ = k.size_ ∧
      ∀ n m, r = (some n, none) → k.block b id = some m → m = n := by
  obtain ⟨hd1, hd2, hd3⟩ := Sized_degree_bounds b k hk
  have hbs := hk.low
  unfold KeyStore.Get at h
  simp only [resize_nil, Node.new_proto id k.degree_ hd1 hd2, bind, Except.bind, pure,
    Except.pure] at h
  rcases ReadAt_cases k.file_ id (List.replicate k.block_size_ 0) with
    ⟨f1, e, hra, hfd⟩ | ⟨f1, hra, hfd⟩
  · rw [hra] at h
    simp only [Option.isSome_some, if_true] at h
    injection h with h; injection h with h1 h2
    rw [← h1, ← h2]
    exact ⟨⟨rfl, rfl, hfd⟩, rfl, fun n m hr => absurd hr (by simp)⟩
  · rw [hra] at h
    simp only [Option.isSome_none, Bool.false_eq_true, if_false, List.length_replicate] at h
    split at h
    · injection h with h; injection h with h1 h2
      rw [← h1, ← h2]
      exact ⟨⟨rfl, rfl, hfd⟩, rfl, fun n m hr => absurd hr (by simp)⟩
    · split at h
      · injection h with h; injection h with h1 h2
        rw [← h1, ← h2]
        exact ⟨⟨rfl, rfl, hfd⟩, rfl, fun n m hr => absurd hr (by simp)⟩
      · rename_i hz hne
        simp only [bne_iff_ne, ne_eq, not_not] at hne
        rw [hne] at h
        simp only [List.drop_replicate, Nat.sub_self, List.replicate_zero, List.append_nil] at h
        split at h
        · exact absurd h (by simp)
        · rename_i v hv
          injection h with h; injection h with h1 h2
          rw [← h1, ← h2]
          refine ⟨⟨rfl, rfl, hfd⟩, rfl, ?_⟩
          intro n m hr hm
          injection hr with hr _
          injection hr with hr
          rw [block_eq b k hk] at hm
          split at hm
          · rw [hv] at hm
            simp only at hm
            split at hm
            · injection hm with hm
              rw [← hm, ← hr]
            · exact absurd hm (by simp)
          · exact absurd hm (by simp)

theorem GetById_mem (c : NodeCache) (id : Nat) (n : Node) (h : c.GetById id = .ok (some n)) :
    ∃ e ∈ c.nodes_, e.2 = n := by
  unfold NodeCache.GetById at h
  split at h
  · split at h
    · rename_i e he
      injection h with h
      injection h with h
      exact ⟨e, List.mem_of_find?_eq_some he, h⟩
    · exact absurd h (by simp)
  · exact absurd h (by simp)

theorem Agrees_sized (b : Build) (k0 k : KeyStore) (hk : k0.Sized b) (h : k0.Agrees k) :
    k.Sized b := Sized_congr b k0 k hk h.1 h.2.1

theorem Agrees_block (b : Build) (k0 k : KeyStore) (hk : k0.Sized b) (h : k0.Agrees k)
    (id : Nat) : k.block b id = k0.block b id := block_congr b k0 k hk h.1 h.2.1 h.2.2 id

/-- `GetNode` leaves the cache and the bytes of the key file as they are, and a node it
returns for a persisted id is linked. -/
theorem GetNode_linked (b : Build) (k0 : KeyStore) (c0 : NodeCache) (t t2 : Tree)
    (hk : k0.Sized b) (hint : k0.Intact b) (hcache : ∀ e ∈ c0.nodes_, k0.Linked b e.2)
    (hd : Tree.During k0 c0 t) (cid : Nat) (r : Option Node × error_condition)
    (h : t.GetNode b cid = .ok (t2, r)) :
    Tree.During k0 c0 t2 ∧
      ∀ child, r = (some child, none) → k0.Persisted b cid → k0.Linked b child := by
  obtain ⟨hc, hag, hsz⟩ := hd
  unfold Tree.GetNode at h
  simp only [bind, Except.bind, pure, Except.pure] at h
  cases hg : t.cache_.GetById cid with
  | error e => rw [hg] at h; exact absurd h (by simp)
  | ok o =>
    rw [hg] at h
    cases o with
    | some node =>
      simp only at h
      injection h with h
      injection h with h1 h2
      rw [← h1, ← h2]
      refine ⟨⟨hc, hag, hsz⟩, ?_⟩
      intro child hr _
      injection hr with hr _
      injection hr with hr
      obtain ⟨e, he, hen⟩ := GetById_mem _ _ _ hg
      rw [hc] at he
      rw [← hr, ← hen]
      exact hcache e he
    | none =>
      simp only at h
      cases hs : t.store_.Get b cid with
      | error e => rw [hs] at h; exact absurd h (by simp)
      | ok r2 =>
        obtain ⟨store, node, err⟩ := r2
        rw [hs] at h
        simp only at h
        injection h with h
        injection h with h1 h2
        rw [← h1, ← h2]
        have hks := Agrees_sized b k0 t.store_ hk hag
        obtain ⟨hag2, hsize2, hnode⟩ := Get_block b t.store_ store hks cid _ hs
        refine ⟨⟨hc, ⟨hag2.1.trans hag.1, hag2.2.1.trans hag.2.1, hag2.2.2.trans hag.2.2⟩,
          by simp only; rw [hsize2]; exact hsz⟩, ?_⟩
        intro child hr hp
        unfold KeyStore.Persisted at hp
        cases hb : k0.block b cid with
        | none => rw [hb] at hp; exact absurd hp (by simp)
        | some m =>
          have hm := hnode child m hr (by rw [Agrees_block b k0 t.store_ hk hag]; exact hb)
          obtain ⟨ha, hid, hfl⟩ := block_some b k0 hk cid m hb
          rw [← hm]
          exact ⟨by rw [hid]; exact ha, hfl, hint.2 cid m hb⟩

/-- `CreateNode` leaves the cache and the bytes of the key file as they are, and the node
it creates is linked: its id is the next block position and it has no child. -/
theorem CreateNode_linked (b : Build) (k0 : KeyStore) (c0 : NodeCache) (t t2 : Tree)
    (hd : Tree.During k0 c0 t) (level first last : Nat) (child : Node)
    (h : t.CreateNode level first last = .ok (t2, child)) :
    Tree.During k0 c0 t2 ∧ k0.Linked b child := by
  obtain ⟨hc, hag, hsz⟩ := hd
  unfold Tree.CreateNode KeyStore.New at h
  simp only [bind, Except.bind, pure, Except.pure] at h
  cases hn : Node.new (t.store_.size_ + t.store_.block_size_ - t.store_.block_size_) level
      t.store_.degree_ first last with
  | error e => rw [hn] at h; exact absurd h (by simp)
  | ok n =>
    rw [hn] at h
    simp only at h
    injection h with h
    injection h with h1 h2
    unfold Node.new at hn
    split at hn
    · exact absurd hn (by simp)
    · rename_i hfl
      injection hn with hn
      rw [← h1, ← h2, ← hn]
      refine ⟨⟨hc, hag, ?_⟩, ?_, by simp only; omega, ?_⟩
      · simp only
        rw [Nat.add_mod, hsz, hag.1, Nat.mod_self]
        simp
      · simp only [Nat.add_sub_cancel]
        exact hsz
      · intro cid hcid hnz
        simp only at hcid
        exact absurd (List.eq_of_mem_replicate hcid) hnz

/-- The callback of `process` keeps the invariant of the loop, when the recursive calls
do what `Links` says. -/
theorem processChild_links (b : Build) (fuel : Nat) (ih : Journal.Links b fuel)
    (k0 : KeyStore) (c0 : NodeCache) (hk : k0.Sized b) (hint : k0.Intact b)
    (hcache : ∀ e ∈ c0.nodes_, k0.Linked b e.2) (node n : Node)
    (hch : ∀ cid ∈ n.children, cid ≠ EmptyChild → k0.Persisted b cid)
    (i first last cid : Nat) (hmem : cid ∈ n.children) (s s1 : Journal × Tree × Delta)
    (hs : Journal.LinkInv b k0 c0 node s)
    (h : Journal.processChild b (Journal.process b fuel) node i first last cid s
      = .ok (s1, none)) :
    Journal.LinkInv b k0 c0 node s1 := by
  obtain ⟨j, t, delta⟩ := s
  obtain ⟨hd, hw, hid, hfi, hla, hprev⟩ := hs
  simp only at hd hw hid hfi hla hprev
  unfold Journal.processChild at h
  simp only [bind, Except.bind, pure, Except.pure] at h
  cases hcr : j.buffer_.ContainsRange b first last with
  | error e => rw [hcr] at h; exact absurd h (by simp)
  | ok c =>
    rw [hcr] at h
    simp only at h
    cases c with
    | false =>
      simp only [Bool.not_false, if_true] at h
      injection h with h
      injection h with h1 _
      rw [← h1]
      exact ⟨hd, hw, hid, hfi, hla, hprev⟩
    | true =>
      simp only [Bool.not_true, Bool.false_eq_true, if_false] at h
      split at h
      · -- a new child
        cases hcn : t.CreateNode ((node.level + 1) % 2 ^ 32) first last with
        | error e => rw [hcn] at h; exact absurd h (by simp)
        | ok r =>
          obtain ⟨t2, child⟩ := r
          rw [hcn] at h
          simp only at h
          obtain ⟨hd2, hlink⟩ := CreateNode_linked b k0 c0 t t2 hd _ _ _ child hcn
          cases hsc : delta.SetChild i child.id with
          | error e => rw [hsc] at h; exact absurd h (by simp)
          | ok delta1 =>
            rw [hsc] at h
            simp only at h
            cases hpr : Journal.process b fuel (j, t2) child with
            | error e => rw [hpr] at h; exact absurd h (by simp)
            | ok r2 =>
              obtain ⟨⟨j2, t3⟩, err⟩ := r2
              rw [hpr] at h
              simp only at h
              injection h with h
              injection h with h1 h2
              subst h2
              rw [← h1]
              obtain ⟨rd, rw1⟩ := ih k0 c0 j t2 child j2 t3 hk hint hcache hd2 hlink hw hpr
              -- the delta after `SetChild`
              unfold Delta.SetChild at hsc
              simp only [bind, Except.bind, pure, Except.pure] at hsc
              cases hn : (delta.Flip).current_.SetChild i child.id with
              | error e => rw [hn] at hsc; exact absurd hsc (by simp)
              | ok n1 =>
                rw [hn] at hsc
                injection hsc with hsc
                have hn2 : n1.id = delta.current_.id ∧ n1.first = delta.current_.first ∧
                    n1.last = delta.current_.last := by
                  rw [Flip_current] at hn
                  unfold Node.SetChild at hn
                  split at hn
                  · injection hn with hn
                    rw [← hn]
                    exact ⟨rfl, rfl, rfl⟩
                  · exact absurd hn (by simp)
                have hp1 : delta1.previous_ = some node := by
                  rw [← hsc]
                  simp only
                  rcases hprev with ⟨hp, hcur⟩ | hp
                  · unfold Delta.Flip Delta.Dirty
                    simp [hp, hcur]
                  · unfold Delta.Flip Delta.Dirty
                    simp [hp]
                refine ⟨rd, rw1, ?_, ?_, ?_, Or.inr hp1⟩
                · rw [← hsc]; simp only; rw [hn2.1, hid]
                · rw [← hsc]; simp only; rw [hn2.2.1, hfi]
                · rw [← hsc]; simp only; rw [hn2.2.2, hla]
      · -- a child that exists
        rename_i hnz
        cases hgn : t.GetNode b cid with
        | error e => rw [hgn] at h; exact absurd h (by simp)
        | ok r =>
          obtain ⟨t2, child, err⟩ := r
          rw [hgn] at h
          simp only at h
          obtain ⟨hd2, hlk⟩ := GetNode_linked b k0 c0 t t2 hk hint hcache hd cid _ hgn
          have hskip : ∀ (e : error_condition),
              (Except.ok ((j, t2, delta), e) : Except Thrown _) = Except.ok (s1, none) →
              Journal.LinkInv b k0 c0 node s1 := by
            intro e he
            injection he with he
            injection he with h1 _
            rw [← h1]
            exact ⟨hd2, hw, hid, hfi, hla, hprev⟩
          cases child with
          | none => exact hskip _ h
          | some child1 =>
            cases err with
            | some e => exact hskip _ h
            | none =>
              simp only at h
              cases hpr : Journal.process b fuel (j, t2) child1 with
              | error e => rw [hpr] at h; exact absurd h (by simp)
              | ok r2 =>
                obtain ⟨⟨j2, t3⟩, err2⟩ := r2
                rw [hpr] at h
                simp only at h
                injection h with h
                injection h with h1 h2
                subst h2
                rw [← h1]
                obtain ⟨rd, rw1⟩ := ih k0 c0 j t2 child1 j2 t3 hk hint hcache hd2
                  (hlk child1 rfl (hch cid hmem hnz)) hw hpr
                exact ⟨rd, rw1, hid, hfi, hla, hprev⟩

/-- What `process` does to the tree and records, for every fuel. -/
theorem process_links (b : Build) : ∀ fuel, Journal.Links b fuel := by
  intro fuel
  induction fuel with
  | zero =>
    intro k0 c0 j t node j1 t1 _ _ _ _ _ _ h
    simp [Journal.process] at h
  | succ fuel ih =>
    intro k0 c0 j t node j1 t1 hk hint hcache hd hlink hw h
    rw [process_succ] at h
    simp only [bind, Except.bind, pure, Except.pure] at h
    cases hak : (Delta.new node).AddKeys b j.buffer_ j.offset_ with
    | error e => rw [hak] at h; exact absurd h (by simp)
    | ok r =>
      obtain ⟨delta, buffer, offset⟩ := r
      rw [hak] at h
      simp only at h
      obtain ⟨hframe, cands, evs, hgc, hcase⟩ := AddKeys_frame b _ _ _ _ _ _ hak
      simp only [Delta.new] at hframe hcase
      cases has : Journal.assertSanity b delta with
      | error e => rw [has] at h; exact absurd h (by simp)
      | ok u =>
        rw [has] at h
        simp only at h
        have hstart : Journal.LinkInv b k0 c0 node
            ({ j with buffer_ := buffer, offset_ := offset }, t, delta) := by
          refine ⟨hd, hw, hframe.1, hframe.2.2.2.1, hframe.2.2.2.2.1, ?_⟩
          rcases hcase with ⟨h1, h2, _⟩ | h1
          · exact Or.inl ⟨h1, h2⟩
          · right
            rw [h1]
            unfold Delta.Flip Delta.Dirty
            simp
        have hch : ∀ cid ∈ delta.Current.children, cid ≠ EmptyChild → k0.Persisted b cid := by
          intro cid hc hnz
          unfold Delta.Current at hc
          rw [hframe.2.2.2.2.2] at hc
          exact hlink.2.2 cid hc hnz
        have hloop : ∀ j2 t2 delta2,
            (if delta.Current.EmptyKeyCount = 0 then
              delta.Current.EachChild (Journal.processChild b (Journal.process b fuel) node)
                ({ j with buffer_ := buffer, offset_ := offset }, t, delta)
            else Except.ok (({ j with buffer_ := buffer, offset_ := offset }, t, delta), none))
              = .ok ((j2, t2, delta2), none) →
            Journal.LinkInv b k0 c0 node (j2, t2, delta2) := by
          intro j2 t2 delta2 hl
          split at hl
          · unfold Node.EachChild at hl
            exact eachChildLoop_mem _ _ _
              (fun i first last cid s s1 hmem hs hf =>
                processChild_links b fuel ih k0 c0 hk hint hcache node delta.Current hch
                  i first last cid hmem s s1 hs hf) _ _ _ hstart hl
          · injection hl with hl
            injection hl with hl1 _
            rw [← hl1]
            exact hstart
        cases hres : (if delta.Current.EmptyKeyCount = 0 then
              delta.Current.EachChild (Journal.processChild b (Journal.process b fuel) node)
                ({ j with buffer_ := buffer, offset_ := offset }, t, delta)
            else Except.ok (({ j with buffer_ := buffer, offset_ := offset }, t, delta), none)) with
        | error e => rw [hres] at h; exact absurd h (by simp)
        | ok r2 =>
          obtain ⟨⟨j2, t2, delta2⟩, err⟩ := r2
          rw [hres] at h
          simp only at h
          cases err with
          | some e => simp at h
          | none =>
            simp only [Option.isSome_none, Bool.false_eq_true, if_false] at h
            obtain ⟨ld, lw, lid, lfi, lla, lprev⟩ := hloop j2 t2 delta2 hres
            simp only at ld lw lid lfi lla lprev
            cases has2 : Journal.assertSanity b delta2 with
            | error e => rw [has2] at h; exact absurd h (by simp)
            | ok u2 =>
              rw [has2] at h
              simp only at h
              injection h with h
              injection h with h1 _
              injection h1 with h1 h2
              subst h2
              refine ⟨ld, ?_⟩
              by_cases hdirty : delta2.Dirty = true
              · rw [if_pos hdirty] at h1
                have hp2 : delta2.previous_ = some node := by
                  rcases lprev with ⟨hp, _⟩ | hp
                  · unfold Delta.Dirty at hdirty
                    rw [hp] at hdirty
                    simp at hdirty
                  · exact hp
                intro e he
                rw [← h1] at he
                rcases (mem_emplace _ _ _).mp he with h3 | h3
                · rw [h3]
                  exact ⟨by simp only; rw [lid]; exact hlink.1,
                    by simp only; rw [lfi, lla]; exact hlink.2.1,
                    node, hp2, hlink.2.2⟩
                · exact lw e h3
              · rw [if_neg hdirty] at h1
                rw [← h1]
                exact lw

/-- `Process` on an intact tree: it leaves the cache and the bytes of the key file as they
are, and every delta it records can be committed. -/
theorem Process_links (b : Build) (fuel : Nat) (j0 : Journal) (t0 : Tree)
    (j : Journal) (t : Tree) (h0 : j0.deltas_ = []) (hk : t0.store_.Sized b)
    (hint : t0.Intact b) (hp : j0.Process b fuel t0 = .ok ((j, t), none)) :
    Tree.During t0.store_ t0.cache_ t ∧ ∀ e ∈ j.deltas_, Journal.Writable b t0.store_ e := by
  obtain ⟨hst, hroot, hsz, hcache⟩ := hint
  have hd0 : Tree.During t0.store_ t0.cache_ t0 := ⟨rfl, ⟨rfl, rfl, rfl⟩, hsz⟩
  unfold Journal.Process at hp
  simp only [bind, Except.bind, pure, Except.pure] at hp
  unfold Tree.Root at hp
  cases hr : t0.GetNode b Tree.rootId with
  | error e => rw [hr] at hp; exact absurd hp (by simp)
  | ok r =>
    obtain ⟨t1, root, err⟩ := r
    rw [hr] at hp
    simp only at hp
    obtain ⟨hd1, hlk⟩ := GetNode_linked b t0.store_ t0.cache_ t0 t1 hk hst hcache hd0 _ _ hr
    have hskip : ∀ (e : error_condition),
        (Except.ok (({ j0 with offset_ := j0.values_.Size }, t1), e) : Except Thrown _)
          = Except.ok ((j, t), none) →
        Tree.During t0.store_ t0.cache_ t ∧
          ∀ e ∈ j.deltas_, Journal.Writable b t0.store_ e := by
      intro e he
      injection he with he
      injection he with h1 _
      injection h1 with h1 h2
      rw [← h1, ← h2]
      simp only [h0]
      exact ⟨hd1, fun e he => absurd he (by simp)⟩
    cases root with
    | none => exact hskip _ hp
    | some root1 =>
      cases err with
      | some e => exact hskip _ hp
      | none =>
        simp only at hp
        exact process_links b fuel t0.store_ t0.cache_ _ t1 root1 j t hk hst hcache hd1
          (hlk root1 rfl hroot) (by simp only [h0]; intro e he; exact absurd he (by simp)) hp

/-! ## The key file during `Journal::Commit` -/

theorem Agrees_persisted (b : Build) (k0 k : KeyStore) (hk : k0.Sized b) (h : k0.Agrees k)
    (id : Nat) : k.Persisted b id ↔ k0.Persisted b id := by
  unfold KeyStore.Persisted
  rw [Agrees_block b k0 k hk h]

theorem Agrees_intact (b : Build) (k0 k : KeyStore) (hk : k0.Sized b) (h : k0.Agrees k)
    (hint : k0.Intact b) : k.Intact b := by
  refine ⟨by rw [h.1, h.2.2]; exact hint.1, ?_⟩
  intro id n hn cid hc hnz
  rw [Agrees_block b k0 k hk h] at hn
  exact (Agrees_persisted b k0 k hk h cid).mpr (hint.2 id n hn cid hc hnz)

theorem Linked_mono (b : Build) (k k1 : KeyStore) (n : Node)
    (hbs : k1.block_size_ = k.block_size_)
    (hmono : ∀ id, k.Persisted b id → k1.Persisted b id) (h : k.Linked b n) : k1.Linked b n :=
  ⟨by rw [hbs]; exact h.1, h.2.1, fun cid hc hnz => hmono cid (h.2.2 cid hc hnz)⟩

/-- The nodes in the cache after `Add`: nodes that were there, or the node added. -/
theorem Add_nodes (b : Build) (c c1 : NodeCache) (node : Node) (h : c.Add b node = .ok c1) :
    ∀ e ∈ c1.nodes_, e ∈ c.nodes_ ∨ e.2 = node := by
  unfold NodeCache.Add at h
  split at h
  · injection h with h
    rw [← h]
    exact fun e he => Or.inl he
  · simp only [bind, Except.bind, pure, Except.pure] at h
    split at h
    · split at h
      · exact absurd h (by simp)
      · injection h with h
        rw [← h]
        intro e he
        simp only [NodeCache.relocate, List.mem_append, List.mem_filter, List.mem_singleton] at he
        rcases he with ⟨he, _⟩ | he
        · exact Or.inl he
        · right; rw [he]
    · split at h
      · exact absurd h (by simp)
      · rename_i c2 hc2
        split at h
        · exact absurd h (by simp)
        · injection h with h
          rw [← h]
          intro e he
          simp only [List.mem_append, List.mem_singleton] at he
          rcases he with he | he
          · left
            split at hc2
            · split at hc2
              · exact absurd hc2 (by simp)
              · rename_i evictee rest hrest
                injection hc2 with hc2
                rw [← hc2] at he
                simp only at he hrest
                rw [hrest]
                exact List.mem_cons_of_mem _ he
            · injection hc2 with hc2
              rw [← hc2] at he
              exact he
          · right; rw [he]

/-- The tree between the updates of `Commit`, for a flush that started on the key store
`k0`: the key file is intact, has lost no persisted node and holds the nodes written so
far; every node in the cache is linked. -/
theorem Update_intact (b : Build) (k0 : KeyStore) (done : List (Nat × Delta)) (t t1 : Tree)
    (node : Node) (e : error_condition)
    (hk : t.store_.Sized b) (hint : t.store_.Intact b)
    (hmono : ∀ id, k0.Persisted b id → t.store_.Persisted b id)
    (hdone : ∀ f ∈ done, t.store_.Persisted b f.2.current_.id)
    (hcache : ∀ x ∈ t.cache_.nodes_, t.store_.Linked b x.2)
    (hfit : node.Fits b t.store_.degree_) (hlink : t.store_.Linked b node)
    (h : t.Update b node = .ok (t1, e)) :
    t1.store_.block_size_ = t.store_.block_size_ ∧ t1.store_.degree_ = t.store_.degree_ ∧
    t1.store_.size_ = t.store_.size_ ∧ t1.store_.Intact b ∧
    (∀ id, k0.Persisted b id → t1.store_.Persisted b id) ∧
    (∀ f ∈ done, t1.store_.Persisted b f.2.current_.id) ∧
    (∀ x ∈ t1.cache_.nodes_, t1.store_.Linked b x.2) ∧
    (e = none → t1.store_.Persisted b node.id) := by
  unfold Tree.Update at h
  simp only [bind, Except.bind, pure, Except.pure] at h
  cases hs : t.store_.Set b node with
  | error x => rw [hs] at h; exact absurd h (by simp)
  | ok r =>
    obtain ⟨store, err⟩ := r
    rw [hs] at h
    simp only at h
    obtain ⟨s1, s2, s3, sint, smono, sself⟩ := Set_intact b t.store_ store hk node hfit err hs
      hint hlink
    have hc2 : ∀ x ∈ t.cache_.nodes_, store.Linked b x.2 :=
      fun x hx => Linked_mono b t.store_ store x.2 s1 smono (hcache x hx)
    split at h
    · injection h with h
      injection h with h1 h2
      rw [← h1, ← h2]
      refine ⟨s1, s2, s3, sint, fun id hp => smono id (hmono id hp),
        fun f hf => smono _ (hdone f hf), hc2, ?_⟩
      intro he
      rename_i hsome
      rw [he] at hsome
      simp at hsome
    · rename_i hnone
      cases ha : t.cache_.Add b node with
      | error x => rw [ha] at h; exact absurd h (by simp)
      | ok cache =>
        rw [ha] at h
        injection h with h
        injection h with h1 h2
        rw [← h1]
        have herr : err = none := by
          cases err with
          | none => rfl
          | some x => simp at hnone
        have hself : store.Persisted b node.id := by
          unfold KeyStore.Persisted
          rw [sself herr]; rfl
        refine ⟨s1, s2, s3, sint, fun id hp => smono id (hmono id hp),
          fun f hf => smono _ (hdone f hf), ?_, fun _ => hself⟩
        intro x hx
        rcases Add_nodes b _ _ _ ha x hx with h3 | h3
        · exact hc2 x h3
        · rw [h3]
          exact Linked_mono b t.store_ store node s1 smono hlink

/-- The loop of `Commit` over the deltas keeps the key file intact when every node to be
written fits its block, has a block position as id and ordered bounds, and each of its
child ids that is not zero refers to a node persisted before the flush or to a node that
comes earlier in the loop. -/
theorem commitDeltas_intact (b : Build) (k0 : KeyStore) :
    ∀ (rest done : List (Nat × Delta)) (t t1 : Tree) (e : error_condition),
      t.store_.Sized b → t.store_.degree_ = k0.degree_ →
      t.store_.block_size_ = k0.block_size_ → t.store_.Intact b →
      (∀ id, k0.Persisted b id → t.store_.Persisted b id) →
      (∀ f ∈ done, t.store_.Persisted b f.2.current_.id) →
      (∀ x ∈ t.cache_.nodes_, t.store_.Linked b x.2) →
      (∀ p2 x s2, rest = p2 ++ x :: s2 →
        x.2.current_.Fits b k0.degree_ ∧ x.2.current_.id % k0.block_size_ = 0 ∧
        x.2.current_.first < x.2.current_.last ∧
        ∀ cid ∈ x.2.current_.children, cid ≠ EmptyChild →
          k0.Persisted b cid ∨ ∃ f ∈ done ++ p2, f.2.current_.id = cid) →
      Journal.commitDeltas b rest t = .ok (t1, e) →
      t1.store_.Sized b ∧ t1.store_.degree_ = k0.degree_ ∧
      t1.store_.block_size_ = k0.block_size_ ∧ t1.store_.size_ = t.store_.size_ ∧
      t1.store_.Intact b ∧
      (∀ id, k0.Persisted b id → t1.store_.Persisted b id) ∧
      (∀ f ∈ done, t1.store_.Persisted b f.2.current_.id) ∧
      (∀ x ∈ t1.cache_.nodes_, t1.store_.Linked b x.2) ∧
      (e = none → ∀ f ∈ rest, t1.store_.Persisted b f.2.current_.id) := by
  intro rest
  induction rest with
  | nil =>
    intro done t t1 e hk hdeg hbs hint hmono hdone hcache _ h
    simp only [Journal.commitDeltas] at h
    injection h with h
    injection h with h1 _
    rw [← h1]
    exact ⟨hk, hdeg, hbs, rfl, hint, hmono, hdone, hcache, fun _ f hf => absurd hf (by simp)⟩
  | cons x rest ih =>
    intro done t t1 e hk hdeg hbs hint hmono hdone hcache hH h
    simp only [Journal.commitDeltas, bind, Except.bind, pure, Except.pure] at h
    obtain ⟨xfit, xid, xfl, xch⟩ := hH [] x rest rfl
    have hlink : t.store_.Linked b x.2.current_ := by
      refine ⟨by rw [hbs]; exact xid, xfl, ?_⟩
      intro cid hc hnz
      rcases xch cid hc hnz with h1 | ⟨f, hf, hfid⟩
      · exact hmono cid h1
      · rw [List.append_nil] at hf
        rw [← hfid]
        exact hdone f hf
    cases hu : t.Update b x.2.Current with
    | error err => rw [hu] at h; exact absurd h (by simp)
    | ok r =>
      obtain ⟨t2, e2⟩ := r
      rw [hu] at h
      simp only at h
      obtain ⟨u1, u2, u3, uint, umono, udone, ucache, uself⟩ :=
        Update_intact b k0 done t t2 x.2.current_ e2 hk hint hmono hdone hcache
          (by rw [hdeg]; exact xfit) hlink hu
      have hk2 : t2.store_.Sized b := Sized_congr b t.store_ t2.store_ hk u1 u2
      split at h
      · rename_i hsome
        injection h with h
        injection h with h1 h2
        rw [← h1, ← h2]
        refine ⟨hk2, u2.trans hdeg, u1.trans hbs, u3, uint, umono, udone, ucache, ?_⟩
        intro he
        rw [he] at hsome
        simp at hsome
      · rename_i hnone
        have he2 : e2 = none := by
          cases e2 with
          | none => rfl
          | some y => simp at hnone
        have hdone2 : ∀ f ∈ done ++ [x], t2.store_.Persisted b f.2.current_.id := by
          intro f hf
          rcases List.mem_append.mp hf with h3 | h3
          · exact udone f h3
          · simp only [List.mem_singleton] at h3
            rw [h3]
            exact uself he2
        obtain ⟨r1, r2, r3, r4, r5, r6, r7, r8, r9⟩ := ih (done ++ [x]) t2 t1 e hk2
          (u2.trans hdeg) (u1.trans hbs) uint umono hdone2 ucache
          (by
            intro p2 y s2 hsplit
            have := hH (x :: p2) y s2 (by rw [hsplit]; rfl)
            simpa [List.append_assoc] using this) h
        refine ⟨r1, r2, r3, r4.trans u3, r5, r6,
          fun f hf => r7 f (List.mem_append_left _ hf), r8, ?_⟩
        intro he f hf
        rcases List.mem_cons.mp hf with h3 | h3
        · rw [h3]
          exact r7 x (List.mem_append_right _ (List.mem_singleton_self x))
        · exact r9 he f h3

/-- In a list of descending levels, an entry of greater level than `x` comes before `x`. -/
theorem mem_before_of_level (L p2 s2 : List (Nat × Delta)) (x f : Nat × Delta)
    (hs : L.Pairwise (fun a c => c.1 ≤ a.1)) (hsplit : L = p2 ++ x :: s2) (hf : f ∈ L)
    (hlt : x.1 < f.1) : f ∈ p2 := by
  rw [hsplit] at hf hs
  rcases List.mem_append.mp hf with h | h
  · exact h
  · exfalso
    rcases List.mem_cons.mp h with h1 | h1
    · rw [h1] at hlt; omega
    · have h2 := (List.pairwise_append.mp hs).2.1
      rw [List.pairwise_cons] at h2
      have := h2.1 f h1
      omega

/-- The order in which `Commit` writes the nodes that `Process` recorded on an intact
tree: every child id that is not zero of a node to be written stood at its position in the
node as `process` got it and refers to a node persisted before the flush, or is the id of
a node with a dirty delta that comes earlier in the order. -/
theorem commit_order (b : Build) (fuel : Nat) (j0 : Journal) (t0 : Tree)
    (j : Journal) (t : Tree) (h0 : j0.deltas_ = []) (hk : t0.store_.Sized b)
    (hdeg : 2 ≤ t0.store_.degree_) (hint : t0.Intact b)
    (hp : j0.Process b fuel t0 = .ok ((j, t), none))
    (hlev : ∀ e ∈ j.deltas_, e.1 + 1 < 2 ^ 32) :
    ∀ pre e suf, j.deltas_.reverse = pre ++ e :: suf →
      e.2.current_.id % t0.store_.block_size_ = 0 ∧ e.2.current_.first < e.2.current_.last ∧
      ∀ i cid, e.2.current_.children.get? i = some cid → cid ≠ EmptyChild →
        (∃ p, e.2.previous_ = some p ∧ p.children.get? i = some cid ∧
          t0.store_.Persisted b cid) ∨
        (∃ f ∈ pre, f.2.current_.id = cid ∧ f.2.Dirty = true) := by
  obtain ⟨hd1, hd2, _⟩ := Sized_degree_bounds b t0.store_ hk
  have hne : (t0.store_.degree_ + (2 ^ 32 - 1)) % 2 ^ 32 ≠ 0 := by omega
  obtain ⟨⟨hs, _⟩, hc⟩ := Process_records b fuel j0 t0 j t h0 hp
  obtain ⟨_, hw⟩ := Process_links b fuel j0 t0 j t h0 hk hint hp
  intro pre e suf hsplit
  have he : e ∈ j.deltas_ := by
    rw [← List.mem_reverse, hsplit]
    exact List.mem_append_right _ (List.mem_cons_self _ _)
  obtain ⟨wid, wfl, p, wp, wch⟩ := hw e he
  refine ⟨wid, wfl, ?_⟩
  intro i cid hget hnz
  rcases hc hne e he i cid hget hnz with ⟨p1, hp1, hg1⟩ | ⟨f, hf, hfid, hfl⟩
  · left
    rw [wp] at hp1
    injection hp1 with hp1
    rw [← hp1] at hg1
    exact ⟨p, wp, hg1, wch cid (List.get?_mem hg1) hnz⟩
  · right
    have hlt : e.1 < f.1 := by
      have := hlev e he
      rw [hfl, Nat.mod_eq_of_lt this]
      omega
    have hsr : j.deltas_.reverse.Pairwise (fun a c => c.1 ≤ a.1) := by
      rw [List.pairwise_reverse]
      exact hs
    have hfp := mem_before_of_level _ _ _ _ _ hsr hsplit (List.mem_reverse.mpr hf) hlt
    obtain ⟨_, _, q, hq, _⟩ := hw f hf
    exact ⟨f, hfp, hfid, by unfold Delta.Dirty; rw [hq]; rfl⟩

/-- The tree that `Process` leaves is intact when the tree it started on was. -/
theorem During_intact (b : Build) (t0 t : Tree) (hk : t0.store_.Sized b) (hint : t0.Intact b)
    (hd : Tree.During t0.store_ t0.cache_ t) : t.Intact b := by
  obtain ⟨hst, hroot, _, hcache⟩ := hint
  obtain ⟨hc, hag, hsz⟩ := hd
  refine ⟨Agrees_intact b _ _ hk hag hst, (Agrees_persisted b _ _ hk hag _).mpr hroot,
    by rw [hag.1]; exact hsz, ?_⟩
  intro e he
  rw [hc] at he
  exact Linked_mono b t0.store_ t.store_ e.2 hag.1
    (fun id hp => (Agrees_persisted b _ _ hk hag id).mpr hp) (hcache e he)

/-- The loop of `Commit` over a list of deltas in two parts: the loop over the first part,
then, if no update failed, the loop over the second part on the tree that the first part
left. -/
theorem commitDeltas_append (b : Build) (pre suf : List (Nat × Delta)) :
    ∀ t, Journal.commitDeltas b (pre ++ suf) t = (do
      let (t1, err) ← Journal.commitDeltas b pre t
      if err.isSome then pure (t1, err) else Journal.commitDeltas b suf t1) := by
  induction pre with
  | nil =>
    intro t
    simp [Journal.commitDeltas, bind, Except.bind]
  | cons x rest ih =>
    intro t
    simp only [List.cons_append, Journal.commitDeltas, bind, Except.bind]
    cases hu : t.Update b x.2.Current with
    | error e => rfl
    | ok r =>
      obtain ⟨t1, err⟩ := r
      simp only
      cases err with
      | some e => simp [pure, Except.pure]
      | none =>
        simp only [Option.isSome_none, Bool.false_eq_true, if_false]
        have := ih t1
        simp only [bind, Except.bind] at this
        exact this

/-- The condition of the commit loop on a list of deltas, from the order of `Commit`. -/
theorem commit_admits (b : Build) (fuel : Nat) (j0 : Journal) (t0 : Tree)
    (j : Journal) (t : Tree) (h0 : j0.deltas_ = []) (hk : t0.store_.Sized b)
    (hdeg : 2 ≤ t0.store_.degree_) (hint : t0.Intact b)
    (hp : j0.Process b fuel t0 = .ok ((j, t), none))
    (hlev : ∀ e ∈ j.deltas_, e.1 + 1 < 2 ^ 32)
    (hfits : ∀ e ∈ j.deltas_, e.2.Current.Fits b t0.store_.degree_)
    (rest tail : List (Nat × Delta)) (hrest : j.deltas_.reverse = rest ++ tail) :
    ∀ p2 x s2, rest = p2 ++ x :: s2 →
      x.2.current_.Fits b t0.store_.degree_ ∧ x.2.current_.id % t0.store_.block_size_ = 0 ∧
      x.2.current_.first < x.2.current_.last ∧
      ∀ cid ∈ x.2.current_.children, cid ≠ EmptyChild →
        t0.store_.Persisted b cid ∨ ∃ f ∈ [] ++ p2, f.2.current_.id = cid := by
  intro p2 x s2 hsplit
  have hfull : j.deltas_.reverse = p2 ++ x :: (s2 ++ tail) := by
    rw [hrest, hsplit]; simp
  have hx : x ∈ j.deltas_ := by
    rw [← List.mem_reverse, hfull]
    exact List.mem_append_right _ (List.mem_cons_self _ _)
  obtain ⟨oid, ofl, och⟩ := commit_order b fuel j0 t0 j t h0 hk hdeg hint hp hlev p2 x _ hfull
  refine ⟨hfits x hx, oid, ofl, ?_⟩
  intro cid hc hnz
  obtain ⟨i, hi⟩ := List.mem_iff_get?.mp hc
  rcases och i cid hi hnz with ⟨_, _, _, h1⟩ | ⟨f, hf, hfid, _⟩
  · exact Or.inl h1
  · exact Or.inr ⟨f, by rw [List.nil_append]; exact hf, hfid⟩

/-- C13. `Process` has run without error, from a journal without deltas, on a tree that
is intact: the key file consists of whole blocks and holds the root, every child id that is
not zero and is stored in a persisted node refers to a persisted node, and so does every
child id of a node in the cache. The key store has a degree of at least 2, the levels
recorded stay below `2^32 - 1`, and the fields of the nodes to be written fit their types.
Then, with `Commit` writing the nodes of the deltas in the reverse order of the multimap:

* every child id that is not zero of a node to be written stood at that position in the
  node as `process` got it and refers to a node persisted before the flush, or is the id of
  a node with a dirty delta that comes earlier in the order (a child allocated during the
  flush is written, and written before the parent that refers to it);
* the tree that `Process` leaves is intact (the state before the first write);
* at every point of the loop, that is after the updates of any leading part of the order
  have succeeded, the key file is intact, holds every node of that part and every child
  that the next node refers to; and whatever the next `Set` does, write the block or fail,
  the key file it leaves is intact and, if it did not fail, holds the next node;
* the loop over a list in two parts is the loop over the first part, then, if no update
  failed, the loop over the second part, so that these are the points the loop passes;
* whatever `Commit` returns, the tree it leaves is intact. -/
theorem Commit_keeps_children_persisted (b : Build) (fuel : Nat) (j0 : Journal) (t0 : Tree)
    (j : Journal) (t : Tree) (batchSize : Nat) (h0 : j0.deltas_ = [])
    (hk : t0.store_.Sized b) (hdeg : 2 ≤ t0.store_.degree_) (hint : t0.Intact b)
    (hp : j0.Process b fuel t0 = .ok ((j, t), none))
    (hlev : ∀ e ∈ j.deltas_, e.1 + 1 < 2 ^ 32)
    (hfits : ∀ e ∈ j.deltas_, e.2.Current.Fits b t0.store_.degree_) :
    (∀ pre e suf, j.deltas_.reverse = pre ++ e :: suf →
      ∀ i cid, e.2.Current.children.get? i = some cid → cid ≠ EmptyChild →
        (∃ p, e.2.previous_ = some p ∧ p.children.get? i = some cid ∧
          t0.store_.Persisted b cid) ∨
        (∃ f ∈ pre, f.2.Current.id = cid ∧ f.2.Dirty = true)) ∧
    t.Intact b ∧
    (∀ pre e suf t1, j.deltas_.reverse = pre ++ e :: suf →
      Journal.commitDeltas b pre t = .ok (t1, none) →
        t1.store_.Intact b ∧
        (∀ f ∈ pre, t1.store_.Persisted b f.2.Current.id) ∧
        (∀ cid ∈ e.2.Current.children, cid ≠ EmptyChild → t1.store_.Persisted b cid) ∧
        ∀ k1 err, t1.store_.Set b e.2.Current = .ok (k1, err) →
          k1.Intact b ∧ (err = none → k1.block b e.2.Current.id = some e.2.Current)) ∧
    (∀ pre suf t1, Journal.commitDeltas b (pre ++ suf) t1 = (do
      let (t2, err) ← Journal.commitDeltas b pre t1
      if err.isSome then pure (t2, err) else Journal.commitDeltas b suf t2)) ∧
    (∀ j1 t1 err, j.Commit b t batchSize = .ok ((j1, t1), err) → t1.Intact b) := by
  have hord := commit_order b fuel j0 t0 j t h0 hk hdeg hint hp hlev
  obtain ⟨hd, hw⟩ := Process_links b fuel j0 t0 j t h0 hk hint hp
  have hti := During_intact b t0 t hk hint hd
  obtain ⟨hc, hag, hsz⟩ := hd
  have hkt : t.store_.Sized b := Agrees_sized b _ _ hk hag
  have hmono0 : ∀ id, t0.store_.Persisted b id → t.store_.Persisted b id :=
    fun id hp => (Agrees_persisted b _ _ hk hag id).mpr hp
  refine ⟨?_, hti, ?_, fun pre suf t1 => commitDeltas_append b pre suf t1, ?_⟩
  · intro pre e suf hsplit i cid hget hnz
    exact (hord pre e suf hsplit).2.2 i cid hget hnz
  · intro pre e suf t1 hsplit hrun
    obtain ⟨r1, r2, r3, _, r5, r6, _, _, r9⟩ := commitDeltas_intact b t0.store_ pre [] t t1 none
      hkt hag.2.1 hag.1 hti.1 hmono0 (fun f hf => absurd hf (by simp)) hti.2.2.2
      (commit_admits b fuel j0 t0 j t h0 hk hdeg hint hp hlev hfits pre (e :: suf) hsplit) hrun
    have he : e ∈ j.deltas_ := by
      rw [← List.mem_reverse, hsplit]
      exact List.mem_append_right _ (List.mem_cons_self _ _)
    obtain ⟨oid, ofl, och⟩ := hord pre e suf hsplit
    have hch : ∀ cid ∈ e.2.Current.children, cid ≠ EmptyChild → t1.store_.Persisted b cid := by
      intro cid hcm hnz
      obtain ⟨i, hi⟩ := List.mem_iff_get?.mp hcm
      rcases och i cid hi hnz with ⟨_, _, _, h1⟩ | ⟨f, hf, hfid, _⟩
      · exact r6 cid h1
      · rw [← hfid]; exact r9 rfl f hf
    refine ⟨r5, r9 rfl, hch, ?_⟩
    intro k1 err hset
    obtain ⟨_, _, _, sint, _, sself⟩ := Set_intact b t1.store_ k1 r1 e.2.Current
      (by rw [r2]; exact hfits e he) err hset r5 ⟨by rw [r3]; exact oid, ofl, hch⟩
    exact ⟨sint, sself⟩
  · intro j1 t1 err hcommit
    unfold Journal.Commit at hcommit
    simp only [bind, Except.bind, pure, Except.pure] at hcommit
    cases hwr : Journal.commitWrites b batchSize (j.buffer_.buf_.length + 1) j [] with
    | error x => rw [hwr] at hcommit; exact absurd hcommit (by simp)
    | ok r =>
      obtain ⟨j2, e2⟩ := r
      rw [hwr] at hcommit
      simp only at hcommit
      have hds := commitWrites_deltas b batchSize _ _ _ _ _ hwr
      split at hcommit
      · injection hcommit with hcommit
        injection hcommit with h1 _
        injection h1 with _ h1
        rw [← h1]
        exact hti
      · cases hcd : Journal.commitDeltas b j2.deltas_.reverse t with
        | error x => rw [hcd] at hcommit; exact absurd hcommit (by simp)
        | ok r2 =>
          obtain ⟨t2, e3⟩ := r2
          rw [hcd] at hcommit
          simp only at hcommit
          rw [hds] at hcd
          obtain ⟨r1, r2, r3, r4, r5, r6, _, r8, _⟩ := commitDeltas_intact b t0.store_
            j.deltas_.reverse [] t t2 e3 hkt hag.2.1 hag.1 hti.1 hmono0
            (fun f hf => absurd hf (by simp)) hti.2.2.2
            (commit_admits b fuel j0 t0 j t h0 hk hdeg hint hp hlev hfits j.deltas_.reverse []
              (by simp)) hcd
          have ht2 : t2.Intact b :=
            ⟨r5, r6 _ hint.2.1, by rw [r4, r3, ← hag.1]; exact hti.2.2.1, r8⟩
          split at hcommit
          · injection hcommit with hcommit
            injection hcommit with h1 _
            injection h1 with _ h1
            rw [← h1]
            exact ht2
          · cases hpg : j2.buffer_.Purge with
            | error x => rw [hpg] at hcommit; exact absurd hcommit (by simp)
            | ok buffer =>
              rw [hpg] at hcommit
              injection hcommit with hcommit
              injection hcommit with h1 _
              injection h1 with _ h1
              rw [← h1]
              exact ht2

/-! ## The commit of the run `processed` -/

/-- A persisted node lies in a whole block of the file. -/
theorem block_within (b : Build) (k : KeyStore) (hk : k.Sized b) (id : Nat) (n : Node)
    (h : k.block b id = some n) : id + k.block_size_ ≤ k.file_.data.length := by
  rw [block_eq b k hk] at h
  split at h
  · rename_i hc; exact hc.2
  · exact absurd h (by simp)

set_option maxRecDepth 100000 in
/-- The tree of the run `afterPut`: one block, which holds the root, and the root in the
cache. -/
theorem scenario_fresh_tree :
    [(Scenario.state Scenario.afterPut).tree_.store_.block_size_,
      (Scenario.state Scenario.afterPut).tree_.store_.degree_,
      (Scenario.state Scenario.afterPut).tree_.store_.file_.data.length,
      (Scenario.state Scenario.afterPut).tree_.store_.size_] = [232, 3, 232, 232] ∧
    ((Scenario.state Scenario.afterPut).tree_.store_.block Scenario.build 0).map
      (fun n => n.children) = some [0, 0, 0] ∧
    (Scenario.state Scenario.afterPut).tree_.cache_.nodes_.map
      (fun e => (e.2.id :: e.2.children, decide (e.2.first < e.2.last)))
      = [([0, 0, 0, 0], true)] := by
  decide!

theorem scenario_fresh_sized :
    (Scenario.state Scenario.afterPut).tree_.store_.Sized Scenario.build := by
  obtain ⟨h1, _, _⟩ := scenario_fresh_tree
  simp only [List.cons.injEq, and_true] at h1
  obtain ⟨hbs, hdeg, _, _⟩ := h1
  refine ⟨wholeLimbs_256 false, by rw [hbs]; decide, by rw [hbs]; decide, ?_⟩
  rw [hbs, hdeg]
  decide

theorem scenario_fresh_intact :
    (Scenario.state Scenario.afterPut).tree_.Intact Scenario.build := by
  obtain ⟨h1, h2, h3⟩ := scenario_fresh_tree
  simp only [List.cons.injEq, and_true] at h1
  obtain ⟨hbs, hdeg, hlen, hsz⟩ := h1
  have hk := scenario_fresh_sized
  have hroot : ∀ n, (Scenario.state Scenario.afterPut).tree_.store_.block Scenario.build 0
      = some n → ∀ cid ∈ n.children, cid = EmptyChild := by
    intro n hn cid hc
    rw [hn] at h2
    simp only [Option.map_some', Option.some.injEq] at h2
    rw [h2] at hc
    simp only [List.mem_cons, List.mem_singleton, List.not_mem_nil, or_false, or_self] at hc
    exact hc
  refine ⟨⟨by rw [hbs, hlen], ?_⟩, ?_, by rw [hbs, hsz], ?_⟩
  · intro id n hn cid hc hnz
    have hw := block_within _ _ hk id n hn
    rw [hbs, hlen] at hw
    have hid : id = 0 := by omega
    rw [hid] at hn
    exact absurd (hroot n hn cid hc) hnz
  · unfold KeyStore.Persisted Tree.rootId
    cases hb : (Scenario.state Scenario.afterPut).tree_.store_.block Scenario.build 0 with
    | none => rw [hb] at h2; simp at h2
    | some n => rfl
  · intro e he
    have hm := List.mem_map_of_mem
      (fun (e : CacheKey × Node) => (e.2.id :: e.2.children, decide (e.2.first < e.2.last))) he
    rw [h3] at hm
    simp only [List.mem_singleton, Prod.mk.injEq, List.cons.injEq, decide_eq_true_eq] at hm
    obtain ⟨⟨hid, hch⟩, hfl⟩ := hm
    refine ⟨by rw [hid]; simp, hfl, ?_⟩
    intro cid hc hnz
    rw [hch] at hc
    simp only [List.mem_cons, List.mem_singleton, List.not_mem_nil, or_false, or_self] at hc
    exact absurd hc hnz

set_option maxRecDepth 100000 in
/-- The commit of the run `processed`: the order of the two deltas, the tree after the
first update and the tree after `Commit`. -/
theorem scenario_commit :
    Scenario.processed.1.deltas_.reverse = [Scenario.childDelta] ++ Scenario.rootDelta :: [] ∧
    Journal.commitDeltas Scenario.build [Scenario.childDelta] Scenario.processed.2
      = .ok (Scenario.childWritten, none) ∧
    Scenario.processed.1.Commit Scenario.build Scenario.processed.2 1048576
      = .ok (Scenario.committed, none) := by
  decide!

set_option maxRecDepth 100000 in
theorem Commit_keeps_children_persisted_witness :
    (Scenario.state Scenario.afterPut).tree_.Intact Scenario.build ∧
    Scenario.processed.1.deltas_.reverse.map (fun e => e.2.Current.id :: e.2.Current.children)
      = [[232, 0, 0, 0], [0, 232, 0, 0]] ∧
    Scenario.childWritten.store_.Intact Scenario.build ∧
    Scenario.childWritten.store_.Persisted Scenario.build 232 ∧
    (Scenario.childWritten.store_.block Scenario.build 0).map (fun n => n.children)
      = some [0, 0, 0] ∧
    Scenario.committed.2.Intact Scenario.build ∧
    (Scenario.committed.2.store_.block Scenario.build 0).map (fun n => n.children)
      = some [232, 0, 0] :=
  have hdeg : (Scenario.state Scenario.afterPut).tree_.store_.degree_ = 3 := by
    have h := scenario_fresh_tree.1
    simp only [List.cons.injEq, and_true] at h
    exact h.2.1
  have hlev : ∀ e ∈ Scenario.processed.1.deltas_, e.1 + 1 < 2 ^ 32 := by decide!
  have hchk : ∀ e ∈ Scenario.processed.1.deltas_,
      e.2.Current.degree = 3 ∧ e.2.Current.children.length = 3 ∧
      e.2.Current.keys.length + 1 = 3 ∧ e.2.Current.level < 2 ^ 32 ∧
      e.2.Current.first ≤ KeyUtil.Max Scenario.build ∧
      e.2.Current.last ≤ KeyUtil.Max Scenario.build ∧
      (∀ kv ∈ e.2.Current.keys, kv.key ≤ KeyUtil.Max Scenario.build ∧ kv.offset < 2 ^ 64 ∧
        kv.length < 2 ^ 32) ∧
      ∀ c ∈ e.2.Current.children, c < 2 ^ 64 := by decide!
  have hfits : ∀ e ∈ Scenario.processed.1.deltas_,
      e.2.Current.Fits Scenario.build (Scenario.state Scenario.afterPut).tree_.store_.degree_ := by
    intro e he
    obtain ⟨f1, f2, f3, f4, f5, f6, f7, f8⟩ := hchk e he
    rw [hdeg]
    exact ⟨f1, f2, f3, f4, f5, f6, f7, f8⟩
  have T := Commit_keeps_children_persisted Scenario.build 8 _ _ Scenario.processed.1
    Scenario.processed.2 1048576 rfl scenario_fresh_sized (by rw [hdeg]; decide)
    scenario_fresh_intact scenario_processed hlev hfits
  have P := T.2.2.1 [Scenario.childDelta] Scenario.rootDelta [] Scenario.childWritten
    scenario_commit.1 scenario_commit.2.1
  ⟨scenario_fresh_intact, by decide!, P.1,
    (by
      have hid : Scenario.childDelta.2.Current.id = 232 := by decide!
      rw [← hid]
      exact P.2.1 Scenario.childDelta (List.mem_singleton_self _)),
    by decide!, T.2.2.2.2 _ _ _ scenario_commit.2.2, by decide!⟩
end keyvadb
